import Mathlib

/-!
# tinyexpr: the compile/eval core of `src/tinyexpr.cpp`

A shallow embedding of the lexer (`next_token`), the recursive-descent parser
(`list`, `expr`, `term`, `factor`, `power`, `base`), the constant folder (`optimize`),
the evaluator (`te_eval`) and `te_compile`.

Conventions of the embedding.

* A `double` is an element of an abstract type `D`; everything the C++ runtime and
  `<cmath>` contribute (arithmetic on doubles, `strtod`, the math library, the
  functions and cells the caller binds) is a field of `Host`.
* `int` type tags are natural numbers; `x & m` for the masks used by the source is
  written with `%` and `/`.
* A `const char *` into the text is the list of bytes from that position on; a byte
  is a `Char`, and reading past the end of the list reads the terminating NUL.
* Pointers to functions, cells and closure contexts are values of `Ptr`.
* The recursive productions take a fuel argument and return `none` when it runs
  out; `te_compile` supplies `8 * length + 16`, which is shown to be enough.
-/

namespace TinyExpr

/-! ## Pointers, the host, nodes -/

/-- Addresses the engine stores and compares but never looks inside: the static
functions of `tinyexpr.cpp`, the `<cmath>` functions it references, and any other
address the caller hands in (`host n`). -/
inductive Ptr where
  | null
  | add | sub | mul | divide | negate | comma
  | pi | e | fac | ncr | npr
  | fabs | acos | asin | atan | atan2 | ceil | cos | cosh | exp | floor
  | log | log10 | pow | sin | sinh | sqrt | tan | tanh | fmod
  | host (n : Nat)
  deriving DecidableEq, Repr

/-- The anonymous union `{double value; const double *bound; const void *function;}`
of `Expression` and `State`: it holds either a double or a pointer. -/
inductive Payload (D : Type) where
  | value (v : D)
  | ptr (p : Ptr)

/-- The platform and build the engine is compiled for. `W` is the state of the world
outside the engine (the caller's cells, whatever closures read and write). -/
structure Host (D W : Type) where
  /-- Build switch `TE_POW_FROM_RIGHT`. -/
  TE_POW_FROM_RIGHT : Bool
  /-- Build switch `TE_NAT_LOG`. -/
  TE_NAT_LOG : Bool
  /-- Value of `UINT_MAX` on the platform. -/
  UINT_MAX : Nat
  /-- Value of `ULONG_MAX` on the platform. -/
  ULONG_MAX : Nat
  /-- Quiet NaN, `std::numeric_limits<double>::quiet_NaN()`. -/
  nan : D
  /-- Positive infinity, `std::numeric_limits<double>::infinity()`. -/
  inf : D
  /-- The double `strtod` returns for the bytes it consumed. -/
  strtod : List Char → D
  /-- Conversion of an unsigned integer to double. -/
  ofNat : Nat → D
  /-- Conversion `(unsigned int)(a)` of a double. -/
  toUInt : D → Nat
  /-- Comparison `a < b` on doubles. -/
  lt : D → D → Bool
  /-- Sum `a + b` on doubles. -/
  fadd : D → D → D
  /-- Difference `a - b` on doubles. -/
  fsub : D → D → D
  /-- Product `a * b` on doubles. -/
  fmul : D → D → D
  /-- Quotient `a / b` on doubles. -/
  fdiv : D → D → D
  /-- Negation `-a` on doubles. -/
  fneg : D → D
  /-- Result of a `<cmath>` function, named by its address, on the given arguments. -/
  libm : Ptr → List D → D
  /-- Read of the double cell at an address, `*n->bound`. -/
  load : Ptr → W → D
  /-- Call through a function pointer the engine does not own (a function or closure
  bound by the caller), with the closure context when there is one. -/
  call : Ptr → Option Ptr → List D → W → D × W
  /-- Pointer read out of a union that holds a double. -/
  asPtr : D → Ptr
  /-- Double read out of a union that holds a pointer. -/
  asDouble : Ptr → D

/-- The class `Expression` of `tinyexpr.h`: `type`, the union, and the `parameters`
array. `parameters` holds the child slots `parameters[0 .. arity-1]`; `context` is the
extra slot `parameters[arity]` a closure node has. `null` is the null pointer. -/
inductive Expression (D : Type) where
  | null
  | node (type : Nat) (payload : Payload D) (parameters : List (Expression D)) (context : Ptr)

/-- The class `Variable` of `tinyexpr.h`. -/
structure Variable where
  name : List Char
  address : Ptr
  type : Nat
  context : Ptr

/-- The parser state `struct State`; `lookup` carries `lookup_len` as its length. -/
structure State (D : Type) where
  start : List Char
  next : List Char
  type : Nat
  payload : Payload D
  context : Ptr
  lookup : List Variable

/-! ## Tags and the macros over them -/

abbrev VARIABLE : Nat := 0
abbrev FUNCTION0 : Nat := 8
abbrev FUNCTION1 : Nat := 9
abbrev FUNCTION2 : Nat := 10
abbrev FUNCTION7 : Nat := 15
abbrev CLOSURE0 : Nat := 16
abbrev CLOSURE1 : Nat := 17
abbrev CLOSURE2 : Nat := 18
abbrev CLOSURE7 : Nat := 23
abbrev FLAG_PURE : Nat := 32
abbrev TE_CONSTANT : Nat := 1
abbrev TOK_NULL : Nat := CLOSURE7 + 1
abbrev TOK_ERROR : Nat := 25
abbrev TOK_END : Nat := 26
abbrev TOK_SEP : Nat := 27
abbrev TOK_OPEN : Nat := 28
abbrev TOK_CLOSE : Nat := 29
abbrev TOK_NUMBER : Nat := 30
abbrev TOK_VARIABLE : Nat := 31
abbrev TOK_INFIX : Nat := 32

/-- Macro `TYPE_MASK(TYPE)`, `(TYPE) & 0x1F`. -/
def TYPE_MASK (type : Nat) : Nat := type % 32

/-- Macro `IS_PURE(TYPE)`, `((TYPE) & FLAG_PURE) != 0`. -/
def IS_PURE (type : Nat) : Bool := type / 32 % 2 != 0

/-- Macro `IS_FUNCTION(TYPE)`, `((TYPE) & FUNCTION0) != 0`. -/
def IS_FUNCTION (type : Nat) : Bool := type / 8 % 2 != 0

/-- Macro `IS_CLOSURE(TYPE)`, `((TYPE) & CLOSURE0) != 0`. -/
def IS_CLOSURE (type : Nat) : Bool := type / 16 % 2 != 0

/-- Macro `ARITY(TYPE)`: `(TYPE) & 7` when one of the bits `FUNCTION0 | CLOSURE0`
is set, else 0. -/
def ARITY (type : Nat) : Nat := if type / 8 % 4 != 0 then type % 8 else 0

namespace Expression

variable {D : Type}

/-- Field `n->type`. -/
def type : Expression D → Nat
  | null => 0
  | node t _ _ _ => t

/-- Slot `n->parameters[i]`; a slot that was never written is null. -/
def param : Expression D → Nat → Expression D
  | null, _ => null
  | node _ _ ps _, i => ps.getD i null

/-- Union member `n->function` (also `n->bound`). -/
def function (asPtr : D → Ptr) : Expression D → Ptr
  | null => Ptr.null
  | node _ (Payload.ptr p) _ _ => p
  | node _ (Payload.value v) _ _ => asPtr v

/-- Union member `n->value`. -/
def value (asDouble : Ptr → D) : Expression D → D
  | null => asDouble Ptr.null
  | node _ (Payload.value v) _ _ => v
  | node _ (Payload.ptr p) _ _ => asDouble p

/-- Assignment `n->value = v`. -/
def setValue (n : Expression D) (v : D) : Expression D :=
  match n with
  | null => null
  | node t _ ps c => node t (Payload.value v) ps c

/-- Assignment `n->function = p` (also `n->bound = p`). -/
def setPtr (n : Expression D) (p : Ptr) : Expression D :=
  match n with
  | null => null
  | node t _ ps c => node t (Payload.ptr p) ps c

/-- Assignment `n->parameters[i] = e` to a child slot. -/
def setParam (n : Expression D) (i : Nat) (e : Expression D) : Expression D :=
  match n with
  | null => null
  | node t pl ps c => node t pl (ps.set i e) c

/-- Assignment `n->parameters[arity] = ctx`, the context slot of a closure node. -/
def setContext (n : Expression D) (ctx : Ptr) : Expression D :=
  match n with
  | null => null
  | node t pl ps _ => node t pl ps ctx

end Expression

/-- The allocator `new_expr`: a zeroed node of the given type whose first `arity`
slots are copied from `parameters` when it is given. -/
def new_expr {D : Type} (type : Nat) (parameters : Option (List (Expression D))) :
    Expression D :=
  let arity := ARITY type
  let slots := match parameters with
    | some ps => (ps ++ List.replicate arity Expression.null).take arity
    | none => List.replicate arity Expression.null
  Expression.node type (Payload.ptr Ptr.null) slots Ptr.null

/-! ## Numeric intrinsics -/

section Intrinsics

variable {D W : Type} (H : Host D W)

/-- Static function `pi`. -/
def pi : D := H.strtod "3.14159265358979323846".toList

/-- Static function `e`. -/
def e : D := H.strtod "2.71828182845904523536".toList

/-- The `for` loop of `fac`, `fuel` iterations at most; `i` and `result` are the
`unsigned long` locals. The guard keeps `result * i` within `ULONG_MAX`. -/
def fac_loop : Nat → Nat → Nat → Nat → D
  | 0, _, _, result => H.ofNat result
  | fuel + 1, ua, i, result =>
    if i ≤ ua then
      if i > H.ULONG_MAX / result then H.inf
      else fac_loop fuel ua ((i + 1) % (H.ULONG_MAX + 1)) (result * i % (H.ULONG_MAX + 1))
    else H.ofNat result

/-- Static function `fac`. -/
def fac (a : D) : D :=
  if H.lt a (H.ofNat 0) then H.nan
  else if H.lt (H.ofNat H.UINT_MAX) a then H.inf
  else
    let ua := H.toUInt a
    fac_loop H ua ua 1 1

/-- The `for` loop of `ncr`, `fuel` iterations at most. -/
def ncr_loop : Nat → Nat → Nat → Nat → Nat → D
  | 0, _, _, _, result => H.ofNat result
  | fuel + 1, un, ur, i, result =>
    if i ≤ ur then
      let m := (un + (H.ULONG_MAX + 1) - ur + i) % (H.ULONG_MAX + 1)
      if result > H.ULONG_MAX / m then H.inf
      else ncr_loop fuel un ur ((i + 1) % (H.ULONG_MAX + 1))
        (result * m % (H.ULONG_MAX + 1) / i)
    else H.ofNat result

/-- Static function `ncr`. -/
def ncr (n r : D) : D :=
  if H.lt n (H.ofNat 0) || H.lt r (H.ofNat 0) || H.lt n r then H.nan
  else if H.lt (H.ofNat H.UINT_MAX) n || H.lt (H.ofNat H.UINT_MAX) r then H.inf
  else
    let un := H.toUInt n
    let ur := H.toUInt r
    let ur := if ur > un / 2 then (un + (H.ULONG_MAX + 1) - ur) % (H.ULONG_MAX + 1) else ur
    ncr_loop H ur un ur 1 1

/-- Static function `npr`. -/
def npr (n r : D) : D := H.fmul (ncr H n r) (fac H r)

/-- Static function `add`. -/
def add (a b : D) : D := H.fadd a b

/-- Static function `sub`. -/
def sub (a b : D) : D := H.fsub a b

/-- Static function `mul`. -/
def mul (a b : D) : D := H.fmul a b

/-- Static function `divide`. -/
def divide (a b : D) : D := H.fdiv a b

/-- Static function `negate`. -/
def negate (a : D) : D := H.fneg a

/-- Static function `comma`. -/
def comma (_a b : D) : D := b

/-- Whether the address is one of the `<cmath>` functions the source references. -/
def Ptr.isLibm : Ptr → Bool
  | Ptr.fabs | Ptr.acos | Ptr.asin | Ptr.atan | Ptr.atan2 | Ptr.ceil | Ptr.cos
  | Ptr.cosh | Ptr.exp | Ptr.floor | Ptr.log | Ptr.log10 | Ptr.pow | Ptr.sin
  | Ptr.sinh | Ptr.sqrt | Ptr.tan | Ptr.tanh | Ptr.fmod => true
  | _ => false

/-- The call `TE_FUN(...)(args)` of `te_eval` through the function pointer `f`, with the
closure context as leading argument when the node is a closure. The engine's own static
functions and `<cmath>` run here when called with the signature they have; every other
call is the host's. -/
def invoke (f : Ptr) (ctx : Option Ptr) (args : List D) (w : W) : D × W :=
  match f, ctx, args with
  | Ptr.add, none, [a, b] => (add H a b, w)
  | Ptr.sub, none, [a, b] => (sub H a b, w)
  | Ptr.mul, none, [a, b] => (mul H a b, w)
  | Ptr.divide, none, [a, b] => (divide H a b, w)
  | Ptr.negate, none, [a] => (negate H a, w)
  | Ptr.comma, none, [a, b] => (comma a b, w)
  | Ptr.pi, none, [] => (pi H, w)
  | Ptr.e, none, [] => (e H, w)
  | Ptr.fac, none, [a] => (fac H a, w)
  | Ptr.ncr, none, [n, r] => (ncr H n r, w)
  | Ptr.npr, none, [n, r] => (npr H n r, w)
  | f, ctx, args => if f.isLibm && ctx.isNone then (H.libm f args, w) else H.call f ctx args w

end Intrinsics

/-! ## Symbol resolution -/

/-- The terminating byte of a C string. -/
def NUL : Char := Char.ofNat 0

/-- Library function `strncmp` on C strings: compares at most `n` bytes (as unsigned
char) and stops after a NUL; the result is the difference at the first mismatch. -/
def strncmp : List Char → List Char → Nat → Int
  | _, _, 0 => 0
  | s1, s2, n + 1 =>
    let c1 := s1.headD NUL
    let c2 := s2.headD NUL
    if c1 ≠ c2 then (c1.toNat : Int) - (c2.toNat : Int)
    else if c1 = NUL then 0
    else strncmp s1.tail s2.tail n

/-- One row `{name, address, type | FLAG_PURE, 0}` of the table `functions`. -/
def builtin (name : String) (address : Ptr) (type : Nat) : Variable :=
  { name := name.toList, address := address, type := type + FLAG_PURE, context := Ptr.null }

/-- The table `functions`, with its closing `{0, 0, 0, 0}` row. -/
def functions (TE_NAT_LOG : Bool) : List Variable :=
  [ builtin "abs" Ptr.fabs FUNCTION1,
    builtin "acos" Ptr.acos FUNCTION1,
    builtin "asin" Ptr.asin FUNCTION1,
    builtin "atan" Ptr.atan FUNCTION1,
    builtin "atan2" Ptr.atan2 FUNCTION2,
    builtin "ceil" Ptr.ceil FUNCTION1,
    builtin "cos" Ptr.cos FUNCTION1,
    builtin "cosh" Ptr.cosh FUNCTION1,
    builtin "e" Ptr.e FUNCTION0,
    builtin "exp" Ptr.exp FUNCTION1,
    builtin "fac" Ptr.fac FUNCTION1,
    builtin "floor" Ptr.floor FUNCTION1,
    builtin "ln" Ptr.log FUNCTION1,
    builtin "log" (if TE_NAT_LOG then Ptr.log else Ptr.log10) FUNCTION1,
    builtin "log10" Ptr.log10 FUNCTION1,
    builtin "ncr" Ptr.ncr FUNCTION2,
    builtin "npr" Ptr.npr FUNCTION2,
    builtin "pi" Ptr.pi FUNCTION0,
    builtin "pow" Ptr.pow FUNCTION2,
    builtin "sin" Ptr.sin FUNCTION1,
    builtin "sinh" Ptr.sinh FUNCTION1,
    builtin "sqrt" Ptr.sqrt FUNCTION1,
    builtin "tan" Ptr.tan FUNCTION1,
    builtin "tanh" Ptr.tanh FUNCTION1,
    { name := [], address := Ptr.null, type := 0, context := Ptr.null } ]

/-- The binary-search loop of `find_builtin`, `fuel` iterations at most. -/
def find_builtin_loop (table : List Variable) (name : List Char) (len : Nat) :
    Nat → Int → Int → Option Variable
  | 0, _, _ => none
  | fuel + 1, imin, imax =>
    if imax ≥ imin then
      let i := imin + (imax - imin) / 2
      let row := table.getD i.toNat { name := [], address := Ptr.null, type := 0, context := Ptr.null }
      let c := strncmp name row.name len
      let c := if c = 0 then (NUL.toNat : Int) - ((row.name.getD len NUL).toNat : Int) else c
      if c = 0 then some row
      else if c > 0 then find_builtin_loop table name len fuel (i + 1) imax
      else find_builtin_loop table name len fuel imin (i - 1)
    else none

/-- Function `find_builtin`. -/
def find_builtin (TE_NAT_LOG : Bool) (name : List Char) (len : Nat) : Option Variable :=
  let table := functions TE_NAT_LOG
  find_builtin_loop table name len table.length 0 ((table.length : Int) - 2)

/-- The `for` loop of `find_lookup` over the caller's bindings. -/
def find_lookup_loop (name : List Char) (len : Nat) : List Variable → Option Variable
  | [] => none
  | var :: rest =>
    if strncmp name var.name len = 0 ∧ var.name.getD len NUL = NUL then some var
    else find_lookup_loop name len rest

/-- Function `find_lookup`. -/
def find_lookup {D : Type} (s : State D) (name : List Char) (len : Nat) : Option Variable :=
  find_lookup_loop name len s.lookup

/-! ## Lexer -/

/-- Test `c >= '0' && c <= '9'`. -/
def isDigit (c : Char) : Bool := decide ('0' ≤ c) && decide (c ≤ '9')

/-- Test for a hexadecimal digit. -/
def isHexDigit (c : Char) : Bool :=
  isDigit c || (decide ('a' ≤ c) && decide (c ≤ 'f')) || (decide ('A' ≤ c) && decide (c ≤ 'F'))

/-- Test `(c >= 'a' && c <= 'z') || (c >= '0' && c <= '9') || (c == '_')` of the identifier
loop. -/
def isIdentChar (c : Char) : Bool :=
  (decide ('a' ≤ c) && decide (c ≤ 'z')) || isDigit c || c == '_'

/-- Length of the longest run of digits, with at most one decimal point in it, that has
a digit; 0 when there is none. -/
def mantissa_len (digit : Char → Bool) (t : List Char) : Nat :=
  let i := (t.takeWhile digit).length
  match t.drop i with
  | c :: r =>
    if c = '.' then
      let f := (r.takeWhile digit).length
      if i + f = 0 then 0 else i + 1 + f
    else i
  | [] => i

/-- Length of an exponent part: the mark, an optional sign, at least one decimal digit;
0 when there is none. -/
def exponent_len (lower upper : Char) (t : List Char) : Nat :=
  match t with
  | c :: r =>
    if c = lower ∨ c = upper then
      let sign := match r with
        | x :: _ => if x = '+' ∨ x = '-' then 1 else 0
        | [] => 0
      let d := ((r.drop sign).takeWhile isDigit).length
      if d = 0 then 0 else 1 + sign + d
    else 0
  | [] => 0

/-- Modelled from the spec: the library function `strtod` is not part of the sources; the
spec gives the lexer "the longest valid double-precision literal beginning here", with
the "same semantics as a standard string to double conversion". This is the number of
bytes such a conversion consumes when the text starts with a digit or a point: a
hexadecimal literal `0x` digits `[p exponent]`, else a decimal literal digits
`[e exponent]`, else nothing. -/
def strtod_len (t : List Char) : Nat :=
  let hex := match t with
    | z :: x :: r =>
      if z = '0' ∧ (x = 'x' ∨ x = 'X') then
        let m := mantissa_len isHexDigit r
        if m = 0 then 0 else 2 + m + exponent_len 'p' 'P' (r.drop m)
      else 0
    | _ => 0
  if hex ≠ 0 then hex
  else
    let m := mantissa_len isDigit t
    if m = 0 then 0 else m + exponent_len 'e' 'E' (t.drop m)

section Lexer

variable {D W : Type} (H : Host D W)

/-- Union member `s->function` (also `s->bound`) of the parser state. -/
def State.function (s : State D) : Ptr :=
  match s.payload with
  | Payload.ptr p => p
  | Payload.value v => H.asPtr v

/-- Union member `s->value` of the parser state. -/
def State.value (s : State D) : D :=
  match s.payload with
  | Payload.value v => v
  | Payload.ptr p => H.asDouble p

/-- The `do ... while (s->type == TOK_NULL)` loop of `next_token`; `s.type` is
`TOK_NULL` on entry and a pass that leaves it so goes round again. One pass reads at
least one byte unless it ends the loop, so `fuel` counts bytes. -/
def next_token_loop : Nat → State D → State D
  | 0, s => s
  | fuel + 1, s =>
    match s.next with
    | [] => { s with type := TOK_END }
    | c :: rest =>
      if c = NUL then { s with type := TOK_END }
      else if isDigit c ∨ c = '.' then
        let n := strtod_len s.next
        { s with payload := Payload.value (H.strtod (s.next.take n)),
                 next := s.next.drop n, type := TOK_NUMBER }
      else if 'a' ≤ c ∧ c ≤ 'z' then
        let start := s.next
        let len := (s.next.takeWhile isIdentChar).length
        let s := { s with next := s.next.drop len }
        let var := match find_lookup s start len with
          | some var => some var
          | none => find_builtin H.TE_NAT_LOG start len
        match var with
        | none => { s with type := TOK_ERROR }
        | some var =>
          let m := TYPE_MASK var.type
          if m = VARIABLE then
            { s with type := TOK_VARIABLE, payload := Payload.ptr var.address }
          else if CLOSURE0 ≤ m ∧ m ≤ CLOSURE7 then
            { s with context := var.context, type := var.type,
                     payload := Payload.ptr var.address }
          else if FUNCTION0 ≤ m ∧ m ≤ FUNCTION7 then
            { s with type := var.type, payload := Payload.ptr var.address }
          else next_token_loop fuel s
      else
        let s := { s with next := rest }
        if c = '+' then { s with type := TOK_INFIX, payload := Payload.ptr Ptr.add }
        else if c = '-' then { s with type := TOK_INFIX, payload := Payload.ptr Ptr.sub }
        else if c = '*' then { s with type := TOK_INFIX, payload := Payload.ptr Ptr.mul }
        else if c = '/' then { s with type := TOK_INFIX, payload := Payload.ptr Ptr.divide }
        else if c = '^' then { s with type := TOK_INFIX, payload := Payload.ptr Ptr.pow }
        else if c = '%' then { s with type := TOK_INFIX, payload := Payload.ptr Ptr.fmod }
        else if c = '(' then { s with type := TOK_OPEN }
        else if c = ')' then { s with type := TOK_CLOSE }
        else if c = ',' then { s with type := TOK_SEP }
        else if c = ' ' ∨ c = '\t' ∨ c = '\n' ∨ c = '\r' then next_token_loop fuel s
        else { s with type := TOK_ERROR }

/-- Function `next_token`. -/
def next_token (s : State D) : State D :=
  next_token_loop H (s.next.length + 1) { s with type := TOK_NULL }

end Lexer

/-! ## Parser -/

section Parser

variable {D W : Type} (H : Host D W)

/-- The three statements every function and closure case of `base` starts with:
`ret = new_expr(s->type, 0); ret->function = s->function;
if (IS_CLOSURE(s->type)) ret->parameters[arity] = s->context;`. -/
def call_node (s : State D) : Expression D :=
  let ret := (new_expr s.type none).setPtr (s.function H)
  if IS_CLOSURE s.type then ret.setContext s.context else ret

/-- The node pointer `insertion` of the right-associative `factor` is the node reached
from `ret` by following `parameters[1]` `k` times; this applies an update there. -/
def at_insertion (f : Expression D → Expression D) : Nat → Expression D → Expression D
  | 0, ret => f ret
  | k + 1, ret => ret.setParam 1 (at_insertion f k (ret.param 1))

mutual

/-- Production `base`. -/
def base : Nat → State D → Option (Expression D × State D)
  | 0, _ => none
  | fuel + 1, s =>
    let m := TYPE_MASK s.type
    if m = TOK_NUMBER then
      let ret := (new_expr TE_CONSTANT none).setValue (s.value H)
      some (ret, next_token H s)
    else if m = TOK_VARIABLE then
      let ret := (new_expr VARIABLE none).setPtr (s.function H)
      some (ret, next_token H s)
    else if m = FUNCTION0 ∨ m = CLOSURE0 then
      let ret := call_node H s
      let s := next_token H s
      if s.type = TOK_OPEN then
        let s := next_token H s
        if s.type ≠ TOK_CLOSE then some (ret, { s with type := TOK_ERROR })
        else some (ret, next_token H s)
      else some (ret, s)
    else if m = FUNCTION1 ∨ m = CLOSURE1 then
      let ret := call_node H s
      let s := next_token H s
      match power fuel s with
      | none => none
      | some (p, s) => some (ret.setParam 0 p, s)
    else if (FUNCTION2 ≤ m ∧ m ≤ FUNCTION7) ∨ (CLOSURE2 ≤ m ∧ m ≤ CLOSURE7) then
      let arity := ARITY s.type
      let ret := call_node H s
      let s := next_token H s
      if s.type ≠ TOK_OPEN then some (ret, { s with type := TOK_ERROR })
      else
        match base_args fuel arity 0 ret s with
        | none => none
        | some (ret, i, s) =>
          if s.type ≠ TOK_CLOSE ∨ i ≠ arity - 1 then some (ret, { s with type := TOK_ERROR })
          else some (ret, next_token H s)
    else if m = TOK_OPEN then
      let s := next_token H s
      match list fuel s with
      | none => none
      | some (ret, s) =>
        if s.type ≠ TOK_CLOSE then some (ret, { s with type := TOK_ERROR })
        else some (ret, next_token H s)
    else
      let ret := (new_expr 0 none).setValue H.nan
      some (ret, { s with type := TOK_ERROR })

/-- The loop `for (i = 0; i < arity; i++)` over the arguments in `base`; it returns the
node, the final `i` and the state. -/
def base_args : Nat → Nat → Nat → Expression D → State D →
    Option (Expression D × Nat × State D)
  | 0, _, _, _, _ => none
  | fuel + 1, arity, i, ret, s =>
    if i < arity then
      let s := next_token H s
      match expr fuel s with
      | none => none
      | some (p, s) =>
        let ret := ret.setParam i p
        if s.type ≠ TOK_SEP then some (ret, i, s)
        else base_args fuel arity (i + 1) ret s
    else some (ret, i, s)

/-- Production `power`. -/
def power : Nat → State D → Option (Expression D × State D)
  | 0, _ => none
  | fuel + 1, s => power_loop fuel 1 s

/-- The `while` loop of `power` over the leading signs, and what follows it. -/
def power_loop : Nat → Int → State D → Option (Expression D × State D)
  | 0, _, _ => none
  | fuel + 1, sign, s =>
    if s.type = TOK_INFIX ∧ (s.function H = Ptr.add ∨ s.function H = Ptr.sub) then
      let sign := if s.function H = Ptr.sub then -sign else sign
      power_loop fuel sign (next_token H s)
    else
      match base fuel s with
      | none => none
      | some (b, s) =>
        if sign = 1 then some (b, s)
        else some ((new_expr (FUNCTION1 + FLAG_PURE) (some [b])).setPtr Ptr.negate, s)

/-- Production `factor`, in the variant the build switch `TE_POW_FROM_RIGHT` selects. -/
def factor : Nat → State D → Option (Expression D × State D)
  | 0, _ => none
  | fuel + 1, s =>
    match power fuel s with
    | none => none
    | some (ret, s) =>
      if H.TE_POW_FROM_RIGHT then
        let found := decide (ret.type = FUNCTION1 + FLAG_PURE ∧ ret.function H.asPtr = Ptr.negate)
        let neg := found
        let ret := if found then ret.param 0 else ret
        match factor_right_loop fuel ret none s with
        | none => none
        | some (ret, s) =>
          if neg then some ((new_expr (FUNCTION1 + FLAG_PURE) (some [ret])).setPtr Ptr.negate, s)
          else some (ret, s)
      else factor_loop fuel ret s

/-- The `while` loop of the left-associative `factor`. -/
def factor_loop : Nat → Expression D → State D → Option (Expression D × State D)
  | 0, _, _ => none
  | fuel + 1, ret, s =>
    if s.type = TOK_INFIX ∧ s.function H = Ptr.pow then
      let t := s.function H
      let s := next_token H s
      match power fuel s with
      | none => none
      | some (p, s) =>
        factor_loop fuel ((new_expr (FUNCTION2 + FLAG_PURE) (some [ret, p])).setPtr t) s
    else some (ret, s)

/-- The `while` loop of the right-associative `factor`; `insertion` is `none` for the
null pointer and `some k` for the node `k` steps down the `parameters[1]` chain. -/
def factor_right_loop : Nat → Expression D → Option Nat → State D →
    Option (Expression D × State D)
  | 0, _, _, _ => none
  | fuel + 1, ret, insertion, s =>
    if s.type = TOK_INFIX ∧ s.function H = Ptr.pow then
      let t := s.function H
      let s := next_token H s
      match power fuel s with
      | none => none
      | some (p, s) =>
        match insertion with
        | some k =>
          let ret := at_insertion (fun ins =>
            ins.setParam 1 ((new_expr (FUNCTION2 + FLAG_PURE) (some [ins.param 1, p])).setPtr t))
            k ret
          factor_right_loop fuel ret (some (k + 1)) s
        | none =>
          let ret := (new_expr (FUNCTION2 + FLAG_PURE) (some [ret, p])).setPtr t
          factor_right_loop fuel ret (some 0) s
    else some (ret, s)

/-- Production `term`. -/
def term : Nat → State D → Option (Expression D × State D)
  | 0, _ => none
  | fuel + 1, s =>
    match factor fuel s with
    | none => none
    | some (ret, s) => term_loop fuel ret s

/-- The `while` loop of `term`. -/
def term_loop : Nat → Expression D → State D → Option (Expression D × State D)
  | 0, _, _ => none
  | fuel + 1, ret, s =>
    if s.type = TOK_INFIX ∧
        (s.function H = Ptr.mul ∨ s.function H = Ptr.divide ∨ s.function H = Ptr.fmod) then
      let t := s.function H
      let s := next_token H s
      match factor fuel s with
      | none => none
      | some (f, s) =>
        term_loop fuel ((new_expr (FUNCTION2 + FLAG_PURE) (some [ret, f])).setPtr t) s
    else some (ret, s)

/-- Production `expr`. -/
def expr : Nat → State D → Option (Expression D × State D)
  | 0, _ => none
  | fuel + 1, s =>
    match term fuel s with
    | none => none
    | some (ret, s) => expr_loop fuel ret s

/-- The `while` loop of `expr`. -/
def expr_loop : Nat → Expression D → State D → Option (Expression D × State D)
  | 0, _, _ => none
  | fuel + 1, ret, s =>
    if s.type = TOK_INFIX ∧ (s.function H = Ptr.add ∨ s.function H = Ptr.sub) then
      let t := s.function H
      let s := next_token H s
      match term fuel s with
      | none => none
      | some (f, s) =>
        expr_loop fuel ((new_expr (FUNCTION2 + FLAG_PURE) (some [ret, f])).setPtr t) s
    else some (ret, s)

/-- Production `list`. -/
def list : Nat → State D → Option (Expression D × State D)
  | 0, _ => none
  | fuel + 1, s =>
    match expr fuel s with
    | none => none
    | some (ret, s) => list_loop fuel ret s

/-- The `while` loop of `list`. -/
def list_loop : Nat → Expression D → State D → Option (Expression D × State D)
  | 0, _, _ => none
  | fuel + 1, ret, s =>
    if s.type = TOK_SEP then
      let s := next_token H s
      match expr fuel s with
      | none => none
      | some (f, s) =>
        list_loop fuel ((new_expr (FUNCTION2 + FLAG_PURE) (some [ret, f])).setPtr Ptr.comma) s
    else some (ret, s)

end

end Parser

/-! ## Evaluator, constant folder, `te_compile` -/

section Eval

variable {D W : Type} (H : Host D W)

mutual

/-- Function `te_eval`. The arguments `M(0), M(1), ...` are evaluated first to last
(C leaves their order open), then the call is made. -/
def te_eval : Expression D → W → D × W
  | Expression.null, w => (H.nan, w)
  | Expression.node type payload parameters context, w =>
    let m := TYPE_MASK type
    if m = TE_CONSTANT then
      ((Expression.node type payload parameters context).value H.asDouble, w)
    else if m = VARIABLE then
      (H.load ((Expression.node type payload parameters context).function H.asPtr) w, w)
    else if FUNCTION0 ≤ m ∧ m ≤ FUNCTION7 then
      let r := te_eval_args (ARITY type) parameters w
      invoke H ((Expression.node type payload parameters context).function H.asPtr) none r.1 r.2
    else if CLOSURE0 ≤ m ∧ m ≤ CLOSURE7 then
      let r := te_eval_args (ARITY type) parameters w
      invoke H ((Expression.node type payload parameters context).function H.asPtr)
        (some context) r.1 r.2
    else (H.nan, w)

/-- The values `M(0), ..., M(arity - 1)` of the first `arity` slots; a slot that is not
there reads as a null pointer, whose value is NaN. -/
def te_eval_args : Nat → List (Expression D) → W → List D × W
  | 0, _, w => ([], w)
  | arity + 1, [], w => (List.replicate (arity + 1) H.nan, w)
  | arity + 1, p :: ps, w =>
    let r := te_eval p w
    let rs := te_eval_args arity ps r.2
    (r.1 :: rs.1, rs.2)

end

mutual

/-- Function `optimize`; the node is updated in place in the source and returned here.
The source dereferences `n` at once, so a null `n` does not occur; it is left as it is. -/
def optimize : Expression D → W → Expression D × W
  | Expression.null, w => (Expression.null, w)
  | Expression.node type payload parameters context, w =>
    if type = TE_CONSTANT then (Expression.node type payload parameters context, w)
    else if type = VARIABLE then (Expression.node type payload parameters context, w)
    else if IS_PURE type then
      let arity := ARITY type
      let r := optimize_params arity parameters w
      let n := Expression.node type payload r.1 context
      if r.2.1 then
        let v := te_eval H n r.2.2
        (Expression.node TE_CONSTANT (Payload.value v.1) [] context, v.2)
      else (n, r.2.2)
    else (Expression.node type payload parameters context, w)

/-- The loop `for (i = 0; i < arity; ++i)` of `optimize`: the slots after folding, the flag
`known`, the world. -/
def optimize_params : Nat → List (Expression D) → W → List (Expression D) × Bool × W
  | 0, ps, w => (ps, true, w)
  | _ + 1, [], w => ([], false, w)
  | arity + 1, p :: ps, w =>
    let r := optimize p w
    let rs := optimize_params arity ps r.2
    (r.1 :: rs.1, decide (r.1.type = TE_CONSTANT) && rs.2.1, rs.2.2)

end

/-- Fuel `te_compile` gives the parser. -/
def compile_fuel (expression : List Char) : Nat := 8 * expression.length + 16

/-- The state `te_compile` starts from: `s.start = s.next = expression`, the lookup table
set; the fields the source leaves uninitialised are zero here. -/
def init_state (expression : List Char) (vars : List Variable) : State D :=
  { start := expression, next := expression, type := 0, payload := Payload.ptr Ptr.null,
    context := Ptr.null, lookup := vars }

/-- The conversion of the pointer difference `s.next - s.start` to `int` that the
assignment `*error = (s.next - s.start)` makes. An `int` is as wide as an `unsigned int`:
it holds the values from `-(UINT_MAX / 2) - 1` to `UINT_MAX / 2`, and a difference above
that range is reduced modulo `UINT_MAX + 1` into it. -/
def int_of_offset (offset : Nat) : Int :=
  let m := offset % (H.UINT_MAX + 1)
  if m ≤ H.UINT_MAX / 2 then Int.ofNat m else Int.ofNat m - Int.ofNat (H.UINT_MAX + 1)

/-- What `te_compile` does with the result of `list`: the returned pointer (`none` is
null) and the `int` stored in `*error`. -/
def compile_result (root : Expression D) (s : State D) (w : W) :
    (Option (Expression D) × Int) × W :=
  if s.type ≠ TOK_END then
    let error := int_of_offset H (s.start.length - s.next.length)
    ((none, if error = 0 then 1 else error), w)
  else
    let r := optimize H root w
    ((some r.1, 0), r.2)

/-- Function `te_compile`: the pointer returned, the value stored in `*error`, and the
world afterwards; `none` only if the parser ran out of fuel. -/
def te_compile (expression : List Char) (vars : List Variable) (w : W) :
    Option ((Option (Expression D) × Int) × W) :=
  let s := next_token H (init_state expression vars)
  match list H (compile_fuel expression) s with
  | none => none
  | some (root, s) => some (compile_result H root s w)

/-- Function `te_interp`. -/
def te_interp (expression : List Char) (w : W) : Option ((D × Int) × W) :=
  match te_compile H expression [] w with
  | none => none
  | some ((some n, error), w) => let r := te_eval H n w; some ((r.1, error), r.2)
  | some ((none, error), w) => some ((H.nan, error), w)

end Eval

/-! ## Measures used to reason about the parser -/

/-- Whether a token of this type stands for at least one byte of the text that the
cursor has already passed: every token type but `TOK_NULL`, `TOK_ERROR`, `TOK_END` and
`TOK_NUMBER` (a number token may be empty, `strtod` reads nothing from a lone point). -/
def active (type : Nat) : Nat :=
  if type = TOK_NULL ∨ type = TOK_ERROR ∨ type = TOK_END ∨ type = TOK_NUMBER then 0 else 1

/-- Bytes left after the cursor, plus one when the current token is `active`; no call
of a production increases it, and reading a token after an active one decreases it. -/
def potential {D : Type} (s : State D) : Nat := s.next.length + active s.type

section ReturnsDefs

variable {D W : Type} (H : Host D W)

/-- Production `base`, started in state `s`, returns `r` (given enough fuel). -/
def base_returns (s : State D) (r : Expression D × State D) : Prop :=
  ∃ n, base H n s = some r

/-- The argument loop of `base`, entered with `i`, `ret` and state `s`, returns `r`. -/
def base_args_returns (arity i : Nat) (ret : Expression D) (s : State D)
    (r : Expression D × Nat × State D) : Prop :=
  ∃ n, base_args H n arity i ret s = some r

/-- Production `power`, started in state `s`, returns `r`. -/
def power_returns (s : State D) (r : Expression D × State D) : Prop :=
  ∃ n, power H n s = some r

/-- The sign loop of `power`, entered with `sign` and state `s`, returns `r`. -/
def power_loop_returns (sign : Int) (s : State D) (r : Expression D × State D) : Prop :=
  ∃ n, power_loop H n sign s = some r

/-- Production `factor`, started in state `s`, returns `r`. -/
def factor_returns (s : State D) (r : Expression D × State D) : Prop :=
  ∃ n, factor H n s = some r

/-- The loop of the left-associative `factor`, entered with `ret` and `s`, returns `r`. -/
def factor_loop_returns (ret : Expression D) (s : State D) (r : Expression D × State D) :
    Prop :=
  ∃ n, factor_loop H n ret s = some r

/-- The loop of the right-associative `factor`, entered with `ret`, `insertion` and `s`,
returns `r`. -/
def factor_right_loop_returns (ret : Expression D) (insertion : Option Nat) (s : State D)
    (r : Expression D × State D) : Prop :=
  ∃ n, factor_right_loop H n ret insertion s = some r

/-- Production `term`, started in state `s`, returns `r`. -/
def term_returns (s : State D) (r : Expression D × State D) : Prop :=
  ∃ n, term H n s = some r

/-- The loop of `term`, entered with `ret` and `s`, returns `r`. -/
def term_loop_returns (ret : Expression D) (s : State D) (r : Expression D × State D) :
    Prop :=
  ∃ n, term_loop H n ret s = some r

/-- Production `expr`, started in state `s`, returns `r`. -/
def expr_returns (s : State D) (r : Expression D × State D) : Prop :=
  ∃ n, expr H n s = some r

/-- The loop of `expr`, entered with `ret` and `s`, returns `r`. -/
def expr_loop_returns (ret : Expression D) (s : State D) (r : Expression D × State D) :
    Prop :=
  ∃ n, expr_loop H n ret s = some r

/-- Production `list`, started in state `s`, returns `r`. -/
def list_returns (s : State D) (r : Expression D × State D) : Prop :=
  ∃ n, list H n s = some r

/-- The loop of `list`, entered with `ret` and `s`, returns `r`. -/
def list_loop_returns (ret : Expression D) (s : State D) (r : Expression D × State D) :
    Prop :=
  ∃ n, list_loop H n ret s = some r

end ReturnsDefs

/-- The state belongs to a run of `te_compile` on `text` with the bindings `vars`: `start`
and `lookup` are the arguments and the cursor `next` points into the text. -/
def State.Within {D : Type} (text : List Char) (vars : List Variable) (s : State D) : Prop :=
  s.start = text ∧ s.lookup = vars ∧ s.next <:+ text

/-! ## Notions the claims are stated with -/

/-- The functions and closures the caller binds are deterministic: a call returns a
value that depends on nothing but the function, the context pointer and the arguments,
and leaves the world as it was. -/
def Host.Deterministic {D W : Type} (H : Host D W) : Prop :=
  ∀ f ctx args w, (H.call f ctx args w).2 = w ∧
    ∀ w', (H.call f ctx args w').1 = (H.call f ctx args w).1

mutual

/-- A tree built from constants (`TE_CONSTANT`), bound variables (`VARIABLE`) and function
or closure nodes whose `arity` slots all hold such trees. -/
def Expression.Built {D : Type} : Expression D → Prop
  | Expression.null => False
  | Expression.node type _ parameters _ =>
    type = TE_CONSTANT ∨ type = VARIABLE ∨
      ((FUNCTION0 ≤ TYPE_MASK type ∧ TYPE_MASK type ≤ CLOSURE7) ∧
        parameters.length = ARITY type ∧ Expression.BuiltAll parameters)

/-- Every tree of the list is `Built`. -/
def Expression.BuiltAll {D : Type} : List (Expression D) → Prop
  | [] => True
  | p :: ps => Expression.Built p ∧ Expression.BuiltAll ps

end

/-- The text `a` is a numeric literal: it starts with a digit or a point, and `strtod`
reads exactly `a` when an operator character follows it. -/
def NumericLiteral (a : List Char) : Prop :=
  (∃ c t, a = c :: t ∧ (isDigit c = true ∨ c = '.')) ∧
    ∀ op rest, op ∈ ['+', '-', '*', '/', '^', '%'] → strtod_len (a ++ op :: rest) = a.length

/-- The node `base` builds in its `default` case, on an unexpected token: type 0 and the
value NaN. -/
def nan_node {D W : Type} (H : Host D W) : Expression D := (new_expr 0 none).setValue H.nan

/-- The node `NEW_EXPR(FUNCTION2 | FLAG_PURE, a, b)` with `function = f`, as the loops of
`list`, `expr`, `term` and `factor` build it. -/
def binary {D : Type} (f : Ptr) (a b : Expression D) : Expression D :=
  Expression.node (FUNCTION2 + FLAG_PURE) (Payload.ptr f) [a, b] Ptr.null

/-- The node `NEW_EXPR(FUNCTION1 | FLAG_PURE, a)` with `function = f`, as `power` and
`factor` build it for a negation. -/
def unary {D : Type} (f : Ptr) (a : Expression D) : Expression D :=
  Expression.node (FUNCTION1 + FLAG_PURE) (Payload.ptr f) [a] Ptr.null

/-- Standard reading of a product `x op1 y1 op2 y2 ...` with operators of one
precedence: grouped left to right. -/
def reading_chain {D : Type} (x : Expression D) (ops : List (Ptr × Expression D)) :
    Expression D :=
  ops.foldl (fun acc o => binary o.1 acc o.2) x

/-- Standard reading of a flat expression `t0 op1 t1 op2 t2 ...`, where the `op` are
`+` or `-` and each `t` is a product of operands joined by `*`, `/`, `%`: every product
is read first, then the sum is grouped left to right. -/
def standard_reading {D : Type} (t0 : Expression D × List (Ptr × Expression D))
    (rest : List (Ptr × Expression D × List (Ptr × Expression D))) : Expression D :=
  reading_chain (reading_chain t0.1 t0.2)
    (rest.map (fun o => (o.1, reading_chain o.2.1 o.2.2)))

section ChainDefs

variable {D W : Type} (H : Host D W)

/-- The tokens from state `s` on are `op x` pairs, `op` one of `*`, `/`, `%` and `x` an
operand read by `factor`, as listed in `ops`; `s'` is the state after the last operand. -/
inductive term_chain : State D → List (Ptr × Expression D) → State D → Prop
  | nil (s : State D) : term_chain s [] s
  | cons {s s1 s2 : State D} {f : Ptr} {x : Expression D} {ops : List (Ptr × Expression D)}
      (ht : s.type = TOK_INFIX) (hf : s.function H = f)
      (hop : f = Ptr.mul ∨ f = Ptr.divide ∨ f = Ptr.fmod)
      (hx : factor_returns H (next_token H s) (x, s1)) (hrest : term_chain s1 ops s2) :
      term_chain s ((f, x) :: ops) s2

/-- The tokens from state `s` on are `op t` pairs, `op` one of `+`, `-` and `t` a whole
product (a first operand and its `term_chain`), as listed; `s'` is the state after the
last product. -/
inductive expr_chain :
    State D → List (Ptr × Expression D × List (Ptr × Expression D)) → State D → Prop
  | nil (s : State D) : expr_chain s [] s
  | cons {s s1 s2 s3 : State D} {f : Ptr} {x : Expression D}
      {ops : List (Ptr × Expression D)}
      {rest : List (Ptr × Expression D × List (Ptr × Expression D))}
      (ht : s.type = TOK_INFIX) (hf : s.function H = f) (hop : f = Ptr.add ∨ f = Ptr.sub)
      (hx : factor_returns H (next_token H s) (x, s1)) (hops : term_chain H s1 ops s2)
      (hstop : ¬ (s2.type = TOK_INFIX ∧
        (s2.function H = Ptr.mul ∨ s2.function H = Ptr.divide ∨ s2.function H = Ptr.fmod)))
      (hrest : expr_chain s2 rest s3) :
      expr_chain s ((f, x, ops) :: rest) s3

/-- The tokens from state `s` on are the sign tokens listed in `signs` (each `Ptr.add` for
a `+` or `Ptr.sub` for a `-`); `s'` is the state after the last of them. -/
inductive sign_run : State D → List Ptr → State D → Prop
  | nil (s : State D) : sign_run s [] s
  | cons {s s' : State D} {f : Ptr} {signs : List Ptr}
      (ht : s.type = TOK_INFIX) (hf : s.function H = f) (hop : f = Ptr.add ∨ f = Ptr.sub)
      (hrest : sign_run (next_token H s) signs s') : sign_run s (f :: signs) s'

/-- The tokens from state `s` on are `^ x` pairs, each `x` an operand read by `power`, as
listed; `s'` is the state after the last operand. -/
inductive pow_chain : State D → List (Expression D) → State D → Prop
  | nil (s : State D) : pow_chain s [] s
  | cons {s s1 s2 : State D} {x : Expression D} {xs : List (Expression D)}
      (ht : s.type = TOK_INFIX) (hf : s.function H = Ptr.pow)
      (hx : power_returns H (next_token H s) (x, s1)) (hrest : pow_chain s1 xs s2) :
      pow_chain s (x :: xs) s2

/-- After the token of state `s` (an opening parenthesis or a comma) come the argument
expressions listed, each read by `expr`, with a comma between one and the next; `s'` is the
state after the last of them. -/
inductive arg_list : State D → List (Expression D) → State D → Prop
  | one {s s' : State D} {p : Expression D}
      (hp : expr_returns H (next_token H s) (p, s')) : arg_list s [p] s'
  | cons {s s1 s' : State D} {p : Expression D} {ps : List (Expression D)}
      (hp : expr_returns H (next_token H s) (p, s1)) (hsep : s1.type = TOK_SEP)
      (hrest : arg_list s1 ps s') : arg_list s (p :: ps) s'

/-- The tokens from state `s` on are `, x` pairs, each `x` an expression read by `expr`,
as listed; `s'` is the state after the last of them. -/
inductive sep_chain : State D → List (Expression D) → State D → Prop
  | nil (s : State D) : sep_chain s [] s
  | cons {s s1 s2 : State D} {x : Expression D} {xs : List (Expression D)}
      (ht : s.type = TOK_SEP) (hx : expr_returns H (next_token H s) (x, s1))
      (hrest : sep_chain s1 xs s2) : sep_chain s (x :: xs) s2

end ChainDefs

/-- A power chain `a ^ x1 ^ x2 ...` grouped right to left. -/
def right_nest {D : Type} (a : Expression D) : List (Expression D) → Expression D
  | [] => a
  | x :: xs => binary Ptr.pow a (right_nest x xs)

/-- The node `base` builds for the token `s` of a function or closure of one argument,
applied to the argument tree `a`: `f(a)`. -/
def call1 {D W : Type} (H : Host D W) (s : State D) (a : Expression D) : Expression D :=
  Expression.node s.type (Payload.ptr (s.function H)) [a]
    (if IS_CLOSURE s.type then s.context else Ptr.null)

/-- The production left the token at `TOK_ERROR`, or its tree is `Built`. -/
def Good {D : Type} (t : Expression D) (s : State D) : Prop :=
  s.type = TOK_ERROR ∨ t.Built

/-- The node of a call whose arguments are being read: `arity` slots, the first `i` of
them filled with `Built` trees. -/
def ArgsFilled {D : Type} (arity i : Nat) (ret : Expression D) : Prop :=
  ∃ type payload parameters context, ret = Expression.node type payload parameters context ∧
    (FUNCTION0 ≤ TYPE_MASK type ∧ TYPE_MASK type ≤ CLOSURE7) ∧
    parameters.length = ARITY type ∧ ARITY type = arity ∧
    Expression.BuiltAll (parameters.take i)

/-- The nodes passed on the way from `ret` down `parameters[1]`, `k` steps, are binary
nodes built by `factor`. -/
def PowSpine {D : Type} : Nat → Expression D → Prop
  | 0, e => ∃ pl a b c, e = Expression.node (FUNCTION2 + FLAG_PURE) pl [a, b] c
  | k + 1, e => ∃ pl a b c, e = Expression.node (FUNCTION2 + FLAG_PURE) pl [a, b] c ∧
      PowSpine k b

/-- Whether the first `arity` slots of the list all hold `TE_CONSTANT` nodes, as the flag
`known` of `optimize` has it; a slot that is not there does not. -/
def Expression.allConstant {D : Type} : Nat → List (Expression D) → Bool
  | 0, _ => true
  | _ + 1, [] => false
  | arity + 1, p :: ps => decide (p.type = TE_CONSTANT) && Expression.allConstant arity ps

mutual

/-- Whether the tree holds a node that constant folding is meant to remove: a node flagged
pure all of whose `arity` children are `TE_CONSTANT` nodes. -/
def Expression.foldable {D : Type} : Expression D → Bool
  | Expression.null => false
  | Expression.node type _ parameters _ =>
    (IS_PURE type && Expression.allConstant (ARITY type) parameters)
      || Expression.foldableArgs (ARITY type) parameters

/-- Whether one of the first `arity` trees of the list is `foldable`. -/
def Expression.foldableArgs {D : Type} : Nat → List (Expression D) → Bool
  | 0, _ => false
  | _ + 1, [] => false
  | arity + 1, p :: ps => Expression.foldable p || Expression.foldableArgs arity ps

end

mutual

/-- Whether every node of the tree is a constant, a bound variable, or a function or
closure flagged pure. -/
def Expression.allPure {D : Type} : Expression D → Bool
  | Expression.null => true
  | Expression.node type _ parameters _ =>
    (decide (type = TE_CONSTANT) || decide (type = VARIABLE) || IS_PURE type)
      && Expression.allPureArgs (ARITY type) parameters

/-- Whether the first `arity` trees of the list are `allPure`. -/
def Expression.allPureArgs {D : Type} : Nat → List (Expression D) → Bool
  | 0, _ => true
  | _ + 1, [] => true
  | arity + 1, p :: ps => Expression.allPure p && Expression.allPureArgs arity ps

end

/-- The same platform with other functions and closures behind the addresses the caller
binds: `call` is replaced, every other field is kept. -/
def Host.withCall {D W : Type} (H : Host D W)
    (c : Ptr → Option Ptr → List D → W → D × W) : Host D W :=
  { H with call := c }

mutual

/-- Whether every node of the tree whose function is one of the addresses in `S` lacks the
pure flag. -/
def Expression.impureOn {D : Type} (S : Ptr → Bool) (asPtr : D → Ptr) : Expression D → Bool
  | Expression.null => true
  | Expression.node type payload parameters context =>
    (!S ((Expression.node type payload [] context).function asPtr) || !IS_PURE type)
      && Expression.impureOnArgs S asPtr (ARITY type) parameters

/-- Whether the first `arity` trees of the list are `impureOn S`. -/
def Expression.impureOnArgs {D : Type} (S : Ptr → Bool) (asPtr : D → Ptr) :
    Nat → List (Expression D) → Bool
  | 0, _ => true
  | _ + 1, [] => true
  | arity + 1, p :: ps =>
    Expression.impureOn S asPtr p && Expression.impureOnArgs S asPtr arity ps

end

mutual

/-- Whether the tree has a bound-variable leaf (a node of type `VARIABLE`) among its nodes. -/
def Expression.hasVariable {D : Type} : Expression D → Bool
  | Expression.null => false
  | Expression.node type _ parameters _ =>
    decide (type = VARIABLE) ||
      (!decide (type = TE_CONSTANT) && Expression.hasVariableArgs (ARITY type) parameters)

/-- Whether one of the first `arity` trees of the list has a bound-variable leaf. -/
def Expression.hasVariableArgs {D : Type} : Nat → List (Expression D) → Bool
  | 0, _ => false
  | _ + 1, [] => false
  | arity + 1, p :: ps => Expression.hasVariable p || Expression.hasVariableArgs arity ps

end

mutual

/-- A well-formed tree. A constant node has no children. A bound variable node has type
`VARIABLE`, holds the address of its variable (which tells it from the NaN placeholder of
`base`, a node of type 0 that holds a value) and has no children. A function or closure
node has exactly `ARITY type` children, none of them null, none of them the NaN
placeholder, each of them well formed. -/
def Expression.WellFormed {D W : Type} (H : Host D W) : Expression D → Prop
  | Expression.null => False
  | Expression.node type payload parameters _ =>
    (type = TE_CONSTANT ∧ parameters = []) ∨
    (type = VARIABLE ∧ (∃ p, payload = Payload.ptr p) ∧ parameters = []) ∨
    ((FUNCTION0 ≤ TYPE_MASK type ∧ TYPE_MASK type ≤ CLOSURE7) ∧
      parameters.length = ARITY type ∧
      (∀ p ∈ parameters, p ≠ Expression.null ∧ p ≠ nan_node H) ∧
      Expression.WellFormedAll H parameters)

/-- Every tree of the list is well formed. -/
def Expression.WellFormedAll {D W : Type} (H : Host D W) : List (Expression D) → Prop
  | [] => True
  | p :: ps => Expression.WellFormed H p ∧ Expression.WellFormedAll H ps

end

/-- The production left the token at `TOK_ERROR`, or its tree is well formed. -/
def Sound {D W : Type} (H : Host D W) (t : Expression D) (s : State D) : Prop :=
  s.type = TOK_ERROR ∨ t.WellFormed H

/-- The node of a call whose arguments are being read: `arity` slots, the first `i` of
them filled with well-formed trees. -/
def ArgsWellFormed {D W : Type} (H : Host D W) (arity i : Nat) (ret : Expression D) : Prop :=
  ∃ type payload parameters context, ret = Expression.node type payload parameters context ∧
    (FUNCTION0 ≤ TYPE_MASK type ∧ TYPE_MASK type ≤ CLOSURE7) ∧
    parameters.length = ARITY type ∧ ARITY type = arity ∧
    Expression.WellFormedAll H (parameters.take i)

/-! ## A host to run examples on -/

/-- The integer a run of decimal digits denotes; `none` for any other text. -/
def digits_value (t : List Char) : Option Int :=
  if t ≠ [] ∧ t.all isDigit then
    some (Int.ofNat (t.foldl (fun acc c => acc * 10 + (c.toNat - 48)) 0))
  else none

/-- A host with exact integer arithmetic, for running examples. A double is `some z` when
it is the integer `z`, and `none` when it is anything else (NaN, an infinity, a fraction:
this host does not tell them apart). Where it gives `some z` for small `z`, IEEE-754
arithmetic gives the double `z`. A cell is `Ptr.host n`, the world maps `n` to the value of
the cell; the caller binds no functions of its own. -/
def exampleHost (pow_from_right : Bool) : Host (Option Int) (Nat → Option Int) where
  TE_POW_FROM_RIGHT := pow_from_right
  TE_NAT_LOG := false
  UINT_MAX := 4294967295
  ULONG_MAX := 18446744073709551615
  nan := none
  inf := none
  strtod := digits_value
  ofNat := fun n => some (Int.ofNat n)
  toUInt := fun a => match a with
    | some z => z.toNat % 4294967296
    | none => 0
  lt := fun a b => match a, b with
    | some x, some y => decide (x < y)
    | _, _ => false
  fadd := fun a b => match a, b with
    | some x, some y => some (x + y)
    | _, _ => none
  fsub := fun a b => match a, b with
    | some x, some y => some (x - y)
    | _, _ => none
  fmul := fun a b => match a, b with
    | some x, some y => some (x * y)
    | _, _ => none
  fdiv := fun a b => match a, b with
    | some x, some y => if y ≠ 0 ∧ x % y = 0 then some (x / y) else none
    | _, _ => none
  fneg := fun a => match a with
    | some x => some (-x)
    | none => none
  libm := fun f args => match f, args with
    | Ptr.pow, [some x, some y] => if 0 ≤ y then some (x ^ y.toNat) else none
    | Ptr.sqrt, [some x] =>
      if 0 ≤ x then ((List.range (x.toNat + 1)).find? (fun r => r * r = x.toNat)).map Int.ofNat
      else none
    | Ptr.sin, [some x] => if x = 0 then some 0 else none
    | Ptr.fabs, [some x] => some (Int.ofNat x.natAbs)
    | Ptr.ceil, [some x] => some x
    | Ptr.floor, [some x] => some x
    | _, _ => none
  load := fun p w => match p with
    | Ptr.host n => w n
    | _ => none
  call := fun _ _ _ w => (none, w)
  asPtr := fun _ => Ptr.null
  asDouble := fun _ => none

/-- The doubles the second example host has: NaN, plus infinity, and the integers. -/
inductive IntDouble where
  | nan
  | inf
  | int (z : Int)
  deriving DecidableEq, Repr

/-- A second host, for running the numeric intrinsics: it tells NaN, plus infinity and the
integers apart, has a 32-bit `unsigned int` and a 64-bit `unsigned long`, and computes
exactly on integers. A result it has no value for (a fraction, minus infinity) reads as
NaN. It binds nothing and knows no `<cmath>` function. -/
def integerHost : Host IntDouble Unit where
  TE_POW_FROM_RIGHT := false
  TE_NAT_LOG := false
  UINT_MAX := 4294967295
  ULONG_MAX := 18446744073709551615
  nan := IntDouble.nan
  inf := IntDouble.inf
  strtod := fun t => match digits_value t with
    | some z => IntDouble.int z
    | none => IntDouble.nan
  ofNat := fun n => IntDouble.int (Int.ofNat n)
  toUInt := fun a => match a with
    | IntDouble.int z => z.toNat % 4294967296
    | _ => 0
  lt := fun a b => match a, b with
    | IntDouble.int x, IntDouble.int y => decide (x < y)
    | IntDouble.int _, IntDouble.inf => true
    | _, _ => false
  fadd := fun a b => match a, b with
    | IntDouble.int x, IntDouble.int y => IntDouble.int (x + y)
    | IntDouble.nan, _ => IntDouble.nan
    | _, IntDouble.nan => IntDouble.nan
    | _, _ => IntDouble.inf
  fsub := fun a b => match a, b with
    | IntDouble.int x, IntDouble.int y => IntDouble.int (x - y)
    | IntDouble.inf, IntDouble.int _ => IntDouble.inf
    | _, _ => IntDouble.nan
  fmul := fun a b => match a, b with
    | IntDouble.int x, IntDouble.int y => IntDouble.int (x * y)
    | IntDouble.inf, IntDouble.inf => IntDouble.inf
    | IntDouble.inf, IntDouble.int y => if 0 < y then IntDouble.inf else IntDouble.nan
    | IntDouble.int x, IntDouble.inf => if 0 < x then IntDouble.inf else IntDouble.nan
    | _, _ => IntDouble.nan
  fdiv := fun a b => match a, b with
    | IntDouble.int x, IntDouble.int y =>
      if y ≠ 0 ∧ x % y = 0 then IntDouble.int (x / y) else IntDouble.nan
    | _, _ => IntDouble.nan
  fneg := fun a => match a with
    | IntDouble.int x => IntDouble.int (-x)
    | _ => IntDouble.nan
  libm := fun _ _ => IntDouble.nan
  load := fun _ _ => IntDouble.nan
  call := fun _ _ _ w => (IntDouble.nan, w)
  asPtr := fun _ => Ptr.null
  asDouble := fun _ => IntDouble.nan

/-- Number of binary digits of `n`, for `n` below `2 ^ fuel`. -/
def bit_length : Nat → Nat → Nat
  | 0, _ => 0
  | fuel + 1, n => if n = 0 then 0 else bit_length fuel (n / 2) + 1

/-- The unsigned integer that the IEEE-754 binary64 double nearest to `n` holds: `n`
itself when it is below `2 ^ 53`, else `n` rounded to 53 significant bits, to nearest and
on a tie to the even one. -/
def round_to_double (n : Nat) : Nat :=
  if n < 2 ^ 53 then n
  else
    let e := bit_length 1100 n - 53
    let q := n / 2 ^ e
    let r := n % 2 ^ e
    if 2 * r < 2 ^ e ∨ (2 * r = 2 ^ e ∧ q % 2 = 0) then q * 2 ^ e else (q + 1) * 2 ^ e

/-- The double nearest to the integer `z` on the third example host: the rounded integer,
or an infinity when that has more than 1024 binary digits (minus infinity reads as NaN
there). -/
def IntDouble.nearest (z : Int) : IntDouble :=
  if bit_length 1100 (round_to_double z.natAbs) ≤ 1024 then
    IntDouble.int (z.sign * Int.ofNat (round_to_double z.natAbs))
  else if 0 < z then IntDouble.inf else IntDouble.nan

/-- A third host, for running the numeric intrinsics with the rounding of IEEE-754
binary64: as `integerHost`, but every integer that a conversion, a sum, a difference or a
product yields is rounded to the nearest double. -/
def binary64Host : Host IntDouble Unit where
  TE_POW_FROM_RIGHT := false
  TE_NAT_LOG := false
  UINT_MAX := 4294967295
  ULONG_MAX := 18446744073709551615
  nan := IntDouble.nan
  inf := IntDouble.inf
  strtod := fun t => match digits_value t with
    | some z => IntDouble.nearest z
    | none => IntDouble.nan
  ofNat := fun n => IntDouble.nearest (Int.ofNat n)
  toUInt := fun a => match a with
    | IntDouble.int z => z.toNat % 4294967296
    | _ => 0
  lt := fun a b => match a, b with
    | IntDouble.int x, IntDouble.int y => decide (x < y)
    | IntDouble.int _, IntDouble.inf => true
    | _, _ => false
  fadd := fun a b => match a, b with
    | IntDouble.int x, IntDouble.int y => IntDouble.nearest (x + y)
    | IntDouble.nan, _ => IntDouble.nan
    | _, IntDouble.nan => IntDouble.nan
    | _, _ => IntDouble.inf
  fsub := fun a b => match a, b with
    | IntDouble.int x, IntDouble.int y => IntDouble.nearest (x - y)
    | IntDouble.inf, IntDouble.int _ => IntDouble.inf
    | _, _ => IntDouble.nan
  fmul := fun a b => match a, b with
    | IntDouble.int x, IntDouble.int y => IntDouble.nearest (x * y)
    | IntDouble.inf, IntDouble.inf => IntDouble.inf
    | IntDouble.inf, IntDouble.int y => if 0 < y then IntDouble.inf else IntDouble.nan
    | IntDouble.int x, IntDouble.inf => if 0 < x then IntDouble.inf else IntDouble.nan
    | _, _ => IntDouble.nan
  fdiv := fun a b => match a, b with
    | IntDouble.int x, IntDouble.int y =>
      if y ≠ 0 ∧ x % y = 0 then IntDouble.nearest (x / y) else IntDouble.nan
    | _, _ => IntDouble.nan
  fneg := fun a => match a with
    | IntDouble.int x => IntDouble.int (-x)
    | _ => IntDouble.nan
  libm := fun _ _ => IntDouble.nan
  load := fun _ _ => IntDouble.nan
  call := fun _ _ _ w => (IntDouble.nan, w)
  asPtr := fun _ => Ptr.null
  asDouble := fun _ => IntDouble.nan

/-! # Theorems -/

/-! ## Unfolding equations of the productions -/

section Unfold

variable {D W : Type} (H : Host D W)

theorem base_zero (s : State D) : base H 0 s = none := rfl

theorem base_succ (n : Nat) (s : State D) :
    base H (n + 1) s =
    let m := TYPE_MASK s.type
    if m = TOK_NUMBER then
      let ret := (new_expr TE_CONSTANT none).setValue (s.value H)
      some (ret, next_token H s)
    else if m = TOK_VARIABLE then
      let ret := (new_expr VARIABLE none).setPtr (s.function H)
      some (ret, next_token H s)
    else if m = FUNCTION0 ∨ m = CLOSURE0 then
      let ret := call_node H s
      let s := next_token H s
      if s.type = TOK_OPEN then
        let s := next_token H s
        if s.type ≠ TOK_CLOSE then some (ret, { s with type := TOK_ERROR })
        else some (ret, next_token H s)
      else some (ret, s)
    else if m = FUNCTION1 ∨ m = CLOSURE1 then
      let ret := call_node H s
      let s := next_token H s
      match power H n s with
      | none => none
      | some (p, s) => some (ret.setParam 0 p, s)
    else if (FUNCTION2 ≤ m ∧ m ≤ FUNCTION7) ∨ (CLOSURE2 ≤ m ∧ m ≤ CLOSURE7) then
      let arity := ARITY s.type
      let ret := call_node H s
      let s := next_token H s
      if s.type ≠ TOK_OPEN then some (ret, { s with type := TOK_ERROR })
      else
        match base_args H n arity 0 ret s with
        | none => none
        | some (ret, i, s) =>
          if s.type ≠ TOK_CLOSE ∨ i ≠ arity - 1 then some (ret, { s with type := TOK_ERROR })
          else some (ret, next_token H s)
    else if m = TOK_OPEN then
      let s := next_token H s
      match list H n s with
      | none => none
      | some (ret, s) =>
        if s.type ≠ TOK_CLOSE then some (ret, { s with type := TOK_ERROR })
        else some (ret, next_token H s)
    else
      let ret := (new_expr 0 none).setValue H.nan
      some (ret, { s with type := TOK_ERROR }) := rfl

theorem base_args_zero (arity : Nat) (i : Nat) (ret : Expression D) (s : State D) : base_args H 0 arity i ret s = none := rfl

theorem base_args_succ (n : Nat) (arity : Nat) (i : Nat) (ret : Expression D) (s : State D) :
    base_args H (n + 1) arity i ret s =
    if i < arity then
      let s := next_token H s
      match expr H n s with
      | none => none
      | some (p, s) =>
        let ret := ret.setParam i p
        if s.type ≠ TOK_SEP then some (ret, i, s)
        else base_args H n arity (i + 1) ret s
    else some (ret, i, s) := rfl

theorem power_zero (s : State D) : power H 0 s = none := rfl

theorem power_succ (n : Nat) (s : State D) :
    power H (n + 1) s =
    power_loop H n 1 s := rfl

theorem power_loop_zero (sign : Int) (s : State D) : power_loop H 0 sign s = none := rfl

theorem power_loop_succ (n : Nat) (sign : Int) (s : State D) :
    power_loop H (n + 1) sign s =
    if s.type = TOK_INFIX ∧ (s.function H = Ptr.add ∨ s.function H = Ptr.sub) then
      let sign := if s.function H = Ptr.sub then -sign else sign
      power_loop H n sign (next_token H s)
    else
      match base H n s with
      | none => none
      | some (b, s) =>
        if sign = 1 then some (b, s)
        else some ((new_expr (FUNCTION1 + FLAG_PURE) (some [b])).setPtr Ptr.negate, s) := rfl

theorem factor_zero (s : State D) : factor H 0 s = none := rfl

theorem factor_succ (n : Nat) (s : State D) :
    factor H (n + 1) s =
    match power H n s with
    | none => none
    | some (ret, s) =>
      if H.TE_POW_FROM_RIGHT then
        let found := decide (ret.type = FUNCTION1 + FLAG_PURE ∧ ret.function H.asPtr = Ptr.negate)
        let neg := found
        let ret := if found then ret.param 0 else ret
        match factor_right_loop H n ret none s with
        | none => none
        | some (ret, s) =>
          if neg then some ((new_expr (FUNCTION1 + FLAG_PURE) (some [ret])).setPtr Ptr.negate, s)
          else some (ret, s)
      else factor_loop H n ret s := rfl

theorem factor_loop_zero (ret : Expression D) (s : State D) : factor_loop H 0 ret s = none := rfl

theorem factor_loop_succ (n : Nat) (ret : Expression D) (s : State D) :
    factor_loop H (n + 1) ret s =
    if s.type = TOK_INFIX ∧ s.function H = Ptr.pow then
      let t := s.function H
      let s := next_token H s
      match power H n s with
      | none => none
      | some (p, s) =>
        factor_loop H n ((new_expr (FUNCTION2 + FLAG_PURE) (some [ret, p])).setPtr t) s
    else some (ret, s) := rfl

theorem factor_right_loop_zero (ret : Expression D) (insertion : Option Nat) (s : State D) : factor_right_loop H 0 ret insertion s = none := rfl

theorem factor_right_loop_succ (n : Nat) (ret : Expression D) (insertion : Option Nat) (s : State D) :
    factor_right_loop H (n + 1) ret insertion s =
    if s.type = TOK_INFIX ∧ s.function H = Ptr.pow then
      let t := s.function H
      let s := next_token H s
      match power H n s with
      | none => none
      | some (p, s) =>
        match insertion with
        | some k =>
          let ret := at_insertion (fun ins =>
            ins.setParam 1 ((new_expr (FUNCTION2 + FLAG_PURE) (some [ins.param 1, p])).setPtr t))
            k ret
          factor_right_loop H n ret (some (k + 1)) s
        | none =>
          let ret := (new_expr (FUNCTION2 + FLAG_PURE) (some [ret, p])).setPtr t
          factor_right_loop H n ret (some 0) s
    else some (ret, s) := rfl

theorem term_zero (s : State D) : term H 0 s = none := rfl

theorem term_succ (n : Nat) (s : State D) :
    term H (n + 1) s =
    match factor H n s with
    | none => none
    | some (ret, s) => term_loop H n ret s := rfl

theorem term_loop_zero (ret : Expression D) (s : State D) : term_loop H 0 ret s = none := rfl

theorem term_loop_succ (n : Nat) (ret : Expression D) (s : State D) :
    term_loop H (n + 1) ret s =
    if s.type = TOK_INFIX ∧
        (s.function H = Ptr.mul ∨ s.function H = Ptr.divide ∨ s.function H = Ptr.fmod) then
      let t := s.function H
      let s := next_token H s
      match factor H n s with
      | none => none
      | some (f, s) =>
        term_loop H n ((new_expr (FUNCTION2 + FLAG_PURE) (some [ret, f])).setPtr t) s
    else some (ret, s) := rfl

theorem expr_zero (s : State D) : expr H 0 s = none := rfl

theorem expr_succ (n : Nat) (s : State D) :
    expr H (n + 1) s =
    match term H n s with
    | none => none
    | some (ret, s) => expr_loop H n ret s := rfl

theorem expr_loop_zero (ret : Expression D) (s : State D) : expr_loop H 0 ret s = none := rfl

theorem expr_loop_succ (n : Nat) (ret : Expression D) (s : State D) :
    expr_loop H (n + 1) ret s =
    if s.type = TOK_INFIX ∧ (s.function H = Ptr.add ∨ s.function H = Ptr.sub) then
      let t := s.function H
      let s := next_token H s
      match term H n s with
      | none => none
      | some (f, s) =>
        expr_loop H n ((new_expr (FUNCTION2 + FLAG_PURE) (some [ret, f])).setPtr t) s
    else some (ret, s) := rfl

theorem list_zero (s : State D) : list H 0 s = none := rfl

theorem list_succ (n : Nat) (s : State D) :
    list H (n + 1) s =
    match expr H n s with
    | none => none
    | some (ret, s) => list_loop H n ret s := rfl

theorem list_loop_zero (ret : Expression D) (s : State D) : list_loop H 0 ret s = none := rfl

theorem list_loop_succ (n : Nat) (ret : Expression D) (s : State D) :
    list_loop H (n + 1) ret s =
    if s.type = TOK_SEP then
      let s := next_token H s
      match expr H n s with
      | none => none
      | some (f, s) =>
        list_loop H n ((new_expr (FUNCTION2 + FLAG_PURE) (some [ret, f])).setPtr Ptr.comma) s
    else some (ret, s) := rfl

end Unfold

/-! ## More fuel never changes a result -/

section Mono

variable {D W : Type} (H : Host D W)

set_option maxHeartbeats 4000000 in
theorem mono_step (n : Nat) :
    (∀ s r, base H n s = some r → base H (n+1) s = some r) ∧
    (∀ a i e s r, base_args H n a i e s = some r → base_args H (n+1) a i e s = some r) ∧
    (∀ s r, power H n s = some r → power H (n+1) s = some r) ∧
    (∀ g s r, power_loop H n g s = some r → power_loop H (n+1) g s = some r) ∧
    (∀ s r, factor H n s = some r → factor H (n+1) s = some r) ∧
    (∀ e s r, factor_loop H n e s = some r → factor_loop H (n+1) e s = some r) ∧
    (∀ e k s r, factor_right_loop H n e k s = some r → factor_right_loop H (n+1) e k s = some r) ∧
    (∀ s r, term H n s = some r → term H (n+1) s = some r) ∧
    (∀ e s r, term_loop H n e s = some r → term_loop H (n+1) e s = some r) ∧
    (∀ s r, expr H n s = some r → expr H (n+1) s = some r) ∧
    (∀ e s r, expr_loop H n e s = some r → expr_loop H (n+1) e s = some r) ∧
    (∀ s r, list H n s = some r → list H (n+1) s = some r) ∧
    (∀ e s r, list_loop H n e s = some r → list_loop H (n+1) e s = some r) := by
  induction n with
  | zero =>
    refine ⟨?_, ?_, ?_, ?_, ?_, ?_, ?_, ?_, ?_, ?_, ?_, ?_, ?_⟩ <;> intros <;>
      simp_all [base_zero, base_args_zero, power_zero, power_loop_zero, factor_zero,
        factor_loop_zero, factor_right_loop_zero, term_zero, term_loop_zero, expr_zero,
        expr_loop_zero, list_zero, list_loop_zero]
  | succ n ih =>
    obtain ⟨ib, iba, ip, ipl, ifa, ifl, ifr, it, itl, ie, iel, il, ill⟩ := ih
    refine ⟨?_, ?_, ?_, ?_, ?_, ?_, ?_, ?_, ?_, ?_, ?_, ?_, ?_⟩
    · intro s r h
      rw [base_succ] at h ⊢
      dsimp only at h ⊢
      split_ifs at h ⊢ <;> try exact h
      all_goals
        split at h
        · cases h
        · rename_i heq
          first
          | (rw [ip _ _ heq]; exact h)
          | (rw [iba _ _ _ _ _ heq]; exact h)
          | (rw [il _ _ heq]; exact h)
    · intro a i e s r h
      rw [base_args_succ] at h ⊢
      dsimp only at h ⊢
      split_ifs at h ⊢ <;> try exact h
      split at h
      · cases h
      · rename_i heq; rw [ie _ _ heq]; dsimp only
        split_ifs at h ⊢ <;> first | exact h | exact iba _ _ _ _ _ h
    · intro s r h
      rw [power_succ] at h ⊢
      exact ipl _ _ _ h
    · intro g s r h
      rw [power_loop_succ] at h ⊢
      dsimp only at h ⊢
      split_ifs at h ⊢ <;> try exact ipl _ _ _ h
      all_goals
        split at h
        · cases h
        · rename_i heq; rw [ib _ _ heq]; exact h
    · intro s r h
      rw [factor_succ] at h ⊢
      split at h
      · cases h
      · rename_i heq; rw [ip _ _ heq]; dsimp only at h ⊢
        split_ifs at h ⊢ <;> try exact ifl _ _ _ h
        all_goals
          split at h
          · cases h
          · rename_i heq2; rw [ifr _ _ _ _ heq2]; exact h
    · intro e s r h
      rw [factor_loop_succ] at h ⊢
      dsimp only at h ⊢
      split_ifs at h ⊢ <;> try exact h
      split at h
      · cases h
      · rename_i heq; rw [ip _ _ heq]; exact ifl _ _ _ h
    · intro e k s r h
      rw [factor_right_loop_succ] at h ⊢
      dsimp only at h ⊢
      split_ifs at h ⊢ <;> try exact h
      split at h
      · cases h
      · rename_i heq; rw [ip _ _ heq]; dsimp only
        split at h <;> exact ifr _ _ _ _ h
    · intro s r h
      rw [term_succ] at h ⊢
      split at h
      · cases h
      · rename_i heq; rw [ifa _ _ heq]; exact itl _ _ _ h
    · intro e s r h
      rw [term_loop_succ] at h ⊢
      dsimp only at h ⊢
      split_ifs at h ⊢ <;> try exact h
      split at h
      · cases h
      · rename_i heq; rw [ifa _ _ heq]; exact itl _ _ _ h
    · intro s r h
      rw [expr_succ] at h ⊢
      split at h
      · cases h
      · rename_i heq; rw [it _ _ heq]; exact iel _ _ _ h
    · intro e s r h
      rw [expr_loop_succ] at h ⊢
      dsimp only at h ⊢
      split_ifs at h ⊢ <;> try exact h
      split at h
      · cases h
      · rename_i heq; rw [it _ _ heq]; exact iel _ _ _ h
    · intro s r h
      rw [list_succ] at h ⊢
      split at h
      · cases h
      · rename_i heq; rw [ie _ _ heq]; exact ill _ _ _ h
    · intro e s r h
      rw [list_loop_succ] at h ⊢
      dsimp only at h ⊢
      split_ifs at h ⊢ <;> try exact h
      split at h
      · cases h
      · rename_i heq; rw [ie _ _ heq]; exact ill _ _ _ h

theorem mono_le {n m : Nat} (hnm : n ≤ m) :
    (∀ s r, base H n s = some r → base H m s = some r) ∧
    (∀ a i e s r, base_args H n a i e s = some r → base_args H m a i e s = some r) ∧
    (∀ s r, power H n s = some r → power H m s = some r) ∧
    (∀ g s r, power_loop H n g s = some r → power_loop H m g s = some r) ∧
    (∀ s r, factor H n s = some r → factor H m s = some r) ∧
    (∀ e s r, factor_loop H n e s = some r → factor_loop H m e s = some r) ∧
    (∀ e k s r, factor_right_loop H n e k s = some r → factor_right_loop H m e k s = some r) ∧
    (∀ s r, term H n s = some r → term H m s = some r) ∧
    (∀ e s r, term_loop H n e s = some r → term_loop H m e s = some r) ∧
    (∀ s r, expr H n s = some r → expr H m s = some r) ∧
    (∀ e s r, expr_loop H n e s = some r → expr_loop H m e s = some r) ∧
    (∀ s r, list H n s = some r → list H m s = some r) ∧
    (∀ e s r, list_loop H n e s = some r → list_loop H m e s = some r) := by
  induction hnm with
  | refl => exact ⟨fun _ _ h => h, fun _ _ _ _ _ h => h, fun _ _ h => h, fun _ _ _ h => h,
      fun _ _ h => h, fun _ _ _ h => h, fun _ _ _ _ h => h, fun _ _ h => h, fun _ _ _ h => h,
      fun _ _ h => h, fun _ _ _ h => h, fun _ _ h => h, fun _ _ _ h => h⟩
  | step _ ih =>
    obtain ⟨a1, a2, a3, a4, a5, a6, a7, a8, a9, a10, a11, a12, a13⟩ := ih
    obtain ⟨b1, b2, b3, b4, b5, b6, b7, b8, b9, b10, b11, b12, b13⟩ := mono_step H _
    exact ⟨fun _ _ h => b1 _ _ (a1 _ _ h), fun _ _ _ _ _ h => b2 _ _ _ _ _ (a2 _ _ _ _ _ h),
      fun _ _ h => b3 _ _ (a3 _ _ h), fun _ _ _ h => b4 _ _ _ (a4 _ _ _ h),
      fun _ _ h => b5 _ _ (a5 _ _ h), fun _ _ _ h => b6 _ _ _ (a6 _ _ _ h),
      fun _ _ _ _ h => b7 _ _ _ _ (a7 _ _ _ _ h), fun _ _ h => b8 _ _ (a8 _ _ h),
      fun _ _ _ h => b9 _ _ _ (a9 _ _ _ h), fun _ _ h => b10 _ _ (a10 _ _ h),
      fun _ _ _ h => b11 _ _ _ (a11 _ _ _ h), fun _ _ h => b12 _ _ (a12 _ _ h),
      fun _ _ _ h => b13 _ _ _ (a13 _ _ _ h)⟩

end Mono

/-! ## The parser always returns -/

section Total

variable {D W : Type} (H : Host D W)

theorem active_le_one (t : Nat) : active t ≤ 1 := by
  unfold active; split <;> omega

theorem potential_mk (st nx : List Char) (ty : Nat) (pl : Payload D) (cx : Ptr)
    (lk : List Variable) :
    potential ({ start := st, next := nx, type := ty, payload := pl, context := cx, lookup := lk } : State D) = nx.length + active ty := rfl

theorem active_INFIX : active TOK_INFIX = 1 := rfl
theorem active_OPEN : active TOK_OPEN = 1 := rfl
theorem active_CLOSE : active TOK_CLOSE = 1 := rfl
theorem active_SEP : active TOK_SEP = 1 := rfl
theorem active_ERROR : active TOK_ERROR = 0 := rfl
theorem active_END : active TOK_END = 0 := rfl
theorem active_NUMBER : active TOK_NUMBER = 0 := rfl

theorem ite_le_of {c : Prop} [Decidable c] {x y b : Nat} (hx : x ≤ b) (hy : y ≤ b) :
    (if c then x else y) ≤ b := by
  split <;> assumption

theorem next_token_loop_potential (fuel : Nat) (s : State D) (hs : s.type = TOK_NULL) :
    potential (next_token_loop H fuel s) ≤ s.next.length := by
  induction fuel generalizing s with
  | zero => simp [next_token_loop, potential, active, hs]
  | succ fuel ih =>
    unfold next_token_loop
    split
    · simp [potential, active]
    · rename_i c rest hnext
      dsimp only
      by_cases h1 : c = NUL
      · rw [if_pos h1]; simp [potential, active]
      rw [if_neg h1]
      by_cases h2 : (isDigit c = true ∨ c = '.')
      · rw [if_pos h2]; simp [potential, active]
      rw [if_neg h2]
      by_cases h3 : ('a' ≤ c ∧ c ≤ 'z')
      · rw [if_pos h3]
        have hlen : 1 ≤ (List.takeWhile isIdentChar s.next).length := by
          rw [hnext]
          have : isIdentChar c = true := by
            simp only [isIdentChar, Bool.or_eq_true, Bool.and_eq_true, decide_eq_true_eq]
            left; left; exact h3
          simp [List.takeWhile_cons, this]
        have hdrop : (List.drop (List.takeWhile isIdentChar s.next).length s.next).length + 1 ≤ s.next.length := by
          have : (List.takeWhile isIdentChar s.next).length ≤ s.next.length :=
            (List.takeWhile_sublist _).length_le
          simp only [List.length_drop]; omega
        split
        · simp only [potential, active]; simp
          try omega
        · rename_i var _
          have := active_le_one var.type
          have := active_le_one TOK_VARIABLE
          by_cases g1 : TYPE_MASK var.type = VARIABLE
          · rw [if_pos g1]; simp only [potential]; omega
          rw [if_neg g1]
          by_cases g2 : (CLOSURE0 ≤ TYPE_MASK var.type ∧ TYPE_MASK var.type ≤ CLOSURE7)
          · rw [if_pos g2]; simp only [potential]; omega
          rw [if_neg g2]
          by_cases g3 : (FUNCTION0 ≤ TYPE_MASK var.type ∧ TYPE_MASK var.type ≤ FUNCTION7)
          · rw [if_pos g3]; simp only [potential]; omega
          rw [if_neg g3]
          refine le_trans (ih _ hs) ?_; simp only; omega
      · rw [if_neg h3]
        have hr : rest.length + 1 = s.next.length := by rw [hnext]; simp
        have ha : potential (next_token_loop H fuel { s with next := rest }) ≤ rest.length :=
          ih _ hs
        simp only [apply_ite potential, potential_mk, active_INFIX, active_OPEN, active_CLOSE,
          active_SEP, active_ERROR]
        generalize potential (next_token_loop H fuel { s with next := rest }) = p at ha ⊢
        have q1 : rest.length + 1 ≤ s.next.length := by omega
        have q2 : p ≤ s.next.length := by omega
        have q3 : rest.length + 0 ≤ s.next.length := by omega
        repeat' apply ite_le_of
        all_goals assumption

theorem next_token_potential (s : State D) : potential (next_token H s) ≤ s.next.length :=
  next_token_loop_potential H _ _ rfl


theorem potential_def (s : State D) : potential s = s.next.length + active s.type := rfl

theorem potential_error (s : State D) :
    potential ({ s with type := TOK_ERROR } : State D) = s.next.length := rfl

theorem active_of_F1 {t : Nat} (h : TYPE_MASK t = FUNCTION1 ∨ TYPE_MASK t = CLOSURE1) :
    active t = 1 := by
  unfold TYPE_MASK at h
  unfold active
  rw [if_neg]
  simp only [TOK_NULL, CLOSURE7, TOK_ERROR, TOK_END, TOK_NUMBER, FUNCTION1, CLOSURE1] at h ⊢
  omega

theorem active_of_F2 {t : Nat}
    (h : (FUNCTION2 ≤ TYPE_MASK t ∧ TYPE_MASK t ≤ FUNCTION7) ∨
      (CLOSURE2 ≤ TYPE_MASK t ∧ TYPE_MASK t ≤ CLOSURE7)) : active t = 1 := by
  unfold TYPE_MASK at h
  unfold active
  rw [if_neg]
  simp only [TOK_NULL, CLOSURE7, TOK_ERROR, TOK_END, TOK_NUMBER, FUNCTION2, FUNCTION7,
    CLOSURE2] at h ⊢
  omega

theorem active_of_mask_OPEN {t : Nat} (h : TYPE_MASK t = TOK_OPEN) : active t = 1 := by
  unfold TYPE_MASK at h
  unfold active
  rw [if_neg]
  simp only [TOK_NULL, CLOSURE7, TOK_ERROR, TOK_END, TOK_NUMBER, TOK_OPEN] at h ⊢
  omega

theorem active_of_eq_INFIX {t : Nat} (h : t = TOK_INFIX) : active t = 1 := by subst h; rfl
theorem active_of_eq_SEP {t : Nat} (h : t = TOK_SEP) : active t = 1 := by subst h; rfl
theorem active_of_eq_OPEN {t : Nat} (h : t = TOK_OPEN) : active t = 1 := by subst h; rfl

theorem potential_next_le (s : State D) : potential (next_token H s) ≤ potential s := by
  have := next_token_potential H s
  have := potential_def s
  omega

theorem potential_next_lt (s : State D) (h : active s.type = 1) :
    potential (next_token H s) + 1 ≤ potential s := by
  have := next_token_potential H s
  have := potential_def s
  omega

theorem potential_error_le (s : State D) :
    potential ({ s with type := TOK_ERROR } : State D) ≤ potential s := by
  rw [potential_error, potential_def]; omega

set_option maxHeartbeats 4000000 in
theorem total_step (n : Nat) :
    (∀ s, 7 * potential s + 1 ≤ n →
      ∃ t s', base H n s = some (t, s') ∧ potential s' ≤ potential s) ∧
    (∀ a i e s, active s.type = 1 → 7 * potential s + 1 ≤ n →
      ∃ t j s', base_args H n a i e s = some (t, j, s') ∧ potential s' ≤ potential s) ∧
    (∀ s, 7 * potential s + 3 ≤ n →
      ∃ t s', power H n s = some (t, s') ∧ potential s' ≤ potential s) ∧
    (∀ g s, 7 * potential s + 2 ≤ n →
      ∃ t s', power_loop H n g s = some (t, s') ∧ potential s' ≤ potential s) ∧
    (∀ s, 7 * potential s + 4 ≤ n →
      ∃ t s', factor H n s = some (t, s') ∧ potential s' ≤ potential s) ∧
    (∀ e s, 7 * potential s + 1 ≤ n →
      ∃ t s', factor_loop H n e s = some (t, s') ∧ potential s' ≤ potential s) ∧
    (∀ e k s, 7 * potential s + 1 ≤ n →
      ∃ t s', factor_right_loop H n e k s = some (t, s') ∧ potential s' ≤ potential s) ∧
    (∀ s, 7 * potential s + 5 ≤ n →
      ∃ t s', term H n s = some (t, s') ∧ potential s' ≤ potential s) ∧
    (∀ e s, 7 * potential s + 1 ≤ n →
      ∃ t s', term_loop H n e s = some (t, s') ∧ potential s' ≤ potential s) ∧
    (∀ s, 7 * potential s + 6 ≤ n →
      ∃ t s', expr H n s = some (t, s') ∧ potential s' ≤ potential s) ∧
    (∀ e s, 7 * potential s + 1 ≤ n →
      ∃ t s', expr_loop H n e s = some (t, s') ∧ potential s' ≤ potential s) ∧
    (∀ s, 7 * potential s + 7 ≤ n →
      ∃ t s', list H n s = some (t, s') ∧ potential s' ≤ potential s) ∧
    (∀ e s, 7 * potential s + 1 ≤ n →
      ∃ t s', list_loop H n e s = some (t, s') ∧ potential s' ≤ potential s) := by
  induction n with
  | zero =>
    refine ⟨?_, ?_, ?_, ?_, ?_, ?_, ?_, ?_, ?_, ?_, ?_, ?_, ?_⟩ <;> intros <;> omega
  | succ n ih =>
    obtain ⟨ib, iba, ip, ipl, ifa, ifl, ifr, it, itl, ie, iel, il, ill⟩ := ih
    refine ⟨?_, ?_, ?_, ?_, ?_, ?_, ?_, ?_, ?_, ?_, ?_, ?_, ?_⟩
    · -- base
      intro s hn
      have e1 := potential_next_le H s
      rw [base_succ]
      dsimp only
      split_ifs
      · exact ⟨_, _, rfl, e1⟩
      · exact ⟨_, _, rfl, e1⟩
      · have e2 := potential_next_le H (next_token H s)
        have e3 := potential_error_le (next_token H (next_token H s))
        exact ⟨_, _, rfl, by omega⟩
      · have e2 := potential_next_le H (next_token H s)
        have e3 := potential_next_le H (next_token H (next_token H s))
        exact ⟨_, _, rfl, by omega⟩
      · exact ⟨_, _, rfl, e1⟩
      · have ha := potential_next_lt H s (active_of_F1 (by assumption))
        obtain ⟨t, s', hq, hle⟩ := ip (next_token H s) (by omega)
        rw [hq]
        exact ⟨_, _, rfl, by omega⟩
      · have e3 := potential_error_le (next_token H s)
        exact ⟨_, _, rfl, by omega⟩
      · have ha := potential_next_lt H s (active_of_F2 (by assumption))
        have hb : active (next_token H s).type = 1 := active_of_eq_OPEN (by rename_i c7; simpa using c7)
        obtain ⟨t, j, s', hq, hle⟩ :=
          iba (ARITY s.type) 0 (call_node H s) (next_token H s) hb (by omega)
        rw [hq]
        dsimp only
        have e6 := potential_error_le s'
        have e7 := potential_next_le H s'
        split_ifs
        · exact ⟨_, _, rfl, by omega⟩
        · exact ⟨_, _, rfl, by omega⟩
      · have ha := potential_next_lt H s (active_of_mask_OPEN (by assumption))
        obtain ⟨t, s', hq, hle⟩ := il (next_token H s) (by omega)
        rw [hq]
        dsimp only
        have e6 := potential_error_le s'
        have e7 := potential_next_le H s'
        split_ifs
        · exact ⟨_, _, rfl, by omega⟩
        · exact ⟨_, _, rfl, by omega⟩
      · exact ⟨_, _, rfl, potential_error_le s⟩
    · -- base_args
      intro a i e s hact hn
      have ha := potential_next_lt H s hact
      rw [base_args_succ]
      dsimp only
      split_ifs with c1
      · obtain ⟨t, s', hq, hle⟩ := ie (next_token H s) (by omega)
        rw [hq]
        dsimp only
        split_ifs with c2
        · exact ⟨_, _, _, rfl, by omega⟩
        · have hs : active s'.type = 1 := active_of_eq_SEP (by simpa using c2)
          obtain ⟨t2, j, s2, hq2, hle2⟩ := iba a (i + 1) (e.setParam i t) s' hs (by omega)
          exact ⟨_, _, _, hq2, by omega⟩
      · exact ⟨_, _, _, rfl, le_refl _⟩
    · -- power
      intro s hn
      rw [power_succ]
      exact ipl 1 s (by omega)
    · -- power_loop
      intro g s hn
      rw [power_loop_succ]
      by_cases c1 : s.type = TOK_INFIX ∧ (s.function H = Ptr.add ∨ s.function H = Ptr.sub)
      · rw [if_pos c1]
        have ha := potential_next_lt H s (active_of_eq_INFIX c1.1)
        obtain ⟨t, s', hq, hle⟩ :=
          ipl (if s.function H = Ptr.sub then -g else g) (next_token H s) (by omega)
        exact ⟨_, _, hq, by omega⟩
      · rw [if_neg c1]
        obtain ⟨t, s', hq, hle⟩ := ib s (by omega)
        rw [hq]
        dsimp only
        split_ifs
        · exact ⟨_, _, rfl, hle⟩
        · exact ⟨_, _, rfl, hle⟩
    · -- factor
      intro s hn
      rw [factor_succ]
      obtain ⟨t, s', hq, hle⟩ := ip s (by omega)
      rw [hq]
      dsimp only
      split_ifs with c1 c2
      · obtain ⟨t2, s2, hq2, hle2⟩ := ifr (t.param 0) none s' (by omega)
        rw [hq2]
        exact ⟨_, _, rfl, by omega⟩
      · obtain ⟨t2, s2, hq2, hle2⟩ := ifr t none s' (by omega)
        rw [hq2]
        exact ⟨_, _, rfl, by omega⟩
      · obtain ⟨t2, s2, hq2, hle2⟩ := ifl t s' (by omega)
        exact ⟨_, _, hq2, by omega⟩
    · -- factor_loop
      intro e s hn
      rw [factor_loop_succ]
      dsimp only
      split_ifs with c1
      · have ha := potential_next_lt H s (active_of_eq_INFIX c1.1)
        obtain ⟨t, s', hq, hle⟩ := ip (next_token H s) (by omega)
        rw [hq]
        dsimp only
        obtain ⟨t2, s2, hq2, hle2⟩ := ifl ((new_expr (FUNCTION2 + FLAG_PURE) (some [e, t])).setPtr (s.function H)) s' (by omega)
        exact ⟨_, _, hq2, by omega⟩
      · exact ⟨_, _, rfl, le_refl _⟩
    · -- factor_right_loop
      intro e k s hn
      rw [factor_right_loop_succ]
      dsimp only
      split_ifs with c1
      · have ha := potential_next_lt H s (active_of_eq_INFIX c1.1)
        obtain ⟨t, s', hq, hle⟩ := ip (next_token H s) (by omega)
        rw [hq]
        dsimp only
        split
        · obtain ⟨t2, s2, hq2, hle2⟩ := ifr _ _ s' (by omega)
          exact ⟨_, _, hq2, by omega⟩
        · obtain ⟨t2, s2, hq2, hle2⟩ := ifr _ _ s' (by omega)
          exact ⟨_, _, hq2, by omega⟩
      · exact ⟨_, _, rfl, le_refl _⟩
    · -- term
      intro s hn
      rw [term_succ]
      obtain ⟨t, s', hq, hle⟩ := ifa s (by omega)
      rw [hq]
      dsimp only
      obtain ⟨t2, s2, hq2, hle2⟩ := itl t s' (by omega)
      exact ⟨_, _, hq2, by omega⟩
    · -- term_loop
      intro e s hn
      rw [term_loop_succ]
      dsimp only
      split_ifs with c1
      · have ha := potential_next_lt H s (active_of_eq_INFIX c1.1)
        obtain ⟨t, s', hq, hle⟩ := ifa (next_token H s) (by omega)
        rw [hq]
        dsimp only
        obtain ⟨t2, s2, hq2, hle2⟩ := itl ((new_expr (FUNCTION2 + FLAG_PURE) (some [e, t])).setPtr (s.function H)) s' (by omega)
        exact ⟨_, _, hq2, by omega⟩
      · exact ⟨_, _, rfl, le_refl _⟩
    · -- expr
      intro s hn
      rw [expr_succ]
      obtain ⟨t, s', hq, hle⟩ := it s (by omega)
      rw [hq]
      dsimp only
      obtain ⟨t2, s2, hq2, hle2⟩ := iel t s' (by omega)
      exact ⟨_, _, hq2, by omega⟩
    · -- expr_loop
      intro e s hn
      rw [expr_loop_succ]
      dsimp only
      split_ifs with c1
      · have ha := potential_next_lt H s (active_of_eq_INFIX c1.1)
        obtain ⟨t, s', hq, hle⟩ := it (next_token H s) (by omega)
        rw [hq]
        dsimp only
        obtain ⟨t2, s2, hq2, hle2⟩ := iel ((new_expr (FUNCTION2 + FLAG_PURE) (some [e, t])).setPtr (s.function H)) s' (by omega)
        exact ⟨_, _, hq2, by omega⟩
      · exact ⟨_, _, rfl, le_refl _⟩
    · -- list
      intro s hn
      rw [list_succ]
      obtain ⟨t, s', hq, hle⟩ := ie s (by omega)
      rw [hq]
      dsimp only
      obtain ⟨t2, s2, hq2, hle2⟩ := ill t s' (by omega)
      exact ⟨_, _, hq2, by omega⟩
    · -- list_loop
      intro e s hn
      rw [list_loop_succ]
      dsimp only
      split_ifs with c1
      · have ha := potential_next_lt H s (active_of_eq_SEP c1)
        obtain ⟨t, s', hq, hle⟩ := ie (next_token H s) (by omega)
        rw [hq]
        dsimp only
        obtain ⟨t2, s2, hq2, hle2⟩ := ill ((new_expr (FUNCTION2 + FLAG_PURE) (some [e, t])).setPtr Ptr.comma) s' (by omega)
        exact ⟨_, _, hq2, by omega⟩
      · exact ⟨_, _, rfl, le_refl _⟩

end Total

/-! ## The cursor stays inside the text -/

section Within

variable {D W : Type} (H : Host D W)

theorem ite_ind {α : Type} {P : α → Prop} {c : Prop} [Decidable c] {x y : α}
    (hx : P x) (hy : P y) : P (if c then x else y) := by
  split <;> assumption

theorem next_token_loop_frame (fuel : Nat) (s : State D) :
    (next_token_loop H fuel s).start = s.start ∧ (next_token_loop H fuel s).lookup = s.lookup ∧
      (next_token_loop H fuel s).next <:+ s.next := by
  induction fuel generalizing s with
  | zero => exact ⟨rfl, rfl, List.suffix_refl _⟩
  | succ fuel ih =>
    unfold next_token_loop
    split
    · exact ⟨rfl, rfl, List.suffix_refl _⟩
    · rename_i c rest hnext
      dsimp only
      refine ite_ind (P := fun r : State D => r.start = s.start ∧ r.lookup = s.lookup ∧ r.next <:+ s.next) ?_ ?_
      · exact ⟨rfl, rfl, List.suffix_refl _⟩
      refine ite_ind (P := fun r : State D => r.start = s.start ∧ r.lookup = s.lookup ∧ r.next <:+ s.next) ?_ ?_
      · exact ⟨rfl, rfl, List.drop_suffix _ _⟩
      refine ite_ind (P := fun r : State D => r.start = s.start ∧ r.lookup = s.lookup ∧ r.next <:+ s.next) ?_ ?_
      · split
        · exact ⟨rfl, rfl, List.drop_suffix _ _⟩
        · refine ite_ind (P := fun r : State D => r.start = s.start ∧ r.lookup = s.lookup ∧ r.next <:+ s.next) ?_ ?_
          · exact ⟨rfl, rfl, List.drop_suffix _ _⟩
          refine ite_ind (P := fun r : State D => r.start = s.start ∧ r.lookup = s.lookup ∧ r.next <:+ s.next) ?_ ?_
          · exact ⟨rfl, rfl, List.drop_suffix _ _⟩
          refine ite_ind (P := fun r : State D => r.start = s.start ∧ r.lookup = s.lookup ∧ r.next <:+ s.next) ?_ ?_
          · exact ⟨rfl, rfl, List.drop_suffix _ _⟩
          · obtain ⟨h1, h2, h3⟩ := ih { s with next := List.drop (List.takeWhile isIdentChar s.next).length s.next }
            exact ⟨h1, h2, h3.trans (List.drop_suffix _ _)⟩
      · have hr : rest <:+ s.next := by rw [hnext]; exact List.suffix_cons _ _
        obtain ⟨h1, h2, h3⟩ := ih { s with next := rest }
        have hrec : (fun r : State D => r.start = s.start ∧ r.lookup = s.lookup ∧ r.next <:+ s.next)
            (next_token_loop H fuel { s with next := rest }) := ⟨h1, h2, h3.trans hr⟩
        repeat' refine ite_ind (P := fun r : State D => r.start = s.start ∧ r.lookup = s.lookup ∧ r.next <:+ s.next) ?_ ?_
        all_goals first
          | exact hrec
          | exact ⟨rfl, rfl, hr⟩

theorem within_next {text : List Char} {vars : List Variable} {s : State D}
    (h : s.Within text vars) : (next_token H s).Within text vars := by
  obtain ⟨h1, h2, h3⟩ := next_token_loop_frame H (s.next.length + 1) { s with type := TOK_NULL }
  exact ⟨h1.trans h.1, h2.trans h.2.1, h3.trans h.2.2⟩

theorem within_type {text : List Char} {vars : List Variable} {s : State D}
    (h : s.Within text vars) (t : Nat) : ({ s with type := t } : State D).Within text vars := h

theorem within_init (text : List Char) (vars : List Variable) :
    (init_state text vars : State D).Within text vars := ⟨rfl, rfl, List.suffix_refl _⟩


set_option maxHeartbeats 4000000 in
theorem within_step (text : List Char) (vars : List Variable) (n : Nat) :
    (∀ s r, base H n s = some r → s.Within text vars → r.2.Within text vars) ∧
    (∀ a i e s r, base_args H n a i e s = some r → s.Within text vars →
      r.2.2.Within text vars) ∧
    (∀ s r, power H n s = some r → s.Within text vars → r.2.Within text vars) ∧
    (∀ g s r, power_loop H n g s = some r → s.Within text vars → r.2.Within text vars) ∧
    (∀ s r, factor H n s = some r → s.Within text vars → r.2.Within text vars) ∧
    (∀ e s r, factor_loop H n e s = some r → s.Within text vars → r.2.Within text vars) ∧
    (∀ e k s r, factor_right_loop H n e k s = some r → s.Within text vars →
      r.2.Within text vars) ∧
    (∀ s r, term H n s = some r → s.Within text vars → r.2.Within text vars) ∧
    (∀ e s r, term_loop H n e s = some r → s.Within text vars → r.2.Within text vars) ∧
    (∀ s r, expr H n s = some r → s.Within text vars → r.2.Within text vars) ∧
    (∀ e s r, expr_loop H n e s = some r → s.Within text vars → r.2.Within text vars) ∧
    (∀ s r, list H n s = some r → s.Within text vars → r.2.Within text vars) ∧
    (∀ e s r, list_loop H n e s = some r → s.Within text vars → r.2.Within text vars) := by
  induction n with
  | zero =>
    refine ⟨?_, ?_, ?_, ?_, ?_, ?_, ?_, ?_, ?_, ?_, ?_, ?_, ?_⟩ <;> intros <;>
      simp_all [base_zero, base_args_zero, power_zero, power_loop_zero, factor_zero,
        factor_loop_zero, factor_right_loop_zero, term_zero, term_loop_zero, expr_zero,
        expr_loop_zero, list_zero, list_loop_zero]
  | succ n ih =>
    obtain ⟨ib, iba, ip, ipl, ifa, ifl, ifr, it, itl, ie, iel, il, ill⟩ := ih
    refine ⟨?_, ?_, ?_, ?_, ?_, ?_, ?_, ?_, ?_, ?_, ?_, ?_, ?_⟩
    · intro s r h hw
      rw [base_succ] at h
      dsimp only at h
      have w1 := within_next H hw
      have w2 := within_next H w1
      have w3 := within_next H w2
      split_ifs at h
      any_goals (cases h; first | exact w1 | exact w2 | exact w3 | exact hw)
      all_goals
        split at h
        · cases h
        · rename_i heq
          first
          | (have w4 := ip _ _ heq w1; cases h; exact w4)
          | (have w4 := iba _ _ _ _ _ heq w1
             have w5 := within_next H w4
             split_ifs at h <;> cases h <;> first | exact w4 | exact w5)
          | (have w4 := il _ _ heq w1
             have w5 := within_next H w4
             split_ifs at h <;> cases h <;> first | exact w4 | exact w5)
    · intro a i e s r h hw
      rw [base_args_succ] at h
      dsimp only at h
      have w1 := within_next H hw
      split_ifs at h
      · split at h
        · cases h
        · rename_i heq
          have w4 := ie _ _ heq w1
          split_ifs at h
          · cases h; exact w4
          · exact iba _ _ _ _ _ h w4
      · cases h; exact hw
    · intro s r h hw
      rw [power_succ] at h
      exact ipl _ _ _ h hw
    · intro g s r h hw
      rw [power_loop_succ] at h
      by_cases c1 : s.type = TOK_INFIX ∧ (s.function H = Ptr.add ∨ s.function H = Ptr.sub)
      · rw [if_pos c1] at h
        exact ipl _ _ _ h (within_next H hw)
      · rw [if_neg c1] at h
        split at h
        · cases h
        · rename_i heq
          have w4 := ib _ _ heq hw
          split_ifs at h <;> cases h <;> exact w4
    · intro s r h hw
      rw [factor_succ] at h
      split at h
      · cases h
      · rename_i heq
        have w4 := ip _ _ heq hw
        dsimp only at h
        split_ifs at h
        any_goals exact ifl _ _ _ h w4
        all_goals
          split at h
          · cases h
          · rename_i heq2
            have w5 := ifr _ _ _ _ heq2 w4
            cases h; exact w5
    · intro e s r h hw
      rw [factor_loop_succ] at h
      dsimp only at h
      split_ifs at h
      · split at h
        · cases h
        · rename_i heq
          exact ifl _ _ _ h (ip _ _ heq (within_next H hw))
      · cases h; exact hw
    · intro e k s r h hw
      rw [factor_right_loop_succ] at h
      dsimp only at h
      split_ifs at h
      · split at h
        · cases h
        · rename_i heq
          split at h <;> exact ifr _ _ _ _ h (ip _ _ heq (within_next H hw))
      · cases h; exact hw
    · intro s r h hw
      rw [term_succ] at h
      split at h
      · cases h
      · rename_i heq
        exact itl _ _ _ h (ifa _ _ heq hw)
    · intro e s r h hw
      rw [term_loop_succ] at h
      dsimp only at h
      split_ifs at h
      · split at h
        · cases h
        · rename_i heq
          exact itl _ _ _ h (ifa _ _ heq (within_next H hw))
      · cases h; exact hw
    · intro s r h hw
      rw [expr_succ] at h
      split at h
      · cases h
      · rename_i heq
        exact iel _ _ _ h (it _ _ heq hw)
    · intro e s r h hw
      rw [expr_loop_succ] at h
      dsimp only at h
      split_ifs at h
      · split at h
        · cases h
        · rename_i heq
          exact iel _ _ _ h (it _ _ heq (within_next H hw))
      · cases h; exact hw
    · intro s r h hw
      rw [list_succ] at h
      split at h
      · cases h
      · rename_i heq
        exact ill _ _ _ h (ie _ _ heq hw)
    · intro e s r h hw
      rw [list_loop_succ] at h
      dsimp only at h
      split_ifs at h
      · split at h
        · cases h
        · rename_i heq
          exact ill _ _ _ h (ie _ _ heq (within_next H hw))
      · cases h; exact hw


end Within

/-! ## Results that do not mention fuel -/

section Returns

variable {D W : Type} (H : Host D W)

theorem base_mono {n m : Nat} {s : State D} {r} (hnm : n ≤ m) (h : base H n s = some r) :
    base H m s = some r := (mono_le H hnm).1 s r h

theorem base_args_mono {n m : Nat} {a i : Nat} {e : Expression D} {s : State D} {r}
    (hnm : n ≤ m) (h : base_args H n a i e s = some r) : base_args H m a i e s = some r :=
  (mono_le H hnm).2.1 a i e s r h

theorem power_mono {n m : Nat} {s : State D} {r} (hnm : n ≤ m) (h : power H n s = some r) :
    power H m s = some r := (mono_le H hnm).2.2.1 s r h

theorem power_loop_mono {n m : Nat} {g : Int} {s : State D} {r} (hnm : n ≤ m)
    (h : power_loop H n g s = some r) : power_loop H m g s = some r :=
  (mono_le H hnm).2.2.2.1 g s r h

theorem factor_mono {n m : Nat} {s : State D} {r} (hnm : n ≤ m)
    (h : factor H n s = some r) : factor H m s = some r :=
  (mono_le H hnm).2.2.2.2.1 s r h

theorem factor_loop_mono {n m : Nat} {e : Expression D} {s : State D} {r} (hnm : n ≤ m)
    (h : factor_loop H n e s = some r) : factor_loop H m e s = some r :=
  (mono_le H hnm).2.2.2.2.2.1 e s r h

theorem factor_right_loop_mono {n m : Nat} {e : Expression D} {k : Option Nat} {s : State D}
    {r} (hnm : n ≤ m) (h : factor_right_loop H n e k s = some r) :
    factor_right_loop H m e k s = some r :=
  (mono_le H hnm).2.2.2.2.2.2.1 e k s r h

theorem term_mono {n m : Nat} {s : State D} {r} (hnm : n ≤ m) (h : term H n s = some r) :
    term H m s = some r := (mono_le H hnm).2.2.2.2.2.2.2.1 s r h

theorem term_loop_mono {n m : Nat} {e : Expression D} {s : State D} {r} (hnm : n ≤ m)
    (h : term_loop H n e s = some r) : term_loop H m e s = some r :=
  (mono_le H hnm).2.2.2.2.2.2.2.2.1 e s r h

theorem expr_mono {n m : Nat} {s : State D} {r} (hnm : n ≤ m) (h : expr H n s = some r) :
    expr H m s = some r := (mono_le H hnm).2.2.2.2.2.2.2.2.2.1 s r h

theorem expr_loop_mono {n m : Nat} {e : Expression D} {s : State D} {r} (hnm : n ≤ m)
    (h : expr_loop H n e s = some r) : expr_loop H m e s = some r :=
  (mono_le H hnm).2.2.2.2.2.2.2.2.2.2.1 e s r h

theorem list_mono {n m : Nat} {s : State D} {r} (hnm : n ≤ m) (h : list H n s = some r) :
    list H m s = some r := (mono_le H hnm).2.2.2.2.2.2.2.2.2.2.2.1 s r h

theorem list_loop_mono {n m : Nat} {e : Expression D} {s : State D} {r} (hnm : n ≤ m)
    (h : list_loop H n e s = some r) : list_loop H m e s = some r :=
  (mono_le H hnm).2.2.2.2.2.2.2.2.2.2.2.2 e s r h

/-- The parser run by `te_compile` returns: `list` gets enough fuel. -/
theorem list_total (text : List Char) (vars : List Variable) :
    ∃ root s, list H (compile_fuel text) (next_token H (init_state text vars)) = some (root, s) := by
  have h1 := next_token_potential H (init_state text vars : State D)
  have h2 : (init_state text vars : State D).next.length = text.length := rfl
  obtain ⟨t, s', hq, _⟩ := (total_step H (compile_fuel text)).2.2.2.2.2.2.2.2.2.2.2.1
    (next_token H (init_state text vars)) (by unfold compile_fuel; omega)
  exact ⟨t, s', hq⟩

/-- Whatever fuel shows the result of `list`, `te_compile` acts on that result. -/
theorem te_compile_of_returns {text : List Char} {vars : List Variable} {root : Expression D}
    {s : State D}
    (h : list_returns H (next_token H (init_state text vars)) (root, s)) (w : W) :
    te_compile H text vars w = some (compile_result H root s w) := by
  obtain ⟨n, hn⟩ := h
  obtain ⟨root', s', hq⟩ := list_total H text vars
  have e1 := list_mono H (le_max_left n (compile_fuel text)) hn
  have e2 := list_mono H (le_max_right n (compile_fuel text)) hq
  rw [e1] at e2
  simp only [Option.some.injEq, Prod.mk.injEq] at e2
  obtain ⟨rfl, rfl⟩ := e2
  unfold te_compile
  simp only [hq]

/-- The final state of the parser run by `te_compile` has its cursor inside the text. -/
theorem list_within {text : List Char} {vars : List Variable} {root : Expression D}
    {s : State D}
    (h : list_returns H (next_token H (init_state text vars)) (root, s)) :
    s.Within text vars := by
  obtain ⟨n, hn⟩ := h
  exact (within_step H text vars n).2.2.2.2.2.2.2.2.2.2.2.1 _ _ hn
    (within_next H (within_init text vars))

end Returns

/-! ## Rules for the productions, without fuel -/

section Rules
variable {D W : Type} (H : Host D W)

theorem base_returns_number {s : State D} (h : TYPE_MASK s.type = TOK_NUMBER) :
    base_returns H s ((new_expr TE_CONSTANT none).setValue (s.value H), next_token H s) := by
  refine ⟨1, ?_⟩
  rw [base_succ]
  dsimp only
  rw [if_pos h]

theorem base_returns_variable {s : State D} (h : TYPE_MASK s.type = TOK_VARIABLE) :
    base_returns H s ((new_expr VARIABLE none).setPtr (s.function H), next_token H s) := by
  refine ⟨1, ?_⟩
  rw [base_succ]
  dsimp only
  split_ifs <;> first
    | rfl
    | (exfalso; simp only [TOK_NUMBER, TOK_VARIABLE] at *; omega)

theorem base_returns_fun0 {s : State D}
    (h : TYPE_MASK s.type = FUNCTION0 ∨ TYPE_MASK s.type = CLOSURE0) :
    base_returns H s
      (if (next_token H s).type = TOK_OPEN then
        if (next_token H (next_token H s)).type ≠ TOK_CLOSE then
          (call_node H s, { next_token H (next_token H s) with type := TOK_ERROR })
        else (call_node H s, next_token H (next_token H (next_token H s)))
      else (call_node H s, next_token H s)) := by
  refine ⟨1, ?_⟩
  rw [base_succ]
  dsimp only
  split_ifs <;> first
    | rfl
    | (exfalso; simp only [TOK_NUMBER, TOK_VARIABLE, FUNCTION0, CLOSURE0] at *; omega)

theorem base_returns_fun1 {s : State D} {p : Expression D} {s' : State D}
    (h : TYPE_MASK s.type = FUNCTION1 ∨ TYPE_MASK s.type = CLOSURE1)
    (hp : power_returns H (next_token H s) (p, s')) :
    base_returns H s ((call_node H s).setParam 0 p, s') := by
  obtain ⟨n, hp⟩ := hp
  refine ⟨n + 1, ?_⟩
  rw [base_succ]
  dsimp only
  rw [hp]
  split_ifs <;> first
    | rfl
    | (exfalso
       simp only [TOK_NUMBER, TOK_VARIABLE, FUNCTION0, CLOSURE0, FUNCTION1, CLOSURE1] at *
       omega)

theorem base_returns_funN_no_open {s : State D}
    (h : (FUNCTION2 ≤ TYPE_MASK s.type ∧ TYPE_MASK s.type ≤ FUNCTION7) ∨
      (CLOSURE2 ≤ TYPE_MASK s.type ∧ TYPE_MASK s.type ≤ CLOSURE7))
    (ho : (next_token H s).type ≠ TOK_OPEN) :
    base_returns H s (call_node H s, { next_token H s with type := TOK_ERROR }) := by
  refine ⟨1, ?_⟩
  rw [base_succ]
  dsimp only
  split_ifs <;> first
    | rfl
    | (exfalso
       simp only [TOK_NUMBER, TOK_VARIABLE, FUNCTION0, CLOSURE0, FUNCTION1, CLOSURE1,
         FUNCTION2, FUNCTION7, CLOSURE2, CLOSURE7] at *
       omega)

theorem base_returns_funN {s : State D} {ret : Expression D} {i : Nat} {s' : State D}
    (h : (FUNCTION2 ≤ TYPE_MASK s.type ∧ TYPE_MASK s.type ≤ FUNCTION7) ∨
      (CLOSURE2 ≤ TYPE_MASK s.type ∧ TYPE_MASK s.type ≤ CLOSURE7))
    (ho : (next_token H s).type = TOK_OPEN)
    (ha : base_args_returns H (ARITY s.type) 0 (call_node H s) (next_token H s) (ret, i, s')) :
    base_returns H s
      (if s'.type ≠ TOK_CLOSE ∨ i ≠ ARITY s.type - 1 then (ret, { s' with type := TOK_ERROR })
       else (ret, next_token H s')) := by
  obtain ⟨n, ha⟩ := ha
  refine ⟨n + 1, ?_⟩
  rw [base_succ]
  dsimp only
  rw [ha]
  dsimp only
  split_ifs <;> first
    | rfl
    | (exfalso
       simp only [TOK_NUMBER, TOK_VARIABLE, FUNCTION0, CLOSURE0, FUNCTION1, CLOSURE1,
         FUNCTION2, FUNCTION7, CLOSURE2, CLOSURE7] at *
       omega)

theorem base_returns_open {s : State D} {t : Expression D} {s' : State D}
    (h : TYPE_MASK s.type = TOK_OPEN) (hl : list_returns H (next_token H s) (t, s')) :
    base_returns H s
      (if s'.type ≠ TOK_CLOSE then (t, { s' with type := TOK_ERROR })
       else (t, next_token H s')) := by
  obtain ⟨n, hl⟩ := hl
  refine ⟨n + 1, ?_⟩
  rw [base_succ]
  dsimp only
  rw [hl]
  dsimp only
  split_ifs <;> first
    | rfl
    | (exfalso
       simp only [TOK_NUMBER, TOK_VARIABLE, FUNCTION0, CLOSURE0, FUNCTION1, CLOSURE1,
         FUNCTION2, FUNCTION7, CLOSURE2, CLOSURE7, TOK_OPEN] at *
       omega)

theorem base_returns_default {s : State D}
    (h : TYPE_MASK s.type < FUNCTION0 ∨
      (CLOSURE7 < TYPE_MASK s.type ∧ TYPE_MASK s.type < TOK_OPEN) ∨
      TYPE_MASK s.type = TOK_CLOSE) :
    base_returns H s ((new_expr 0 none).setValue H.nan, { s with type := TOK_ERROR }) := by
  refine ⟨1, ?_⟩
  rw [base_succ]
  dsimp only
  split_ifs <;> first
    | rfl
    | (exfalso
       simp only [TOK_NUMBER, TOK_VARIABLE, FUNCTION0, CLOSURE0, FUNCTION1, CLOSURE1,
         FUNCTION2, FUNCTION7, CLOSURE2, CLOSURE7, TOK_OPEN, TOK_CLOSE] at *
       omega)

theorem base_args_returns_done {arity i : Nat} {ret : Expression D} {s : State D}
    (h : ¬ i < arity) : base_args_returns H arity i ret s (ret, i, s) := by
  refine ⟨1, ?_⟩
  rw [base_args_succ, if_neg h]

theorem base_args_returns_last {arity i : Nat} {ret p : Expression D} {s s' : State D}
    (h : i < arity) (he : expr_returns H (next_token H s) (p, s')) (hs : s'.type ≠ TOK_SEP) :
    base_args_returns H arity i ret s (ret.setParam i p, i, s') := by
  obtain ⟨n, he⟩ := he
  refine ⟨n + 1, ?_⟩
  rw [base_args_succ, if_pos h]
  dsimp only
  rw [he]
  dsimp only
  rw [if_pos hs]

theorem base_args_returns_more {arity i : Nat} {ret p : Expression D} {s s' : State D} {r}
    (h : i < arity) (he : expr_returns H (next_token H s) (p, s')) (hs : s'.type = TOK_SEP)
    (hr : base_args_returns H arity (i + 1) (ret.setParam i p) s' r) :
    base_args_returns H arity i ret s r := by
  obtain ⟨n, he⟩ := he
  obtain ⟨m, hr⟩ := hr
  refine ⟨max n m + 1, ?_⟩
  rw [base_args_succ, if_pos h]
  dsimp only
  rw [expr_mono H (le_max_left n m) he]
  dsimp only
  rw [if_neg (by simpa using hs)]
  exact base_args_mono H (le_max_right n m) hr

theorem power_returns_iff {s : State D} {r} :
    power_returns H s r ↔ power_loop_returns H 1 s r := by
  constructor
  · rintro ⟨n, h⟩
    cases n with
    | zero => rw [power_zero] at h; cases h
    | succ n => rw [power_succ] at h; exact ⟨n, h⟩
  · rintro ⟨n, h⟩
    exact ⟨n + 1, by rw [power_succ]; exact h⟩

theorem power_loop_returns_sign {sign : Int} {s : State D} {r}
    (h : s.type = TOK_INFIX ∧ (s.function H = Ptr.add ∨ s.function H = Ptr.sub))
    (hr : power_loop_returns H (if s.function H = Ptr.sub then -sign else sign)
      (next_token H s) r) :
    power_loop_returns H sign s r := by
  obtain ⟨n, hr⟩ := hr
  refine ⟨n + 1, ?_⟩
  rw [power_loop_succ, if_pos h]
  exact hr

theorem power_loop_returns_base (sign : Int) {s : State D} {b : Expression D} {s' : State D}
    (h : ¬ (s.type = TOK_INFIX ∧ (s.function H = Ptr.add ∨ s.function H = Ptr.sub)))
    (hb : base_returns H s (b, s')) :
    power_loop_returns H sign s
      (if sign = 1 then (b, s')
       else ((new_expr (FUNCTION1 + FLAG_PURE) (some [b])).setPtr Ptr.negate, s')) := by
  obtain ⟨n, hb⟩ := hb
  refine ⟨n + 1, ?_⟩
  rw [power_loop_succ, if_neg h, hb]
  dsimp only
  split_ifs <;> rfl

theorem factor_returns_left {s : State D} {t : Expression D} {s1 : State D} {r}
    (hm : H.TE_POW_FROM_RIGHT = false) (hp : power_returns H s (t, s1))
    (hl : factor_loop_returns H t s1 r) : factor_returns H s r := by
  obtain ⟨n, hp⟩ := hp
  obtain ⟨m, hl⟩ := hl
  refine ⟨max n m + 1, ?_⟩
  rw [factor_succ, power_mono H (le_max_left n m) hp]
  dsimp only
  rw [hm]
  exact factor_loop_mono H (le_max_right n m) hl

theorem factor_returns_right {s : State D} {t : Expression D} {s1 : State D}
    {t2 : Expression D} {s2 : State D}
    (hm : H.TE_POW_FROM_RIGHT = true) (hp : power_returns H s (t, s1))
    (hl : factor_right_loop_returns H
      (if t.type = FUNCTION1 + FLAG_PURE ∧ t.function H.asPtr = Ptr.negate then t.param 0 else t)
      none s1 (t2, s2)) :
    factor_returns H s
      (if t.type = FUNCTION1 + FLAG_PURE ∧ t.function H.asPtr = Ptr.negate then
        ((new_expr (FUNCTION1 + FLAG_PURE) (some [t2])).setPtr Ptr.negate, s2)
       else (t2, s2)) := by
  obtain ⟨n, hp⟩ := hp
  obtain ⟨m, hl⟩ := hl
  refine ⟨max n m + 1, ?_⟩
  rw [factor_succ, power_mono H (le_max_left n m) hp]
  dsimp only
  rw [hm]
  simp only [if_true]
  by_cases c : t.type = FUNCTION1 + FLAG_PURE ∧ t.function H.asPtr = Ptr.negate
  · simp only [c, and_self, decide_True, if_true] at hl ⊢
    rw [factor_right_loop_mono H (le_max_right n m) hl]
  · simp only [c, decide_False, Bool.false_eq_true, if_false] at hl ⊢
    rw [factor_right_loop_mono H (le_max_right n m) hl]

theorem factor_loop_returns_stop {ret : Expression D} {s : State D}
    (h : ¬ (s.type = TOK_INFIX ∧ s.function H = Ptr.pow)) :
    factor_loop_returns H ret s (ret, s) := by
  refine ⟨1, ?_⟩
  rw [factor_loop_succ, if_neg h]

theorem factor_loop_returns_step {ret p : Expression D} {s s1 : State D} {r}
    (h : s.type = TOK_INFIX ∧ s.function H = Ptr.pow)
    (hp : power_returns H (next_token H s) (p, s1))
    (hl : factor_loop_returns H
      ((new_expr (FUNCTION2 + FLAG_PURE) (some [ret, p])).setPtr (s.function H)) s1 r) :
    factor_loop_returns H ret s r := by
  obtain ⟨n, hp⟩ := hp
  obtain ⟨m, hl⟩ := hl
  refine ⟨max n m + 1, ?_⟩
  rw [factor_loop_succ, if_pos h]
  dsimp only
  rw [power_mono H (le_max_left n m) hp]
  exact factor_loop_mono H (le_max_right n m) hl

theorem factor_right_loop_returns_stop {ret : Expression D} {k : Option Nat} {s : State D}
    (h : ¬ (s.type = TOK_INFIX ∧ s.function H = Ptr.pow)) :
    factor_right_loop_returns H ret k s (ret, s) := by
  refine ⟨1, ?_⟩
  rw [factor_right_loop_succ, if_neg h]

theorem factor_right_loop_returns_first {ret p : Expression D} {s s1 : State D} {r}
    (h : s.type = TOK_INFIX ∧ s.function H = Ptr.pow)
    (hp : power_returns H (next_token H s) (p, s1))
    (hl : factor_right_loop_returns H
      ((new_expr (FUNCTION2 + FLAG_PURE) (some [ret, p])).setPtr (s.function H)) (some 0) s1 r) :
    factor_right_loop_returns H ret none s r := by
  obtain ⟨n, hp⟩ := hp
  obtain ⟨m, hl⟩ := hl
  refine ⟨max n m + 1, ?_⟩
  rw [factor_right_loop_succ, if_pos h]
  dsimp only
  rw [power_mono H (le_max_left n m) hp]
  exact factor_right_loop_mono H (le_max_right n m) hl

theorem factor_right_loop_returns_next {ret p : Expression D} {k : Nat} {s s1 : State D} {r}
    (h : s.type = TOK_INFIX ∧ s.function H = Ptr.pow)
    (hp : power_returns H (next_token H s) (p, s1))
    (hl : factor_right_loop_returns H
      (at_insertion (fun ins => ins.setParam 1
        ((new_expr (FUNCTION2 + FLAG_PURE) (some [ins.param 1, p])).setPtr (s.function H)))
        k ret) (some (k + 1)) s1 r) :
    factor_right_loop_returns H ret (some k) s r := by
  obtain ⟨n, hp⟩ := hp
  obtain ⟨m, hl⟩ := hl
  refine ⟨max n m + 1, ?_⟩
  rw [factor_right_loop_succ, if_pos h]
  dsimp only
  rw [power_mono H (le_max_left n m) hp]
  exact factor_right_loop_mono H (le_max_right n m) hl

theorem term_returns_intro {s : State D} {t : Expression D} {s1 : State D} {r}
    (hf : factor_returns H s (t, s1)) (hl : term_loop_returns H t s1 r) :
    term_returns H s r := by
  obtain ⟨n, hf⟩ := hf
  obtain ⟨m, hl⟩ := hl
  refine ⟨max n m + 1, ?_⟩
  rw [term_succ, factor_mono H (le_max_left n m) hf]
  exact term_loop_mono H (le_max_right n m) hl

theorem term_loop_returns_stop {ret : Expression D} {s : State D}
    (h : ¬ (s.type = TOK_INFIX ∧
      (s.function H = Ptr.mul ∨ s.function H = Ptr.divide ∨ s.function H = Ptr.fmod))) :
    term_loop_returns H ret s (ret, s) := by
  refine ⟨1, ?_⟩
  rw [term_loop_succ, if_neg h]

theorem term_loop_returns_step {ret f : Expression D} {s s1 : State D} {r}
    (h : s.type = TOK_INFIX ∧
      (s.function H = Ptr.mul ∨ s.function H = Ptr.divide ∨ s.function H = Ptr.fmod))
    (hf : factor_returns H (next_token H s) (f, s1))
    (hl : term_loop_returns H
      ((new_expr (FUNCTION2 + FLAG_PURE) (some [ret, f])).setPtr (s.function H)) s1 r) :
    term_loop_returns H ret s r := by
  obtain ⟨n, hf⟩ := hf
  obtain ⟨m, hl⟩ := hl
  refine ⟨max n m + 1, ?_⟩
  rw [term_loop_succ, if_pos h]
  dsimp only
  rw [factor_mono H (le_max_left n m) hf]
  exact term_loop_mono H (le_max_right n m) hl

theorem expr_returns_intro {s : State D} {t : Expression D} {s1 : State D} {r}
    (ht : term_returns H s (t, s1)) (hl : expr_loop_returns H t s1 r) :
    expr_returns H s r := by
  obtain ⟨n, ht⟩ := ht
  obtain ⟨m, hl⟩ := hl
  refine ⟨max n m + 1, ?_⟩
  rw [expr_succ, term_mono H (le_max_left n m) ht]
  exact expr_loop_mono H (le_max_right n m) hl

theorem expr_loop_returns_stop {ret : Expression D} {s : State D}
    (h : ¬ (s.type = TOK_INFIX ∧ (s.function H = Ptr.add ∨ s.function H = Ptr.sub))) :
    expr_loop_returns H ret s (ret, s) := by
  refine ⟨1, ?_⟩
  rw [expr_loop_succ, if_neg h]

theorem expr_loop_returns_step {ret f : Expression D} {s s1 : State D} {r}
    (h : s.type = TOK_INFIX ∧ (s.function H = Ptr.add ∨ s.function H = Ptr.sub))
    (hf : term_returns H (next_token H s) (f, s1))
    (hl : expr_loop_returns H
      ((new_expr (FUNCTION2 + FLAG_PURE) (some [ret, f])).setPtr (s.function H)) s1 r) :
    expr_loop_returns H ret s r := by
  obtain ⟨n, hf⟩ := hf
  obtain ⟨m, hl⟩ := hl
  refine ⟨max n m + 1, ?_⟩
  rw [expr_loop_succ, if_pos h]
  dsimp only
  rw [term_mono H (le_max_left n m) hf]
  exact expr_loop_mono H (le_max_right n m) hl

theorem list_returns_intro {s : State D} {t : Expression D} {s1 : State D} {r}
    (he : expr_returns H s (t, s1)) (hl : list_loop_returns H t s1 r) :
    list_returns H s r := by
  obtain ⟨n, he⟩ := he
  obtain ⟨m, hl⟩ := hl
  refine ⟨max n m + 1, ?_⟩
  rw [list_succ, expr_mono H (le_max_left n m) he]
  exact list_loop_mono H (le_max_right n m) hl

theorem list_loop_returns_stop {ret : Expression D} {s : State D} (h : s.type ≠ TOK_SEP) :
    list_loop_returns H ret s (ret, s) := by
  refine ⟨1, ?_⟩
  rw [list_loop_succ, if_neg h]

theorem list_loop_returns_step {ret f : Expression D} {s s1 : State D} {r}
    (h : s.type = TOK_SEP) (he : expr_returns H (next_token H s) (f, s1))
    (hl : list_loop_returns H
      ((new_expr (FUNCTION2 + FLAG_PURE) (some [ret, f])).setPtr Ptr.comma) s1 r) :
    list_loop_returns H ret s r := by
  obtain ⟨n, he⟩ := he
  obtain ⟨m, hl⟩ := hl
  refine ⟨max n m + 1, ?_⟩
  rw [list_loop_succ, if_pos h]
  dsimp only
  rw [expr_mono H (le_max_left n m) he]
  exact list_loop_mono H (le_max_right n m) hl

end Rules

/-! ## Constant folding keeps the value -/

section Folding
variable {D W : Type} (H : Host D W)

theorem invoke_deterministic (hdet : H.Deterministic) (f : Ptr) (ctx : Option Ptr)
    (args : List D) (w : W) :
    (invoke H f ctx args w).2 = w ∧ ∀ w', (invoke H f ctx args w').1 = (invoke H f ctx args w).1 := by
  unfold invoke
  split <;> try exact ⟨rfl, fun _ => rfl⟩
  split
  · exact ⟨rfl, fun _ => rfl⟩
  · exact hdet _ _ _ _


theorem te_eval_null (w : W) : te_eval H (Expression.null : Expression D) w = (H.nan, w) := by
  rw [te_eval]

theorem te_eval_node (type : Nat) (payload : Payload D) (parameters : List (Expression D))
    (context : Ptr) (w : W) :
    te_eval H (Expression.node type payload parameters context) w =
    if TYPE_MASK type = TE_CONSTANT then
      ((Expression.node type payload parameters context).value H.asDouble, w)
    else if TYPE_MASK type = VARIABLE then
      (H.load ((Expression.node type payload parameters context).function H.asPtr) w, w)
    else if FUNCTION0 ≤ TYPE_MASK type ∧ TYPE_MASK type ≤ FUNCTION7 then
      invoke H ((Expression.node type payload parameters context).function H.asPtr) none
        (te_eval_args H (ARITY type) parameters w).1 (te_eval_args H (ARITY type) parameters w).2
    else if CLOSURE0 ≤ TYPE_MASK type ∧ TYPE_MASK type ≤ CLOSURE7 then
      invoke H ((Expression.node type payload parameters context).function H.asPtr)
        (some context) (te_eval_args H (ARITY type) parameters w).1
        (te_eval_args H (ARITY type) parameters w).2
    else (H.nan, w) := by
  rw [te_eval]

theorem te_eval_args_zero (ps : List (Expression D)) (w : W) :
    te_eval_args H 0 ps w = ([], w) := by
  rw [te_eval_args]

theorem te_eval_args_nil (arity : Nat) (w : W) :
    te_eval_args H (arity + 1) [] w = (List.replicate (arity + 1) H.nan, w) := by
  rw [te_eval_args]

theorem te_eval_args_cons (arity : Nat) (p : Expression D) (ps : List (Expression D)) (w : W) :
    te_eval_args H (arity + 1) (p :: ps) w =
      ((te_eval H p w).1 :: (te_eval_args H arity ps (te_eval H p w).2).1,
        (te_eval_args H arity ps (te_eval H p w).2).2) := by
  rw [te_eval_args]

theorem optimize_null (w : W) :
    optimize H (Expression.null : Expression D) w = (Expression.null, w) := by
  rw [optimize]

theorem optimize_node (type : Nat) (payload : Payload D) (parameters : List (Expression D))
    (context : Ptr) (w : W) :
    optimize H (Expression.node type payload parameters context) w =
    if type = TE_CONSTANT then (Expression.node type payload parameters context, w)
    else if type = VARIABLE then (Expression.node type payload parameters context, w)
    else if IS_PURE type then
      if (optimize_params H (ARITY type) parameters w).2.1 then
        (Expression.node TE_CONSTANT (Payload.value (te_eval H
            (Expression.node type payload (optimize_params H (ARITY type) parameters w).1 context)
            (optimize_params H (ARITY type) parameters w).2.2).1) [] context,
          (te_eval H
            (Expression.node type payload (optimize_params H (ARITY type) parameters w).1 context)
            (optimize_params H (ARITY type) parameters w).2.2).2)
      else (Expression.node type payload (optimize_params H (ARITY type) parameters w).1 context,
        (optimize_params H (ARITY type) parameters w).2.2)
    else (Expression.node type payload parameters context, w) := by
  rw [optimize]

theorem optimize_params_zero (ps : List (Expression D)) (w : W) :
    optimize_params H 0 ps w = (ps, true, w) := by
  rw [optimize_params]

theorem optimize_params_nil (arity : Nat) (w : W) :
    optimize_params H (arity + 1) ([] : List (Expression D)) w = ([], false, w) := by
  rw [optimize_params]

theorem optimize_params_cons (arity : Nat) (p : Expression D) (ps : List (Expression D))
    (w : W) :
    optimize_params H (arity + 1) (p :: ps) w =
      ((optimize H p w).1 :: (optimize_params H arity ps (optimize H p w).2).1,
        decide ((optimize H p w).1.type = TE_CONSTANT) &&
          (optimize_params H arity ps (optimize H p w).2).2.1,
        (optimize_params H arity ps (optimize H p w).2).2.2) := by
  rw [optimize_params]


mutual

theorem te_eval_world (hdet : H.Deterministic) :
    ∀ (t : Expression D) (w : W), (te_eval H t w).2 = w
  | Expression.null, w => by rw [te_eval_null]
  | Expression.node type payload parameters context, w => by
    rw [te_eval_node]
    split_ifs
    · rfl
    · rfl
    · rw [(invoke_deterministic H hdet _ _ _ _).1]
      exact te_eval_args_world hdet _ parameters w
    · rw [(invoke_deterministic H hdet _ _ _ _).1]
      exact te_eval_args_world hdet _ parameters w
    · rfl

theorem te_eval_args_world (hdet : H.Deterministic) :
    ∀ (arity : Nat) (ps : List (Expression D)) (w : W), (te_eval_args H arity ps w).2 = w
  | 0, ps, w => by rw [te_eval_args_zero]
  | arity + 1, [], w => by rw [te_eval_args_nil]
  | arity + 1, p :: ps, w => by
    rw [te_eval_args_cons]
    dsimp only
    rw [te_eval_args_world hdet arity ps, te_eval_world hdet p]

end

theorem te_eval_constant {p : Expression D} (h : p.type = TE_CONSTANT) (w : W) :
    te_eval H p w = (p.value H.asDouble, w) := by
  cases p with
  | null => cases h
  | node type payload parameters context =>
    simp only [Expression.type] at h
    subst h
    rw [te_eval_node, if_pos (show TYPE_MASK TE_CONSTANT = TE_CONSTANT from rfl)]

/-- Values of constant slots do not depend on the world. -/
theorem te_eval_args_constant :
    ∀ (arity : Nat) (ps : List (Expression D)) (w w' : W),
      (∀ p ∈ ps.take arity, p.type = TE_CONSTANT) →
      (te_eval_args H arity ps w).1 = (te_eval_args H arity ps w').1
  | 0, ps, w, w', _ => by rw [te_eval_args_zero, te_eval_args_zero]
  | arity + 1, [], w, w', _ => by rw [te_eval_args_nil, te_eval_args_nil]
  | arity + 1, p :: ps, w, w', h => by
    have hp : p.type = TE_CONSTANT := h p (by simp)
    have hps : ∀ q ∈ ps.take arity, q.type = TE_CONSTANT := fun q hq => h q (by simp [hq])
    rw [te_eval_args_cons, te_eval_args_cons, te_eval_constant H hp, te_eval_constant H hp]
    dsimp only
    rw [te_eval_args_constant arity ps w w' hps]

mutual

theorem optimize_sound (hdet : H.Deterministic) :
    ∀ (t : Expression D), t.Built → ∀ (w0 : W),
      (optimize H t w0).2 = w0 ∧
      ∀ w, (te_eval H (optimize H t w0).1 w).1 = (te_eval H t w).1
  | Expression.null, h, _ => by cases h
  | Expression.node type payload parameters context, h, w0 => by
    rw [optimize_node]
    by_cases c1 : type = TE_CONSTANT
    · rw [if_pos c1]; exact ⟨rfl, fun _ => rfl⟩
    rw [if_neg c1]
    by_cases c2 : type = VARIABLE
    · rw [if_pos c2]; exact ⟨rfl, fun _ => rfl⟩
    rw [if_neg c2]
    by_cases c3 : IS_PURE type = true
    · rw [if_pos c3]
      have hb : (FUNCTION0 ≤ TYPE_MASK type ∧ TYPE_MASK type ≤ CLOSURE7) ∧
          parameters.length = ARITY type ∧ Expression.BuiltAll parameters := by
        unfold Expression.Built at h
        rcases h with h | h | h
        · exact absurd h c1
        · exact absurd h c2
        · exact h
      obtain ⟨hw, hv, hk⟩ := optimize_params_sound hdet (ARITY type) parameters hb.2.2 w0
      have hm1 : ¬ TYPE_MASK type = TE_CONSTANT := by
        have := hb.1; simp only [FUNCTION0, TE_CONSTANT] at *; omega
      have hm2 : ¬ TYPE_MASK type = VARIABLE := by
        have := hb.1; simp only [FUNCTION0, VARIABLE] at *; omega
      have ef : ∀ ps, Expression.function H.asPtr (Expression.node type payload ps context) =
          Expression.function H.asPtr (Expression.node type payload parameters context) := by
        intro ps; cases payload <;> rfl
      by_cases c4 : (optimize_params H (ARITY type) parameters w0).2.1 = true
      · rw [if_pos c4]
        refine ⟨?_, ?_⟩
        · dsimp only
          rw [te_eval_world H hdet, hw]
        · intro w
          dsimp only
          rw [te_eval_node, if_pos (show TYPE_MASK TE_CONSTANT = TE_CONSTANT from rfl)]
          simp only [Expression.value]
          rw [te_eval_node, te_eval_node, if_neg hm1, if_neg hm2, if_neg hm1, if_neg hm2]
          rw [hw]
          have e1 : (te_eval_args H (ARITY type) (optimize_params H (ARITY type) parameters w0).1 w0).1 =
              (te_eval_args H (ARITY type) parameters w).1 := by
            rw [hk c4 w0 w, hv w]
          simp only [te_eval_args_world H hdet, e1, ef]
          split_ifs
          · exact (invoke_deterministic H hdet _ _ _ _).2 _
          · exact (invoke_deterministic H hdet _ _ _ _).2 _
          · rfl
      · rw [if_neg c4]
        refine ⟨hw, ?_⟩
        intro w
        dsimp only
        rw [te_eval_node, te_eval_node, hv w, if_neg hm1, if_neg hm2, if_neg hm1, if_neg hm2]
        simp only [te_eval_args_world H hdet, ef]
    · rw [if_neg c3]; exact ⟨rfl, fun _ => rfl⟩

theorem optimize_params_sound (hdet : H.Deterministic) :
    ∀ (arity : Nat) (ps : List (Expression D)), Expression.BuiltAll ps → ∀ (w0 : W),
      (optimize_params H arity ps w0).2.2 = w0 ∧
      (∀ w, (te_eval_args H arity (optimize_params H arity ps w0).1 w).1 =
        (te_eval_args H arity ps w).1) ∧
      ((optimize_params H arity ps w0).2.1 = true → ∀ w w',
        (te_eval_args H arity (optimize_params H arity ps w0).1 w).1 =
        (te_eval_args H arity (optimize_params H arity ps w0).1 w').1)
  | 0, ps, _, w0 => by
    rw [optimize_params_zero]
    refine ⟨rfl, fun _ => rfl, fun _ _ _ => ?_⟩
    rw [te_eval_args_zero, te_eval_args_zero]
  | arity + 1, [], _, w0 => by
    rw [optimize_params_nil]
    refine ⟨rfl, fun _ => rfl, fun _ _ _ => ?_⟩
    rw [te_eval_args_nil, te_eval_args_nil]
  | arity + 1, p :: ps, h, w0 => by
    unfold Expression.BuiltAll at h
    obtain ⟨hp1, hp2⟩ := optimize_sound hdet p h.1 w0
    rw [optimize_params_cons]
    rw [hp1]
    obtain ⟨hw, hv, hk⟩ := optimize_params_sound hdet arity ps h.2 w0
    refine ⟨hw, ?_, ?_⟩
    · intro w
      dsimp only
      rw [te_eval_args_cons, te_eval_args_cons, hp2 w, te_eval_world H hdet,
        te_eval_world H hdet, hv w]
    · intro hkn w w'
      dsimp only at hkn ⊢
      simp only [Bool.and_eq_true, decide_eq_true_eq] at hkn
      rw [te_eval_args_cons, te_eval_args_cons, te_eval_constant H hkn.1,
        te_eval_constant H hkn.1]
      dsimp only
      rw [hk hkn.2 w w']

end

end Folding

/-! ## Lexing, errors, and the error offset -/

section Lex
variable {D W : Type} (H : Host D W)

theorem next_token_number {s : State D} {a rest : List Char}
    (hc : ∃ c t, a = c :: t ∧ (isDigit c = true ∨ c = '.'))
    (hlen : strtod_len (a ++ rest) = a.length) (hnext : s.next = a ++ rest) :
    next_token H s =
      { s with payload := Payload.value (H.strtod a), next := rest, type := TOK_NUMBER } := by
  obtain ⟨c, t, rfl, hd⟩ := hc
  have hnul : c ≠ NUL := by
    rintro rfl
    rcases hd with hd | hd
    · exact absurd hd (by decide)
    · exact absurd hd (by decide)
  unfold next_token
  rw [hnext]
  simp only [List.cons_append, List.length_cons]
  rw [next_token_loop]
  simp only [hnext, List.cons_append]
  rw [if_neg hnul, if_pos hd]
  have e1 : c :: (t ++ rest) = (c :: t) ++ rest := rfl
  rw [e1, hlen]
  simp

theorem next_token_operator {s : State D} {c : Char} {f : Ptr} {rest : List Char}
    (hc : (c, f) ∈ [('+', Ptr.add), ('-', Ptr.sub), ('*', Ptr.mul), ('/', Ptr.divide),
      ('^', Ptr.pow), ('%', Ptr.fmod)])
    (hnext : s.next = c :: rest) :
    next_token H s = { s with next := rest, type := TOK_INFIX, payload := Payload.ptr f } := by
  obtain ⟨st, nx, ty, pl, cx, lk⟩ := s
  simp only at hnext
  subst hnext
  simp only [List.mem_cons, Prod.mk.injEq, List.mem_singleton, List.not_mem_nil, or_false] at hc
  rcases hc with ⟨rfl, rfl⟩ | ⟨rfl, rfl⟩ | ⟨rfl, rfl⟩ | ⟨rfl, rfl⟩ | ⟨rfl, rfl⟩ | ⟨rfl, rfl⟩ <;> rfl


/-! ### Once the token is `TOK_ERROR` every production returns at once -/

theorem not_infix_of_error {s : State D} (h : s.type = TOK_ERROR) (P : Prop) :
    ¬ (s.type = TOK_INFIX ∧ P) := by
  rintro ⟨h1, _⟩
  rw [h] at h1
  exact absurd h1 (by decide)

theorem not_sep_of_error {s : State D} (h : s.type = TOK_ERROR) : s.type ≠ TOK_SEP := by
  rw [h]; decide

theorem factor_returns_of_error {s s' : State D} {t : Expression D}
    (hp : power_returns H s (t, s')) (h : s'.type = TOK_ERROR) :
    ∃ t', factor_returns H s (t', s') := by
  cases hm : H.TE_POW_FROM_RIGHT with
  | false =>
    exact ⟨t, factor_returns_left H hm hp (factor_loop_returns_stop H (not_infix_of_error h _))⟩
  | true =>
    have hr := factor_returns_right H hm hp
      (factor_right_loop_returns_stop H (k := none) (not_infix_of_error h _))
    split_ifs at hr with c
    · exact ⟨_, hr⟩
    · exact ⟨_, hr⟩

theorem term_returns_of_error {s s' : State D} {t : Expression D}
    (hf : factor_returns H s (t, s')) (h : s'.type = TOK_ERROR) :
    term_returns H s (t, s') :=
  term_returns_intro H hf (term_loop_returns_stop H (not_infix_of_error h _))

theorem expr_returns_of_error {s s' : State D} {t : Expression D}
    (ht : term_returns H s (t, s')) (h : s'.type = TOK_ERROR) :
    expr_returns H s (t, s') :=
  expr_returns_intro H ht (expr_loop_returns_stop H (not_infix_of_error h _))

theorem list_returns_of_error {s s' : State D} {t : Expression D}
    (he : expr_returns H s (t, s')) (h : s'.type = TOK_ERROR) :
    list_returns H s (t, s') :=
  list_returns_intro H he (list_loop_returns_stop H (not_sep_of_error h))

/-- An operator other than a sign where an operand must start: `power` returns the NaN
node and sets the token to `TOK_ERROR`, without reading on. -/
theorem power_returns_unexpected {s : State D} (h : s.type = TOK_INFIX)
    (hf : s.function H ≠ Ptr.add ∧ s.function H ≠ Ptr.sub) :
    power_returns H s (nan_node H, { s with type := TOK_ERROR }) := by
  rw [power_returns_iff]
  have hb : base_returns H s (nan_node H, { s with type := TOK_ERROR }) :=
    base_returns_default H (Or.inl (by rw [h]; decide))
  have := power_loop_returns_base H 1
    (by rintro ⟨_, h1 | h1⟩; exact hf.1 h1; exact hf.2 h1) hb
  simpa using this


/-- After `power` has returned with a token that does not continue a power chain,
`factor` returns the same state. -/
theorem factor_returns_of_stop {s s' : State D} {t : Expression D}
    (hp : power_returns H s (t, s')) (h : ¬ (s'.type = TOK_INFIX ∧ s'.function H = Ptr.pow)) :
    ∃ t', factor_returns H s (t', s') := by
  cases hm : H.TE_POW_FROM_RIGHT with
  | false => exact ⟨t, factor_returns_left H hm hp (factor_loop_returns_stop H h)⟩
  | true =>
    have hr := factor_returns_right H hm hp (factor_right_loop_returns_stop H (k := none) h)
    split_ifs at hr with c
    · exact ⟨_, hr⟩
    · exact ⟨_, hr⟩

/-- An operand, an operator, then an operator that is no sign: `list` stops at the second
operator with the token set to `TOK_ERROR`. -/
theorem list_returns_operator_pair {s0 s1 : State D} {c : Expression D}
    (hp : power_returns H s0 (c, s1)) (h1 : s1.type = TOK_INFIX)
    (hf1 : s1.function H = Ptr.add ∨ s1.function H = Ptr.sub ∨ s1.function H = Ptr.mul ∨
      s1.function H = Ptr.divide ∨ s1.function H = Ptr.fmod ∨ s1.function H = Ptr.pow)
    (h2 : (next_token H s1).type = TOK_INFIX)
    (hf2 : (next_token H s1).function H ≠ Ptr.add ∧ (next_token H s1).function H ≠ Ptr.sub) :
    ∃ root, list_returns H s0 (root, { next_token H s1 with type := TOK_ERROR }) := by
  have pU := power_returns_unexpected H h2 hf2
  have hE : ({ next_token H s1 with type := TOK_ERROR } : State D).type = TOK_ERROR := rfl
  obtain ⟨fU, hfU⟩ := factor_returns_of_error H pU hE
  have tU := term_returns_of_error H hfU hE
  have hadd : s1.function H = Ptr.add ∨ s1.function H = Ptr.sub →
      ∃ root, list_returns H s0 (root, { next_token H s1 with type := TOK_ERROR }) := by
    intro hs
    have np : ¬ (s1.type = TOK_INFIX ∧ s1.function H = Ptr.pow) := by
      rintro ⟨_, e⟩; rcases hs with hs | hs <;> rw [hs] at e <;> cases e
    have nm : ¬ (s1.type = TOK_INFIX ∧ (s1.function H = Ptr.mul ∨
        s1.function H = Ptr.divide ∨ s1.function H = Ptr.fmod)) := by
      rintro ⟨_, e | e | e⟩ <;> rcases hs with hs | hs <;> rw [hs] at e <;> cases e
    obtain ⟨f0, hf0⟩ := factor_returns_of_stop H hp np
    have t0 := term_returns_intro H hf0 (term_loop_returns_stop H nm)
    have e0 := expr_returns_intro H t0 (expr_loop_returns_step H ⟨h1, hs⟩ tU
      (expr_loop_returns_stop H (not_infix_of_error hE _)))
    exact ⟨_, list_returns_of_error H e0 hE⟩
  have hmul : s1.function H = Ptr.mul ∨ s1.function H = Ptr.divide ∨ s1.function H = Ptr.fmod →
      ∃ root, list_returns H s0 (root, { next_token H s1 with type := TOK_ERROR }) := by
    intro hs
    have np : ¬ (s1.type = TOK_INFIX ∧ s1.function H = Ptr.pow) := by
      rintro ⟨_, e⟩; rcases hs with hs | hs | hs <;> rw [hs] at e <;> cases e
    obtain ⟨f0, hf0⟩ := factor_returns_of_stop H hp np
    have t0 := term_returns_intro H hf0 (term_loop_returns_step H ⟨h1, hs⟩ hfU
      (term_loop_returns_stop H (not_infix_of_error hE _)))
    exact ⟨_, list_returns_of_error H (expr_returns_of_error H t0 hE) hE⟩
  have hpow : s1.function H = Ptr.pow →
      ∃ root, list_returns H s0 (root, { next_token H s1 with type := TOK_ERROR }) := by
    intro hs
    have hf0 : ∃ f0, factor_returns H s0 (f0, { next_token H s1 with type := TOK_ERROR }) := by
      cases hm : H.TE_POW_FROM_RIGHT with
      | false =>
        exact ⟨_, factor_returns_left H hm hp (factor_loop_returns_step H ⟨h1, hs⟩ pU
          (factor_loop_returns_stop H (not_infix_of_error hE _)))⟩
      | true =>
        have hr := factor_returns_right H hm hp (factor_right_loop_returns_first H ⟨h1, hs⟩ pU
          (factor_right_loop_returns_stop H (not_infix_of_error hE _)))
        split_ifs at hr with c
        · exact ⟨_, hr⟩
        · exact ⟨_, hr⟩
    obtain ⟨f0, hf0⟩ := hf0
    exact ⟨_, list_returns_of_error H (expr_returns_of_error H
      (term_returns_of_error H hf0 hE) hE) hE⟩
  rcases hf1 with h | h | h | h | h | h
  · exact hadd (Or.inl h)
  · exact hadd (Or.inr h)
  · exact hmul (Or.inl h)
  · exact hmul (Or.inr (Or.inl h))
  · exact hmul (Or.inr (Or.inr h))
  · exact hpow h


theorem power_returns_number {s : State D} (h : s.type = TOK_NUMBER) :
    power_returns H s ((new_expr TE_CONSTANT none).setValue (s.value H), next_token H s) := by
  rw [power_returns_iff]
  have hb := base_returns_number H (s := s) (by rw [h]; decide)
  have := power_loop_returns_base H 1
    (by rintro ⟨h1, _⟩; rw [h] at h1; exact absurd h1 (by decide)) hb
  simpa using this

theorem int_of_offset_small {n : Nat} (h : n ≤ H.UINT_MAX / 2) :
    int_of_offset H n = Int.ofNat n := by
  have hlt : n % (H.UINT_MAX + 1) = n := Nat.mod_eq_of_lt (by omega)
  unfold int_of_offset
  simp only [hlt]
  rw [if_pos h]

theorem int_of_offset_zero : int_of_offset H 0 = 0 :=
  int_of_offset_small H (Nat.zero_le _)

theorem compile_result_fails (root : Expression D) {s : State D} (w : W)
    (h : s.type ≠ TOK_END) :
    compile_result H root s w =
      ((none, if int_of_offset H (s.start.length - s.next.length) = 0 then 1
        else int_of_offset H (s.start.length - s.next.length)), w) := by
  unfold compile_result
  rw [if_pos h]

theorem compile_result_withCall (c : Ptr → Option Ptr → List D → W → D × W)
    (root : Expression D) {s : State D} (w : W) (h : s.type ≠ TOK_END) :
    compile_result (H.withCall c) root s w = compile_result H root s w := by
  rw [compile_result_fails H root w h, compile_result_fails (H.withCall c) root w h]
  rfl

/-- C2. For every text and every binding list `te_compile` returns; with `s` the state in
which the parser stopped and `consumed` the bytes before its cursor, the error offset is 0
exactly when a tree is returned. When none is returned it is the cursor offset
`consumed.length` converted to `int`, raised to 1 when that is 0; so, whenever the cursor
offset is at most `INT_MAX` (which is `UINT_MAX / 2`), it is at least 1 and equal to the
cursor offset, raised to 1 when that is 0. The empty text fails with offset 1. -/
theorem te_compile_error_offset (text : List Char) (vars : List Variable) (w : W) :
    (∃ root s consumed tree error w',
      list_returns H (next_token H (init_state text vars)) (root, s) ∧
      text = consumed ++ s.next ∧
      te_compile H text vars w = some ((tree, error), w') ∧
      (error = 0 ↔ tree.isSome = true) ∧
      (tree.isSome = true ↔ s.type = TOK_END) ∧
      (tree = none → error = if int_of_offset H consumed.length = 0 then 1
        else int_of_offset H consumed.length) ∧
      (tree = none → consumed.length ≤ H.UINT_MAX / 2 → 1 ≤ error ∧
        error = if consumed.length = 0 then 1 else Int.ofNat consumed.length)) ∧
    te_compile H [] vars w = some ((none, 1), w) := by
  constructor
  · obtain ⟨root, s, hq⟩ := list_total H text vars
    have hr : list_returns H (next_token H (init_state text vars)) (root, s) := ⟨_, hq⟩
    obtain ⟨hst, -, consumed, hc⟩ := list_within H hr
    have hlen : s.start.length - s.next.length = consumed.length := by
      rw [hst, ← hc]; simp
    have hcomp := te_compile_of_returns H hr w
    by_cases hend : s.type = TOK_END
    · refine ⟨root, s, consumed, some (optimize H root w).1, 0, (optimize H root w).2, hr,
        hc.symm, ?_, by simp, by simp [hend], by simp, by simp⟩
      rw [hcomp]; unfold compile_result; rw [if_neg (by simpa using hend)]
    · refine ⟨root, s, consumed, none,
        if int_of_offset H consumed.length = 0 then 1 else int_of_offset H consumed.length,
        w, hr, hc.symm, ?_, ?_, by simp [hend], fun _ => rfl, fun _ hb => ?_⟩
      · rw [hcomp, compile_result_fails H root w hend, hlen]
      · constructor
        · intro h0
          split_ifs at h0 with hz
          · exact absurd h0 (by decide)
          · exact absurd h0 hz
        · intro h0; cases h0
      · rw [int_of_offset_small H hb]
        by_cases hz : consumed.length = 0
        · rw [hz]; exact ⟨by decide, rfl⟩
        · have hne : Int.ofNat consumed.length ≠ 0 := by
            intro e; exact hz (Int.ofNat_eq_zero.mp e)
          rw [if_neg hne, if_neg hz]
          refine ⟨?_, rfl⟩
          have : 1 ≤ consumed.length := Nat.one_le_iff_ne_zero.mpr hz
          exact Int.ofNat_le.mpr this
  · have h0 : next_token H (init_state [] vars) =
        (⟨[], [], TOK_END, Payload.ptr Ptr.null, Ptr.null, vars⟩ : State D) := rfl
    have hp : power_returns H (⟨[], [], TOK_END, Payload.ptr Ptr.null, Ptr.null, vars⟩ : State D)
        (nan_node H, ⟨[], [], TOK_ERROR, Payload.ptr Ptr.null, Ptr.null, vars⟩) := by
      rw [power_returns_iff]
      have hb : base_returns H
          (⟨[], [], TOK_END, Payload.ptr Ptr.null, Ptr.null, vars⟩ : State D)
          (nan_node H, ⟨[], [], TOK_ERROR, Payload.ptr Ptr.null, Ptr.null, vars⟩) :=
        base_returns_default H (Or.inr (Or.inl (by
          show CLOSURE7 < TYPE_MASK TOK_END ∧ TYPE_MASK TOK_END < TOK_OPEN
          decide)))
      have := power_loop_returns_base H 1
        (by rintro ⟨h1, _⟩; exact absurd h1 (by show ¬ TOK_END = TOK_INFIX; decide)) hb
      simpa using this
    obtain ⟨f, hf⟩ := factor_returns_of_error H hp rfl
    have hl := list_returns_of_error H (expr_returns_of_error H
      (term_returns_of_error H hf rfl) rfl) rfl
    rw [← h0] at hl
    rw [te_compile_of_returns H hl w, compile_result_fails H f w (by
      show ¬ TOK_ERROR = TOK_END
      decide)]
    show some ((none, if int_of_offset H 0 = 0 then 1 else int_of_offset H 0), w) = _
    rw [int_of_offset_zero, if_pos rfl]

/-- The text `a op1 op2 b`: the parser stops after `op2`, and the error offset is the
offset `a.length + 2` of that cursor converted to `int`. -/
theorem te_compile_operator_pair_offset (vars : List Variable) (w : W) (a b : List Char)
    (op1 op2 : Char) (ha : NumericLiteral a)
    (h1 : op1 ∈ ['+', '-', '*', '/', '^', '%']) (h2 : op2 ∈ ['*', '/', '^', '%']) :
    te_compile H (a ++ op1 :: op2 :: b) vars w =
      some ((none, if int_of_offset H (a.length + 2) = 0 then 1
        else int_of_offset H (a.length + 2)), w) := by
  obtain ⟨f1, hf1, hk1⟩ : ∃ f1, (op1, f1) ∈ [('+', Ptr.add), ('-', Ptr.sub), ('*', Ptr.mul),
      ('/', Ptr.divide), ('^', Ptr.pow), ('%', Ptr.fmod)] ∧
      (f1 = Ptr.add ∨ f1 = Ptr.sub ∨ f1 = Ptr.mul ∨ f1 = Ptr.divide ∨ f1 = Ptr.fmod ∨
        f1 = Ptr.pow) := by
    simp only [List.mem_cons, List.mem_singleton, List.not_mem_nil, or_false] at h1
    rcases h1 with rfl | rfl | rfl | rfl | rfl | rfl
    · exact ⟨Ptr.add, by simp, by simp⟩
    · exact ⟨Ptr.sub, by simp, by simp⟩
    · exact ⟨Ptr.mul, by simp, by simp⟩
    · exact ⟨Ptr.divide, by simp, by simp⟩
    · exact ⟨Ptr.pow, by simp, by simp⟩
    · exact ⟨Ptr.fmod, by simp, by simp⟩
  obtain ⟨f2, hf2, hk2⟩ : ∃ f2, (op2, f2) ∈ [('+', Ptr.add), ('-', Ptr.sub), ('*', Ptr.mul),
      ('/', Ptr.divide), ('^', Ptr.pow), ('%', Ptr.fmod)] ∧ (f2 ≠ Ptr.add ∧ f2 ≠ Ptr.sub) := by
    simp only [List.mem_cons, List.mem_singleton, List.not_mem_nil, or_false] at h2
    rcases h2 with rfl | rfl | rfl | rfl
    · exact ⟨Ptr.mul, by simp, by decide⟩
    · exact ⟨Ptr.divide, by simp, by decide⟩
    · exact ⟨Ptr.pow, by simp, by decide⟩
    · exact ⟨Ptr.fmod, by simp, by decide⟩
  have e0 : next_token H (init_state (a ++ op1 :: op2 :: b) vars) =
      (⟨a ++ op1 :: op2 :: b, op1 :: op2 :: b, TOK_NUMBER, Payload.value (H.strtod a),
        Ptr.null, vars⟩ : State D) :=
    next_token_number H ha.1 (ha.2 op1 (op2 :: b) h1) rfl
  have e1 : next_token H (⟨a ++ op1 :: op2 :: b, op1 :: op2 :: b, TOK_NUMBER,
        Payload.value (H.strtod a), Ptr.null, vars⟩ : State D) =
      ⟨a ++ op1 :: op2 :: b, op2 :: b, TOK_INFIX, Payload.ptr f1, Ptr.null, vars⟩ :=
    next_token_operator H hf1 rfl
  have e2 : next_token H (⟨a ++ op1 :: op2 :: b, op2 :: b, TOK_INFIX, Payload.ptr f1,
        Ptr.null, vars⟩ : State D) =
      ⟨a ++ op1 :: op2 :: b, b, TOK_INFIX, Payload.ptr f2, Ptr.null, vars⟩ :=
    next_token_operator H hf2 rfl
  have hp := power_returns_number H (s := (⟨a ++ op1 :: op2 :: b, op1 :: op2 :: b,
    TOK_NUMBER, Payload.value (H.strtod a), Ptr.null, vars⟩ : State D)) rfl
  rw [e1] at hp
  obtain ⟨root, hl⟩ := list_returns_operator_pair H hp rfl hk1 (by rw [e2]) (by rw [e2]; exact hk2)
  rw [← e0] at hl
  rw [te_compile_of_returns H hl w, e2, compile_result_fails H root w (by
    show ¬ TOK_ERROR = TOK_END
    decide)]
  have hlen : (a ++ op1 :: op2 :: b).length - b.length = a.length + 2 := by
    simp only [List.length_append, List.length_cons]; omega
  show some ((none, if int_of_offset H ((a ++ op1 :: op2 :: b).length - b.length) = 0 then 1
    else int_of_offset H ((a ++ op1 :: op2 :: b).length - b.length)), w) = _
  rw [hlen]

/-- C3. For a numeric literal `a`, an operator `op1` among `+ - * / ^ %` and an operator
`op2` among `* / ^ %`, `te_compile` of `a op1 op2 b` returns null, whatever `b` is, and
sets the error offset to the 1-based offset `a.length + 2` of `op2` converted to `int`; so,
whenever that offset is at most `INT_MAX` (which is `UINT_MAX / 2`), the error offset is
`a.length + 2`. -/
theorem te_compile_operator_pair (vars : List Variable) (w : W) (a b : List Char)
    (op1 op2 : Char) (ha : NumericLiteral a)
    (h1 : op1 ∈ ['+', '-', '*', '/', '^', '%']) (h2 : op2 ∈ ['*', '/', '^', '%']) :
    te_compile H (a ++ op1 :: op2 :: b) vars w =
      some ((none, if int_of_offset H (a.length + 2) = 0 then 1
        else int_of_offset H (a.length + 2)), w) ∧
    (a.length + 2 ≤ H.UINT_MAX / 2 →
      te_compile H (a ++ op1 :: op2 :: b) vars w =
        some ((none, Int.ofNat (a.length + 2)), w)) := by
  have h := te_compile_operator_pair_offset H vars w a b op1 op2 ha h1 h2
  refine ⟨h, fun hb => ?_⟩
  rw [h, int_of_offset_small H hb]
  have hne : Int.ofNat (a.length + 2) ≠ 0 := by
    intro e
    have := Int.ofNat_eq_zero.mp e
    omega
  rw [if_neg hne]


end Lex

/-! ## Flat expressions -/

section Chains

variable {D W : Type} (H : Host D W)

theorem new_expr_binary (f : Ptr) (a b : Expression D) :
    (new_expr (FUNCTION2 + FLAG_PURE) (some [a, b])).setPtr f = binary f a b := rfl

theorem new_expr_unary (f : Ptr) (a : Expression D) :
    (new_expr (FUNCTION1 + FLAG_PURE) (some [a])).setPtr f = unary f a := rfl

theorem term_loop_returns_chain {s s' : State D} {ops : List (Ptr × Expression D)}
    (hc : term_chain H s ops s')
    (hstop : ¬ (s'.type = TOK_INFIX ∧
      (s'.function H = Ptr.mul ∨ s'.function H = Ptr.divide ∨ s'.function H = Ptr.fmod)))
    (acc : Expression D) :
    term_loop_returns H acc s (reading_chain acc ops, s') := by
  induction hc generalizing acc with
  | nil s => exact term_loop_returns_stop H hstop
  | cons ht hf hop hx _ ih =>
    subst hf
    refine term_loop_returns_step H ⟨ht, hop⟩ hx ?_
    rw [new_expr_binary]
    exact ih hstop _

theorem term_returns_chain {s s1 s' : State D} {x : Expression D}
    {ops : List (Ptr × Expression D)}
    (hx : factor_returns H s (x, s1)) (hc : term_chain H s1 ops s')
    (hstop : ¬ (s'.type = TOK_INFIX ∧
      (s'.function H = Ptr.mul ∨ s'.function H = Ptr.divide ∨ s'.function H = Ptr.fmod))) :
    term_returns H s (reading_chain x ops, s') :=
  term_returns_intro H hx (term_loop_returns_chain H hc hstop x)

theorem expr_loop_returns_chain {s s' : State D}
    {rest : List (Ptr × Expression D × List (Ptr × Expression D))}
    (hc : expr_chain H s rest s')
    (hstop : ¬ (s'.type = TOK_INFIX ∧ (s'.function H = Ptr.add ∨ s'.function H = Ptr.sub)))
    (acc : Expression D) :
    expr_loop_returns H acc s
      (reading_chain acc (rest.map (fun o => (o.1, reading_chain o.2.1 o.2.2))), s') := by
  induction hc generalizing acc with
  | nil s => exact expr_loop_returns_stop H hstop
  | cons ht hf hop hx hops hstop2 _ ih =>
    subst hf
    refine expr_loop_returns_step H ⟨ht, hop⟩ (term_returns_chain H hx hops hstop2) ?_
    rw [new_expr_binary]
    exact ih hstop _

/-- The parser reads a flat expression as its standard reading. -/
theorem expr_returns_flat {s s1 s2 s3 : State D} {x : Expression D}
    {ops : List (Ptr × Expression D)}
    {rest : List (Ptr × Expression D × List (Ptr × Expression D))}
    (hx : factor_returns H s (x, s1)) (hops : term_chain H s1 ops s2)
    (hstop2 : ¬ (s2.type = TOK_INFIX ∧
      (s2.function H = Ptr.mul ∨ s2.function H = Ptr.divide ∨ s2.function H = Ptr.fmod)))
    (hrest : expr_chain H s2 rest s3)
    (hstop3 : ¬ (s3.type = TOK_INFIX ∧ (s3.function H = Ptr.add ∨ s3.function H = Ptr.sub))) :
    expr_returns H s (standard_reading (x, ops) rest, s3) :=
  expr_returns_intro H (term_returns_chain H hx hops hstop2)
    (expr_loop_returns_chain H hrest hstop3 _)


theorem te_compile_succeeds {text : List Char} {vars : List Variable} {root : Expression D}
    {s : State D} (h : list_returns H (next_token H (init_state text vars)) (root, s))
    (hend : s.type = TOK_END) (w : W) :
    te_compile H text vars w = some ((some (optimize H root w).1, 0), (optimize H root w).2) := by
  rw [te_compile_of_returns H h w]
  unfold compile_result
  rw [if_neg (by simpa using hend)]

theorem te_compile_fails {text : List Char} {vars : List Variable} {root : Expression D}
    {s : State D} (h : list_returns H (next_token H (init_state text vars)) (root, s))
    (hend : s.type ≠ TOK_END) (w : W) :
    ∃ error, te_compile H text vars w = some ((none, error), w) := by
  rw [te_compile_of_returns H h w]
  unfold compile_result
  rw [if_pos hend]
  exact ⟨_, rfl⟩

theorem list_returns_of_expr {s s' : State D} {t : Expression D}
    (he : expr_returns H s (t, s')) (h : s'.type ≠ TOK_SEP) : list_returns H s (t, s') :=
  list_returns_intro H he (list_loop_returns_stop H h)

end Chains

/-! ## A parse that does not end in `TOK_ERROR` is a built tree -/

section GoodLemmas
variable {D W : Type} (H : Host D W)

theorem built_node {type : Nat} {payload : Payload D} {parameters : List (Expression D)}
    {context : Ptr} :
    (Expression.node type payload parameters context).Built ↔
      (type = TE_CONSTANT ∨ type = VARIABLE ∨
        ((FUNCTION0 ≤ TYPE_MASK type ∧ TYPE_MASK type ≤ CLOSURE7) ∧
          parameters.length = ARITY type ∧ Expression.BuiltAll parameters)) := by
  rw [Expression.Built]

theorem builtAll_nil : Expression.BuiltAll ([] : List (Expression D)) := by
  rw [Expression.BuiltAll]; trivial

theorem builtAll_cons {p : Expression D} {ps : List (Expression D)} :
    Expression.BuiltAll (p :: ps) ↔ p.Built ∧ Expression.BuiltAll ps := by
  rw [Expression.BuiltAll]

theorem builtAll_take_set {p : Expression D} (hp : p.Built) :
    ∀ (ps : List (Expression D)) (i : Nat), i < ps.length →
      Expression.BuiltAll (ps.take i) → Expression.BuiltAll ((ps.set i p).take (i + 1))
  | [], i, h, _ => by simp at h
  | q :: ps, 0, _, _ => by
    simp only [List.set_cons_zero, List.take_succ_cons, List.take_zero]
    exact builtAll_cons.2 ⟨hp, builtAll_nil⟩
  | q :: ps, i + 1, h, hb => by
    simp only [List.set_cons_succ, List.take_succ_cons] at hb ⊢
    rw [builtAll_cons] at hb ⊢
    exact ⟨hb.1, builtAll_take_set hp ps i (by simpa using h) hb.2⟩

theorem built_binary {f : Ptr} {a b : Expression D} (ha : a.Built) (hb : b.Built) :
    (binary f a b).Built := by
  unfold binary
  rw [built_node]
  right; right
  refine ⟨by decide, by show 2 = ARITY (FUNCTION2 + FLAG_PURE); decide, ?_⟩
  exact builtAll_cons.2 ⟨ha, builtAll_cons.2 ⟨hb, builtAll_nil⟩⟩

theorem built_unary {f : Ptr} {a : Expression D} (ha : a.Built) : (unary f a).Built := by
  unfold unary
  rw [built_node]
  right; right
  refine ⟨by decide, by show 1 = ARITY (FUNCTION1 + FLAG_PURE); decide, ?_⟩
  exact builtAll_cons.2 ⟨ha, builtAll_nil⟩

theorem built_constant (v : D) : ((new_expr TE_CONSTANT none).setValue v).Built := by
  show (Expression.node TE_CONSTANT (Payload.value v) [] Ptr.null).Built
  rw [built_node]; left; rfl

theorem built_variable (p : Ptr) : ((new_expr VARIABLE none : Expression D).setPtr p).Built := by
  show (Expression.node VARIABLE (Payload.ptr p) [] Ptr.null).Built
  rw [built_node]; right; left; rfl

theorem call_node_eq (s : State D) :
    call_node H s = Expression.node s.type (Payload.ptr (s.function H))
      (List.replicate (ARITY s.type) Expression.null)
      (if IS_CLOSURE s.type then s.context else Ptr.null) := by
  unfold call_node new_expr
  simp only [Expression.setPtr]
  split <;> rfl

theorem built_call0 {s : State D} (h : TYPE_MASK s.type = FUNCTION0 ∨ TYPE_MASK s.type = CLOSURE0) :
    (call_node H s).Built := by
  rw [call_node_eq, built_node]
  right; right
  have ha : ARITY s.type = 0 := by
    unfold TYPE_MASK at h; unfold ARITY
    simp only [FUNCTION0, CLOSURE0] at h
    split <;> omega
  refine ⟨?_, by simp, ?_⟩
  · simp only [FUNCTION0, CLOSURE0, CLOSURE7] at h ⊢; omega
  · rw [ha]; exact builtAll_nil

theorem built_call1 {s : State D} {p : Expression D}
    (h : TYPE_MASK s.type = FUNCTION1 ∨ TYPE_MASK s.type = CLOSURE1) (hp : p.Built) :
    ((call_node H s).setParam 0 p).Built := by
  have ha : ARITY s.type = 1 := by
    unfold TYPE_MASK at h; unfold ARITY
    simp only [FUNCTION1, CLOSURE1] at h
    split
    · omega
    · rename_i hc; simp at hc; omega
  rw [call_node_eq, ha]
  show (Expression.node s.type _ [p] _).Built
  rw [built_node]
  right; right
  refine ⟨?_, by simp [ha], builtAll_cons.2 ⟨hp, builtAll_nil⟩⟩
  simp only [FUNCTION0, FUNCTION1, CLOSURE1, CLOSURE7] at h ⊢; omega

theorem argsFilled_call {s : State D}
    (h : (FUNCTION2 ≤ TYPE_MASK s.type ∧ TYPE_MASK s.type ≤ FUNCTION7) ∨
      (CLOSURE2 ≤ TYPE_MASK s.type ∧ TYPE_MASK s.type ≤ CLOSURE7)) :
    ArgsFilled (ARITY s.type) 0 (call_node H s) := by
  rw [call_node_eq]
  refine ⟨_, _, _, _, rfl, ?_, by simp, rfl, ?_⟩
  · simp only [FUNCTION0, FUNCTION2, FUNCTION7, CLOSURE2, CLOSURE7] at h ⊢; omega
  · simp only [List.take_zero]; exact builtAll_nil

theorem argsFilled_set {arity i : Nat} {ret p : Expression D} (h : ArgsFilled arity i ret)
    (hi : i < arity) (hp : p.Built) : ArgsFilled arity (i + 1) (ret.setParam i p) := by
  obtain ⟨type, payload, parameters, context, rfl, hm, hl, ha, hb⟩ := h
  refine ⟨type, payload, parameters.set i p, context, rfl, hm, by simpa using hl, ha, ?_⟩
  exact builtAll_take_set hp parameters i (by omega) hb

theorem built_of_argsFilled {arity i : Nat} {ret : Expression D} (h : ArgsFilled arity i ret)
    (hi : arity ≤ i) : ret.Built := by
  obtain ⟨type, payload, parameters, context, rfl, hm, hl, ha, hb⟩ := h
  rw [built_node]
  right; right
  refine ⟨hm, hl, ?_⟩
  rwa [List.take_of_length_le (by omega)] at hb

theorem param_zero_built {t : Expression D} (ht : t.Built)
    (h : t.type = FUNCTION1 + FLAG_PURE) : (t.param 0).Built := by
  cases t with
  | null => cases ht
  | node type payload parameters context =>
    simp only [Expression.type] at h
    subst h
    rw [built_node] at ht
    rcases ht with ht | ht | ⟨_, hl, hb⟩
    · exact absurd ht (by decide)
    · exact absurd ht (by decide)
    · have hl1 : parameters.length = 1 := hl
      match parameters, hl1, hb with
      | [c], _, hb => exact (builtAll_cons.1 hb).1

theorem at_insertion_built {f : Ptr} {p : Expression D} (hp : p.Built) :
    ∀ (k : Nat) (ret : Expression D), ret.Built → PowSpine k ret →
      (at_insertion (fun ins => ins.setParam 1
          ((new_expr (FUNCTION2 + FLAG_PURE) (some [ins.param 1, p])).setPtr f)) k ret).Built ∧
      PowSpine (k + 1) (at_insertion (fun ins => ins.setParam 1
          ((new_expr (FUNCTION2 + FLAG_PURE) (some [ins.param 1, p])).setPtr f)) k ret)
  | 0, ret, hb, hs => by
    obtain ⟨pl, a, b, c, rfl⟩ := hs
    rw [built_node] at hb
    rcases hb with hb | hb | ⟨hm, hl, hb⟩
    · exact absurd hb (by decide)
    · exact absurd hb (by decide)
    · have ha := (builtAll_cons.1 hb).1
      have hb' := (builtAll_cons.1 (builtAll_cons.1 hb).2).1
      show (Expression.node (FUNCTION2 + FLAG_PURE) pl [a, binary f b p] c).Built ∧
        PowSpine 1 (Expression.node (FUNCTION2 + FLAG_PURE) pl [a, binary f b p] c)
      refine ⟨?_, ⟨pl, a, binary f b p, c, rfl, ⟨_, _, _, _, rfl⟩⟩⟩
      rw [built_node]
      right; right
      exact ⟨hm, hl, builtAll_cons.2 ⟨ha, builtAll_cons.2 ⟨built_binary hb' hp, builtAll_nil⟩⟩⟩
  | k + 1, ret, hb, hs => by
    obtain ⟨pl, a, b, c, rfl, hs'⟩ := hs
    rw [built_node] at hb
    rcases hb with hb | hb | ⟨hm, hl, hb⟩
    · exact absurd hb (by decide)
    · exact absurd hb (by decide)
    · have ha := (builtAll_cons.1 hb).1
      have hb' := (builtAll_cons.1 (builtAll_cons.1 hb).2).1
      obtain ⟨i1, i2⟩ := at_insertion_built hp k b hb' hs'
      rw [at_insertion]
      show (Expression.node (FUNCTION2 + FLAG_PURE) pl [a, _] c).Built ∧
        PowSpine (k + 1 + 1) (Expression.node (FUNCTION2 + FLAG_PURE) pl [a, _] c)
      refine ⟨?_, ⟨pl, a, _, c, rfl, i2⟩⟩
      rw [built_node]
      right; right
      exact ⟨hm, hl, builtAll_cons.2 ⟨ha, builtAll_cons.2 ⟨i1, builtAll_nil⟩⟩⟩


theorem arity_ge_two {t : Nat}
    (h : (FUNCTION2 ≤ TYPE_MASK t ∧ TYPE_MASK t ≤ FUNCTION7) ∨
      (CLOSURE2 ≤ TYPE_MASK t ∧ TYPE_MASK t ≤ CLOSURE7)) : 2 ≤ ARITY t ∧ ARITY t ≤ 7 := by
  unfold TYPE_MASK at h
  unfold ARITY
  simp only [FUNCTION2, FUNCTION7, CLOSURE2, CLOSURE7] at h
  split
  · omega
  · rename_i hc; simp at hc; omega

theorem infix_not_error {s : State D} (h : s.type = TOK_INFIX) : s.type ≠ TOK_ERROR := by
  rw [h]; decide

theorem good_binary {f : Ptr} {e p : Expression D} {s s2 : State D} (he : Good e s)
    (hs : s.type ≠ TOK_ERROR) (hp : Good p s2) : Good (binary f e p) s2 := by
  rcases hp with hp | hp
  · exact Or.inl hp
  · rcases he with he | he
    · exact absurd he hs
    · exact Or.inr (built_binary he hp)

set_option maxHeartbeats 4000000 in
theorem good_step (n : Nat) :
    (∀ s r, base H n s = some r → Good r.1 r.2) ∧
    (∀ a i e s r, base_args H n a i e s = some r → ArgsFilled a i e →
      (r.2.2.type = TOK_ERROR ∨ (r.2.1 < a → ArgsFilled a (r.2.1 + 1) r.1))) ∧
    (∀ s r, power H n s = some r → Good r.1 r.2) ∧
    (∀ g s r, power_loop H n g s = some r → Good r.1 r.2) ∧
    (∀ s r, factor H n s = some r → Good r.1 r.2) ∧
    (∀ e s r, factor_loop H n e s = some r → Good e s → Good r.1 r.2) ∧
    (∀ e k s r, factor_right_loop H n e k s = some r →
      (s.type = TOK_ERROR ∨ (e.Built ∧ ∀ j, k = some j → PowSpine j e)) → Good r.1 r.2) ∧
    (∀ s r, term H n s = some r → Good r.1 r.2) ∧
    (∀ e s r, term_loop H n e s = some r → Good e s → Good r.1 r.2) ∧
    (∀ s r, expr H n s = some r → Good r.1 r.2) ∧
    (∀ e s r, expr_loop H n e s = some r → Good e s → Good r.1 r.2) ∧
    (∀ s r, list H n s = some r → Good r.1 r.2) ∧
    (∀ e s r, list_loop H n e s = some r → Good e s → Good r.1 r.2) := by
  induction n with
  | zero =>
    refine ⟨?_, ?_, ?_, ?_, ?_, ?_, ?_, ?_, ?_, ?_, ?_, ?_, ?_⟩ <;> intros <;>
      simp_all [base_zero, base_args_zero, power_zero, power_loop_zero, factor_zero,
        factor_loop_zero, factor_right_loop_zero, term_zero, term_loop_zero, expr_zero,
        expr_loop_zero, list_zero, list_loop_zero]
  | succ n ih =>
    obtain ⟨ib, iba, ip, ipl, ifa, ifl, ifr, it, itl, ie, iel, il, ill⟩ := ih
    refine ⟨?_, ?_, ?_, ?_, ?_, ?_, ?_, ?_, ?_, ?_, ?_, ?_, ?_⟩
    · -- base
      intro s r h
      rw [base_succ] at h
      dsimp only at h
      by_cases c1 : TYPE_MASK s.type = TOK_NUMBER
      · rw [if_pos c1] at h; cases h; exact Or.inr (built_constant _)
      rw [if_neg c1] at h
      by_cases c2 : TYPE_MASK s.type = TOK_VARIABLE
      · rw [if_pos c2] at h; cases h; exact Or.inr (built_variable _)
      rw [if_neg c2] at h
      by_cases c3 : TYPE_MASK s.type = FUNCTION0 ∨ TYPE_MASK s.type = CLOSURE0
      · rw [if_pos c3] at h
        split_ifs at h <;> cases h
        · exact Or.inl rfl
        · exact Or.inr (built_call0 H c3)
        · exact Or.inr (built_call0 H c3)
      rw [if_neg c3] at h
      by_cases c4 : TYPE_MASK s.type = FUNCTION1 ∨ TYPE_MASK s.type = CLOSURE1
      · rw [if_pos c4] at h
        split at h
        · cases h
        · rename_i heq
          cases h
          rcases ip _ _ heq with g | g
          · exact Or.inl g
          · exact Or.inr (built_call1 H c4 g)
      rw [if_neg c4] at h
      by_cases c5 : (FUNCTION2 ≤ TYPE_MASK s.type ∧ TYPE_MASK s.type ≤ FUNCTION7) ∨
          (CLOSURE2 ≤ TYPE_MASK s.type ∧ TYPE_MASK s.type ≤ CLOSURE7)
      · rw [if_pos c5] at h
        by_cases c6 : (next_token H s).type ≠ TOK_OPEN
        · rw [if_pos c6] at h; cases h; exact Or.inl rfl
        rw [if_neg c6] at h
        split at h
        · cases h
        · rename_i ret i s2 heq
          have g := iba _ _ _ _ _ heq (argsFilled_call H c5)
          by_cases c7 : s2.type ≠ TOK_CLOSE ∨ i ≠ ARITY s.type - 1
          · rw [if_pos c7] at h; cases h; exact Or.inl rfl
          rw [if_neg c7] at h
          cases h
          have hc : s2.type = TOK_CLOSE ∧ i = ARITY s.type - 1 := by
            constructor
            · by_contra hx; exact c7 (Or.inl hx)
            · by_contra hx; exact c7 (Or.inr hx)
          have ha := arity_ge_two c5
          rcases g with g | g
          · exfalso; dsimp only at g; rw [hc.1] at g; exact absurd g (by decide)
          · exact Or.inr (built_of_argsFilled (g (by dsimp only; omega)) (by dsimp only; omega))
      rw [if_neg c5] at h
      by_cases c8 : TYPE_MASK s.type = TOK_OPEN
      · rw [if_pos c8] at h
        split at h
        · cases h
        · rename_i ret s2 heq
          have g := il _ _ heq
          by_cases c9 : s2.type ≠ TOK_CLOSE
          · rw [if_pos c9] at h; cases h; exact Or.inl rfl
          rw [if_neg c9] at h
          cases h
          rcases g with g | g
          · exfalso
            have : s2.type = TOK_CLOSE := by by_contra hx; exact c9 hx
            dsimp only at g; rw [this] at g; exact absurd g (by decide)
          · exact Or.inr g
      rw [if_neg c8] at h
      cases h
      exact Or.inl rfl
    · -- base_args
      intro a i e s r h hinv
      rw [base_args_succ] at h
      dsimp only at h
      by_cases c : i < a
      · rw [if_pos c] at h
        split at h
        · cases h
        · rename_i p s2 heq
          have g := ie _ _ heq
          by_cases c2 : s2.type ≠ TOK_SEP
          · rw [if_pos c2] at h
            cases h
            rcases g with g | g
            · exact Or.inl g
            · exact Or.inr (fun _ => argsFilled_set hinv c g)
          · rw [if_neg c2] at h
            have hsep : s2.type = TOK_SEP := by by_contra hx; exact c2 hx
            rcases g with g | g
            · exfalso; dsimp only at g; rw [hsep] at g; exact absurd g (by decide)
            · exact iba _ _ _ _ _ h (argsFilled_set hinv c g)
      · rw [if_neg c] at h
        cases h
        exact Or.inr (fun hi => absurd hi c)
    · -- power
      intro s r h
      rw [power_succ] at h
      exact ipl _ _ _ h
    · -- power_loop
      intro g s r h
      rw [power_loop_succ] at h
      by_cases c1 : s.type = TOK_INFIX ∧ (s.function H = Ptr.add ∨ s.function H = Ptr.sub)
      · rw [if_pos c1] at h
        exact ipl _ _ _ h
      · rw [if_neg c1] at h
        split at h
        · cases h
        · rename_i b s2 heq
          have gb := ib _ _ heq
          split_ifs at h <;> cases h
          · exact gb
          · rcases gb with gb | gb
            · exact Or.inl gb
            · exact Or.inr (built_unary gb)
    · -- factor
      intro s r h
      rw [factor_succ] at h
      split at h
      · cases h
      · rename_i t s1 heq
        have g := ip _ _ heq
        dsimp only at h
        by_cases hm : H.TE_POW_FROM_RIGHT = true
        · rw [if_pos hm] at h
          split at h
          · cases h
          · rename_i t2 s2 heq2
            have g2 : Good t2 s2 := by
              refine ifr _ _ _ _ heq2 ?_
              rcases g with g | g
              · exact Or.inl g
              · right
                refine ⟨?_, fun j hj => by cases hj⟩
                split_ifs with c
                · simp only [decide_eq_true_eq] at c
                  exact param_zero_built g c.1
                · exact g
            split_ifs at h <;> cases h
            · rcases g2 with g2 | g2
              · exact Or.inl g2
              · exact Or.inr (built_unary g2)
            · exact g2
        · rw [if_neg hm] at h
          exact ifl _ _ _ h g
    · -- factor_loop
      intro e s r h hin
      rw [factor_loop_succ] at h
      dsimp only at h
      by_cases c : s.type = TOK_INFIX ∧ s.function H = Ptr.pow
      · rw [if_pos c] at h
        split at h
        · cases h
        · rename_i p s2 heq
          exact ifl _ _ _ h (good_binary hin (infix_not_error c.1) (ip _ _ heq))
      · rw [if_neg c] at h; cases h; exact hin
    · -- factor_right_loop
      intro e k s r h hin
      rw [factor_right_loop_succ] at h
      dsimp only at h
      by_cases c : s.type = TOK_INFIX ∧ s.function H = Ptr.pow
      · rw [if_pos c] at h
        have hb : e.Built ∧ ∀ j, k = some j → PowSpine j e := by
          rcases hin with hin | hin
          · exact absurd hin (infix_not_error c.1)
          · exact hin
        split at h
        · cases h
        · rename_i p s2 heq
          have gp := ip _ _ heq
          split at h
          · rename_i j
            refine ifr _ _ _ _ h ?_
            rcases gp with gp | gp
            · exact Or.inl gp
            · obtain ⟨i1, i2⟩ := at_insertion_built (f := s.function H) gp j e hb.1 (hb.2 j rfl)
              exact Or.inr ⟨i1, fun j' hj' => by cases hj'; exact i2⟩
          · refine ifr _ _ _ _ h ?_
            rcases gp with gp | gp
            · exact Or.inl gp
            · exact Or.inr ⟨built_binary hb.1 gp, fun j' hj' => by
                cases hj'; exact ⟨_, _, _, _, rfl⟩⟩
      · rw [if_neg c] at h
        cases h
        rcases hin with hin | hin
        · exact Or.inl hin
        · exact Or.inr hin.1
    · -- term
      intro s r h
      rw [term_succ] at h
      split at h
      · cases h
      · rename_i heq
        exact itl _ _ _ h (ifa _ _ heq)
    · -- term_loop
      intro e s r h hin
      rw [term_loop_succ] at h
      dsimp only at h
      by_cases c : s.type = TOK_INFIX ∧
          (s.function H = Ptr.mul ∨ s.function H = Ptr.divide ∨ s.function H = Ptr.fmod)
      · rw [if_pos c] at h
        split at h
        · cases h
        · rename_i p s2 heq
          exact itl _ _ _ h (good_binary hin (infix_not_error c.1) (ifa _ _ heq))
      · rw [if_neg c] at h; cases h; exact hin
    · -- expr
      intro s r h
      rw [expr_succ] at h
      split at h
      · cases h
      · rename_i heq
        exact iel _ _ _ h (it _ _ heq)
    · -- expr_loop
      intro e s r h hin
      rw [expr_loop_succ] at h
      dsimp only at h
      by_cases c : s.type = TOK_INFIX ∧ (s.function H = Ptr.add ∨ s.function H = Ptr.sub)
      · rw [if_pos c] at h
        split at h
        · cases h
        · rename_i p s2 heq
          exact iel _ _ _ h (good_binary hin (infix_not_error c.1) (it _ _ heq))
      · rw [if_neg c] at h; cases h; exact hin
    · -- list
      intro s r h
      rw [list_succ] at h
      split at h
      · cases h
      · rename_i heq
        exact ill _ _ _ h (ie _ _ heq)
    · -- list_loop
      intro e s r h hin
      rw [list_loop_succ] at h
      dsimp only at h
      by_cases c : s.type = TOK_SEP
      · rw [if_pos c] at h
        split at h
        · cases h
        · rename_i p s2 heq
          exact ill _ _ _ h (good_binary hin (by rw [c]; decide) (ie _ _ heq))
      · rw [if_neg c] at h; cases h; exact hin

end GoodLemmas

/-! ## Signs and power chains -/

section PowerChains

variable {D W : Type} (H : Host D W)

theorem power_loop_returns_signs {s s' s'' : State D} {signs : List Ptr} {B : Expression D}
    (hs : sign_run H s signs s')
    (hstop : ¬ (s'.type = TOK_INFIX ∧ (s'.function H = Ptr.add ∨ s'.function H = Ptr.sub)))
    (hb : base_returns H s' (B, s'')) (sign : Int) :
    power_loop_returns H sign s
      (if (if signs.count Ptr.sub % 2 = 0 then sign else -sign) = 1 then (B, s'')
       else (unary Ptr.negate B, s'')) := by
  induction hs generalizing sign with
  | nil s =>
    have h := power_loop_returns_base H sign hstop hb
    rw [new_expr_unary] at h
    simpa using h
  | @cons s s' f signs ht hf hop hrest ih =>
    refine power_loop_returns_sign H ⟨ht, by rw [hf]; exact hop⟩ ?_
    rw [hf]
    rcases hop with rfl | rfl
    · have h := ih hstop hb sign
      rw [if_neg (by decide)]
      simpa [List.count_cons] using h
    · have h := ih hstop hb (-sign)
      rw [if_pos rfl]
      rw [List.count_cons_self]
      rcases Nat.mod_two_eq_zero_or_one (List.count Ptr.sub signs) with e | e
      · have e' : ¬ ((List.count Ptr.sub signs + 1) % 2 = 0) := by omega
        rw [if_pos e] at h
        rw [if_neg e']
        exact h
      · have e' : (List.count Ptr.sub signs + 1) % 2 = 0 := by omega
        have e'' : ¬ (List.count Ptr.sub signs % 2 = 0) := by omega
        rw [if_neg e'', neg_neg] at h
        rw [if_pos e']
        exact h

theorem power_returns_signs {s s' s'' : State D} {signs : List Ptr} {B : Expression D}
    (hs : sign_run H s signs s')
    (hstop : ¬ (s'.type = TOK_INFIX ∧ (s'.function H = Ptr.add ∨ s'.function H = Ptr.sub)))
    (hb : base_returns H s' (B, s'')) :
    power_returns H s
      (if signs.count Ptr.sub % 2 = 0 then B else unary Ptr.negate B, s'') := by
  rw [power_returns_iff]
  have h := power_loop_returns_signs H hs hstop hb 1
  by_cases e : signs.count Ptr.sub % 2 = 0
  · rw [if_pos e, if_pos rfl] at h; rw [if_pos e]; exact h
  · rw [if_neg e, if_neg (by decide)] at h; rw [if_neg e]; exact h

theorem factor_loop_returns_chain {s s' : State D} {xs : List (Expression D)}
    (hc : pow_chain H s xs s') (hstop : ¬ (s'.type = TOK_INFIX ∧ s'.function H = Ptr.pow))
    (ret : Expression D) :
    factor_loop_returns H ret s (xs.foldl (binary Ptr.pow) ret, s') := by
  induction hc generalizing ret with
  | nil s => exact factor_loop_returns_stop H hstop
  | @cons s s1 s2 x xs ht hf hx hrest ih =>
    refine factor_loop_returns_step H ⟨ht, hf⟩ hx ?_
    rw [hf, new_expr_binary]
    exact ih hstop _

theorem factor_returns_left_chain (hm : H.TE_POW_FROM_RIGHT = false) {s s1 s2 : State D}
    {a : Expression D} {xs : List (Expression D)} (ha : power_returns H s (a, s1))
    (hc : pow_chain H s1 xs s2) (hstop : ¬ (s2.type = TOK_INFIX ∧ s2.function H = Ptr.pow)) :
    factor_returns H s (xs.foldl (binary Ptr.pow) a, s2) :=
  factor_returns_left H hm ha (factor_loop_returns_chain H hc hstop a)

theorem at_insertion_right_nest (a x p : Expression D) (pre : List (Expression D)) :
    at_insertion (fun ins => ins.setParam 1 (binary Ptr.pow (ins.param 1) p)) pre.length
      (right_nest a (pre ++ [x])) = right_nest a (pre ++ [x, p]) := by
  induction pre generalizing a with
  | nil => rfl
  | cons y pre ih =>
    show (binary Ptr.pow a (right_nest y (pre ++ [x]))).setParam 1
      (at_insertion _ pre.length ((binary Ptr.pow a (right_nest y (pre ++ [x]))).param 1)) = _
    have e : (binary Ptr.pow a (right_nest y (pre ++ [x]))).param 1 =
        right_nest y (pre ++ [x]) := rfl
    rw [e, ih]
    rfl

theorem factor_right_loop_returns_chain {s s' : State D} {xs : List (Expression D)}
    (hc : pow_chain H s xs s') (hstop : ¬ (s'.type = TOK_INFIX ∧ s'.function H = Ptr.pow))
    (a x : Expression D) (pre : List (Expression D)) :
    factor_right_loop_returns H (right_nest a (pre ++ [x])) (some pre.length) s
      (right_nest a (pre ++ x :: xs), s') := by
  induction hc generalizing x pre with
  | nil s => exact factor_right_loop_returns_stop H hstop
  | @cons s s1 s2 p xs ht hf hx hrest ih =>
    refine factor_right_loop_returns_next H ⟨ht, hf⟩ hx ?_
    rw [hf]
    change factor_right_loop_returns H (at_insertion
      (fun ins => ins.setParam 1 (binary Ptr.pow (ins.param 1) p)) pre.length
      (right_nest a (pre ++ [x]))) _ _ _
    rw [at_insertion_right_nest]
    have h := ih hstop p (pre ++ [x])
    rw [List.length_append, List.length_singleton, List.append_assoc, List.append_assoc] at h
    exact h

theorem factor_right_loop_returns_nest {s s' : State D} {xs : List (Expression D)}
    (hc : pow_chain H s xs s') (hstop : ¬ (s'.type = TOK_INFIX ∧ s'.function H = Ptr.pow))
    (a : Expression D) :
    factor_right_loop_returns H a none s (right_nest a xs, s') := by
  cases hc with
  | nil s => exact factor_right_loop_returns_stop H hstop
  | @cons s s1 s2 p xs ht hf hx hrest =>
    refine factor_right_loop_returns_first H ⟨ht, hf⟩ hx ?_
    rw [hf, new_expr_binary]
    exact factor_right_loop_returns_chain H hrest hstop a p []

theorem function_unary (f : Ptr) (a : Expression D) :
    (unary f a).function H.asPtr = f := rfl

theorem factor_returns_right_chain (hm : H.TE_POW_FROM_RIGHT = true) {s s1 s2 : State D}
    {a : Expression D} {xs : List (Expression D)} (ha : power_returns H s (a, s1))
    (hn : ¬ (a.type = FUNCTION1 + FLAG_PURE ∧ a.function H.asPtr = Ptr.negate))
    (hc : pow_chain H s1 xs s2) (hstop : ¬ (s2.type = TOK_INFIX ∧ s2.function H = Ptr.pow)) :
    factor_returns H s (right_nest a xs, s2) := by
  have hl : factor_right_loop_returns H
      (if a.type = FUNCTION1 + FLAG_PURE ∧ a.function H.asPtr = Ptr.negate then a.param 0
       else a) none s1 (right_nest a xs, s2) := by
    rw [if_neg hn]; exact factor_right_loop_returns_nest H hc hstop a
  have h := factor_returns_right H hm ha hl
  rw [if_neg hn] at h
  exact h

theorem factor_returns_right_negated (hm : H.TE_POW_FROM_RIGHT = true) {s s1 s2 : State D}
    {a : Expression D} {xs : List (Expression D)}
    (ha : power_returns H s (unary Ptr.negate a, s1))
    (hc : pow_chain H s1 xs s2) (hstop : ¬ (s2.type = TOK_INFIX ∧ s2.function H = Ptr.pow)) :
    factor_returns H s (unary Ptr.negate (right_nest a xs), s2) := by
  have hn : (unary Ptr.negate a).type = FUNCTION1 + FLAG_PURE ∧
      (unary Ptr.negate a).function H.asPtr = Ptr.negate := ⟨rfl, rfl⟩
  have hl : factor_right_loop_returns H
      (if (unary Ptr.negate a).type = FUNCTION1 + FLAG_PURE ∧
          (unary Ptr.negate a).function H.asPtr = Ptr.negate then (unary Ptr.negate a).param 0
       else unary Ptr.negate a) none s1 (right_nest a xs, s2) := by
    rw [if_pos hn]; exact factor_right_loop_returns_nest H hc hstop a
  have h := factor_returns_right H hm ha hl
  rw [if_pos hn, new_expr_unary] at h
  exact h

theorem arity_one {t : Nat} (h : TYPE_MASK t = FUNCTION1 ∨ TYPE_MASK t = CLOSURE1) :
    ARITY t = 1 := by
  unfold TYPE_MASK at h; unfold ARITY
  simp only [FUNCTION1, CLOSURE1] at h
  split
  · omega
  · rename_i hc; simp at hc; omega

theorem call_node_setParam {s : State D} (a : Expression D)
    (h : TYPE_MASK s.type = FUNCTION1 ∨ TYPE_MASK s.type = CLOSURE1) :
    (call_node H s).setParam 0 a = call1 H s a := by
  rw [call_node_eq, arity_one h]
  rfl

theorem not_sign_of_call {s : State D}
    (h : FUNCTION0 ≤ TYPE_MASK s.type ∧ TYPE_MASK s.type ≤ CLOSURE7) :
    ¬ (s.type = TOK_INFIX ∧ (s.function H = Ptr.add ∨ s.function H = Ptr.sub)) := by
  rintro ⟨e, _⟩
  rw [e] at h
  exact absurd h (by decide)

theorem power_returns_of_base {s s' : State D} {t : Expression D}
    (hn : ¬ (s.type = TOK_INFIX ∧ (s.function H = Ptr.add ∨ s.function H = Ptr.sub)))
    (hb : base_returns H s (t, s')) : power_returns H s (t, s') := by
  rw [power_returns_iff]
  have h := power_loop_returns_base H 1 hn hb
  rw [if_pos rfl] at h
  exact h

theorem power_returns_call1 {s s1 : State D} {a : Expression D}
    (h : TYPE_MASK s.type = FUNCTION1 ∨ TYPE_MASK s.type = CLOSURE1)
    (ha : power_returns H (next_token H s) (a, s1)) :
    power_returns H s (call1 H s a, s1) := by
  have hb := base_returns_fun1 H h ha
  rw [call_node_setParam H a h] at hb
  refine power_returns_of_base H (not_sign_of_call H ?_) hb
  simp only [FUNCTION0, FUNCTION1, CLOSURE1, CLOSURE7] at h ⊢
  omega

theorem call1_negate {s : State D} (a : Expression D) (ht : s.type = FUNCTION1 + FLAG_PURE)
    (hf : s.function H = Ptr.negate) : call1 H s a = unary Ptr.negate a := by
  unfold call1
  rw [ht, hf]
  rfl

/-- A call of a unary function followed by a token that is no `^` is a whole `factor`. -/
theorem factor_returns_call1 {s s1 : State D} {a : Expression D}
    (h : TYPE_MASK s.type = FUNCTION1 ∨ TYPE_MASK s.type = CLOSURE1)
    (ha : power_returns H (next_token H s) (a, s1))
    (hstop : ¬ (s1.type = TOK_INFIX ∧ s1.function H = Ptr.pow)) :
    factor_returns H s (call1 H s a, s1) := by
  have hp := power_returns_call1 H h ha
  cases hm : H.TE_POW_FROM_RIGHT with
  | false => exact factor_returns_left_chain H hm hp (pow_chain.nil _) hstop
  | true =>
    by_cases c : (call1 H s a).type = FUNCTION1 + FLAG_PURE ∧
        (call1 H s a).function H.asPtr = Ptr.negate
    · have e : call1 H s a = unary Ptr.negate a := call1_negate H a c.1 c.2
      rw [e] at hp ⊢
      exact factor_returns_right_negated H hm hp (pow_chain.nil _) hstop
    · exact factor_returns_right_chain H hm hp c (pow_chain.nil _) hstop

theorem arg_list_length {s s' : State D} {es : List (Expression D)}
    (h : arg_list H s es s') : 1 ≤ es.length := by
  cases h <;> simp

/-- The argument loop over a list of arguments: with room for all of them it stops at the
last one; with more arguments than slots it stops at the comma after the last slot. -/
theorem base_args_returns_list (arity : Nat) {s s' : State D} {es : List (Expression D)}
    (h : arg_list H s es s') (hs : s'.type ≠ TOK_SEP) (i : Nat) (ret : Expression D)
    (hi : i < arity) :
    ∃ ret' j s'', base_args_returns H arity i ret s (ret', j, s'') ∧
      ((i + es.length ≤ arity ∧ j + 1 = i + es.length ∧ s'' = s') ∨
        (arity < i + es.length ∧ j = arity ∧ s''.type = TOK_SEP)) := by
  induction h generalizing i ret with
  | @one s s' p hp =>
    exact ⟨_, _, _, base_args_returns_last H hi hp hs,
      Or.inl ⟨by simp only [List.length_singleton]; omega, rfl, rfl⟩⟩
  | @cons s s1 s' p ps hp hsep hrest ih =>
    by_cases hlt : i + 1 < arity
    · obtain ⟨ret', j, s'', hr, hcase⟩ := ih hs (i + 1) (ret.setParam i p) hlt
      refine ⟨ret', j, s'', base_args_returns_more H hi hp hsep hr, ?_⟩
      simp only [List.length_cons]
      rcases hcase with ⟨h1, h2, h3⟩ | ⟨h1, h2, h3⟩
      · exact Or.inl ⟨by omega, by omega, h3⟩
      · exact Or.inr ⟨by omega, h2, h3⟩
    · have hl := arg_list_length H hrest
      refine ⟨_, _, _, base_args_returns_more H hi hp hsep
        (base_args_returns_done H (i := i + 1) hlt), Or.inr ⟨?_, ?_, hsep⟩⟩
      · simp only [List.length_cons]; omega
      · omega

theorem base_returns_call_ok {s s' : State D} {es : List (Expression D)}
    (h : (FUNCTION2 ≤ TYPE_MASK s.type ∧ TYPE_MASK s.type ≤ FUNCTION7) ∨
      (CLOSURE2 ≤ TYPE_MASK s.type ∧ TYPE_MASK s.type ≤ CLOSURE7))
    (ho : (next_token H s).type = TOK_OPEN) (ha : arg_list H (next_token H s) es s')
    (hc : s'.type = TOK_CLOSE) (hk : es.length = ARITY s.type) :
    ∃ ret, base_returns H s (ret, next_token H s') := by
  have h2 := arity_ge_two h
  have hs : s'.type ≠ TOK_SEP := by rw [hc]; decide
  obtain ⟨ret', j, s'', hr, hcase⟩ :=
    base_args_returns_list H (ARITY s.type) ha hs 0 (call_node H s) (by omega)
  rcases hcase with ⟨_, hj, rfl⟩ | ⟨hgt, _, _⟩
  · have hb := base_returns_funN H h ho hr
    rw [if_neg (by rintro (c | c); exact c hc; omega)] at hb
    exact ⟨_, hb⟩
  · omega

theorem base_returns_call_error {s s' : State D} {es : List (Expression D)}
    (h : (FUNCTION2 ≤ TYPE_MASK s.type ∧ TYPE_MASK s.type ≤ FUNCTION7) ∨
      (CLOSURE2 ≤ TYPE_MASK s.type ∧ TYPE_MASK s.type ≤ CLOSURE7))
    (ho : (next_token H s).type = TOK_OPEN) (ha : arg_list H (next_token H s) es s')
    (hs : s'.type ≠ TOK_SEP) (hk : es.length ≠ ARITY s.type ∨ s'.type ≠ TOK_CLOSE) :
    ∃ ret sE, base_returns H s (ret, sE) ∧ sE.type = TOK_ERROR := by
  have h2 := arity_ge_two h
  have hl := arg_list_length H ha
  obtain ⟨ret', j, s'', hr, hcase⟩ :=
    base_args_returns_list H (ARITY s.type) ha hs 0 (call_node H s) (by omega)
  have hb := base_returns_funN H h ho hr
  have hcond : s''.type ≠ TOK_CLOSE ∨ j ≠ ARITY s.type - 1 := by
    rcases hcase with ⟨_, hj, rfl⟩ | ⟨hgt, hj, _⟩
    · rcases hk with hk | hk
      · right; omega
      · left; exact hk
    · right; omega
  rw [if_pos hcond] at hb
  exact ⟨_, _, hb, rfl⟩

/-- A base that leaves a token which continues no production is the whole `list`. -/
theorem list_returns_of_base {s s' : State D} {t : Expression D}
    (hn : ¬ (s.type = TOK_INFIX ∧ (s.function H = Ptr.add ∨ s.function H = Ptr.sub)))
    (hb : base_returns H s (t, s')) (hi : s'.type ≠ TOK_INFIX) (hsep : s'.type ≠ TOK_SEP) :
    ∃ t', list_returns H s (t', s') := by
  obtain ⟨t', hf⟩ := factor_returns_of_stop H (power_returns_of_base H hn hb)
    (fun c => hi c.1)
  exact ⟨t', list_returns_of_expr H
    (expr_returns_intro H
      (term_returns_intro H hf (term_loop_returns_stop H (fun c => hi c.1)))
      (expr_loop_returns_stop H (fun c => hi c.1))) hsep⟩

end PowerChains

/-! ## Comma lists -/

section CommaLists

variable {D W : Type} (H : Host D W)

theorem list_loop_returns_chain {s s' : State D} {xs : List (Expression D)}
    (hc : sep_chain H s xs s') (hstop : s'.type ≠ TOK_SEP) (acc : Expression D) :
    list_loop_returns H acc s (xs.foldl (binary Ptr.comma) acc, s') := by
  induction hc generalizing acc with
  | nil s => exact list_loop_returns_stop H hstop
  | @cons s s1 s2 x xs ht hx hrest ih =>
    refine list_loop_returns_step H ht hx ?_
    rw [new_expr_binary]
    exact ih hstop _

theorem list_returns_chain {s s1 s' : State D} {e1 : Expression D} {xs : List (Expression D)}
    (he : expr_returns H s (e1, s1)) (hc : sep_chain H s1 xs s') (hstop : s'.type ≠ TOK_SEP) :
    list_returns H s (xs.foldl (binary Ptr.comma) e1, s') :=
  list_returns_intro H he (list_loop_returns_chain H hc hstop e1)

/-- The value of `comma(a, b)` is the value of `b`, evaluated after `a`. -/
theorem te_eval_comma (a b : Expression D) (w : W) :
    te_eval H (binary Ptr.comma a b) w = te_eval H b (te_eval H a w).2 := by
  unfold binary
  rw [te_eval_node, if_neg (by decide), if_neg (by decide), if_pos (by decide)]
  have h2 : ARITY (FUNCTION2 + FLAG_PURE) = 1 + 1 := by decide
  rw [h2, te_eval_args_cons, te_eval_args_cons, te_eval_args_zero]
  rfl

theorem te_eval_comma_chain (e1 last : Expression D) (init : List (Expression D)) (w : W) :
    te_eval H ((init ++ [last]).foldl (binary Ptr.comma) e1) w =
      te_eval H last (te_eval H (init.foldl (binary Ptr.comma) e1) w).2 := by
  rw [List.foldl_append]
  exact te_eval_comma H _ _ w

theorem te_eval_comma_last (hdet : H.Deterministic) (e1 : Expression D)
    (xs : List (Expression D)) (w : W) :
    (te_eval H (xs.foldl (binary Ptr.comma) e1) w).1 =
      (te_eval H ((e1 :: xs).getLast (List.cons_ne_nil e1 xs)) w).1 := by
  induction xs using List.reverseRecOn with
  | nil => rfl
  | append_singleton init last _ =>
    rw [te_eval_comma_chain, te_eval_world H hdet]
    congr 2
    simp

end CommaLists

/-! ## The numeric intrinsics `fac`, `ncr`, `npr` -/

section Numeric

variable {D W : Type} (H : Host D W)

theorem fac_loop_zero (ua i result : Nat) : fac_loop H 0 ua i result = H.ofNat result := rfl

theorem fac_loop_succ (fuel ua i result : Nat) :
    fac_loop H (fuel + 1) ua i result =
      if i ≤ ua then
        if i > H.ULONG_MAX / result then H.inf
        else fac_loop H fuel ua ((i + 1) % (H.ULONG_MAX + 1)) (result * i % (H.ULONG_MAX + 1))
      else H.ofNat result := rfl

/-- The loop of `fac`, entered with `result = (i-1)!`, returns `ua!` when that fits in an
`unsigned long` and infinity when it does not; no product wraps around. -/
theorem fac_loop_spec (h3 : 3 ≤ H.ULONG_MAX) (ua : Nat) :
    ∀ (fuel i : Nat), 1 ≤ i → i ≤ ua + 1 → ua + 1 - i ≤ fuel →
      Nat.factorial (i - 1) ≤ H.ULONG_MAX →
      fac_loop H fuel ua i (Nat.factorial (i - 1)) =
        if Nat.factorial ua ≤ H.ULONG_MAX then H.ofNat (Nat.factorial ua) else H.inf := by
  intro fuel
  induction fuel with
  | zero =>
    intro i h1 h2 h3' hr
    have e : i - 1 = ua := by omega
    rw [fac_loop_zero, e]
    rw [e] at hr
    rw [if_pos hr]
  | succ fuel ih =>
    intro i h1 h2 hf hr
    rw [fac_loop_succ]
    have hpos : 0 < Nat.factorial (i - 1) := Nat.factorial_pos _
    have hfac : i * Nat.factorial (i - 1) = Nat.factorial i := Nat.mul_factorial_pred (by omega)
    by_cases hi : i ≤ ua
    · rw [if_pos hi]
      by_cases ho : i > H.ULONG_MAX / Nat.factorial (i - 1)
      · rw [if_pos ho]
        have hlt : H.ULONG_MAX < i * Nat.factorial (i - 1) :=
          (Nat.div_lt_iff_lt_mul hpos).1 ho
        rw [hfac] at hlt
        have hle : Nat.factorial i ≤ Nat.factorial ua := Nat.factorial_le hi
        rw [if_neg (by omega)]
      · rw [if_neg ho]
        have hle : i * Nat.factorial (i - 1) ≤ H.ULONG_MAX := by
          by_contra hc
          exact ho ((Nat.div_lt_iff_lt_mul hpos).2 (by omega))
        rw [hfac] at hle
        have hiU : i < H.ULONG_MAX := by
          by_cases h3i : 3 ≤ i
          · exact lt_of_lt_of_le (Nat.lt_factorial_self h3i) hle
          · omega
        have e1 : (i + 1) % (H.ULONG_MAX + 1) = i + 1 := Nat.mod_eq_of_lt (by omega)
        have e2 : Nat.factorial (i - 1) * i % (H.ULONG_MAX + 1) = Nat.factorial i := by
          rw [Nat.mul_comm, hfac]
          exact Nat.mod_eq_of_lt (by omega)
        rw [e1, e2]
        have := ih (i + 1) (by omega) (by omega) (by omega) (by simpa using hle)
        simpa using this
    · rw [if_neg hi]
      have e : i - 1 = ua := by omega
      rw [e] at hr ⊢
      rw [if_pos hr]

/-- Function `fac` in the three cases of its guards. -/
theorem fac_cases (h3 : 3 ≤ H.ULONG_MAX) (a : D) :
    (H.lt a (H.ofNat 0) = true → fac H a = H.nan) ∧
    (H.lt a (H.ofNat 0) = false → H.lt (H.ofNat H.UINT_MAX) a = true → fac H a = H.inf) ∧
    (H.lt a (H.ofNat 0) = false → H.lt (H.ofNat H.UINT_MAX) a = false →
      fac H a = if Nat.factorial (H.toUInt a) ≤ H.ULONG_MAX
        then H.ofNat (Nat.factorial (H.toUInt a)) else H.inf) := by
  refine ⟨fun h => ?_, fun h1 h2 => ?_, fun h1 h2 => ?_⟩
  · unfold fac; rw [if_pos h]
  · unfold fac; rw [if_neg (by rw [h1]; decide), if_pos h2]
  · unfold fac; rw [if_neg (by rw [h1]; decide), if_neg (by rw [h2]; decide)]
    exact fac_loop_spec H h3 (H.toUInt a) (H.toUInt a) 1 (le_refl 1) (by omega) (by omega)
      (by show Nat.factorial 0 ≤ H.ULONG_MAX; rw [Nat.factorial_zero]; omega)

theorem factorial_fits_64 (k : Nat) :
    Nat.factorial k ≤ 18446744073709551615 ↔ k ≤ 20 := by
  constructor
  · intro h
    by_contra hc
    have h21 : Nat.factorial 21 ≤ Nat.factorial k := Nat.factorial_le (by omega)
    have e : Nat.factorial 21 = 51090942171709440000 := by decide
    omega
  · intro h
    have h20 : Nat.factorial k ≤ Nat.factorial 20 := Nat.factorial_le h
    have e : Nat.factorial 20 = 2432902008176640000 := by decide
    omega

theorem ncr_loop_zero (un ur i result : Nat) :
    ncr_loop H 0 un ur i result = H.ofNat result := rfl

theorem ncr_loop_succ (fuel un ur i result : Nat) :
    ncr_loop H (fuel + 1) un ur i result =
      if i ≤ ur then
        if result > H.ULONG_MAX / ((un + (H.ULONG_MAX + 1) - ur + i) % (H.ULONG_MAX + 1)) then
          H.inf
        else ncr_loop H fuel un ur ((i + 1) % (H.ULONG_MAX + 1))
          (result * ((un + (H.ULONG_MAX + 1) - ur + i) % (H.ULONG_MAX + 1)) %
            (H.ULONG_MAX + 1) / i)
      else H.ofNat result := rfl

/-- One step of the loop of `ncr` divides exactly: `C(m+i-1, i-1) * (m+i) = C(m+i, i) * i`. -/
theorem choose_step (m i : Nat) (hi : 1 ≤ i) :
    Nat.choose (m + i - 1) (i - 1) * (m + i) = Nat.choose (m + i) i * i := by
  obtain ⟨j, rfl⟩ : ∃ j, i = j + 1 := ⟨i - 1, by omega⟩
  have h := Nat.succ_mul_choose_eq (m + j) j
  simp only [Nat.succ_eq_add_one] at h
  have e1 : m + (j + 1) - 1 = m + j := by omega
  have e2 : j + 1 - 1 = j := by omega
  rw [e1, e2, Nat.mul_comm]
  exact h

/-- The loop of `ncr` for `k <= un / 2`, entered with `result = C(un-k+i-1, i-1)`: either
some product `result * (un - k + j)` exceeds `ULONG_MAX` and the result is infinity, or
none does and the result is `C(un, k)`, every division being exact. -/
theorem ncr_loop_spec (un k : Nat) (hk : 2 * k ≤ un) (hun : un ≤ H.ULONG_MAX) :
    ∀ (fuel i : Nat), 1 ≤ i → i ≤ k + 1 → k + 1 - i ≤ fuel →
      ((∃ j, i ≤ j ∧ j ≤ k ∧
          H.ULONG_MAX < Nat.choose (un - k + j - 1) (j - 1) * (un - k + j)) ∧
        ncr_loop H fuel un k i (Nat.choose (un - k + i - 1) (i - 1)) = H.inf) ∨
      ((∀ j, i ≤ j → j ≤ k →
          Nat.choose (un - k + j - 1) (j - 1) * (un - k + j) ≤ H.ULONG_MAX) ∧
        ncr_loop H fuel un k i (Nat.choose (un - k + i - 1) (i - 1)) =
          H.ofNat (Nat.choose un k)) := by
  have hexit : ∀ i, i = k + 1 → Nat.choose (un - k + i - 1) (i - 1) = Nat.choose un k := by
    intro i hi
    have e1 : un - k + i - 1 = un := by omega
    have e2 : i - 1 = k := by omega
    rw [e1, e2]
  intro fuel
  induction fuel with
  | zero =>
    intro i h1 h2 hf
    right
    refine ⟨fun j hj1 hj2 => by omega, ?_⟩
    rw [ncr_loop_zero, hexit i (by omega)]
  | succ fuel ih =>
    intro i h1 h2 hf
    rw [ncr_loop_succ]
    by_cases hi : i ≤ k
    · rw [if_pos hi]
      have em : (un + (H.ULONG_MAX + 1) - k + i) % (H.ULONG_MAX + 1) = un - k + i := by
        have e : un + (H.ULONG_MAX + 1) - k + i = (un - k + i) + (H.ULONG_MAX + 1) := by omega
        rw [e, Nat.add_mod_right]
        exact Nat.mod_eq_of_lt (by omega)
      rw [em]
      have hm : 0 < un - k + i := by omega
      by_cases ho : Nat.choose (un - k + i - 1) (i - 1) > H.ULONG_MAX / (un - k + i)
      · rw [if_pos ho]
        left
        exact ⟨⟨i, le_refl i, hi, (Nat.div_lt_iff_lt_mul hm).1 ho⟩, rfl⟩
      · rw [if_neg ho]
        have hle : Nat.choose (un - k + i - 1) (i - 1) * (un - k + i) ≤ H.ULONG_MAX := by
          by_contra hc
          exact ho ((Nat.div_lt_iff_lt_mul hm).2 (by omega))
        have e1 : (i + 1) % (H.ULONG_MAX + 1) = i + 1 := Nat.mod_eq_of_lt (by omega)
        have e2 : Nat.choose (un - k + i - 1) (i - 1) * (un - k + i) % (H.ULONG_MAX + 1) / i =
            Nat.choose (un - k + (i + 1) - 1) (i + 1 - 1) := by
          rw [Nat.mod_eq_of_lt (by omega), choose_step (un - k) i h1,
            Nat.mul_div_cancel _ (by omega)]
          rfl
        rw [e1, e2]
        rcases ih (i + 1) (by omega) (by omega) (by omega) with ⟨⟨j, hj1, hj2, hj3⟩, hr⟩ | ⟨hall, hr⟩
        · left
          exact ⟨⟨j, by omega, hj2, hj3⟩, hr⟩
        · right
          refine ⟨fun j hj1 hj2 => ?_, hr⟩
          by_cases hji : j = i
          · rw [hji]; exact hle
          · exact hall j (by omega) hj2
    · rw [if_neg hi]
      right
      refine ⟨fun j hj1 hj2 => by omega, ?_⟩
      rw [hexit i (by omega)]

/-- Function `ncr` in the cases of its guards; `un`, `ur` are the arguments converted to
`unsigned int` and `k` is the smaller of `ur` and `un - ur`, which the loop runs to. -/
theorem ncr_cases (hU : H.UINT_MAX ≤ H.ULONG_MAX) (hc : ∀ a, H.toUInt a ≤ H.UINT_MAX)
    (n r : D) :
    ((H.lt n (H.ofNat 0) || H.lt r (H.ofNat 0) || H.lt n r) = true → ncr H n r = H.nan) ∧
    ((H.lt n (H.ofNat 0) || H.lt r (H.ofNat 0) || H.lt n r) = false →
      (H.lt (H.ofNat H.UINT_MAX) n || H.lt (H.ofNat H.UINT_MAX) r) = true →
      ncr H n r = H.inf) ∧
    ((H.lt n (H.ofNat 0) || H.lt r (H.ofNat 0) || H.lt n r) = false →
      (H.lt (H.ofNat H.UINT_MAX) n || H.lt (H.ofNat H.UINT_MAX) r) = false →
      H.toUInt r ≤ H.toUInt n →
      ∀ k, k = (if H.toUInt r > H.toUInt n / 2 then H.toUInt n - H.toUInt r else H.toUInt r) →
      ((∃ j, 1 ≤ j ∧ j ≤ k ∧ H.ULONG_MAX <
          Nat.choose (H.toUInt n - k + j - 1) (j - 1) * (H.toUInt n - k + j)) ∧
        ncr H n r = H.inf) ∨
      ((∀ j, 1 ≤ j → j ≤ k →
          Nat.choose (H.toUInt n - k + j - 1) (j - 1) * (H.toUInt n - k + j) ≤ H.ULONG_MAX) ∧
        ncr H n r = H.ofNat (Nat.choose (H.toUInt n) (H.toUInt r)))) := by
  refine ⟨fun h => ?_, fun h1 h2 => ?_, fun h1 h2 hle k hk => ?_⟩
  · unfold ncr; rw [if_pos h]
  · unfold ncr; rw [if_neg (by rw [h1]; decide), if_pos h2]
  · have hn := hc n
    have e : ncr H n r = ncr_loop H k (H.toUInt n) k 1 1 := by
      unfold ncr
      rw [if_neg (by rw [h1]; decide), if_neg (by rw [h2]; decide)]
      have ek : (if H.toUInt r > H.toUInt n / 2 then
          (H.toUInt n + (H.ULONG_MAX + 1) - H.toUInt r) % (H.ULONG_MAX + 1)
          else H.toUInt r) = k := by
        rw [hk]
        split_ifs
        · have e' : H.toUInt n + (H.ULONG_MAX + 1) - H.toUInt r =
              (H.toUInt n - H.toUInt r) + (H.ULONG_MAX + 1) := by omega
          rw [e', Nat.add_mod_right]
          exact Nat.mod_eq_of_lt (by omega)
        · rfl
      simp only [ek]
    have hk2 : 2 * k ≤ H.toUInt n := by
      rw [hk]; split_ifs <;> omega
    have hch : Nat.choose (H.toUInt n) k = Nat.choose (H.toUInt n) (H.toUInt r) := by
      rw [hk]; split_ifs
      · exact Nat.choose_symm hle
      · rfl
    have h := ncr_loop_spec H (H.toUInt n) k hk2 (by omega) k 1 (le_refl 1) (by omega)
      (by omega)
    have e0 : Nat.choose (H.toUInt n - k + 1 - 1) (1 - 1) = 1 := by simp
    rw [e0, ← e, hch] at h
    exact h

theorem integerHost_toUInt (a : IntDouble) : integerHost.toUInt a ≤ integerHost.UINT_MAX := by
  cases a with
  | nan => exact Nat.zero_le _
  | inf => exact Nat.zero_le _
  | int z => exact Nat.le_of_lt_succ (Nat.mod_lt _ (by decide))

end Numeric

/-! ## Symbol resolution -/

section Symbols

variable {D W : Type} (H : Host D W)

theorem strncmp_zero (s1 s2 : List Char) : strncmp s1 s2 0 = 0 := by
  unfold strncmp; rfl

theorem strncmp_succ (s1 s2 : List Char) (n : Nat) :
    strncmp s1 s2 (n + 1) =
      if s1.headD NUL ≠ s2.headD NUL then
        ((s1.headD NUL).toNat : Int) - ((s2.headD NUL).toNat : Int)
      else if s1.headD NUL = NUL then 0
      else strncmp s1.tail s2.tail n := by
  rw [strncmp]

theorem char_sub_ne_zero {a b : Char} (h : a ≠ b) : (a.toNat : Int) - (b.toNat : Int) ≠ 0 := by
  intro e
  apply h
  have e' : a.toNat = b.toNat := by omega
  rw [← Char.ofNat_toNat a, ← Char.ofNat_toNat b, e']

/-- The test of `find_lookup` and `find_builtin`, `strncmp(name, row, len) == 0` and
`row[len] == 0`, holds exactly when the stored name is the lexeme, the first `len` bytes
of `name`. -/
theorem strncmp_match (l rest r : List Char) (hl : NUL ∉ l) (hr : NUL ∉ r) :
    (strncmp (l ++ rest) r l.length = 0 ∧ r.getD l.length NUL = NUL) ↔ r = l := by
  induction l generalizing r with
  | nil =>
    cases r with
    | nil => simp [strncmp_zero]
    | cons b r =>
      simp only [List.length_nil, strncmp_zero, true_and, List.getD_cons_zero]
      constructor
      · intro e
        exact absurd (e ▸ List.mem_cons_self b r : NUL ∈ b :: r) hr
      · intro e
        cases e
  | cons a l ih =>
    have ha : a ≠ NUL := fun e => hl (e ▸ List.mem_cons_self a l)
    have hl' : NUL ∉ l := fun e => hl (List.mem_cons_of_mem a e)
    cases r with
    | nil =>
      simp only [List.cons_append, List.length_cons, strncmp_succ, List.headD_cons,
        List.headD_nil]
      rw [if_pos ha]
      constructor
      · rintro ⟨e, _⟩
        exact absurd e (char_sub_ne_zero ha)
      · intro e
        cases e
    | cons b r =>
      have hb : NUL ∉ r := fun e => hr (List.mem_cons_of_mem b e)
      simp only [List.cons_append, List.length_cons, strncmp_succ, List.headD_cons,
        List.tail_cons, List.getD_cons_succ]
      by_cases hab : a = b
      · subst hab
        rw [if_neg (by simp), if_neg ha]
        rw [ih r hl' hb]
        constructor
        · intro e; rw [e]
        · intro e; exact (List.cons.inj e).2
      · rw [if_pos hab]
        constructor
        · rintro ⟨e, _⟩
          exact absurd e (char_sub_ne_zero hab)
        · intro e
          exact absurd (List.cons.inj e).1.symm hab

theorem strncmp_match_take (name r : List Char) (len : Nat) (hlen : len ≤ name.length)
    (hl : NUL ∉ name.take len) (hr : NUL ∉ r) :
    (strncmp name r len = 0 ∧ r.getD len NUL = NUL) ↔ r = name.take len := by
  have h := strncmp_match (name.take len) (name.drop len) r hl hr
  rw [List.take_append_drop, List.length_take, Nat.min_eq_left hlen] at h
  exact h

end Symbols

/-! ## The built-in table and its binary search -/

section Builtins

variable {D W : Type} (H : Host D W)

/-- Function `strncmp` reads no more than the first `len` bytes of its first argument. -/
theorem strncmp_take (name r : List Char) (len : Nat) :
    strncmp (name.take len) r len = strncmp name r len := by
  induction len generalizing name r with
  | zero => rw [strncmp_zero, strncmp_zero]
  | succ n ih =>
    cases name with
    | nil => rfl
    | cons c t =>
      rw [strncmp_succ, strncmp_succ]
      simp only [List.take_succ_cons, List.headD_cons, List.tail_cons]
      rw [ih]

theorem find_builtin_loop_zero (table : List Variable) (name : List Char) (len : Nat)
    (imin imax : Int) : find_builtin_loop table name len 0 imin imax = none := rfl

theorem find_builtin_loop_succ (table : List Variable) (name : List Char) (len fuel : Nat)
    (imin imax : Int) :
    find_builtin_loop table name len (fuel + 1) imin imax =
      if imax ≥ imin then
        if (if strncmp name (table.getD (imin + (imax - imin) / 2).toNat
              { name := [], address := Ptr.null, type := 0, context := Ptr.null }).name len = 0
            then (NUL.toNat : Int) - (((table.getD (imin + (imax - imin) / 2).toNat
              { name := [], address := Ptr.null, type := 0, context := Ptr.null }).name.getD
                len NUL).toNat : Int)
            else strncmp name (table.getD (imin + (imax - imin) / 2).toNat
              { name := [], address := Ptr.null, type := 0, context := Ptr.null }).name len) = 0
        then some (table.getD (imin + (imax - imin) / 2).toNat
          { name := [], address := Ptr.null, type := 0, context := Ptr.null })
        else if (if strncmp name (table.getD (imin + (imax - imin) / 2).toNat
              { name := [], address := Ptr.null, type := 0, context := Ptr.null }).name len = 0
            then (NUL.toNat : Int) - (((table.getD (imin + (imax - imin) / 2).toNat
              { name := [], address := Ptr.null, type := 0, context := Ptr.null }).name.getD
                len NUL).toNat : Int)
            else strncmp name (table.getD (imin + (imax - imin) / 2).toNat
              { name := [], address := Ptr.null, type := 0, context := Ptr.null }).name len) > 0
        then find_builtin_loop table name len fuel (imin + (imax - imin) / 2 + 1) imax
        else find_builtin_loop table name len fuel imin (imin + (imax - imin) / 2 - 1)
      else none := rfl

/-- The search reads no more than the first `len` bytes of the name. -/
theorem find_builtin_loop_take (table : List Variable) (name : List Char) (len : Nat) :
    ∀ (fuel : Nat) (imin imax : Int),
      find_builtin_loop table (name.take len) len fuel imin imax =
        find_builtin_loop table name len fuel imin imax := by
  intro fuel
  induction fuel with
  | zero => intro imin imax; rfl
  | succ fuel ih =>
    intro imin imax
    rw [find_builtin_loop_succ, find_builtin_loop_succ]
    simp only [strncmp_take, ih]

/-- A row the search returns stands at an index between `imin` and `imax` and passes the
test `strncmp(name, row, len) == 0 && row[len] == 0`. -/
theorem find_builtin_loop_some (table : List Variable) (name : List Char) (len : Nat) :
    ∀ (fuel : Nat) (imin imax : Int) (row : Variable), 0 ≤ imin →
      find_builtin_loop table name len fuel imin imax = some row →
      ∃ i : Nat, imin ≤ (i : Int) ∧ (i : Int) ≤ imax ∧
        row = table.getD i { name := [], address := Ptr.null, type := 0, context := Ptr.null } ∧
        strncmp name row.name len = 0 ∧ row.name.getD len NUL = NUL := by
  intro fuel
  induction fuel with
  | zero => intro imin imax row _ h; cases h
  | succ fuel ih =>
    intro imin imax row h0 h
    rw [find_builtin_loop_succ] at h
    by_cases c1 : imax ≥ imin
    · rw [if_pos c1] at h
      have hi0 : 0 ≤ imin + (imax - imin) / 2 := by omega
      by_cases c2 : strncmp name (table.getD (imin + (imax - imin) / 2).toNat
          { name := [], address := Ptr.null, type := 0, context := Ptr.null }).name len = 0
      · rw [if_pos c2] at h
        by_cases c3 : (NUL.toNat : Int) - (((table.getD (imin + (imax - imin) / 2).toNat
            { name := [], address := Ptr.null, type := 0, context := Ptr.null }).name.getD
              len NUL).toNat : Int) = 0
        · rw [if_pos c3] at h
          have hrow := (Option.some.inj h).symm
          refine ⟨(imin + (imax - imin) / 2).toNat, by omega, by omega, hrow, ?_, ?_⟩
          · rw [hrow]; exact c2
          · rw [hrow]
            by_contra hne
            exact char_sub_ne_zero (Ne.symm hne) c3
        · rw [if_neg c3] at h
          split_ifs at h
          · obtain ⟨i, h1, h2, h3⟩ := ih _ _ row (by omega) h
            exact ⟨i, by omega, h2, h3⟩
          · obtain ⟨i, h1, h2, h3⟩ := ih _ _ row h0 h
            exact ⟨i, h1, by omega, h3⟩
      · rw [if_neg c2, if_neg c2] at h
        split_ifs at h
        · obtain ⟨i, h1, h2, h3⟩ := ih _ _ row (by omega) h
          exact ⟨i, by omega, h2, h3⟩
        · obtain ⟨i, h1, h2, h3⟩ := ih _ _ row h0 h
          exact ⟨i, h1, by omega, h3⟩
    · rw [if_neg c1] at h
      cases h

end Builtins

/-! ## The rows of the built-in table -/

section BuiltinTable

variable {D W : Type} (H : Host D W)

theorem find_builtin_take (b : Bool) (name : List Char) (len : Nat) :
    find_builtin b (name.take len) len = find_builtin b name len := by
  unfold find_builtin
  exact find_builtin_loop_take _ name len _ _ _

/-- Every row before the closing row is found under its own name. -/
theorem find_builtin_row (b : Bool) :
    ∀ row ∈ (functions b).dropLast, find_builtin b row.name row.name.length = some row := by
  intro row h
  cases b <;>
  · simp only [functions, builtin, List.dropLast, List.mem_cons, List.mem_singleton,
      List.not_mem_nil, or_false] at h
    rcases h with rfl | rfl | rfl | rfl | rfl | rfl | rfl | rfl | rfl | rfl | rfl | rfl |
      rfl | rfl | rfl | rfl | rfl | rfl | rfl | rfl | rfl | rfl | rfl | rfl <;> rfl

theorem functions_no_nul (b : Bool) : ∀ row ∈ functions b, NUL ∉ row.name := by
  cases b <;> decide

theorem functions_getD_mem (b : Bool) (i : Nat) (h : i ≤ 23) :
    (functions b).getD i { name := [], address := Ptr.null, type := 0, context := Ptr.null } ∈
      (functions b).dropLast := by
  have hi : i < 24 := by omega
  cases b <;> interval_cases i <;> simp [functions, List.dropLast]

/-- A row the search returns is one of the 24 rows before the closing row, and its name
is the lexeme. -/
theorem find_builtin_some (b : Bool) (name : List Char) (len : Nat) (hlen : len ≤ name.length)
    (hl : NUL ∉ name.take len) (row : Variable) (h : find_builtin b name len = some row) :
    row ∈ (functions b).dropLast ∧ row.name = name.take len := by
  unfold find_builtin at h
  obtain ⟨i, h1, h2, h3, h4, h5⟩ :=
    find_builtin_loop_some (functions b) name len _ 0 _ row (le_refl 0) h
  have hlen25 : ((functions b).length : Int) = 25 := by cases b <;> rfl
  have hi : i ≤ 23 := by omega
  have hmem : row ∈ (functions b).dropLast := h3 ▸ functions_getD_mem b i hi
  have hnul : NUL ∉ row.name := functions_no_nul b row (List.dropLast_subset _ hmem)
  exact ⟨hmem, (strncmp_match_take name row.name len hlen hl hnul).1 ⟨h4, h5⟩⟩

end BuiltinTable

/-! ## The lexer on an identifier -/

section Identifiers

variable {D W : Type} (H : Host D W)

end Identifiers

/-! ## The types of the built-in rows -/

section BuiltinRows

variable {D W : Type} (H : Host D W)

theorem functions_mask (b : Bool) : ∀ row ∈ (functions b).dropLast,
    (FUNCTION0 ≤ TYPE_MASK row.type ∧ TYPE_MASK row.type ≤ FUNCTION7) ∧
      IS_PURE row.type = true := by
  cases b <;> decide

end BuiltinRows

/-! ## What constant folding leaves behind -/

section FoldingAll

variable {D W : Type} (H : Host D W)

theorem foldable_node (type : Nat) (payload : Payload D) (parameters : List (Expression D))
    (context : Ptr) :
    (Expression.node type payload parameters context).foldable =
      ((IS_PURE type && Expression.allConstant (ARITY type) parameters)
        || Expression.foldableArgs (ARITY type) parameters) := by
  rw [Expression.foldable]

theorem foldableArgs_zero (ps : List (Expression D)) :
    Expression.foldableArgs 0 ps = false := by
  cases ps <;> rw [Expression.foldableArgs]

theorem foldable_leaf (type : Nat) (payload : Payload D) (parameters : List (Expression D))
    (context : Ptr) (h : type = TE_CONSTANT ∨ type = VARIABLE) :
    (Expression.node type payload parameters context).foldable = false := by
  rw [foldable_node]
  rcases h with rfl | rfl
  · have e1 : IS_PURE TE_CONSTANT = false := by decide
    have e2 : ARITY TE_CONSTANT = 0 := by decide
    rw [e1, e2, foldableArgs_zero]
    rfl
  · have e1 : IS_PURE VARIABLE = false := by decide
    have e2 : ARITY VARIABLE = 0 := by decide
    rw [e1, e2, foldableArgs_zero]
    rfl

theorem foldableArgs_cons (arity : Nat) (p : Expression D) (ps : List (Expression D)) :
    Expression.foldableArgs (arity + 1) (p :: ps) =
      (Expression.foldable p || Expression.foldableArgs arity ps) := by
  rw [Expression.foldableArgs]

theorem allPure_node (type : Nat) (payload : Payload D) (parameters : List (Expression D))
    (context : Ptr) :
    (Expression.node type payload parameters context).allPure =
      ((decide (type = TE_CONSTANT) || decide (type = VARIABLE) || IS_PURE type)
        && Expression.allPureArgs (ARITY type) parameters) := by
  rw [Expression.allPure]

theorem allPureArgs_cons (arity : Nat) (p : Expression D) (ps : List (Expression D)) :
    Expression.allPureArgs (arity + 1) (p :: ps) =
      (Expression.allPure p && Expression.allPureArgs arity ps) := by
  rw [Expression.allPureArgs]

/-- The flag `known` of `optimize` says that the slots, after folding, are all constants. -/
theorem optimize_params_known :
    ∀ (arity : Nat) (ps : List (Expression D)) (w : W),
      (optimize_params H arity ps w).2.1 =
        Expression.allConstant arity (optimize_params H arity ps w).1
  | 0, ps, w => by rw [optimize_params_zero]; rfl
  | arity + 1, [], w => by rw [optimize_params_nil]; rfl
  | arity + 1, p :: ps, w => by
    rw [optimize_params_cons]
    show _ = (decide (_ = TE_CONSTANT) && Expression.allConstant arity _)
    rw [optimize_params_known arity ps]

mutual

/-- In a tree of constants, variables and pure functions, `optimize` leaves no pure node
whose children are all constants. -/
theorem optimize_not_foldable :
    ∀ (t : Expression D), t.allPure = true → ∀ w : W, (optimize H t w).1.foldable = false
  | Expression.null, _, w => by rw [optimize_null]; rfl
  | Expression.node type payload parameters context, h, w => by
    rw [allPure_node, Bool.and_eq_true] at h
    rw [optimize_node]
    by_cases c1 : type = TE_CONSTANT
    · rw [if_pos c1]; exact foldable_leaf _ _ _ _ (Or.inl c1)
    rw [if_neg c1]
    by_cases c2 : type = VARIABLE
    · rw [if_pos c2]; exact foldable_leaf _ _ _ _ (Or.inr c2)
    rw [if_neg c2]
    have c3 : IS_PURE type = true := by
      have h1 := h.1
      simp only [Bool.or_eq_true, decide_eq_true_eq] at h1
      rcases h1 with (h1 | h1) | h1
      · exact absurd h1 c1
      · exact absurd h1 c2
      · exact h1
    rw [if_pos c3]
    by_cases c4 : (optimize_params H (ARITY type) parameters w).2.1 = true
    · rw [if_pos c4]; exact foldable_leaf _ _ _ _ (Or.inl rfl)
    · rw [if_neg c4]
      dsimp only
      rw [foldable_node, ← optimize_params_known,
        optimize_params_not_foldable (ARITY type) parameters h.2 w]
      simp only [Bool.not_eq_true] at c4
      rw [c4]
      simp

theorem optimize_params_not_foldable :
    ∀ (arity : Nat) (ps : List (Expression D)), Expression.allPureArgs arity ps = true →
      ∀ w : W, Expression.foldableArgs arity (optimize_params H arity ps w).1 = false
  | 0, ps, _, w => by rw [optimize_params_zero]; exact foldableArgs_zero ps
  | arity + 1, [], _, w => by rw [optimize_params_nil]; rfl
  | arity + 1, p :: ps, h, w => by
    rw [allPureArgs_cons, Bool.and_eq_true] at h
    rw [optimize_params_cons]
    dsimp only
    rw [foldableArgs_cons, optimize_not_foldable p h.1 w,
      optimize_params_not_foldable arity ps h.2]
    rfl

end

end FoldingAll

/-! ## The parser does not call the functions it binds -/

section WithCall

variable {D W : Type} (H : Host D W)

theorem next_token_loop_withCall (c : Ptr → Option Ptr → List D → W → D × W) :
    ∀ (n : Nat) (s : State D), next_token_loop (H.withCall c) n s = next_token_loop H n s := by
  intro n
  induction n with
  | zero => intro s; rfl
  | succ n ih =>
    intro s
    rw [next_token_loop, next_token_loop]
    simp only [ih]
    rfl

theorem next_token_withCall (c : Ptr → Option Ptr → List D → W → D × W) (s : State D) :
    next_token (H.withCall c) s = next_token H s :=
  next_token_loop_withCall H c _ _

set_option maxHeartbeats 4000000 in
theorem parser_withCall (c : Ptr → Option Ptr → List D → W → D × W) (n : Nat) :
    (∀ s, base (H.withCall c) n s = base H n s) ∧
    (∀ a i e s, base_args (H.withCall c) n a i e s = base_args H n a i e s) ∧
    (∀ s, power (H.withCall c) n s = power H n s) ∧
    (∀ g s, power_loop (H.withCall c) n g s = power_loop H n g s) ∧
    (∀ s, factor (H.withCall c) n s = factor H n s) ∧
    (∀ e s, factor_loop (H.withCall c) n e s = factor_loop H n e s) ∧
    (∀ e k s, factor_right_loop (H.withCall c) n e k s = factor_right_loop H n e k s) ∧
    (∀ s, term (H.withCall c) n s = term H n s) ∧
    (∀ e s, term_loop (H.withCall c) n e s = term_loop H n e s) ∧
    (∀ s, expr (H.withCall c) n s = expr H n s) ∧
    (∀ e s, expr_loop (H.withCall c) n e s = expr_loop H n e s) ∧
    (∀ s, list (H.withCall c) n s = list H n s) ∧
    (∀ e s, list_loop (H.withCall c) n e s = list_loop H n e s) := by
  induction n with
  | zero =>
    exact ⟨fun _ => rfl, fun _ _ _ _ => rfl, fun _ => rfl, fun _ _ => rfl, fun _ => rfl,
      fun _ _ => rfl, fun _ _ _ => rfl, fun _ => rfl, fun _ _ => rfl, fun _ => rfl,
      fun _ _ => rfl, fun _ => rfl, fun _ _ => rfl⟩
  | succ n ih =>
    obtain ⟨ib, iba, ip, ipl, ifa, ifl, ifr, it, itl, ie, iel, il, ill⟩ := ih
    have hnt := next_token_withCall H c
    refine ⟨?_, ?_, ?_, ?_, ?_, ?_, ?_, ?_, ?_, ?_, ?_, ?_, ?_⟩
    · intro s
      rw [base_succ, base_succ]
      simp only [hnt, ip, iba, il]
      rfl
    · intro a i e s
      rw [base_args_succ, base_args_succ]
      simp only [hnt, ie, iba]
    · intro s
      rw [power_succ, power_succ]
      exact ipl _ _
    · intro g s
      rw [power_loop_succ, power_loop_succ]
      simp only [hnt, ib, ipl]
      rfl
    · intro s
      rw [factor_succ, factor_succ]
      simp only [ip, ifl, ifr]
      rfl
    · intro e s
      rw [factor_loop_succ, factor_loop_succ]
      simp only [hnt, ip, ifl]
      rfl
    · intro e k s
      rw [factor_right_loop_succ, factor_right_loop_succ]
      simp only [hnt, ip, ifr]
      rfl
    · intro s
      rw [term_succ, term_succ]
      simp only [ifa, itl]
    · intro e s
      rw [term_loop_succ, term_loop_succ]
      simp only [hnt, ifa, itl]
      rfl
    · intro s
      rw [expr_succ, expr_succ]
      simp only [it, iel]
    · intro e s
      rw [expr_loop_succ, expr_loop_succ]
      simp only [hnt, it, iel]
      rfl
    · intro s
      rw [list_succ, list_succ]
      simp only [ie, ill]
    · intro e s
      rw [list_loop_succ, list_loop_succ]
      simp only [hnt, ie, ill]

theorem fac_loop_withCall (c : Ptr → Option Ptr → List D → W → D × W) :
    ∀ (fuel ua i result : Nat),
      fac_loop (H.withCall c) fuel ua i result = fac_loop H fuel ua i result := by
  intro fuel
  induction fuel with
  | zero => intro ua i result; rfl
  | succ fuel ih =>
    intro ua i result
    rw [fac_loop_succ, fac_loop_succ, ih]
    rfl

theorem fac_withCall (c : Ptr → Option Ptr → List D → W → D × W) (a : D) :
    fac (H.withCall c) a = fac H a := by
  unfold fac
  simp only [fac_loop_withCall]
  rfl

theorem ncr_loop_withCall (c : Ptr → Option Ptr → List D → W → D × W) :
    ∀ (fuel un ur i result : Nat),
      ncr_loop (H.withCall c) fuel un ur i result = ncr_loop H fuel un ur i result := by
  intro fuel
  induction fuel with
  | zero => intro un ur i result; rfl
  | succ fuel ih =>
    intro un ur i result
    rw [ncr_loop_succ, ncr_loop_succ, ih]
    rfl

theorem ncr_withCall (c : Ptr → Option Ptr → List D → W → D × W) (n r : D) :
    ncr (H.withCall c) n r = ncr H n r := by
  unfold ncr
  simp only [ncr_loop_withCall]
  rfl

theorem npr_withCall (c : Ptr → Option Ptr → List D → W → D × W) (n r : D) :
    npr (H.withCall c) n r = npr H n r := by
  unfold npr
  rw [ncr_withCall, fac_withCall]
  rfl

theorem invoke_withCall (c : Ptr → Option Ptr → List D → W → D × W) (f : Ptr)
    (hf : ∀ ctx args w, c f ctx args w = H.call f ctx args w) (ctx : Option Ptr)
    (args : List D) (w : W) :
    invoke (H.withCall c) f ctx args w = invoke H f ctx args w := by
  unfold invoke
  split
  any_goals rfl
  · rw [fac_withCall]
  · rw [ncr_withCall]
  · rw [npr_withCall]
  · show (if _ then _ else c _ _ _ _) = _
    rw [hf]
    rfl

theorem allConstant_cons (arity : Nat) (p : Expression D) (ps : List (Expression D)) :
    Expression.allConstant (arity + 1) (p :: ps) =
      (decide (p.type = TE_CONSTANT) && Expression.allConstant arity ps) := by
  rw [Expression.allConstant]

/-- Evaluating constants makes no call. -/
theorem te_eval_args_withCall (c : Ptr → Option Ptr → List D → W → D × W) :
    ∀ (arity : Nat) (ps : List (Expression D)) (w : W),
      Expression.allConstant arity ps = true →
      te_eval_args (H.withCall c) arity ps w = te_eval_args H arity ps w
  | 0, ps, w, _ => by rw [te_eval_args_zero, te_eval_args_zero]
  | arity + 1, [], w, _ => by rw [te_eval_args_nil, te_eval_args_nil]; rfl
  | arity + 1, p :: ps, w, h => by
    rw [allConstant_cons, Bool.and_eq_true, decide_eq_true_eq] at h
    rw [te_eval_args_cons, te_eval_args_cons, te_eval_constant _ h.1, te_eval_constant _ h.1]
    dsimp only
    rw [te_eval_args_withCall c arity ps w h.2]
    rfl

theorem impureOn_node (S : Ptr → Bool) (type : Nat) (payload : Payload D)
    (parameters : List (Expression D)) (context : Ptr) :
    (Expression.node type payload parameters context).impureOn S H.asPtr =
      ((!S ((Expression.node type payload [] context).function H.asPtr) || !IS_PURE type)
        && Expression.impureOnArgs S H.asPtr (ARITY type) parameters) := by
  rw [Expression.impureOn]

theorem impureOnArgs_cons (S : Ptr → Bool) (arity : Nat) (p : Expression D)
    (ps : List (Expression D)) :
    Expression.impureOnArgs S H.asPtr (arity + 1) (p :: ps) =
      (Expression.impureOn S H.asPtr p && Expression.impureOnArgs S H.asPtr arity ps) := by
  rw [Expression.impureOnArgs]

mutual

/-- Function `optimize` calls no function in `S` when the nodes of the tree that carry one
lack the pure flag: with any other functions behind the addresses in `S` it returns the
same tree and leaves the same world. -/
theorem optimize_withCall (c : Ptr → Option Ptr → List D → W → D × W) (S : Ptr → Bool)
    (hc : ∀ f, S f = false → ∀ ctx args w, c f ctx args w = H.call f ctx args w) :
    ∀ (t : Expression D), t.impureOn S H.asPtr = true → ∀ w : W,
      optimize (H.withCall c) t w = optimize H t w
  | Expression.null, _, w => by rw [optimize_null, optimize_null]
  | Expression.node type payload parameters context, h, w => by
    rw [impureOn_node, Bool.and_eq_true] at h
    rw [optimize_node, optimize_node, optimize_params_withCall c S hc _ parameters h.2 w]
    by_cases c1 : type = TE_CONSTANT
    · rw [if_pos c1, if_pos c1]
    rw [if_neg c1, if_neg c1]
    by_cases c2 : type = VARIABLE
    · rw [if_pos c2, if_pos c2]
    rw [if_neg c2, if_neg c2]
    by_cases c3 : IS_PURE type = true
    · rw [if_pos c3, if_pos c3]
      by_cases c4 : (optimize_params H (ARITY type) parameters w).2.1 = true
      · rw [if_pos c4, if_pos c4]
        have hS : S ((Expression.node type payload [] context).function H.asPtr) = false := by
          have h1 := h.1
          rw [c3] at h1
          simpa using h1
        have hk : Expression.allConstant (ARITY type)
            (optimize_params H (ARITY type) parameters w).1 = true := by
          rw [← optimize_params_known]; exact c4
        have he : te_eval (H.withCall c) (Expression.node type payload
            (optimize_params H (ARITY type) parameters w).1 context)
            (optimize_params H (ARITY type) parameters w).2.2 =
            te_eval H (Expression.node type payload
              (optimize_params H (ARITY type) parameters w).1 context)
              (optimize_params H (ARITY type) parameters w).2.2 := by
          have hfun : ∀ ps : List (Expression D),
              (Expression.node type payload ps context).function H.asPtr =
                (Expression.node type payload [] context).function H.asPtr := by
            intro ps; cases payload <;> rfl
          have hfun' : ∀ ps : List (Expression D),
              (Expression.node type payload ps context).function (H.withCall c).asPtr =
                (Expression.node type payload [] context).function H.asPtr := by
            intro ps; cases payload <;> rfl
          rw [te_eval_node, te_eval_node, te_eval_args_withCall H c _ _ _ hk, hfun, hfun',
            invoke_withCall H c _ (hc _ hS), invoke_withCall H c _ (hc _ hS)]
          rfl
        rw [he]
      · rw [if_neg c4, if_neg c4]
    · rw [if_neg c3, if_neg c3]

theorem optimize_params_withCall (c : Ptr → Option Ptr → List D → W → D × W) (S : Ptr → Bool)
    (hc : ∀ f, S f = false → ∀ ctx args w, c f ctx args w = H.call f ctx args w) :
    ∀ (arity : Nat) (ps : List (Expression D)),
      Expression.impureOnArgs S H.asPtr arity ps = true → ∀ w : W,
      optimize_params (H.withCall c) arity ps w = optimize_params H arity ps w
  | 0, ps, _, w => by rw [optimize_params_zero, optimize_params_zero]
  | arity + 1, [], _, w => by rw [optimize_params_nil, optimize_params_nil]
  | arity + 1, p :: ps, h, w => by
    rw [impureOnArgs_cons, Bool.and_eq_true] at h
    rw [optimize_params_cons, optimize_params_cons, optimize_withCall c S hc p h.1 w,
      optimize_params_withCall c S hc arity ps h.2]

end

/-- Function `te_compile` calls no function in `S` when the nodes of the parse tree that
carry one lack the pure flag. -/
theorem te_compile_withCall (c : Ptr → Option Ptr → List D → W → D × W) (S : Ptr → Bool)
    (hc : ∀ f, S f = false → ∀ ctx args w, c f ctx args w = H.call f ctx args w)
    {text : List Char} {vars : List Variable} {root : Expression D} {s : State D}
    (hl : list_returns H (next_token H (init_state text vars)) (root, s))
    (hroot : root.impureOn S H.asPtr = true) (w : W) :
    te_compile (H.withCall c) text vars w = te_compile H text vars w := by
  have hl' : list_returns (H.withCall c) (next_token (H.withCall c) (init_state text vars))
      (root, s) := by
    obtain ⟨n, hn⟩ := hl
    refine ⟨n, ?_⟩
    rw [next_token_withCall, (parser_withCall H c n).2.2.2.2.2.2.2.2.2.2.2.1]
    exact hn
  rw [te_compile_of_returns H hl w, te_compile_of_returns (H.withCall c) hl' w]
  by_cases hend : s.type = TOK_END
  · unfold compile_result
    rw [if_neg (by simpa using hend), if_neg (by simpa using hend),
      optimize_withCall H c S hc root hroot w]
  · rw [compile_result_withCall H c root w hend]

end WithCall

/-! ## Bound variables are read when the tree is evaluated -/

section Cells

variable {D W : Type} (H : Host D W)

/-- An operand that is no negation node, followed by a token that is no `^`, is a whole
`factor` in both builds. -/
theorem factor_returns_plain {s s1 : State D} {a : Expression D}
    (ha : power_returns H s (a, s1))
    (hn : ¬ (a.type = FUNCTION1 + FLAG_PURE ∧ a.function H.asPtr = Ptr.negate))
    (hstop : ¬ (s1.type = TOK_INFIX ∧ s1.function H = Ptr.pow)) :
    factor_returns H s (a, s1) := by
  cases hm : H.TE_POW_FROM_RIGHT with
  | false => exact factor_returns_left_chain H hm ha (pow_chain.nil _) hstop
  | true => exact factor_returns_right_chain H hm ha hn (pow_chain.nil _) hstop

set_option maxRecDepth 10000 in
/-- The parse of `x*(2+y)` with `x` and `y` bound to the cells `px` and `py`, on every
host. -/
theorem list_returns_x_times_2_plus_y (px py : Ptr) :
    ∃ s, s.type = TOK_END ∧
      list_returns H (next_token H (init_state "x*(2+y)".toList
        [⟨"x".toList, px, VARIABLE, Ptr.null⟩, ⟨"y".toList, py, VARIABLE, Ptr.null⟩]))
        (binary Ptr.mul (Expression.node VARIABLE (Payload.ptr px) [] Ptr.null)
          (binary Ptr.add
            (Expression.node TE_CONSTANT (Payload.value (H.strtod ['2'])) [] Ptr.null)
            (Expression.node VARIABLE (Payload.ptr py) [] Ptr.null)), s) := by
  have hvar : TYPE_MASK TOK_VARIABLE = TOK_VARIABLE := by decide
  have hopen : TYPE_MASK TOK_OPEN = TOK_OPEN := by decide
  have n1 : VARIABLE ≠ FUNCTION1 + FLAG_PURE := by decide
  have n2 : TE_CONSTANT ≠ FUNCTION1 + FLAG_PURE := by decide
  have n3 : FUNCTION2 + FLAG_PURE ≠ FUNCTION1 + FLAG_PURE := by decide
  have i1 : TOK_VARIABLE ≠ TOK_INFIX := by decide
  have i2 : TOK_CLOSE ≠ TOK_INFIX := by decide
  have i3 : TOK_END ≠ TOK_INFIX := by decide
  have i4 : TOK_OPEN ≠ TOK_INFIX := by decide
  have a1 : Ptr.add ≠ Ptr.pow := by decide
  have a2 : ¬ (Ptr.add = Ptr.mul ∨ Ptr.add = Ptr.divide ∨ Ptr.add = Ptr.fmod) := by decide
  have a3 : Ptr.mul ≠ Ptr.pow := by decide
  -- the tokens
  let vars : List Variable :=
    [⟨"x".toList, px, VARIABLE, Ptr.null⟩, ⟨"y".toList, py, VARIABLE, Ptr.null⟩]
  let t0 : State D :=
    ⟨"x*(2+y)".toList, "*(2+y)".toList, TOK_VARIABLE, Payload.ptr px, Ptr.null, vars⟩
  let t1 : State D :=
    ⟨"x*(2+y)".toList, "(2+y)".toList, TOK_INFIX, Payload.ptr Ptr.mul, Ptr.null, vars⟩
  let t2 : State D :=
    ⟨"x*(2+y)".toList, "2+y)".toList, TOK_OPEN, Payload.ptr Ptr.mul, Ptr.null, vars⟩
  let t3 : State D :=
    ⟨"x*(2+y)".toList, "+y)".toList, TOK_NUMBER, Payload.value (H.strtod ['2']), Ptr.null, vars⟩
  let t4 : State D :=
    ⟨"x*(2+y)".toList, "y)".toList, TOK_INFIX, Payload.ptr Ptr.add, Ptr.null, vars⟩
  let t5 : State D :=
    ⟨"x*(2+y)".toList, ")".toList, TOK_VARIABLE, Payload.ptr py, Ptr.null, vars⟩
  let t6 : State D := ⟨"x*(2+y)".toList, [], TOK_CLOSE, Payload.ptr py, Ptr.null, vars⟩
  let t7 : State D := ⟨"x*(2+y)".toList, [], TOK_END, Payload.ptr py, Ptr.null, vars⟩
  have m0 : next_token H (init_state "x*(2+y)".toList vars) = t0 := rfl
  have m1 : next_token H t0 = t1 := rfl
  have m2 : next_token H t1 = t2 := rfl
  have m3 : next_token H t2 = t3 := rfl
  have m4 : next_token H t3 = t4 := rfl
  have m5 : next_token H t4 = t5 := rfl
  have m6 : next_token H t5 = t6 := rfl
  have m7 : next_token H t6 = t7 := rfl
  -- `2`
  have p3 : power_returns H t3
      (Expression.node TE_CONSTANT (Payload.value (H.strtod ['2'])) [] Ptr.null, t4) := by
    have h := power_returns_number H (s := t3) rfl
    rw [m4] at h
    exact h
  have f3 := factor_returns_plain H p3 (fun c => n2 c.1) (fun c => a1 c.2)
  -- `y`
  have b5 : base_returns H t5 (Expression.node VARIABLE (Payload.ptr py) [] Ptr.null, t6) := by
    have h := base_returns_variable H (s := t5) hvar
    rw [m6] at h
    exact h
  have p5 := power_returns_of_base H (fun c => i1 c.1) b5
  have f5 := factor_returns_plain H p5 (fun c => n1 c.1) (fun c => i2 c.1)
  rw [← m5] at f5
  -- `2+y`
  have e3 : expr_returns H t3
      (standard_reading
        (Expression.node TE_CONSTANT (Payload.value (H.strtod ['2'])) [] Ptr.null, [])
        [(Ptr.add, Expression.node VARIABLE (Payload.ptr py) [] Ptr.null, [])], t6) :=
    expr_returns_flat H f3 (term_chain.nil _) (fun c => a2 c.2)
      (expr_chain.cons (s := t4) rfl rfl (Or.inl rfl) f5 (term_chain.nil _)
        (fun c => i2 c.1) (expr_chain.nil _))
      (fun c => i2 c.1)
  have l3 := list_returns_of_expr H e3 (by show TOK_CLOSE ≠ TOK_SEP; decide)
  rw [← m3] at l3
  -- `(2+y)`
  have b2 := base_returns_open H (s := t2) hopen l3
  rw [if_neg (by show ¬ (TOK_CLOSE ≠ TOK_CLOSE); decide), m7] at b2
  have p2 := power_returns_of_base H (fun c => i4 c.1) b2
  have f2 := factor_returns_plain H p2 (fun c => n3 c.1) (fun c => i3 c.1)
  rw [← m2] at f2
  -- `x`
  have b0 : base_returns H t0 (Expression.node VARIABLE (Payload.ptr px) [] Ptr.null, t1) := by
    have h := base_returns_variable H (s := t0) hvar
    rw [m1] at h
    exact h
  have p0 := power_returns_of_base H (fun c => i1 c.1) b0
  have f0 := factor_returns_plain H p0 (fun c => n1 c.1) (fun c => a3 c.2)
  -- `x*(2+y)`
  have e0 : expr_returns H t0
      (standard_reading
        (Expression.node VARIABLE (Payload.ptr px) [] Ptr.null,
          [(Ptr.mul, standard_reading
            (Expression.node TE_CONSTANT (Payload.value (H.strtod ['2'])) [] Ptr.null, [])
            [(Ptr.add, Expression.node VARIABLE (Payload.ptr py) [] Ptr.null, [])])])
        [], t7) :=
    expr_returns_flat H f0
      (term_chain.cons (s := t1) rfl rfl (Or.inl rfl) f2 (term_chain.nil _))
      (fun c => i3 c.1) (expr_chain.nil _) (fun c => i3 c.1)
  rw [m0]
  exact ⟨t7, rfl, list_returns_of_expr H e0 (by show TOK_END ≠ TOK_SEP; decide)⟩

theorem hasVariable_node (type : Nat) (payload : Payload D) (parameters : List (Expression D))
    (context : Ptr) :
    (Expression.node type payload parameters context).hasVariable =
      (decide (type = VARIABLE) ||
        (!decide (type = TE_CONSTANT) && Expression.hasVariableArgs (ARITY type) parameters)) := by
  rw [Expression.hasVariable]

theorem hasVariableArgs_zero (ps : List (Expression D)) :
    Expression.hasVariableArgs 0 ps = false := by
  cases ps <;> rw [Expression.hasVariableArgs]

theorem hasVariableArgs_nil (arity : Nat) :
    Expression.hasVariableArgs (arity + 1) ([] : List (Expression D)) = false := by
  rw [Expression.hasVariableArgs]

theorem hasVariableArgs_cons (arity : Nat) (p : Expression D) (ps : List (Expression D)) :
    Expression.hasVariableArgs (arity + 1) (p :: ps) =
      (Expression.hasVariable p || Expression.hasVariableArgs arity ps) := by
  rw [Expression.hasVariableArgs]

theorem hasVariable_not_constant {t : Expression D} (h : t.hasVariable = true) :
    t.type ≠ TE_CONSTANT := by
  cases t with
  | null => cases h
  | node type payload parameters context =>
    rw [hasVariable_node] at h
    intro e
    have e' : type = TE_CONSTANT := e
    subst e'
    simp at h

mutual

/-- A tree with a bound-variable leaf keeps it through `optimize`. -/
theorem optimize_keeps_variable :
    ∀ (t : Expression D), t.hasVariable = true → ∀ w : W,
      (optimize H t w).1.hasVariable = true
  | Expression.null, h, _ => by cases h
  | Expression.node type payload parameters context, h, w => by
    rw [optimize_node]
    by_cases c1 : type = TE_CONSTANT
    · rw [if_pos c1]; exact h
    rw [if_neg c1]
    by_cases c2 : type = VARIABLE
    · rw [if_pos c2]; exact h
    rw [if_neg c2]
    by_cases c3 : IS_PURE type = true
    · rw [if_pos c3]
      rw [hasVariable_node] at h
      have ha : Expression.hasVariableArgs (ARITY type) parameters = true := by
        simpa [c1, c2] using h
      obtain ⟨hk, hv⟩ := optimize_params_keeps_variable (ARITY type) parameters ha w
      rw [if_neg (by rw [hk]; decide)]
      dsimp only
      rw [hasVariable_node, hv]
      simp [c1]
    · rw [if_neg c3]; exact h

theorem optimize_params_keeps_variable :
    ∀ (arity : Nat) (ps : List (Expression D)),
      Expression.hasVariableArgs arity ps = true → ∀ w : W,
      (optimize_params H arity ps w).2.1 = false ∧
        Expression.hasVariableArgs arity (optimize_params H arity ps w).1 = true
  | 0, ps, h, _ => by rw [hasVariableArgs_zero] at h; cases h
  | arity + 1, [], h, _ => by rw [hasVariableArgs_nil] at h; cases h
  | arity + 1, p :: ps, h, w => by
    rw [hasVariableArgs_cons, Bool.or_eq_true] at h
    rw [optimize_params_cons]
    dsimp only
    rw [hasVariableArgs_cons]
    rcases h with h | h
    · have hp := optimize_keeps_variable p h w
      have hn := hasVariable_not_constant hp
      rw [hp]
      simp [hn]
    · obtain ⟨hk, hv⟩ := optimize_params_keeps_variable arity ps h (optimize H p w).2
      rw [hk, hv]
      simp

end

/-- The value of a binary node: the arguments first to last, then the call. -/
theorem te_eval_binary (f : Ptr) (a b : Expression D) (w : W) :
    te_eval H (binary f a b) w =
      invoke H f none [(te_eval H a w).1, (te_eval H b (te_eval H a w).2).1]
        (te_eval H b (te_eval H a w).2).2 := by
  unfold binary
  rw [te_eval_node, if_neg (by decide), if_neg (by decide), if_pos (by decide)]
  have h2 : ARITY (FUNCTION2 + FLAG_PURE) = 1 + 1 := by decide
  rw [h2, te_eval_args_cons, te_eval_args_cons, te_eval_args_zero]
  rfl

theorem te_eval_variable (p : Ptr) (w : W) :
    te_eval H (Expression.node VARIABLE (Payload.ptr p) [] Ptr.null) w = (H.load p w, w) := by
  rw [te_eval_node, if_neg (by decide), if_pos (by decide)]
  rfl

/-- The tree of `x*(2+y)` reads both cells in the world it is evaluated in. -/
theorem te_eval_x_times_2_plus_y (px py : Ptr) (c : D) (w : W) :
    te_eval H (binary Ptr.mul (Expression.node VARIABLE (Payload.ptr px) [] Ptr.null)
      (binary Ptr.add (Expression.node TE_CONSTANT (Payload.value c) [] Ptr.null)
        (Expression.node VARIABLE (Payload.ptr py) [] Ptr.null))) w =
      (H.fmul (H.load px w) (H.fadd c (H.load py w)), w) := by
  rw [te_eval_binary, te_eval_binary, te_eval_variable, te_eval_variable,
    te_eval_constant H (rfl : (Expression.node TE_CONSTANT (Payload.value c) [] Ptr.null :
      Expression D).type = TE_CONSTANT)]
  rfl

theorem optimize_x_times_2_plus_y (px py : Ptr) (c : D) (w : W) :
    optimize H (binary Ptr.mul (Expression.node VARIABLE (Payload.ptr px) [] Ptr.null)
      (binary Ptr.add (Expression.node TE_CONSTANT (Payload.value c) [] Ptr.null)
        (Expression.node VARIABLE (Payload.ptr py) [] Ptr.null))) w =
      (binary Ptr.mul (Expression.node VARIABLE (Payload.ptr px) [] Ptr.null)
        (binary Ptr.add (Expression.node TE_CONSTANT (Payload.value c) [] Ptr.null)
          (Expression.node VARIABLE (Payload.ptr py) [] Ptr.null)), w) := rfl

end Cells

/-! ## Well-formed trees -/

section WellFormedLemmas

variable {D W : Type} (H : Host D W)

theorem wf_node {type : Nat} {payload : Payload D} {parameters : List (Expression D)}
    {context : Ptr} :
    (Expression.node type payload parameters context).WellFormed H ↔
      ((type = TE_CONSTANT ∧ parameters = []) ∨
        (type = VARIABLE ∧ (∃ p, payload = Payload.ptr p) ∧ parameters = []) ∨
        ((FUNCTION0 ≤ TYPE_MASK type ∧ TYPE_MASK type ≤ CLOSURE7) ∧
          parameters.length = ARITY type ∧
          (∀ p ∈ parameters, p ≠ Expression.null ∧ p ≠ nan_node H) ∧
          Expression.WellFormedAll H parameters)) := by
  rw [Expression.WellFormed]

theorem wfAll_nil : Expression.WellFormedAll H ([] : List (Expression D)) := by
  rw [Expression.WellFormedAll]; trivial

theorem wfAll_cons {p : Expression D} {ps : List (Expression D)} :
    Expression.WellFormedAll H (p :: ps) ↔ p.WellFormed H ∧ Expression.WellFormedAll H ps := by
  rw [Expression.WellFormedAll]

theorem nan_node_eq :
    (nan_node H : Expression D) = Expression.node 0 (Payload.value H.nan) [] Ptr.null := rfl

theorem function_type_ne_zero {type : Nat}
    (h : FUNCTION0 ≤ TYPE_MASK type ∧ TYPE_MASK type ≤ CLOSURE7) : type ≠ 0 := by
  intro e; subst e; exact absurd h.1 (by decide)

/-- A well-formed tree is present: it is neither null nor the NaN placeholder. -/
theorem wf_present {t : Expression D} (h : t.WellFormed H) :
    t ≠ Expression.null ∧ t ≠ nan_node H := by
  cases t with
  | null => cases h
  | node type payload parameters context =>
    refine ⟨fun e => (by cases e), ?_⟩
    rw [nan_node_eq]
    intro e
    injection e with e1 e2 e3 e4
    rw [wf_node] at h
    rcases h with h | h | h
    · rw [h.1] at e1; exact absurd e1 (by decide)
    · obtain ⟨p, hp⟩ := h.2.1
      rw [hp] at e2; cases e2
    · exact function_type_ne_zero h.1 e1

theorem wfAll_present :
    ∀ {ps : List (Expression D)}, Expression.WellFormedAll H ps →
      ∀ p ∈ ps, p ≠ Expression.null ∧ p ≠ nan_node H
  | [], _, p, hp => by cases hp
  | q :: ps, h, p, hp => by
    rw [wfAll_cons] at h
    rcases List.mem_cons.1 hp with e | e
    · rw [e]; exact wf_present H h.1
    · exact wfAll_present h.2 p e

/-- A function or closure node with the right number of well-formed children. -/
theorem wf_call {type : Nat} {payload : Payload D} {parameters : List (Expression D)}
    {context : Ptr} (hm : FUNCTION0 ≤ TYPE_MASK type ∧ TYPE_MASK type ≤ CLOSURE7)
    (hl : parameters.length = ARITY type) (hall : Expression.WellFormedAll H parameters) :
    (Expression.node type payload parameters context).WellFormed H :=
  (wf_node H).2 (Or.inr (Or.inr ⟨hm, hl, wfAll_present H hall, hall⟩))

/-- What a well-formed node whose type is neither 1 nor 0 consists of. -/
theorem wf_call_inv {type : Nat} {payload : Payload D} {parameters : List (Expression D)}
    {context : Ptr} (h : (Expression.node type payload parameters context).WellFormed H)
    (h1 : type ≠ TE_CONSTANT) (h0 : type ≠ VARIABLE) :
    (FUNCTION0 ≤ TYPE_MASK type ∧ TYPE_MASK type ≤ CLOSURE7) ∧
      parameters.length = ARITY type ∧ Expression.WellFormedAll H parameters := by
  rw [wf_node] at h
  rcases h with h | h | h
  · exact absurd h.1 h1
  · exact absurd h.1 h0
  · exact ⟨h.1, h.2.1, h.2.2.2⟩

theorem wfAll_take_set {p : Expression D} (hp : p.WellFormed H) :
    ∀ (ps : List (Expression D)) (i : Nat), i < ps.length →
      Expression.WellFormedAll H (ps.take i) →
      Expression.WellFormedAll H ((ps.set i p).take (i + 1))
  | [], i, h, _ => by simp at h
  | q :: ps, 0, _, _ => by
    simp only [List.set_cons_zero, List.take_succ_cons, List.take_zero]
    exact (wfAll_cons H).2 ⟨hp, wfAll_nil H⟩
  | q :: ps, i + 1, h, hb => by
    simp only [List.set_cons_succ, List.take_succ_cons] at hb ⊢
    rw [wfAll_cons] at hb ⊢
    exact ⟨hb.1, wfAll_take_set hp ps i (by simpa using h) hb.2⟩

theorem wf_binary {f : Ptr} {a b : Expression D} (ha : a.WellFormed H)
    (hb : b.WellFormed H) : (binary f a b).WellFormed H := by
  unfold binary
  refine wf_call H (by decide) (by show 2 = ARITY (FUNCTION2 + FLAG_PURE); decide) ?_
  exact (wfAll_cons H).2 ⟨ha, (wfAll_cons H).2 ⟨hb, wfAll_nil H⟩⟩

theorem wf_unary {f : Ptr} {a : Expression D} (ha : a.WellFormed H) :
    (unary f a).WellFormed H := by
  unfold unary
  refine wf_call H (by decide) (by show 1 = ARITY (FUNCTION1 + FLAG_PURE); decide) ?_
  exact (wfAll_cons H).2 ⟨ha, wfAll_nil H⟩

theorem wf_constant (v : D) : ((new_expr TE_CONSTANT none).setValue v).WellFormed H := by
  show (Expression.node TE_CONSTANT (Payload.value v) [] Ptr.null).WellFormed H
  rw [wf_node]; left; exact ⟨rfl, rfl⟩

theorem wf_variable (p : Ptr) :
    ((new_expr VARIABLE none : Expression D).setPtr p).WellFormed H := by
  show (Expression.node VARIABLE (Payload.ptr p) [] Ptr.null).WellFormed H
  rw [wf_node]; right; left; exact ⟨rfl, ⟨p, rfl⟩, rfl⟩

theorem wf_call0 {s : State D}
    (h : TYPE_MASK s.type = FUNCTION0 ∨ TYPE_MASK s.type = CLOSURE0) :
    (call_node H s).WellFormed H := by
  rw [call_node_eq]
  have ha : ARITY s.type = 0 := by
    unfold TYPE_MASK at h; unfold ARITY
    simp only [FUNCTION0, CLOSURE0] at h
    split <;> omega
  refine wf_call H ?_ (by simp) ?_
  · simp only [FUNCTION0, CLOSURE0, CLOSURE7] at h ⊢; omega
  · rw [ha]; exact wfAll_nil H

theorem wf_call1 {s : State D} {p : Expression D}
    (h : TYPE_MASK s.type = FUNCTION1 ∨ TYPE_MASK s.type = CLOSURE1) (hp : p.WellFormed H) :
    ((call_node H s).setParam 0 p).WellFormed H := by
  have ha : ARITY s.type = 1 := by
    unfold TYPE_MASK at h; unfold ARITY
    simp only [FUNCTION1, CLOSURE1] at h
    split
    · omega
    · rename_i hc; simp at hc; omega
  rw [call_node_eq, ha]
  show (Expression.node s.type _ [p] _).WellFormed H
  refine wf_call H ?_ (by simp [ha]) ((wfAll_cons H).2 ⟨hp, wfAll_nil H⟩)
  simp only [FUNCTION0, FUNCTION1, CLOSURE1, CLOSURE7] at h ⊢; omega

theorem argsWF_call {s : State D}
    (h : (FUNCTION2 ≤ TYPE_MASK s.type ∧ TYPE_MASK s.type ≤ FUNCTION7) ∨
      (CLOSURE2 ≤ TYPE_MASK s.type ∧ TYPE_MASK s.type ≤ CLOSURE7)) :
    ArgsWellFormed H (ARITY s.type) 0 (call_node H s) := by
  rw [call_node_eq]
  refine ⟨_, _, _, _, rfl, ?_, by simp, rfl, ?_⟩
  · simp only [FUNCTION0, FUNCTION2, FUNCTION7, CLOSURE2, CLOSURE7] at h ⊢; omega
  · simp only [List.take_zero]; exact wfAll_nil H

theorem argsWF_set {arity i : Nat} {ret p : Expression D} (h : ArgsWellFormed H arity i ret)
    (hi : i < arity) (hp : p.WellFormed H) :
    ArgsWellFormed H arity (i + 1) (ret.setParam i p) := by
  obtain ⟨type, payload, parameters, context, rfl, hm, hl, ha, hb⟩ := h
  refine ⟨type, payload, parameters.set i p, context, rfl, hm, by simpa using hl, ha, ?_⟩
  exact wfAll_take_set H hp parameters i (by omega) hb

theorem wf_of_argsWF {arity i : Nat} {ret : Expression D} (h : ArgsWellFormed H arity i ret)
    (hi : arity ≤ i) : ret.WellFormed H := by
  obtain ⟨type, payload, parameters, context, rfl, hm, hl, ha, hb⟩ := h
  refine wf_call H hm hl ?_
  rwa [List.take_of_length_le (by omega)] at hb

theorem param_zero_wf {t : Expression D} (ht : t.WellFormed H)
    (h : t.type = FUNCTION1 + FLAG_PURE) : (t.param 0).WellFormed H := by
  cases t with
  | null => cases ht
  | node type payload parameters context =>
    simp only [Expression.type] at h
    subst h
    obtain ⟨_, hl, hb⟩ := wf_call_inv H ht (by decide) (by decide)
    have hl1 : parameters.length = 1 := hl
    match parameters, hl1, hb with
    | [c], _, hb => exact ((wfAll_cons H).1 hb).1

theorem at_insertion_wf {f : Ptr} {p : Expression D} (hp : p.WellFormed H) :
    ∀ (k : Nat) (ret : Expression D), ret.WellFormed H → PowSpine k ret →
      (at_insertion (fun ins => ins.setParam 1
          ((new_expr (FUNCTION2 + FLAG_PURE) (some [ins.param 1, p])).setPtr f)) k
        ret).WellFormed H ∧
      PowSpine (k + 1) (at_insertion (fun ins => ins.setParam 1
          ((new_expr (FUNCTION2 + FLAG_PURE) (some [ins.param 1, p])).setPtr f)) k ret)
  | 0, ret, hb, hs => by
    obtain ⟨pl, a, b, c, rfl⟩ := hs
    obtain ⟨hm, hl, hb⟩ := wf_call_inv H hb (by decide) (by decide)
    have ha := ((wfAll_cons H).1 hb).1
    have hb' := ((wfAll_cons H).1 ((wfAll_cons H).1 hb).2).1
    show (Expression.node (FUNCTION2 + FLAG_PURE) pl [a, binary f b p] c).WellFormed H ∧
      PowSpine 1 (Expression.node (FUNCTION2 + FLAG_PURE) pl [a, binary f b p] c)
    refine ⟨?_, ⟨pl, a, binary f b p, c, rfl, ⟨_, _, _, _, rfl⟩⟩⟩
    exact wf_call H hm hl
      ((wfAll_cons H).2 ⟨ha, (wfAll_cons H).2 ⟨wf_binary H hb' hp, wfAll_nil H⟩⟩)
  | k + 1, ret, hb, hs => by
    obtain ⟨pl, a, b, c, rfl, hs'⟩ := hs
    obtain ⟨hm, hl, hb⟩ := wf_call_inv H hb (by decide) (by decide)
    have ha := ((wfAll_cons H).1 hb).1
    have hb' := ((wfAll_cons H).1 ((wfAll_cons H).1 hb).2).1
    obtain ⟨i1, i2⟩ := at_insertion_wf hp k b hb' hs'
    rw [at_insertion]
    show (Expression.node (FUNCTION2 + FLAG_PURE) pl [a, _] c).WellFormed H ∧
      PowSpine (k + 1 + 1) (Expression.node (FUNCTION2 + FLAG_PURE) pl [a, _] c)
    refine ⟨?_, ⟨pl, a, _, c, rfl, i2⟩⟩
    exact wf_call H hm hl ((wfAll_cons H).2 ⟨ha, (wfAll_cons H).2 ⟨i1, wfAll_nil H⟩⟩)

theorem sound_binary {f : Ptr} {e p : Expression D} {s s2 : State D} (he : Sound H e s)
    (hs : s.type ≠ TOK_ERROR) (hp : Sound H p s2) : Sound H (binary f e p) s2 := by
  rcases hp with hp | hp
  · exact Or.inl hp
  · rcases he with he | he
    · exact absurd he hs
    · exact Or.inr (wf_binary H he hp)

set_option maxHeartbeats 4000000 in
theorem sound_step (n : Nat) :
    (∀ s r, base H n s = some r → Sound H r.1 r.2) ∧
    (∀ a i e s r, base_args H n a i e s = some r → ArgsWellFormed H a i e →
      (r.2.2.type = TOK_ERROR ∨ (r.2.1 < a → ArgsWellFormed H a (r.2.1 + 1) r.1))) ∧
    (∀ s r, power H n s = some r → Sound H r.1 r.2) ∧
    (∀ g s r, power_loop H n g s = some r → Sound H r.1 r.2) ∧
    (∀ s r, factor H n s = some r → Sound H r.1 r.2) ∧
    (∀ e s r, factor_loop H n e s = some r → Sound H e s → Sound H r.1 r.2) ∧
    (∀ e k s r, factor_right_loop H n e k s = some r →
      (s.type = TOK_ERROR ∨ (e.WellFormed H ∧ ∀ j, k = some j → PowSpine j e)) → Sound H r.1 r.2) ∧
    (∀ s r, term H n s = some r → Sound H r.1 r.2) ∧
    (∀ e s r, term_loop H n e s = some r → Sound H e s → Sound H r.1 r.2) ∧
    (∀ s r, expr H n s = some r → Sound H r.1 r.2) ∧
    (∀ e s r, expr_loop H n e s = some r → Sound H e s → Sound H r.1 r.2) ∧
    (∀ s r, list H n s = some r → Sound H r.1 r.2) ∧
    (∀ e s r, list_loop H n e s = some r → Sound H e s → Sound H r.1 r.2) := by
  induction n with
  | zero =>
    refine ⟨?_, ?_, ?_, ?_, ?_, ?_, ?_, ?_, ?_, ?_, ?_, ?_, ?_⟩ <;> intros <;>
      simp_all [base_zero, base_args_zero, power_zero, power_loop_zero, factor_zero,
        factor_loop_zero, factor_right_loop_zero, term_zero, term_loop_zero, expr_zero,
        expr_loop_zero, list_zero, list_loop_zero]
  | succ n ih =>
    obtain ⟨ib, iba, ip, ipl, ifa, ifl, ifr, it, itl, ie, iel, il, ill⟩ := ih
    refine ⟨?_, ?_, ?_, ?_, ?_, ?_, ?_, ?_, ?_, ?_, ?_, ?_, ?_⟩
    · -- base
      intro s r h
      rw [base_succ] at h
      dsimp only at h
      by_cases c1 : TYPE_MASK s.type = TOK_NUMBER
      · rw [if_pos c1] at h; cases h; exact Or.inr (wf_constant H _)
      rw [if_neg c1] at h
      by_cases c2 : TYPE_MASK s.type = TOK_VARIABLE
      · rw [if_pos c2] at h; cases h; exact Or.inr (wf_variable H _)
      rw [if_neg c2] at h
      by_cases c3 : TYPE_MASK s.type = FUNCTION0 ∨ TYPE_MASK s.type = CLOSURE0
      · rw [if_pos c3] at h
        split_ifs at h <;> cases h
        · exact Or.inl rfl
        · exact Or.inr (wf_call0 H c3)
        · exact Or.inr (wf_call0 H c3)
      rw [if_neg c3] at h
      by_cases c4 : TYPE_MASK s.type = FUNCTION1 ∨ TYPE_MASK s.type = CLOSURE1
      · rw [if_pos c4] at h
        split at h
        · cases h
        · rename_i heq
          cases h
          rcases ip _ _ heq with g | g
          · exact Or.inl g
          · exact Or.inr (wf_call1 H c4 g)
      rw [if_neg c4] at h
      by_cases c5 : (FUNCTION2 ≤ TYPE_MASK s.type ∧ TYPE_MASK s.type ≤ FUNCTION7) ∨
          (CLOSURE2 ≤ TYPE_MASK s.type ∧ TYPE_MASK s.type ≤ CLOSURE7)
      · rw [if_pos c5] at h
        by_cases c6 : (next_token H s).type ≠ TOK_OPEN
        · rw [if_pos c6] at h; cases h; exact Or.inl rfl
        rw [if_neg c6] at h
        split at h
        · cases h
        · rename_i ret i s2 heq
          have g := iba _ _ _ _ _ heq (argsWF_call H c5)
          by_cases c7 : s2.type ≠ TOK_CLOSE ∨ i ≠ ARITY s.type - 1
          · rw [if_pos c7] at h; cases h; exact Or.inl rfl
          rw [if_neg c7] at h
          cases h
          have hc : s2.type = TOK_CLOSE ∧ i = ARITY s.type - 1 := by
            constructor
            · by_contra hx; exact c7 (Or.inl hx)
            · by_contra hx; exact c7 (Or.inr hx)
          have ha := arity_ge_two c5
          rcases g with g | g
          · exfalso; dsimp only at g; rw [hc.1] at g; exact absurd g (by decide)
          · exact Or.inr (wf_of_argsWF H (g (by dsimp only; omega)) (by dsimp only; omega))
      rw [if_neg c5] at h
      by_cases c8 : TYPE_MASK s.type = TOK_OPEN
      · rw [if_pos c8] at h
        split at h
        · cases h
        · rename_i ret s2 heq
          have g := il _ _ heq
          by_cases c9 : s2.type ≠ TOK_CLOSE
          · rw [if_pos c9] at h; cases h; exact Or.inl rfl
          rw [if_neg c9] at h
          cases h
          rcases g with g | g
          · exfalso
            have : s2.type = TOK_CLOSE := by by_contra hx; exact c9 hx
            dsimp only at g; rw [this] at g; exact absurd g (by decide)
          · exact Or.inr g
      rw [if_neg c8] at h
      cases h
      exact Or.inl rfl
    · -- base_args
      intro a i e s r h hinv
      rw [base_args_succ] at h
      dsimp only at h
      by_cases c : i < a
      · rw [if_pos c] at h
        split at h
        · cases h
        · rename_i p s2 heq
          have g := ie _ _ heq
          by_cases c2 : s2.type ≠ TOK_SEP
          · rw [if_pos c2] at h
            cases h
            rcases g with g | g
            · exact Or.inl g
            · exact Or.inr (fun _ => argsWF_set H hinv c g)
          · rw [if_neg c2] at h
            have hsep : s2.type = TOK_SEP := by by_contra hx; exact c2 hx
            rcases g with g | g
            · exfalso; dsimp only at g; rw [hsep] at g; exact absurd g (by decide)
            · exact iba _ _ _ _ _ h (argsWF_set H hinv c g)
      · rw [if_neg c] at h
        cases h
        exact Or.inr (fun hi => absurd hi c)
    · -- power
      intro s r h
      rw [power_succ] at h
      exact ipl _ _ _ h
    · -- power_loop
      intro g s r h
      rw [power_loop_succ] at h
      by_cases c1 : s.type = TOK_INFIX ∧ (s.function H = Ptr.add ∨ s.function H = Ptr.sub)
      · rw [if_pos c1] at h
        exact ipl _ _ _ h
      · rw [if_neg c1] at h
        split at h
        · cases h
        · rename_i b s2 heq
          have gb := ib _ _ heq
          split_ifs at h <;> cases h
          · exact gb
          · rcases gb with gb | gb
            · exact Or.inl gb
            · exact Or.inr (wf_unary H gb)
    · -- factor
      intro s r h
      rw [factor_succ] at h
      split at h
      · cases h
      · rename_i t s1 heq
        have g := ip _ _ heq
        dsimp only at h
        by_cases hm : H.TE_POW_FROM_RIGHT = true
        · rw [if_pos hm] at h
          split at h
          · cases h
          · rename_i t2 s2 heq2
            have g2 : Sound H t2 s2 := by
              refine ifr _ _ _ _ heq2 ?_
              rcases g with g | g
              · exact Or.inl g
              · right
                refine ⟨?_, fun j hj => by cases hj⟩
                split_ifs with c
                · simp only [decide_eq_true_eq] at c
                  exact param_zero_wf H g c.1
                · exact g
            split_ifs at h <;> cases h
            · rcases g2 with g2 | g2
              · exact Or.inl g2
              · exact Or.inr (wf_unary H g2)
            · exact g2
        · rw [if_neg hm] at h
          exact ifl _ _ _ h g
    · -- factor_loop
      intro e s r h hin
      rw [factor_loop_succ] at h
      dsimp only at h
      by_cases c : s.type = TOK_INFIX ∧ s.function H = Ptr.pow
      · rw [if_pos c] at h
        split at h
        · cases h
        · rename_i p s2 heq
          exact ifl _ _ _ h (sound_binary H hin (infix_not_error c.1) (ip _ _ heq))
      · rw [if_neg c] at h; cases h; exact hin
    · -- factor_right_loop
      intro e k s r h hin
      rw [factor_right_loop_succ] at h
      dsimp only at h
      by_cases c : s.type = TOK_INFIX ∧ s.function H = Ptr.pow
      · rw [if_pos c] at h
        have hb : e.WellFormed H ∧ ∀ j, k = some j → PowSpine j e := by
          rcases hin with hin | hin
          · exact absurd hin (infix_not_error c.1)
          · exact hin
        split at h
        · cases h
        · rename_i p s2 heq
          have gp := ip _ _ heq
          split at h
          · rename_i j
            refine ifr _ _ _ _ h ?_
            rcases gp with gp | gp
            · exact Or.inl gp
            · obtain ⟨i1, i2⟩ := at_insertion_wf H (f := s.function H) gp j e hb.1 (hb.2 j rfl)
              exact Or.inr ⟨i1, fun j' hj' => by cases hj'; exact i2⟩
          · refine ifr _ _ _ _ h ?_
            rcases gp with gp | gp
            · exact Or.inl gp
            · exact Or.inr ⟨wf_binary H hb.1 gp, fun j' hj' => by
                cases hj'; exact ⟨_, _, _, _, rfl⟩⟩
      · rw [if_neg c] at h
        cases h
        rcases hin with hin | hin
        · exact Or.inl hin
        · exact Or.inr hin.1
    · -- term
      intro s r h
      rw [term_succ] at h
      split at h
      · cases h
      · rename_i heq
        exact itl _ _ _ h (ifa _ _ heq)
    · -- term_loop
      intro e s r h hin
      rw [term_loop_succ] at h
      dsimp only at h
      by_cases c : s.type = TOK_INFIX ∧
          (s.function H = Ptr.mul ∨ s.function H = Ptr.divide ∨ s.function H = Ptr.fmod)
      · rw [if_pos c] at h
        split at h
        · cases h
        · rename_i p s2 heq
          exact itl _ _ _ h (sound_binary H hin (infix_not_error c.1) (ifa _ _ heq))
      · rw [if_neg c] at h; cases h; exact hin
    · -- expr
      intro s r h
      rw [expr_succ] at h
      split at h
      · cases h
      · rename_i heq
        exact iel _ _ _ h (it _ _ heq)
    · -- expr_loop
      intro e s r h hin
      rw [expr_loop_succ] at h
      dsimp only at h
      by_cases c : s.type = TOK_INFIX ∧ (s.function H = Ptr.add ∨ s.function H = Ptr.sub)
      · rw [if_pos c] at h
        split at h
        · cases h
        · rename_i p s2 heq
          exact iel _ _ _ h (sound_binary H hin (infix_not_error c.1) (it _ _ heq))
      · rw [if_neg c] at h; cases h; exact hin
    · -- list
      intro s r h
      rw [list_succ] at h
      split at h
      · cases h
      · rename_i heq
        exact ill _ _ _ h (ie _ _ heq)
    · -- list_loop
      intro e s r h hin
      rw [list_loop_succ] at h
      dsimp only at h
      by_cases c : s.type = TOK_SEP
      · rw [if_pos c] at h
        split at h
        · cases h
        · rename_i p s2 heq
          exact ill _ _ _ h (sound_binary H hin (by rw [c]; decide) (ie _ _ heq))
      · rw [if_neg c] at h; cases h; exact hin


theorem optimize_params_length :
    ∀ (arity : Nat) (ps : List (Expression D)) (w : W),
      (optimize_params H arity ps w).1.length = ps.length
  | 0, ps, w => by rw [optimize_params_zero]
  | arity + 1, [], w => by rw [optimize_params_nil]
  | arity + 1, p :: ps, w => by
    rw [optimize_params_cons]
    simp only [List.length_cons]
    rw [optimize_params_length arity ps]

mutual

theorem optimize_wellFormed :
    ∀ (t : Expression D), t.WellFormed H → ∀ (w : W), (optimize H t w).1.WellFormed H
  | Expression.null, h, _ => by cases h
  | Expression.node type payload parameters context, h, w => by
    rw [optimize_node]
    by_cases c1 : type = TE_CONSTANT
    · rw [if_pos c1]; exact h
    rw [if_neg c1]
    by_cases c2 : type = VARIABLE
    · rw [if_pos c2]; exact h
    rw [if_neg c2]
    by_cases c3 : IS_PURE type = true
    · rw [if_pos c3]
      obtain ⟨hm, hl, hall⟩ := wf_call_inv H h c1 c2
      by_cases c4 : (optimize_params H (ARITY type) parameters w).2.1 = true
      · rw [if_pos c4]
        exact (wf_node H).2 (Or.inl ⟨rfl, rfl⟩)
      · rw [if_neg c4]
        exact wf_call H hm (by rw [optimize_params_length, hl])
          (optimize_params_wellFormed (ARITY type) parameters hall w)
    · rw [if_neg c3]; exact h

theorem optimize_params_wellFormed :
    ∀ (arity : Nat) (ps : List (Expression D)), Expression.WellFormedAll H ps → ∀ (w : W),
      Expression.WellFormedAll H (optimize_params H arity ps w).1
  | 0, ps, h, w => by rw [optimize_params_zero]; exact h
  | arity + 1, [], _, w => by rw [optimize_params_nil]; exact wfAll_nil H
  | arity + 1, p :: ps, h, w => by
    rw [optimize_params_cons]
    rw [wfAll_cons] at h
    exact (wfAll_cons H).2 ⟨optimize_wellFormed p h.1 w,
      optimize_params_wellFormed arity ps h.2 _⟩

end

theorem list_returns_wellFormed {s s' : State D} {t : Expression D}
    (h : list_returns H s (t, s')) (hs : s'.type ≠ TOK_ERROR) : t.WellFormed H := by
  obtain ⟨n, hn⟩ := h
  rcases (sound_step H n).2.2.2.2.2.2.2.2.2.2.2.1 _ _ hn with g | g
  · exact absurd g hs
  · exact g

end WellFormedLemmas

/-! ## Termination -/

section Termination

variable {D W : Type} (H : Host D W)

theorem function_type_not_null {t : Nat}
    (h : FUNCTION0 ≤ TYPE_MASK t ∧ TYPE_MASK t ≤ CLOSURE7) : t ≠ TOK_NULL := by
  intro e; subst e; exact absurd h.2 (by decide)

theorem active_of_function {t : Nat}
    (h : FUNCTION0 ≤ TYPE_MASK t ∧ TYPE_MASK t ≤ CLOSURE7) : active t = 1 := by
  unfold active
  rw [if_neg]
  unfold TYPE_MASK at h
  simp only [TOK_NULL, CLOSURE7, TOK_ERROR, TOK_END, TOK_NUMBER, FUNCTION0] at h ⊢
  omega

/-- The loop of `next_token` ends by its own condition: with fuel for every byte left and
one more, the token it returns is not `TOK_NULL`. -/
theorem next_token_loop_not_null (fuel : Nat) (s : State D) (hf : s.next.length < fuel) :
    (next_token_loop H fuel s).type ≠ TOK_NULL := by
  induction fuel generalizing s with
  | zero => omega
  | succ fuel ih =>
    unfold next_token_loop
    split
    · show TOK_END ≠ TOK_NULL; decide
    · rename_i c rest hnext
      dsimp only
      by_cases h1 : c = NUL
      · rw [if_pos h1]; show TOK_END ≠ TOK_NULL; decide
      rw [if_neg h1]
      by_cases h2 : (isDigit c = true ∨ c = '.')
      · rw [if_pos h2]; show TOK_NUMBER ≠ TOK_NULL; decide
      rw [if_neg h2]
      by_cases h3 : ('a' ≤ c ∧ c ≤ 'z')
      · rw [if_pos h3]
        have hlen : 1 ≤ (List.takeWhile isIdentChar s.next).length := by
          rw [hnext]
          have : isIdentChar c = true := by
            simp only [isIdentChar, Bool.or_eq_true, Bool.and_eq_true, decide_eq_true_eq]
            left; left; exact h3
          simp [List.takeWhile_cons, this]
        have hdrop : (List.drop (List.takeWhile isIdentChar s.next).length s.next).length <
            fuel := by
          have : (List.takeWhile isIdentChar s.next).length ≤ s.next.length :=
            (List.takeWhile_sublist _).length_le
          simp only [List.length_drop]; omega
        split
        · show TOK_ERROR ≠ TOK_NULL; decide
        · rename_i var _
          by_cases g1 : TYPE_MASK var.type = VARIABLE
          · rw [if_pos g1]; show TOK_VARIABLE ≠ TOK_NULL; decide
          rw [if_neg g1]
          by_cases g2 : (CLOSURE0 ≤ TYPE_MASK var.type ∧ TYPE_MASK var.type ≤ CLOSURE7)
          · rw [if_pos g2]
            exact function_type_not_null ⟨le_trans (by decide) g2.1, g2.2⟩
          rw [if_neg g2]
          by_cases g3 : (FUNCTION0 ≤ TYPE_MASK var.type ∧ TYPE_MASK var.type ≤ FUNCTION7)
          · rw [if_pos g3]
            exact function_type_not_null ⟨g3.1, le_trans g3.2 (by decide)⟩
          rw [if_neg g3]
          exact ih _ hdrop
      · rw [if_neg h3]
        have hr : rest.length + 1 = s.next.length := by rw [hnext]; simp
        have hrec : (fun r : State D => r.type ≠ TOK_NULL)
            (next_token_loop H fuel { s with next := rest }) :=
          ih _ (by show rest.length < fuel; omega)
        have q1 : TOK_INFIX ≠ TOK_NULL := by decide
        have q2 : TOK_OPEN ≠ TOK_NULL := by decide
        have q3 : TOK_CLOSE ≠ TOK_NULL := by decide
        have q4 : TOK_SEP ≠ TOK_NULL := by decide
        have q5 : TOK_ERROR ≠ TOK_NULL := by decide
        repeat' refine ite_ind (P := fun r : State D => r.type ≠ TOK_NULL) ?_ ?_
        all_goals first
          | exact hrec
          | exact q1
          | exact q2
          | exact q3
          | exact q4
          | exact q5

theorem next_token_not_null (s : State D) : (next_token H s).type ≠ TOK_NULL :=
  next_token_loop_not_null H _ _ (Nat.lt_succ_self _)

/-- Started on the token `TOK_ERROR` or `TOK_END`, `list` returns at once: `base` builds
the NaN node and sets the token to `TOK_ERROR`, and no production reads a token. -/
theorem list_returns_stopped {s : State D} (h : s.type = TOK_ERROR ∨ s.type = TOK_END) :
    list_returns H s (nan_node H, { s with type := TOK_ERROR }) := by
  have hm : CLOSURE7 < TYPE_MASK s.type ∧ TYPE_MASK s.type < TOK_OPEN := by
    rcases h with h | h <;> rw [h] <;> decide
  have hni : ¬ s.type = TOK_INFIX := by
    rcases h with h | h <;> rw [h] <;> decide
  have hb : base_returns H s (nan_node H, { s with type := TOK_ERROR }) :=
    base_returns_default H (Or.inr (Or.inl hm))
  have hp := power_returns_of_base H (fun c => hni c.1) hb
  have he : ({ s with type := TOK_ERROR } : State D).type = TOK_ERROR := rfl
  have hf : factor_returns H s (nan_node H, { s with type := TOK_ERROR }) :=
    factor_returns_plain H hp
      (fun c => by
        have c1 : (0 : Nat) = FUNCTION1 + FLAG_PURE := c.1
        exact absurd c1 (by decide))
      (not_infix_of_error he _)
  exact list_returns_of_error H (expr_returns_of_error H (term_returns_of_error H hf he) he) he

/-- A lone point: the number rule reads nothing, so the token is `TOK_NUMBER` and the cursor
stays where it is; `base` takes the number and reads the same token again, no loop goes
on, and `list` returns. -/
theorem list_returns_point (vars : List Variable) :
    next_token H (init_state ['.'] vars) =
      (⟨['.'], ['.'], TOK_NUMBER, Payload.value (H.strtod []), Ptr.null, vars⟩ : State D) ∧
    next_token H (⟨['.'], ['.'], TOK_NUMBER, Payload.value (H.strtod []), Ptr.null, vars⟩ :
        State D) =
      ⟨['.'], ['.'], TOK_NUMBER, Payload.value (H.strtod []), Ptr.null, vars⟩ ∧
    list_returns H (next_token H (init_state ['.'] vars))
      ((new_expr TE_CONSTANT none).setValue (H.strtod []),
        ⟨['.'], ['.'], TOK_NUMBER, Payload.value (H.strtod []), Ptr.null, vars⟩) := by
  have e0 : next_token H (init_state ['.'] vars) =
      (⟨['.'], ['.'], TOK_NUMBER, Payload.value (H.strtod []), Ptr.null, vars⟩ : State D) := rfl
  have e1 : next_token H (⟨['.'], ['.'], TOK_NUMBER, Payload.value (H.strtod []), Ptr.null,
      vars⟩ : State D) =
      ⟨['.'], ['.'], TOK_NUMBER, Payload.value (H.strtod []), Ptr.null, vars⟩ := rfl
  refine ⟨e0, e1, ?_⟩
  rw [e0]
  have hp := power_returns_number H
    (s := (⟨['.'], ['.'], TOK_NUMBER, Payload.value (H.strtod []), Ptr.null, vars⟩ : State D))
    rfl
  rw [e1] at hp
  have n1 : TOK_NUMBER ≠ TOK_INFIX := by decide
  have n2 : TOK_NUMBER ≠ TOK_SEP := by decide
  have hf := factor_returns_plain H hp
    (fun c => by
      have c1 : TE_CONSTANT = FUNCTION1 + FLAG_PURE := c.1
      exact absurd c1 (by decide))
    (fun c => n1 c.1)
  exact list_returns_of_expr H
    (expr_returns_intro H
      (term_returns_intro H hf (term_loop_returns_stop H (fun c => n1 c.1)))
      (expr_loop_returns_stop H (fun c => n1 c.1))) n2

theorem nan_node_not_wellFormed : ¬ (nan_node H : Expression D).WellFormed H :=
  fun h => (wf_present H h).2 rfl

end Termination

/-! ## Texts longer than an int counts -/

section LongTexts

variable {D W : Type} (H : Host D W)

/-- One pass of the loop of `next_token` over a blank. -/
theorem next_token_loop_space (fuel : Nat) (st rest : List Char) (ty : Nat) (pl : Payload D)
    (cx : Ptr) (lk : List Variable) :
    next_token_loop H (fuel + 1) ⟨st, ' ' :: rest, ty, pl, cx, lk⟩ =
      next_token_loop H fuel ⟨st, rest, ty, pl, cx, lk⟩ := rfl

/-- The loop of `next_token` passes over `n` blanks in `n` passes. -/
theorem next_token_loop_spaces (st rest : List Char) (ty : Nat) (pl : Payload D) (cx : Ptr)
    (lk : List Variable) :
    ∀ (n fuel : Nat),
      next_token_loop H (fuel + n) ⟨st, List.replicate n ' ' ++ rest, ty, pl, cx, lk⟩ =
        next_token_loop H fuel ⟨st, rest, ty, pl, cx, lk⟩
  | 0, fuel => rfl
  | n + 1, fuel => by
    show next_token_loop H (fuel + n + 1) ⟨st, ' ' :: (List.replicate n ' ' ++ rest), ty, pl,
      cx, lk⟩ = _
    rw [next_token_loop_space, next_token_loop_spaces st rest ty pl cx lk n fuel]

/-- Started on a closing parenthesis, `list` returns at once with the token set to
`TOK_ERROR`. -/
theorem list_returns_close {s : State D} (h : s.type = TOK_CLOSE) :
    list_returns H s (nan_node H, { s with type := TOK_ERROR }) := by
  have hm : TYPE_MASK s.type = TOK_CLOSE := by rw [h]; decide
  have hni : ¬ s.type = TOK_INFIX := by rw [h]; decide
  have hb : base_returns H s (nan_node H, { s with type := TOK_ERROR }) :=
    base_returns_default H (Or.inr (Or.inr hm))
  have hp := power_returns_of_base H (fun c => hni c.1) hb
  have he : ({ s with type := TOK_ERROR } : State D).type = TOK_ERROR := rfl
  have hf : factor_returns H s (nan_node H, { s with type := TOK_ERROR }) :=
    factor_returns_plain H hp
      (fun c => by
        have c1 : (0 : Nat) = FUNCTION1 + FLAG_PURE := c.1
        exact absurd c1 (by decide))
      (not_infix_of_error he _)
  exact list_returns_of_error H (expr_returns_of_error H (term_returns_of_error H hf he) he) he

/-- The text of `n` blanks and a closing parenthesis: the parser stops behind the
parenthesis, and the error offset is `n + 1` converted to `int`. -/
theorem te_compile_spaces_close (n : Nat) (vars : List Variable) (w : W) :
    te_compile H (List.replicate n ' ' ++ [')']) vars w =
      some ((none, if int_of_offset H (n + 1) = 0 then 1 else int_of_offset H (n + 1)), w) := by
  have e0 : next_token H (init_state (List.replicate n ' ' ++ [')']) vars) =
      (⟨List.replicate n ' ' ++ [')'], [], TOK_CLOSE, Payload.ptr Ptr.null, Ptr.null,
        vars⟩ : State D) := by
    have hl : (List.replicate n ' ' ++ [')']).length + 1 = 2 + n := by
      simp only [List.length_append, List.length_replicate, List.length_cons, List.length_nil]
      omega
    show next_token_loop H ((List.replicate n ' ' ++ [')']).length + 1)
      ⟨List.replicate n ' ' ++ [')'], List.replicate n ' ' ++ [')'], TOK_NULL,
        Payload.ptr Ptr.null, Ptr.null, vars⟩ = _
    rw [hl, next_token_loop_spaces]
    rfl
  have hl : list_returns H (next_token H (init_state (List.replicate n ' ' ++ [')']) vars))
      (nan_node H, (⟨List.replicate n ' ' ++ [')'], [], TOK_ERROR, Payload.ptr Ptr.null,
        Ptr.null, vars⟩ : State D)) := by
    rw [e0]
    exact list_returns_close H rfl
  rw [te_compile_of_returns H hl w, compile_result_fails H _ w (by
    show ¬ TOK_ERROR = TOK_END
    decide)]
  have hlen : (List.replicate n ' ' ++ [')']).length - ([] : List Char).length = n + 1 := by
    simp only [List.length_append, List.length_replicate, List.length_cons, List.length_nil]
    omega
  show some ((none,
    if int_of_offset H ((List.replicate n ' ' ++ [')']).length - ([] : List Char).length) = 0
    then 1
    else int_of_offset H ((List.replicate n ' ' ++ [')']).length - ([] : List Char).length)),
    w) = _
  rw [hlen]

theorem isDigit_one : isDigit '1' = true := by decide

/-- What `strtod` reads of a run of the digit 1 that an operator follows: the run. -/
theorem strtod_len_ones (m : Nat) (op : Char) (rest : List Char)
    (h : op ∈ ['+', '-', '*', '/', '^', '%']) :
    strtod_len (List.replicate (m + 1) '1' ++ op :: rest) = m + 1 := by
  have hop : isDigit op = false ∧ op ≠ '.' ∧ op ≠ 'e' ∧ op ≠ 'E' ∧ op ≠ 'x' ∧ op ≠ 'X' := by
    simp only [List.mem_cons, List.mem_singleton, List.not_mem_nil, or_false] at h
    rcases h with rfl | rfl | rfl | rfl | rfl | rfl <;> decide
  have htw : (List.replicate (m + 1) '1' ++ op :: rest).takeWhile isDigit =
      List.replicate (m + 1) '1' := by
    rw [List.takeWhile_append_of_pos (fun a ha => by
      rw [List.eq_of_mem_replicate ha]; exact isDigit_one)]
    rw [List.takeWhile_cons_of_neg (by rw [hop.1]; decide), List.append_nil]
  have hman : mantissa_len isDigit (List.replicate (m + 1) '1' ++ op :: rest) = m + 1 := by
    unfold mantissa_len
    simp only [htw, List.length_replicate]
    have hd : (List.replicate (m + 1) '1' ++ op :: rest).drop (m + 1) = op :: rest := by
      simp
    rw [hd]
    simp only [if_neg hop.2.1]
  have hdrop : (List.replicate (m + 1) '1' ++ op :: rest).drop (m + 1) = op :: rest := by
    simp
  have hexp : exponent_len 'e' 'E' (op :: rest) = 0 := by
    unfold exponent_len
    simp only [hop.2.2.1, hop.2.2.2.1, or_self, if_false]
  have hne : ('1' : Char) ≠ '0' := by decide
  have hhead : ∃ x r, List.replicate (m + 1) '1' ++ op :: rest = '1' :: x :: r := by
    cases m with
    | zero => exact ⟨op, rest, rfl⟩
    | succ k => exact ⟨'1', List.replicate k '1' ++ op :: rest, rfl⟩
  obtain ⟨x, r, hxr⟩ := hhead
  unfold strtod_len
  simp only [hman, hdrop, hexp]
  rw [hxr]
  simp only [hne, false_and, if_false, ne_eq, not_true_eq_false, Nat.add_eq_zero,
    one_ne_zero, and_false, Nat.add_zero]

theorem numericLiteral_ones (m : Nat) : NumericLiteral (List.replicate (m + 1) '1') :=
  ⟨⟨'1', List.replicate m '1', rfl, Or.inl isDigit_one⟩, fun op rest h => by
    rw [strtod_len_ones m op rest h, List.length_replicate]⟩

end LongTexts

/-! ## Products of doubles -/

section Rounding

variable {D W : Type} (H : Host D W)

/-- Function `npr` as the double product of `C(un, ur)` and `ur!`, on every host, when no
guard fires and nothing exceeds `ULONG_MAX`. -/
theorem npr_product (h3 : 3 ≤ H.ULONG_MAX) (hU : H.UINT_MAX ≤ H.ULONG_MAX)
    (hc : ∀ a, H.toUInt a ≤ H.UINT_MAX) (n r : D)
    (h1 : (H.lt n (H.ofNat 0) || H.lt r (H.ofNat 0) || H.lt n r) = false)
    (h2 : (H.lt (H.ofNat H.UINT_MAX) n || H.lt (H.ofNat H.UINT_MAX) r) = false)
    (hle : H.toUInt r ≤ H.toUInt n)
    (hno : ∀ k, k = (if H.toUInt r > H.toUInt n / 2 then H.toUInt n - H.toUInt r
        else H.toUInt r) →
      ∀ j, 1 ≤ j → j ≤ k →
        Nat.choose (H.toUInt n - k + j - 1) (j - 1) * (H.toUInt n - k + j) ≤ H.ULONG_MAX)
    (hfit : Nat.factorial (H.toUInt r) ≤ H.ULONG_MAX) :
    npr H n r = H.fmul (H.ofNat (Nat.choose (H.toUInt n) (H.toUInt r)))
        (H.ofNat (Nat.factorial (H.toUInt r))) ∧
      Nat.choose (H.toUInt n) (H.toUInt r) * Nat.factorial (H.toUInt r) =
        Nat.factorial (H.toUInt n) / Nat.factorial (H.toUInt n - H.toUInt r) := by
  have hr0 : H.lt r (H.ofNat 0) = false := by
    cases hx : H.lt r (H.ofNat 0)
    · rfl
    · rw [hx] at h1; simp at h1
  have hrU : H.lt (H.ofNat H.UINT_MAX) r = false := by
    cases hx : H.lt (H.ofNat H.UINT_MAX) r
    · rfl
    · rw [hx] at h2; simp at h2
  have hfac : fac H r = H.ofNat (Nat.factorial (H.toUInt r)) := by
    rw [(fac_cases H h3 r).2.2 hr0 hrU, if_pos hfit]
  have hncr : ncr H n r = H.ofNat (Nat.choose (H.toUInt n) (H.toUInt r)) := by
    rcases (ncr_cases H hU hc n r).2.2 h1 h2 hle _ rfl with ⟨⟨j, hj1, hj2, hj3⟩, _⟩ | ⟨_, hr⟩
    · exact absurd (hno _ rfl j hj1 hj2) (by omega)
    · exact hr
  have hperm : Nat.choose (H.toUInt n) (H.toUInt r) * Nat.factorial (H.toUInt r) =
      Nat.factorial (H.toUInt n) / Nat.factorial (H.toUInt n - H.toUInt r) := by
    rw [← Nat.descFactorial_eq_div hle, Nat.descFactorial_eq_factorial_mul_choose,
      Nat.mul_comm]
  refine ⟨?_, hperm⟩
  show H.fmul (ncr H n r) (fac H r) = _
  rw [hncr, hfac]

theorem bit_length_le : ∀ (fuel n k : Nat), n < 2 ^ k → bit_length fuel n ≤ k
  | 0, _, _, _ => Nat.zero_le _
  | fuel + 1, n, k, h => by
    show (if n = 0 then 0 else bit_length fuel (n / 2) + 1) ≤ k
    by_cases hn : n = 0
    · rw [if_pos hn]; exact Nat.zero_le _
    · rw [if_neg hn]
      cases k with
      | zero =>
        have : n < 1 := h
        omega
      | succ k =>
        have h2 : n / 2 < 2 ^ k := by
          rw [Nat.pow_succ] at h
          omega
        have := bit_length_le fuel (n / 2) k h2
        omega

theorem round_to_double_small {n : Nat} (h : n < 2 ^ 53) : round_to_double n = n := by
  unfold round_to_double
  rw [if_pos h]

/-- An integer below `2 ^ 53` in absolute value is a double. -/
theorem nearest_small {z : Int} (h : z.natAbs < 2 ^ 53) :
    IntDouble.nearest z = IntDouble.int z := by
  have hb : bit_length 1100 z.natAbs ≤ 1024 :=
    le_trans (bit_length_le 1100 z.natAbs 53 h) (by decide)
  unfold IntDouble.nearest
  rw [round_to_double_small h, if_pos hb]
  exact congrArg IntDouble.int (Int.sign_mul_natAbs z)

theorem binary64Host_ofNat {n : Nat} (h : n < 2 ^ 53) :
    binary64Host.ofNat n = IntDouble.int (Int.ofNat n) :=
  nearest_small (z := Int.ofNat n) h

theorem binary64Host_toUInt (a : IntDouble) :
    binary64Host.toUInt a ≤ binary64Host.UINT_MAX := by
  cases a with
  | nan => exact Nat.zero_le _
  | inf => exact Nat.zero_le _
  | int z => exact Nat.le_of_lt_succ (Nat.mod_lt _ (by decide))

theorem binary64Host_toUInt_int {n : Nat} (h : n ≤ 4294967295) :
    binary64Host.toUInt (IntDouble.int (Int.ofNat n)) = n := by
  show n % 4294967296 = n
  omega

theorem binary64Host_lt_int (x y : Int) :
    binary64Host.lt (IntDouble.int x) (IntDouble.int y) = decide (x < y) := rfl

/-- On the host with IEEE-754 rounding the product of two doubles that hold the unsigned
integers `a` and `b` is exact when `a * b` is below `2 ^ 53`. -/
theorem binary64Host_fmul_exact {a b : Nat} (ha : 1 ≤ a) (hb : 1 ≤ b) (h : a * b < 2 ^ 53) :
    binary64Host.fmul (binary64Host.ofNat a) (binary64Host.ofNat b) =
      binary64Host.ofNat (a * b) := by
  have ha' : a < 2 ^ 53 := lt_of_le_of_lt (Nat.le_mul_of_pos_right a hb) h
  have hb' : b < 2 ^ 53 := lt_of_le_of_lt (Nat.le_mul_of_pos_left b ha) h
  rw [binary64Host_ofNat ha', binary64Host_ofNat hb', binary64Host_ofNat h]
  show IntDouble.nearest (Int.ofNat a * Int.ofNat b) = _
  have e : Int.ofNat a * Int.ofNat b = Int.ofNat (a * b) := rfl
  rw [e]
  exact nearest_small (z := Int.ofNat (a * b)) h

end Rounding

/-! ## The properties of the specification -/

section Claims

variable {D W : Type} (H : Host D W)

theorem list_returns_built {s s' : State D} {t : Expression D}
    (h : list_returns H s (t, s')) (hs : s'.type ≠ TOK_ERROR) : t.Built := by
  obtain ⟨n, hn⟩ := h
  rcases (good_step H n).2.2.2.2.2.2.2.2.2.2.2.1 _ _ hn with g | g
  · exact absurd g hs
  · exact g

theorem exampleHost_deterministic (r : Bool) : (exampleHost r).Deterministic :=
  fun _ _ _ _ => ⟨rfl, fun _ => rfl⟩

/-- C1. With deterministic bound functions, constant folding never changes a result: for
every tree built from constants, bound variables and functions, whatever the world `w0`
in which `optimize` runs and the world `w` in which the tree is evaluated later,
`te_eval` of the optimized tree equals `te_eval` of the tree; and whenever `te_compile`
returns a tree, that tree evaluates to what `te_eval` gives on the parse tree `root`
that `list` returned. -/
theorem optimize_preserves_te_eval (hdet : H.Deterministic) :
    (∀ (t : Expression D), t.Built → ∀ w0 w : W,
      (te_eval H (optimize H t w0).1 w).1 = (te_eval H t w).1) ∧
    (∀ (text : List Char) (vars : List Variable) (root : Expression D) (s : State D) (w0 : W),
      list_returns H (next_token H (init_state text vars)) (root, s) → s.type = TOK_END →
      ∃ t w1, te_compile H text vars w0 = some ((some t, 0), w1) ∧
        ∀ w : W, (te_eval H t w).1 = (te_eval H root w).1) := by
  refine ⟨fun t ht w0 w => (optimize_sound H hdet t ht w0).2 w, ?_⟩
  intro text vars root s w0 hl hend
  have hb : root.Built := list_returns_built H hl (by rw [hend]; decide)
  exact ⟨_, _, te_compile_succeeds H hl hend w0, fun w => (optimize_sound H hdet root hb w0).2 w⟩

/-- Witness for C1 on the example host, which is deterministic: the tree of `1+2*3`
evaluates to 7 after folding, as before. -/
theorem optimize_preserves_te_eval_witness :
    (exampleHost false).Deterministic ∧
    (te_eval (exampleHost false)
      (optimize (exampleHost false)
        (binary Ptr.add (Expression.node TE_CONSTANT (Payload.value (some 1)) [] Ptr.null)
          (binary Ptr.mul (Expression.node TE_CONSTANT (Payload.value (some 2)) [] Ptr.null)
            (Expression.node TE_CONSTANT (Payload.value (some 3)) [] Ptr.null)))
        (fun _ => none)).1 (fun _ => none)).1 = some 7 :=
  ⟨exampleHost_deterministic false,
    ((optimize_preserves_te_eval (exampleHost false) (exampleHost_deterministic false)).1
      (binary Ptr.add (Expression.node TE_CONSTANT (Payload.value (some 1)) [] Ptr.null)
        (binary Ptr.mul (Expression.node TE_CONSTANT (Payload.value (some 2)) [] Ptr.null)
          (Expression.node TE_CONSTANT (Payload.value (some 3)) [] Ptr.null)))
      (built_binary (Or.inl rfl) (built_binary (Or.inl rfl) (Or.inl rfl)))
      (fun _ => none) (fun _ => none)).trans rfl⟩

theorem numericLiteral_one : NumericLiteral ['1'] :=
  ⟨⟨'1', [], rfl, Or.inl rfl⟩, fun op rest h => by
    simp only [List.mem_cons, List.mem_singleton, List.not_mem_nil, or_false] at h
    rcases h with rfl | rfl | rfl | rfl | rfl | rfl <;> rfl⟩

/-- Witness for C3: the text `1+*2` fails with offset 3. -/
theorem te_compile_operator_pair_witness :
    NumericLiteral ['1'] ∧
    te_compile (exampleHost false) ['1', '+', '*', '2'] [] (fun _ => none) =
      some ((none, 3), fun _ => none) :=
  ⟨numericLiteral_one,
    (te_compile_operator_pair (exampleHost false) [] _ ['1'] ['2'] '+' '*' numericLiteral_one
      (by simp) (by simp)).2 (by decide)⟩

/-- C4. A flat infix expression is read as its standard reading. Let the tokens of the
text be a first operand `x` (read by `factor`), then `op operand` pairs with `op` among
`* / %` (the chain `ops`), then `op product` pairs with `op` among `+ -` (the chain `rest`),
then the end of the text. Then `list` returns `standard_reading (x, ops) rest`: every
product grouped left to right first, then the sum grouped left to right; `te_compile`
returns a tree, and with deterministic bound functions that tree evaluates to what the
standard reading evaluates to. In particular `a+b*c` is `add(a, mul(b,c))`, `a*b+c` is
`add(mul(a,b), c)`, `a-b-c` is `sub(sub(a,b), c)` and `a/b/c` is `div(div(a,b), c)`. -/
theorem te_compile_flat_expression (hdet : H.Deterministic) (text : List Char)
    (vars : List Variable) (x : Expression D) (ops : List (Ptr × Expression D))
    (rest : List (Ptr × Expression D × List (Ptr × Expression D))) {s1 s2 s3 : State D}
    (hx : factor_returns H (next_token H (init_state text vars)) (x, s1))
    (hops : term_chain H s1 ops s2)
    (hstop : ¬ (s2.type = TOK_INFIX ∧
      (s2.function H = Ptr.mul ∨ s2.function H = Ptr.divide ∨ s2.function H = Ptr.fmod)))
    (hrest : expr_chain H s2 rest s3) (hend : s3.type = TOK_END) (w0 : W) :
    list_returns H (next_token H (init_state text vars)) (standard_reading (x, ops) rest, s3) ∧
    (∃ t w1, te_compile H text vars w0 = some ((some t, 0), w1) ∧
      ∀ w : W, (te_eval H t w).1 = (te_eval H (standard_reading (x, ops) rest) w).1) ∧
    (∀ a b c : Expression D,
      standard_reading (a, []) [(Ptr.add, b, [(Ptr.mul, c)])] =
        binary Ptr.add a (binary Ptr.mul b c) ∧
      standard_reading (a, [(Ptr.mul, b)]) [(Ptr.add, c, [])] =
        binary Ptr.add (binary Ptr.mul a b) c ∧
      standard_reading (a, []) [(Ptr.sub, b, []), (Ptr.sub, c, [])] =
        binary Ptr.sub (binary Ptr.sub a b) c ∧
      standard_reading (a, [(Ptr.divide, b), (Ptr.divide, c)]) [] =
        binary Ptr.divide (binary Ptr.divide a b) c) := by
  have hl : list_returns H (next_token H (init_state text vars))
      (standard_reading (x, ops) rest, s3) :=
    list_returns_of_expr H
      (expr_returns_flat H hx hops hstop hrest
        (by rintro ⟨h, _⟩; rw [hend] at h; exact absurd h (by decide)))
      (by rw [hend]; decide)
  have hb := list_returns_built H hl (by rw [hend]; decide)
  exact ⟨hl, ⟨_, _, te_compile_succeeds H hl hend w0,
    fun w => (optimize_sound H hdet _ hb w0).2 w⟩, fun a b c => ⟨rfl, rfl, rfl, rfl⟩⟩

/-- Witness for C4 on the example host: `1+2*3` is read as `add(1, mul(2,3))`, and the five
examples of the claim evaluate to 7, 7, 9, -5 and 2. -/
theorem te_compile_flat_expression_witness :
    (∃ t w1, te_compile (exampleHost false) "1+2*3".toList [] (fun _ => none) =
        some ((some t, 0), w1) ∧
      ∀ w, (te_eval (exampleHost false) t w).1 =
        (te_eval (exampleHost false)
          (binary Ptr.add (Expression.node TE_CONSTANT (Payload.value (some 1)) [] Ptr.null)
            (binary Ptr.mul (Expression.node TE_CONSTANT (Payload.value (some 2)) [] Ptr.null)
              (Expression.node TE_CONSTANT (Payload.value (some 3)) [] Ptr.null))) w).1) ∧
    te_interp (exampleHost false) "1+2*3".toList (fun _ => none) =
      some ((some 7, 0), fun _ => none) ∧
    te_interp (exampleHost false) "2*3+1".toList (fun _ => none) =
      some ((some 7, 0), fun _ => none) ∧
    te_interp (exampleHost false) "(1+2)*3".toList (fun _ => none) =
      some ((some 9, 0), fun _ => none) ∧
    te_interp (exampleHost false) "2-3-4".toList (fun _ => none) =
      some ((some (-5), 0), fun _ => none) ∧
    te_interp (exampleHost false) "12/3/2".toList (fun _ => none) =
      some ((some 2, 0), fun _ => none) :=
  ⟨(te_compile_flat_expression (exampleHost false) (exampleHost_deterministic false)
      "1+2*3".toList []
      (Expression.node TE_CONSTANT (Payload.value (some 1)) [] Ptr.null) []
      [(Ptr.add, Expression.node TE_CONSTANT (Payload.value (some 2)) [] Ptr.null,
        [(Ptr.mul, Expression.node TE_CONSTANT (Payload.value (some 3)) [] Ptr.null)])]
      ⟨6, rfl⟩ (term_chain.nil _) (by decide)
      (expr_chain.cons rfl rfl (Or.inl rfl) ⟨6, rfl⟩
        (term_chain.cons rfl rfl (Or.inl rfl) ⟨6, rfl⟩ (term_chain.nil _)) (by decide)
        (expr_chain.nil _))
      rfl (fun _ => none)).2.1,
    rfl, rfl, rfl, rfl, rfl⟩

/-- C7. Signs in front of a base. Let the tokens from state `s` on be the `+`/`-` tokens
listed in `signs` (any number of them, none included), followed by a token that is no sign
and from which `base` returns the tree `B`. Then `power` returns `B` itself when the number
of `-` among the signs is even, and the pure unary negation node with the single child `B`
when it is odd. -/
theorem power_sign_parity (signs : List Ptr) {s s' s'' : State D} {B : Expression D}
    (hs : sign_run H s signs s')
    (hstop : ¬ (s'.type = TOK_INFIX ∧ (s'.function H = Ptr.add ∨ s'.function H = Ptr.sub)))
    (hb : base_returns H s' (B, s'')) :
    power_returns H s
      (if signs.count Ptr.sub % 2 = 0 then B
       else Expression.node (FUNCTION1 + FLAG_PURE) (Payload.ptr Ptr.negate) [B] Ptr.null, s'') :=
  power_returns_signs H hs hstop hb

/-- Witness for C7 on the example host: in `--5` the signs are two `-` and `power` returns
the constant 5; in `-5` it returns the negation node over the constant 5; `--5` and `+-+-5`
evaluate to 5. -/
theorem power_sign_parity_witness :
    (∃ s'', power_returns (exampleHost false)
      (next_token (exampleHost false) (init_state "--5".toList []))
      (Expression.node TE_CONSTANT (Payload.value (some 5)) [] Ptr.null, s'')) ∧
    te_interp (exampleHost false) "--5".toList (fun _ => none) =
      some ((some 5, 0), fun _ => none) ∧
    te_interp (exampleHost false) "+-+-5".toList (fun _ => none) =
      some ((some 5, 0), fun _ => none) ∧
    te_interp (exampleHost false) "-5".toList (fun _ => none) =
      some ((some (-5), 0), fun _ => none) :=
  ⟨⟨_, power_sign_parity (exampleHost false) [Ptr.sub, Ptr.sub]
      (B := Expression.node TE_CONSTANT (Payload.value (some 5)) [] Ptr.null)
      (sign_run.cons rfl rfl (Or.inr rfl) (sign_run.cons rfl rfl (Or.inr rfl) (sign_run.nil _)))
      (by decide) ⟨1, rfl⟩⟩, rfl, rfl, rfl⟩

/-- C5. The left-associative build. With `TE_POW_FROM_RIGHT` off, let `power` return the
tree `a` for the first operand, followed by `^ x` pairs whose operands `xs` are read by
`power`, followed by a token that is no `^`. Then `factor` returns the chain folded to the
left, `pow(...pow(pow(a, x1), x2)..., xn)`; for two pairs that is `pow(pow(a,b), c)`. When
the first operand is written with signs of which an odd number are `-`, in front of a base
with tree `A`, the negation is part of the first operand: `factor` returns the chain folded
to the left from `neg(A)`, so `-a^b` is `pow(neg(a), b)`. -/
theorem factor_left_chain (hm : H.TE_POW_FROM_RIGHT = false) :
    (∀ (s s1 s2 : State D) (a : Expression D) (xs : List (Expression D)),
      power_returns H s (a, s1) → pow_chain H s1 xs s2 →
      ¬ (s2.type = TOK_INFIX ∧ s2.function H = Ptr.pow) →
      factor_returns H s (xs.foldl (binary Ptr.pow) a, s2)) ∧
    (∀ a b c : Expression D,
      [b, c].foldl (binary Ptr.pow) a = binary Ptr.pow (binary Ptr.pow a b) c) ∧
    (∀ (s s' s1 s2 : State D) (signs : List Ptr) (A : Expression D) (xs : List (Expression D)),
      sign_run H s signs s' → signs.count Ptr.sub % 2 = 1 →
      ¬ (s'.type = TOK_INFIX ∧ (s'.function H = Ptr.add ∨ s'.function H = Ptr.sub)) →
      base_returns H s' (A, s1) → pow_chain H s1 xs s2 →
      ¬ (s2.type = TOK_INFIX ∧ s2.function H = Ptr.pow) →
      factor_returns H s (xs.foldl (binary Ptr.pow) (unary Ptr.negate A), s2)) := by
  refine ⟨fun s s1 s2 a xs ha hc hstop => factor_returns_left_chain H hm ha hc hstop,
    fun a b c => rfl, fun s s' s1 s2 signs A xs hs hodd hst hb hc hstop => ?_⟩
  have hp := power_returns_signs H hs hst hb
  rw [if_neg (by rw [hodd]; decide)] at hp
  exact factor_returns_left_chain H hm hp hc hstop

/-- Witness for C5 on the example host in the left-associative build: `2^3^2` is read as
`pow(pow(2,3), 2)`, `-3^2` as `pow(neg(3), 2)`; `-3^2` evaluates to 9 and `pow(2,3)^2`
to 64. -/
theorem factor_left_chain_witness :
    (∃ s2, factor_returns (exampleHost false)
      (next_token (exampleHost false) (init_state "2^3^2".toList []))
      (binary Ptr.pow
        (binary Ptr.pow (Expression.node TE_CONSTANT (Payload.value (some 2)) [] Ptr.null)
          (Expression.node TE_CONSTANT (Payload.value (some 3)) [] Ptr.null))
        (Expression.node TE_CONSTANT (Payload.value (some 2)) [] Ptr.null), s2)) ∧
    (∃ s2, factor_returns (exampleHost false)
      (next_token (exampleHost false) (init_state "-3^2".toList []))
      (binary Ptr.pow
        (unary Ptr.negate (Expression.node TE_CONSTANT (Payload.value (some 3)) [] Ptr.null))
        (Expression.node TE_CONSTANT (Payload.value (some 2)) [] Ptr.null), s2)) ∧
    te_interp (exampleHost false) "2^3^2".toList (fun _ => none) =
      some ((some 64, 0), fun _ => none) ∧
    te_interp (exampleHost false) "-3^2".toList (fun _ => none) =
      some ((some 9, 0), fun _ => none) ∧
    te_interp (exampleHost false) "pow(2,3)^2".toList (fun _ => none) =
      some ((some 64, 0), fun _ => none) :=
  ⟨⟨_, (factor_left_chain (exampleHost false) rfl).1 _ _ _
      (Expression.node TE_CONSTANT (Payload.value (some 2)) [] Ptr.null)
      [Expression.node TE_CONSTANT (Payload.value (some 3)) [] Ptr.null,
        Expression.node TE_CONSTANT (Payload.value (some 2)) [] Ptr.null]
      ⟨3, rfl⟩
      (pow_chain.cons rfl rfl ⟨3, rfl⟩ (pow_chain.cons rfl rfl ⟨3, rfl⟩ (pow_chain.nil _)))
      (by decide)⟩,
    ⟨_, (factor_left_chain (exampleHost false) rfl).2.2 _ _ _ _ [Ptr.sub]
      (Expression.node TE_CONSTANT (Payload.value (some 3)) [] Ptr.null)
      [Expression.node TE_CONSTANT (Payload.value (some 2)) [] Ptr.null]
      (sign_run.cons rfl rfl (Or.inr rfl) (sign_run.nil _)) rfl (by decide) ⟨1, rfl⟩
      (pow_chain.cons rfl rfl ⟨3, rfl⟩ (pow_chain.nil _)) (by decide)⟩,
    rfl, rfl, rfl⟩

/-- Counterexample for C6 on the example host in the right-associative build: the text
`pow(2,3)^2` evaluates to 64, not to 512: the call `pow(2,3)` is one operand of the chain. -/
theorem right_build_pow_call_squared :
    te_interp (exampleHost true) "pow(2,3)^2".toList (fun _ => none) =
      some ((some 64, 0), fun _ => none) ∧
    (te_interp (exampleHost true) "pow(2,3)^2".toList (fun _ => none)).map (fun r => r.1) ≠
      some (some 512, 0) :=
  ⟨rfl, by decide⟩

/-- C6, amended. The right-associative build. With `TE_POW_FROM_RIGHT` on, let `power`
return the tree `a` for the first operand, `a` not a negation node, followed by `^ x` pairs
whose operands `xs` are read by `power`, followed by a token that is no `^`. Then `factor`
returns the chain nested to the right, `pow(a, pow(x1, ... pow(x(n-1), xn)))`; for two pairs
that is `pow(a, pow(b,c))`. When the chain is written with signs in front of which an odd
number are `-`, followed by a base with tree `A`, the negation is applied to the whole
chain: `factor` returns `neg(pow(A, pow(x1, ...)))`, so `-a^b` is `neg(pow(a,b))` and
`-a^b^c` is `neg(pow(a, pow(b,c)))`. -/
theorem factor_right_chain (hm : H.TE_POW_FROM_RIGHT = true) :
    (∀ (s s1 s2 : State D) (a : Expression D) (xs : List (Expression D)),
      power_returns H s (a, s1) →
      ¬ (a.type = FUNCTION1 + FLAG_PURE ∧ a.function H.asPtr = Ptr.negate) →
      pow_chain H s1 xs s2 → ¬ (s2.type = TOK_INFIX ∧ s2.function H = Ptr.pow) →
      factor_returns H s (right_nest a xs, s2)) ∧
    (∀ a b c : Expression D,
      right_nest a [b, c] = binary Ptr.pow a (binary Ptr.pow b c) ∧
      unary Ptr.negate (right_nest a [b]) = unary Ptr.negate (binary Ptr.pow a b) ∧
      unary Ptr.negate (right_nest a [b, c]) =
        unary Ptr.negate (binary Ptr.pow a (binary Ptr.pow b c))) ∧
    (∀ (s s' s1 s2 : State D) (signs : List Ptr) (A : Expression D) (xs : List (Expression D)),
      sign_run H s signs s' → signs.count Ptr.sub % 2 = 1 →
      ¬ (s'.type = TOK_INFIX ∧ (s'.function H = Ptr.add ∨ s'.function H = Ptr.sub)) →
      base_returns H s' (A, s1) → pow_chain H s1 xs s2 →
      ¬ (s2.type = TOK_INFIX ∧ s2.function H = Ptr.pow) →
      factor_returns H s (unary Ptr.negate (right_nest A xs), s2)) := by
  refine ⟨fun s s1 s2 a xs ha hn hc hstop => factor_returns_right_chain H hm ha hn hc hstop,
    fun a b c => ⟨rfl, rfl, rfl⟩, fun s s' s1 s2 signs A xs hs hodd hst hb hc hstop => ?_⟩
  have hp := power_returns_signs H hs hst hb
  rw [if_neg (by rw [hodd]; decide)] at hp
  exact factor_returns_right_negated H hm hp hc hstop

/-- Witness for C6 on the example host in the right-associative build: `2^3^2` is read as
`pow(2, pow(3,2))`, `-3^2` as `neg(pow(3,2))`; `2^3^2` evaluates to 512, `-3^2` to -9 and
`-2^3^2` to -512. -/
theorem factor_right_chain_witness :
    (∃ s2, factor_returns (exampleHost true)
      (next_token (exampleHost true) (init_state "2^3^2".toList []))
      (binary Ptr.pow (Expression.node TE_CONSTANT (Payload.value (some 2)) [] Ptr.null)
        (binary Ptr.pow (Expression.node TE_CONSTANT (Payload.value (some 3)) [] Ptr.null)
          (Expression.node TE_CONSTANT (Payload.value (some 2)) [] Ptr.null)), s2)) ∧
    (∃ s2, factor_returns (exampleHost true)
      (next_token (exampleHost true) (init_state "-3^2".toList []))
      (unary Ptr.negate
        (binary Ptr.pow (Expression.node TE_CONSTANT (Payload.value (some 3)) [] Ptr.null)
          (Expression.node TE_CONSTANT (Payload.value (some 2)) [] Ptr.null)), s2)) ∧
    te_interp (exampleHost true) "2^3^2".toList (fun _ => none) =
      some ((some 512, 0), fun _ => none) ∧
    te_interp (exampleHost true) "-3^2".toList (fun _ => none) =
      some ((some (-9), 0), fun _ => none) ∧
    te_interp (exampleHost true) "-2^3^2".toList (fun _ => none) =
      some ((some (-512), 0), fun _ => none) :=
  ⟨⟨_, (factor_right_chain (exampleHost true) rfl).1 _ _ _
      (Expression.node TE_CONSTANT (Payload.value (some 2)) [] Ptr.null)
      [Expression.node TE_CONSTANT (Payload.value (some 3)) [] Ptr.null,
        Expression.node TE_CONSTANT (Payload.value (some 2)) [] Ptr.null]
      ⟨3, rfl⟩ (by decide)
      (pow_chain.cons rfl rfl ⟨3, rfl⟩ (pow_chain.cons rfl rfl ⟨3, rfl⟩ (pow_chain.nil _)))
      (by decide)⟩,
    ⟨_, (factor_right_chain (exampleHost true) rfl).2.2 _ _ _ _ [Ptr.sub]
      (Expression.node TE_CONSTANT (Payload.value (some 3)) [] Ptr.null)
      [Expression.node TE_CONSTANT (Payload.value (some 2)) [] Ptr.null]
      (sign_run.cons rfl rfl (Or.inr rfl) (sign_run.nil _)) rfl (by decide) ⟨1, rfl⟩
      (pow_chain.cons rfl rfl ⟨3, rfl⟩ (pow_chain.nil _)) (by decide)⟩,
    rfl, rfl, rfl⟩

/-- Counterexample for C8 on the example host in the right-associative build, with `x`
bound to a cell: the tree of `ceil -x^2` is `pow(ceil(neg(x)), 2)`, the `^2` applied to
the call; with 3 in the cell it evaluates to 9, where `ceil(neg(pow(x,2)))` evaluates
to -9. -/
theorem ceil_neg_x_squared :
    te_compile (exampleHost true) "ceil -x^2".toList
        [⟨"x".toList, Ptr.host 0, VARIABLE, Ptr.null⟩] (fun _ => some 3) =
      some ((some (binary Ptr.pow
        (Expression.node (FUNCTION1 + FLAG_PURE) (Payload.ptr Ptr.ceil)
          [unary Ptr.negate (Expression.node VARIABLE (Payload.ptr (Ptr.host 0)) [] Ptr.null)]
          Ptr.null)
        (Expression.node TE_CONSTANT (Payload.value (some 2)) [] Ptr.null)), 0),
        fun _ => some 3) ∧
    (te_eval (exampleHost true) (binary Ptr.pow
        (Expression.node (FUNCTION1 + FLAG_PURE) (Payload.ptr Ptr.ceil)
          [unary Ptr.negate (Expression.node VARIABLE (Payload.ptr (Ptr.host 0)) [] Ptr.null)]
          Ptr.null)
        (Expression.node TE_CONSTANT (Payload.value (some 2)) [] Ptr.null))
      (fun _ => some 3)).1 = some 9 ∧
    (te_eval (exampleHost true)
        (Expression.node (FUNCTION1 + FLAG_PURE) (Payload.ptr Ptr.ceil)
          [unary Ptr.negate (binary Ptr.pow
            (Expression.node VARIABLE (Payload.ptr (Ptr.host 0)) [] Ptr.null)
            (Expression.node TE_CONSTANT (Payload.value (some 2)) [] Ptr.null))]
          Ptr.null)
      (fun _ => some 3)).1 = some (-9) :=
  ⟨rfl, rfl, rfl⟩

/-- C8, amended. In both builds the argument of a unary function written without
parentheses is the power `-x` alone, and the `^2` is applied to the call. Let `s` be the
token of a function or closure of one argument (other than the parser's own `negate`,
which no name reaches), followed by a `-`, a base with tree `X`, a `^`, and an operand `E`
read by `power`, followed by a token that is no `^`. Then `factor` returns
`pow(f(neg(X)), E)`. -/
theorem unary_call_before_power {s s1 s2 : State D} {X E : Expression D}
    (hf : TYPE_MASK s.type = FUNCTION1 ∨ TYPE_MASK s.type = CLOSURE1)
    (hn : s.function H ≠ Ptr.negate)
    (hminus : (next_token H s).type = TOK_INFIX ∧ (next_token H s).function H = Ptr.sub)
    (hsign : ¬ ((next_token H (next_token H s)).type = TOK_INFIX ∧
      ((next_token H (next_token H s)).function H = Ptr.add ∨
        (next_token H (next_token H s)).function H = Ptr.sub)))
    (hx : base_returns H (next_token H (next_token H s)) (X, s1))
    (hpow : s1.type = TOK_INFIX ∧ s1.function H = Ptr.pow)
    (he : power_returns H (next_token H s1) (E, s2))
    (hstop : ¬ (s2.type = TOK_INFIX ∧ s2.function H = Ptr.pow)) :
    factor_returns H s (binary Ptr.pow (call1 H s (unary Ptr.negate X)) E, s2) := by
  have hp := power_returns_signs H
    (sign_run.cons hminus.1 hminus.2 (Or.inr rfl) (sign_run.nil _)) hsign hx
  rw [if_neg (by decide)] at hp
  have hc := power_returns_call1 H hf hp
  have chain : pow_chain H s1 [E] s2 := pow_chain.cons hpow.1 hpow.2 he (pow_chain.nil _)
  cases hm : H.TE_POW_FROM_RIGHT with
  | false => exact factor_returns_left_chain H hm hc chain hstop
  | true =>
    exact factor_returns_right_chain H hm hc (fun c => hn c.2) chain hstop

/-- Witness for C8 on the example host, with `x` bound to a cell, in the right-associative
and in the left-associative build: `factor` reads `sin -x^2` as `pow(sin(neg(x)), 2)`. -/
theorem unary_call_before_power_witness :
    (∃ s2, factor_returns (exampleHost true)
      (next_token (exampleHost true)
        (init_state "sin -x^2".toList [⟨"x".toList, Ptr.host 0, VARIABLE, Ptr.null⟩]))
      (binary Ptr.pow
        (Expression.node (FUNCTION1 + FLAG_PURE) (Payload.ptr Ptr.sin)
          [unary Ptr.negate (Expression.node VARIABLE (Payload.ptr (Ptr.host 0)) [] Ptr.null)]
          Ptr.null)
        (Expression.node TE_CONSTANT (Payload.value (some 2)) [] Ptr.null), s2)) ∧
    (∃ s2, factor_returns (exampleHost false)
      (next_token (exampleHost false)
        (init_state "sin -x^2".toList [⟨"x".toList, Ptr.host 0, VARIABLE, Ptr.null⟩]))
      (binary Ptr.pow
        (Expression.node (FUNCTION1 + FLAG_PURE) (Payload.ptr Ptr.sin)
          [unary Ptr.negate (Expression.node VARIABLE (Payload.ptr (Ptr.host 0)) [] Ptr.null)]
          Ptr.null)
        (Expression.node TE_CONSTANT (Payload.value (some 2)) [] Ptr.null), s2)) :=
  ⟨⟨_, unary_call_before_power (exampleHost true)
      (X := Expression.node VARIABLE (Payload.ptr (Ptr.host 0)) [] Ptr.null)
      (E := Expression.node TE_CONSTANT (Payload.value (some 2)) [] Ptr.null)
      (Or.inl rfl) (by decide) ⟨rfl, rfl⟩ (by decide) ⟨1, rfl⟩ ⟨rfl, rfl⟩ ⟨3, rfl⟩ (by decide)⟩,
    ⟨_, unary_call_before_power (exampleHost false)
      (X := Expression.node VARIABLE (Payload.ptr (Ptr.host 0)) [] Ptr.null)
      (E := Expression.node TE_CONSTANT (Payload.value (some 2)) [] Ptr.null)
      (Or.inl rfl) (by decide) ⟨rfl, rfl⟩ (by decide) ⟨1, rfl⟩ ⟨rfl, rfl⟩ ⟨3, rfl⟩ (by decide)⟩⟩

/-- Witness for C2 on the example host: the empty text fails with offset 1, the text `1+`
fails with offset 2 (the cursor is at the end of the text), and `1+2` succeeds with
offset 0. -/
theorem te_compile_error_offset_witness :
    te_compile (exampleHost false) [] [] (fun _ => none) = some ((none, 1), fun _ => none) ∧
    te_compile (exampleHost false) "1+".toList [] (fun _ => none) =
      some ((none, 2), fun _ => none) ∧
    te_compile (exampleHost false) "1+2".toList [] (fun _ => none) =
      some ((some (Expression.node TE_CONSTANT (Payload.value (some 3)) [] Ptr.null), 0),
        fun _ => none) :=
  ⟨(te_compile_error_offset (exampleHost false) [] [] (fun _ => none)).2, rfl, rfl⟩

/-- C9. A unary function written without parentheses takes one `power` as its argument and
binds tighter than `*`. Let `s` be the token of a function or closure of one argument and
let `power` read the tree `A` after it. When the next token is no `^`, the call `f(A)` is a
whole `factor`. When the next token is `*`, followed by an operand `B` read by `factor` and
a token that is no `*`, `/` or `%`, `term` returns `mul(f(A), B)`. And when the call stands
after `C *`, `term` returns `mul(mul(C, f(A)), B)`. -/
theorem unary_call_binds_tighter :
    (∀ (s s1 : State D) (A : Expression D),
      (TYPE_MASK s.type = FUNCTION1 ∨ TYPE_MASK s.type = CLOSURE1) →
      power_returns H (next_token H s) (A, s1) →
      ¬ (s1.type = TOK_INFIX ∧ s1.function H = Ptr.pow) →
      factor_returns H s (call1 H s A, s1)) ∧
    (∀ (s s1 s2 : State D) (A B : Expression D),
      (TYPE_MASK s.type = FUNCTION1 ∨ TYPE_MASK s.type = CLOSURE1) →
      power_returns H (next_token H s) (A, s1) →
      s1.type = TOK_INFIX ∧ s1.function H = Ptr.mul →
      factor_returns H (next_token H s1) (B, s2) →
      ¬ (s2.type = TOK_INFIX ∧
        (s2.function H = Ptr.mul ∨ s2.function H = Ptr.divide ∨ s2.function H = Ptr.fmod)) →
      term_returns H s (binary Ptr.mul (call1 H s A) B, s2)) ∧
    (∀ (s0 sm s1 s2 : State D) (C A B : Expression D),
      factor_returns H s0 (C, sm) →
      sm.type = TOK_INFIX ∧ sm.function H = Ptr.mul →
      (TYPE_MASK (next_token H sm).type = FUNCTION1 ∨
        TYPE_MASK (next_token H sm).type = CLOSURE1) →
      power_returns H (next_token H (next_token H sm)) (A, s1) →
      s1.type = TOK_INFIX ∧ s1.function H = Ptr.mul →
      factor_returns H (next_token H s1) (B, s2) →
      ¬ (s2.type = TOK_INFIX ∧
        (s2.function H = Ptr.mul ∨ s2.function H = Ptr.divide ∨ s2.function H = Ptr.fmod)) →
      term_returns H s0
        (binary Ptr.mul (binary Ptr.mul C (call1 H (next_token H sm) A)) B, s2)) := by
  have np : ∀ s1 : State D, s1.type = TOK_INFIX ∧ s1.function H = Ptr.mul →
      ¬ (s1.type = TOK_INFIX ∧ s1.function H = Ptr.pow) := by
    rintro s1 ⟨_, e⟩ ⟨_, e'⟩
    rw [e] at e'
    cases e'
  refine ⟨fun s s1 A hf ha hstop => factor_returns_call1 H hf ha hstop,
    fun s s1 s2 A B hf ha hmul hb hstop => ?_,
    fun s0 sm s1 s2 C A B hc hm hf ha hmul hb hstop => ?_⟩
  · exact term_returns_chain H (factor_returns_call1 H hf ha (np s1 hmul))
      (term_chain.cons hmul.1 hmul.2 (Or.inl rfl) hb (term_chain.nil _)) hstop
  · exact term_returns_chain H hc
      (term_chain.cons hm.1 hm.2 (Or.inl rfl) (factor_returns_call1 H hf ha (np s1 hmul))
        (term_chain.cons hmul.1 hmul.2 (Or.inl rfl) hb (term_chain.nil _))) hstop

/-- Witness for C9 on the example host: `term` reads `sin 0 * 2` as `mul(sin(0), 2)` and
`3 * sin 0 * 2` as `mul(mul(3, sin(0)), 2)`; `sin 0 * 2` evaluates to 0, like `(sin 0)*2`,
and `sqrt 100 + 7` to 17. -/
theorem unary_call_binds_tighter_witness :
    (∃ s2, term_returns (exampleHost false)
      (next_token (exampleHost false) (init_state "sin 0 * 2".toList []))
      (binary Ptr.mul
        (Expression.node (FUNCTION1 + FLAG_PURE) (Payload.ptr Ptr.sin)
          [Expression.node TE_CONSTANT (Payload.value (some 0)) [] Ptr.null] Ptr.null)
        (Expression.node TE_CONSTANT (Payload.value (some 2)) [] Ptr.null), s2)) ∧
    (∃ s2, term_returns (exampleHost false)
      (next_token (exampleHost false) (init_state "3 * sin 0 * 2".toList []))
      (binary Ptr.mul
        (binary Ptr.mul (Expression.node TE_CONSTANT (Payload.value (some 3)) [] Ptr.null)
          (Expression.node (FUNCTION1 + FLAG_PURE) (Payload.ptr Ptr.sin)
            [Expression.node TE_CONSTANT (Payload.value (some 0)) [] Ptr.null] Ptr.null))
        (Expression.node TE_CONSTANT (Payload.value (some 2)) [] Ptr.null), s2)) ∧
    te_interp (exampleHost false) "sin 0 * 2".toList (fun _ => none) =
      some ((some 0, 0), fun _ => none) ∧
    te_interp (exampleHost false) "(sin 0) * 2".toList (fun _ => none) =
      some ((some 0, 0), fun _ => none) ∧
    te_interp (exampleHost false) "sqrt 100 + 7".toList (fun _ => none) =
      some ((some 17, 0), fun _ => none) :=
  ⟨⟨_, (unary_call_binds_tighter (exampleHost false)).2.1 _ _ _
      (Expression.node TE_CONSTANT (Payload.value (some 0)) [] Ptr.null)
      (Expression.node TE_CONSTANT (Payload.value (some 2)) [] Ptr.null)
      (Or.inl rfl) ⟨3, rfl⟩ ⟨rfl, rfl⟩ ⟨4, rfl⟩ (by decide)⟩,
    ⟨_, (unary_call_binds_tighter (exampleHost false)).2.2
      (next_token (exampleHost false) (init_state "3 * sin 0 * 2".toList [])) _ _ _
      (Expression.node TE_CONSTANT (Payload.value (some 3)) [] Ptr.null)
      (Expression.node TE_CONSTANT (Payload.value (some 0)) [] Ptr.null)
      (Expression.node TE_CONSTANT (Payload.value (some 2)) [] Ptr.null)
      ⟨4, rfl⟩ ⟨rfl, rfl⟩ (Or.inl rfl) ⟨3, rfl⟩ ⟨rfl, rfl⟩ ⟨4, rfl⟩ (by decide)⟩,
    rfl, rfl, rfl⟩

/-- C10. The call of a function or closure of arity 2 to 7. Let the first token `s0` of
the text be such a function or closure, built in or bound, of arity `a`. When it is
followed by `(`, by `k >= 1` argument expressions separated by commas, by `)` and by the
end of the text, `te_compile` returns a tree exactly when `k = a`, and null otherwise.
With `()` (no argument), without the `(`, or when the arguments are followed by a token
that is neither `)` nor a comma, `te_compile` returns null. -/
theorem te_compile_call_arity (text : List Char) (vars : List Variable) (w : W)
    (s0 : State D) (h0 : s0 = next_token H (init_state text vars))
    (hf : (FUNCTION2 ≤ TYPE_MASK s0.type ∧ TYPE_MASK s0.type ≤ FUNCTION7) ∨
      (CLOSURE2 ≤ TYPE_MASK s0.type ∧ TYPE_MASK s0.type ≤ CLOSURE7)) :
    2 ≤ ARITY s0.type ∧
    (∀ (es : List (Expression D)) (s' : State D),
      (next_token H s0).type = TOK_OPEN → arg_list H (next_token H s0) es s' →
      s'.type = TOK_CLOSE → (next_token H s').type = TOK_END →
      ((∃ t w', te_compile H text vars w = some ((some t, 0), w')) ↔
        es.length = ARITY s0.type) ∧
      (es.length ≠ ARITY s0.type → ∃ e, te_compile H text vars w = some ((none, e), w))) ∧
    ((next_token H s0).type = TOK_OPEN →
      (next_token H (next_token H s0)).type = TOK_CLOSE →
      ∃ e, te_compile H text vars w = some ((none, e), w)) ∧
    ((next_token H s0).type ≠ TOK_OPEN →
      ∃ e, te_compile H text vars w = some ((none, e), w)) ∧
    (∀ (es : List (Expression D)) (s' : State D),
      (next_token H s0).type = TOK_OPEN → arg_list H (next_token H s0) es s' →
      s'.type ≠ TOK_CLOSE → s'.type ≠ TOK_SEP →
      ∃ e, te_compile H text vars w = some ((none, e), w)) := by
  have hmask : FUNCTION0 ≤ TYPE_MASK s0.type ∧ TYPE_MASK s0.type ≤ CLOSURE7 := by
    simp only [FUNCTION0, FUNCTION2, FUNCTION7, CLOSURE2, CLOSURE7] at hf ⊢
    omega
  have hn := not_sign_of_call H hmask
  have fails : ∀ (ret : Expression D) (sE : State D), base_returns H s0 (ret, sE) →
      sE.type = TOK_ERROR → ∃ e, te_compile H text vars w = some ((none, e), w) := by
    intro ret sE hb hE
    obtain ⟨root, hl⟩ := list_returns_of_base H hn hb (by rw [hE]; decide) (by rw [hE]; decide)
    rw [h0] at hl
    exact te_compile_fails H hl (by rw [hE]; decide) w
  have bad : ∀ (es : List (Expression D)) (s' : State D),
      (next_token H s0).type = TOK_OPEN → arg_list H (next_token H s0) es s' →
      s'.type ≠ TOK_SEP → (es.length ≠ ARITY s0.type ∨ s'.type ≠ TOK_CLOSE) →
      ∃ e, te_compile H text vars w = some ((none, e), w) := by
    intro es s' ho ha hs hk
    obtain ⟨ret, sE, hb, hE⟩ := base_returns_call_error H hf ho ha hs hk
    exact fails ret sE hb hE
  refine ⟨(arity_ge_two hf).1, fun es s' ho ha hc hend => ?_, fun ho hc => ?_, fun ho => ?_,
    fun es s' ho ha hc hs => bad es s' ho ha hs (Or.inr hc)⟩
  · have hs : s'.type ≠ TOK_SEP := by rw [hc]; decide
    refine ⟨⟨fun hex => ?_, fun hk => ?_⟩, fun hk => bad es s' ho ha hs (Or.inl hk)⟩
    · by_contra hk
      obtain ⟨e, he⟩ := bad es s' ho ha hs (Or.inl hk)
      obtain ⟨t, w', ht⟩ := hex
      rw [he] at ht
      cases ht
    · obtain ⟨ret, hb⟩ := base_returns_call_ok H hf ho ha hc hk
      obtain ⟨root, hl⟩ := list_returns_of_base H hn hb
        (by rw [hend]; decide) (by rw [hend]; decide)
      rw [h0] at hl
      exact ⟨_, _, te_compile_succeeds H hl hend w⟩
  · have hcl : TYPE_MASK (next_token H (next_token H s0)).type = TOK_CLOSE := by
      rw [hc]; rfl
    have hb := base_returns_default H (Or.inr (Or.inr hcl))
    have hp := power_returns_of_base H (by rw [hc]; rintro ⟨c, _⟩; exact absurd c (by decide)) hb
    obtain ⟨t', hfac⟩ := factor_returns_of_error H hp rfl
    have he := expr_returns_of_error H (term_returns_of_error H hfac rfl) rfl
    exact bad [t'] _ ho (arg_list.one he) (by show TOK_ERROR ≠ TOK_SEP; decide)
      (Or.inr (by show TOK_ERROR ≠ TOK_CLOSE; decide))
  · exact fails _ _ (base_returns_funN_no_open H hf ho) rfl

/-- Witness for C10 on the example host, for the built-in `pow` of arity 2: `pow(2,3)`
compiles (to the constant 8), while `pow(2)`, `pow(2,3,4)`, `pow()`, `pow 2,3)` and
`pow(2,3` return null. -/
theorem te_compile_call_arity_witness :
    ((∃ t w', te_compile (exampleHost false) "pow(2,3)".toList [] (fun _ => none) =
        some ((some t, 0), w')) ↔ 2 = 2) ∧
    te_compile (exampleHost false) "pow(2,3)".toList [] (fun _ => none) =
      some ((some (Expression.node TE_CONSTANT (Payload.value (some 8)) [] Ptr.null), 0),
        fun _ => none) ∧
    te_compile (exampleHost false) "pow(2)".toList [] (fun _ => none) =
      some ((none, 6), fun _ => none) ∧
    te_compile (exampleHost false) "pow(2,3,4)".toList [] (fun _ => none) =
      some ((none, 8), fun _ => none) ∧
    te_compile (exampleHost false) "pow()".toList [] (fun _ => none) =
      some ((none, 5), fun _ => none) ∧
    te_compile (exampleHost false) "pow 2,3)".toList [] (fun _ => none) =
      some ((none, 5), fun _ => none) ∧
    te_compile (exampleHost false) "pow(2,3".toList [] (fun _ => none) =
      some ((none, 7), fun _ => none) :=
  ⟨((te_compile_call_arity (exampleHost false) "pow(2,3)".toList [] (fun _ => none)
      (next_token (exampleHost false) (init_state "pow(2,3)".toList [])) rfl
      (Or.inl (by decide))).2.1
      [Expression.node TE_CONSTANT (Payload.value (some 2)) [] Ptr.null,
        Expression.node TE_CONSTANT (Payload.value (some 3)) [] Ptr.null] _ rfl
      (arg_list.cons ⟨8, rfl⟩ rfl (arg_list.one ⟨8, rfl⟩)) rfl rfl).1,
    rfl, rfl, rfl, rfl, rfl, rfl⟩

/-- C11. Comma lists. Let `expr` read `e1` from state `s`, followed by `, x` pairs whose
expressions `xs` are read by `expr`, followed by a token that is no comma. Then `list`
returns the left-leaning chain `comma(...comma(comma(e1, x1), x2)..., xn)` of pure binary
nodes; that is so at the root of the input (where `te_compile` then returns a tree when
the text ends there) and after an opening parenthesis, where `base` returns the chain as
one operand once the `)` is read, so that as a function argument it is one argument. The
chain evaluates its members first to last and its value is the value of the last one;
with deterministic bound functions that is the value of the last member on its own. -/
theorem list_comma_chain (hdet : H.Deterministic) :
    (∀ (s s1 s' : State D) (e1 : Expression D) (xs : List (Expression D)),
      expr_returns H s (e1, s1) → sep_chain H s1 xs s' → s'.type ≠ TOK_SEP →
      list_returns H s (xs.foldl (binary Ptr.comma) e1, s')) ∧
    (∀ (text : List Char) (vars : List Variable) (w0 : W) (s1 s' : State D)
      (e1 : Expression D) (xs : List (Expression D)),
      expr_returns H (next_token H (init_state text vars)) (e1, s1) →
      sep_chain H s1 xs s' → s'.type = TOK_END →
      ∃ t w1, te_compile H text vars w0 = some ((some t, 0), w1) ∧
        ∀ w : W, (te_eval H t w).1 =
          (te_eval H ((e1 :: xs).getLast (List.cons_ne_nil e1 xs)) w).1) ∧
    (∀ (s s1 s' : State D) (e1 : Expression D) (xs : List (Expression D)),
      TYPE_MASK s.type = TOK_OPEN → expr_returns H (next_token H s) (e1, s1) →
      sep_chain H s1 xs s' → s'.type = TOK_CLOSE →
      base_returns H s (xs.foldl (binary Ptr.comma) e1, next_token H s')) ∧
    (∀ (e1 last : Expression D) (init : List (Expression D)) (w : W),
      te_eval H ((init ++ [last]).foldl (binary Ptr.comma) e1) w =
        te_eval H last (te_eval H (init.foldl (binary Ptr.comma) e1) w).2) ∧
    (∀ (e1 : Expression D) (xs : List (Expression D)) (w : W),
      (te_eval H (xs.foldl (binary Ptr.comma) e1) w).1 =
        (te_eval H ((e1 :: xs).getLast (List.cons_ne_nil e1 xs)) w).1) := by
  refine ⟨fun s s1 s' e1 xs he hc hs => list_returns_chain H he hc hs,
    fun text vars w0 s1 s' e1 xs he hc hend => ?_,
    fun s s1 s' e1 xs ho he hc hcl => ?_,
    fun e1 last init w => te_eval_comma_chain H e1 last init w,
    fun e1 xs w => te_eval_comma_last H hdet e1 xs w⟩
  · have hl := list_returns_chain H he hc (by rw [hend]; decide)
    have hb := list_returns_built H hl (by rw [hend]; decide)
    refine ⟨_, _, te_compile_succeeds H hl hend w0, fun w => ?_⟩
    rw [(optimize_sound H hdet _ hb w0).2 w]
    exact te_eval_comma_last H hdet e1 xs w
  · have hl := list_returns_chain H he hc (by rw [hcl]; decide)
    have hb := base_returns_open H ho hl
    rw [if_neg (by rw [hcl]; decide)] at hb
    exact hb

/-- Witness for C11 on the example host: `list` reads `1,2,3` as `comma(comma(1,2),3)`;
`1,2,3` and `(1,2,3)` evaluate to 3 and `pow(2, (1,3))` to 8. -/
theorem list_comma_chain_witness :
    (∃ s', list_returns (exampleHost false)
      (next_token (exampleHost false) (init_state "1,2,3".toList []))
      (binary Ptr.comma
        (binary Ptr.comma (Expression.node TE_CONSTANT (Payload.value (some 1)) [] Ptr.null)
          (Expression.node TE_CONSTANT (Payload.value (some 2)) [] Ptr.null))
        (Expression.node TE_CONSTANT (Payload.value (some 3)) [] Ptr.null), s')) ∧
    te_interp (exampleHost false) "1,2,3".toList (fun _ => none) =
      some ((some 3, 0), fun _ => none) ∧
    te_interp (exampleHost false) "(1,2,3)".toList (fun _ => none) =
      some ((some 3, 0), fun _ => none) ∧
    te_interp (exampleHost false) "pow(2, (1,3))".toList (fun _ => none) =
      some ((some 8, 0), fun _ => none) :=
  ⟨⟨_, (list_comma_chain (exampleHost false) (exampleHost_deterministic false)).1
      (next_token (exampleHost false) (init_state "1,2,3".toList [])) _ _
      (Expression.node TE_CONSTANT (Payload.value (some 1)) [] Ptr.null)
      [Expression.node TE_CONSTANT (Payload.value (some 2)) [] Ptr.null,
        Expression.node TE_CONSTANT (Payload.value (some 3)) [] Ptr.null]
      ⟨6, rfl⟩
      (sep_chain.cons rfl ⟨6, rfl⟩ (sep_chain.cons rfl ⟨6, rfl⟩ (sep_chain.nil _)))
      (by decide)⟩,
    rfl, rfl, rfl⟩

/-- C16. Function `fac`, for a platform whose `ULONG_MAX` is at least 3. For `a < 0` the
result is NaN. Otherwise, with `k` the argument converted to `unsigned int` (its integer
part), the result is `k!`, computed without wrap-around, when `k!` fits in an
`unsigned long`, and plus infinity when it does not; for `a` above `UINT_MAX` the result is
plus infinity, and there the factorial of every integer from `UINT_MAX` on does not fit
when that of `UINT_MAX` does not. With a 64-bit `unsigned long`, `k!` fits exactly when
`k <= 20`. -/
theorem fac_floor_factorial (h3 : 3 ≤ H.ULONG_MAX) (a : D) :
    (H.lt a (H.ofNat 0) = true → fac H a = H.nan) ∧
    (H.lt a (H.ofNat 0) = false → H.lt (H.ofNat H.UINT_MAX) a = true → fac H a = H.inf) ∧
    (H.lt a (H.ofNat 0) = false → H.lt (H.ofNat H.UINT_MAX) a = false →
      fac H a = if Nat.factorial (H.toUInt a) ≤ H.ULONG_MAX
        then H.ofNat (Nat.factorial (H.toUInt a)) else H.inf) ∧
    (H.ULONG_MAX < Nat.factorial H.UINT_MAX →
      ∀ k, H.UINT_MAX ≤ k → H.ULONG_MAX < Nat.factorial k) ∧
    (H.ULONG_MAX = 18446744073709551615 →
      ∀ k, Nat.factorial k ≤ H.ULONG_MAX ↔ k ≤ 20) := by
  obtain ⟨c1, c2, c3⟩ := fac_cases H h3 a
  refine ⟨c1, c2, c3, fun h k hk => lt_of_lt_of_le h (Nat.factorial_le hk), fun h k => ?_⟩
  rw [h]
  exact factorial_fits_64 k

/-- Witness for C16 on the integer host (64-bit `unsigned long`): `fac(0) = 1`,
`fac(5) = 120`, `fac(20) = 2432902008176640000`, `fac(21)` is plus infinity, `fac(-1)` is
NaN, and `fac(4294967296)` is plus infinity. -/
theorem fac_floor_factorial_witness :
    fac integerHost (IntDouble.int 0) = IntDouble.int 1 ∧
    fac integerHost (IntDouble.int 5) = IntDouble.int 120 ∧
    fac integerHost (IntDouble.int 20) = IntDouble.int 2432902008176640000 ∧
    fac integerHost (IntDouble.int 21) = IntDouble.inf ∧
    fac integerHost (IntDouble.int (-1)) = IntDouble.nan ∧
    fac integerHost (IntDouble.int 4294967296) = IntDouble.inf :=
  ⟨((fac_floor_factorial integerHost (by decide) (IntDouble.int 0)).2.2.1 rfl rfl).trans
      (by decide),
    ((fac_floor_factorial integerHost (by decide) (IntDouble.int 5)).2.2.1 rfl rfl).trans
      (by decide),
    ((fac_floor_factorial integerHost (by decide) (IntDouble.int 20)).2.2.1 rfl rfl).trans
      (by decide),
    ((fac_floor_factorial integerHost (by decide) (IntDouble.int 21)).2.2.1 rfl rfl).trans
      (by decide),
    (fac_floor_factorial integerHost (by decide) (IntDouble.int (-1))).1 rfl,
    (fac_floor_factorial integerHost (by decide) (IntDouble.int 4294967296)).2.1 rfl rfl⟩

/-- Counterexample for C17 on the integer host (32-bit `unsigned int`, 64-bit
`unsigned long`): `ncr(4294967296, 1)` is plus infinity, although the binomial
coefficient is 4294967296 and the one product of the iteration, `1 * 4294967296`, is
within the `unsigned long` range. -/
theorem ncr_above_uint_max :
    ncr integerHost (IntDouble.int 4294967296) (IntDouble.int 1) = IntDouble.inf ∧
    Nat.choose 4294967296 1 = 4294967296 ∧
    1 * (4294967296 - 1 + 1) ≤ integerHost.ULONG_MAX ∧
    integerHost.ofNat (Nat.choose 4294967296 1) ≠ IntDouble.inf :=
  ⟨rfl, Nat.choose_one_right _, by decide, by rw [Nat.choose_one_right]; decide⟩

/-- C17, amended. Function `ncr`, for a platform where `UINT_MAX <= ULONG_MAX` and the
conversion to `unsigned int` stays within `UINT_MAX`. When `n < 0`, `r < 0` or `n < r` the
result is NaN. Otherwise, when `n` or `r` is above `UINT_MAX` the result is plus infinity.
Otherwise, with `un >= ur` the arguments converted to `unsigned int` and `k` the smaller
of `ur` and `un - ur`: either some product `C(un-k+j-1, j-1) * (un-k+j)` of the iteration,
`1 <= j <= k`, exceeds `ULONG_MAX` and the result is plus infinity, or none does and the
result is the binomial coefficient `C(un, ur)`, every division being exact and nothing
wrapping around. -/
theorem ncr_binomial (hU : H.UINT_MAX ≤ H.ULONG_MAX) (hc : ∀ a, H.toUInt a ≤ H.UINT_MAX)
    (n r : D) :
    ((H.lt n (H.ofNat 0) || H.lt r (H.ofNat 0) || H.lt n r) = true → ncr H n r = H.nan) ∧
    ((H.lt n (H.ofNat 0) || H.lt r (H.ofNat 0) || H.lt n r) = false →
      (H.lt (H.ofNat H.UINT_MAX) n || H.lt (H.ofNat H.UINT_MAX) r) = true →
      ncr H n r = H.inf) ∧
    ((H.lt n (H.ofNat 0) || H.lt r (H.ofNat 0) || H.lt n r) = false →
      (H.lt (H.ofNat H.UINT_MAX) n || H.lt (H.ofNat H.UINT_MAX) r) = false →
      H.toUInt r ≤ H.toUInt n →
      ∀ k, k = (if H.toUInt r > H.toUInt n / 2 then H.toUInt n - H.toUInt r else H.toUInt r) →
      ((∃ j, 1 ≤ j ∧ j ≤ k ∧ H.ULONG_MAX <
          Nat.choose (H.toUInt n - k + j - 1) (j - 1) * (H.toUInt n - k + j)) ∧
        ncr H n r = H.inf) ∨
      ((∀ j, 1 ≤ j → j ≤ k →
          Nat.choose (H.toUInt n - k + j - 1) (j - 1) * (H.toUInt n - k + j) ≤ H.ULONG_MAX) ∧
        ncr H n r = H.ofNat (Nat.choose (H.toUInt n) (H.toUInt r)))) :=
  ncr_cases H hU hc n r

/-- Witness for C17 on the integer host: `ncr(5,2) = 10`, `ncr(2,5)` and `ncr(-1,0)` are
NaN, `ncr(68,34)` is plus infinity, and for `ncr(5,2)` the theorem gives the binomial
coefficient. -/
theorem ncr_binomial_witness :
    ncr integerHost (IntDouble.int 5) (IntDouble.int 2) = IntDouble.int 10 ∧
    ncr integerHost (IntDouble.int 2) (IntDouble.int 5) = IntDouble.nan ∧
    ncr integerHost (IntDouble.int (-1)) (IntDouble.int 0) = IntDouble.nan ∧
    ncr integerHost (IntDouble.int 68) (IntDouble.int 34) = IntDouble.inf ∧
    (((∃ j, 1 ≤ j ∧ j ≤ 2 ∧ integerHost.ULONG_MAX <
          Nat.choose (5 - 2 + j - 1) (j - 1) * (5 - 2 + j)) ∧
        ncr integerHost (IntDouble.int 5) (IntDouble.int 2) = IntDouble.inf) ∨
      ((∀ j, 1 ≤ j → j ≤ 2 →
          Nat.choose (5 - 2 + j - 1) (j - 1) * (5 - 2 + j) ≤ integerHost.ULONG_MAX) ∧
        ncr integerHost (IntDouble.int 5) (IntDouble.int 2) =
          integerHost.ofNat (Nat.choose 5 2))) :=
  ⟨rfl,
    (ncr_binomial integerHost (by decide)
      integerHost_toUInt
      (IntDouble.int 2) (IntDouble.int 5)).1 rfl,
    rfl, rfl,
    (ncr_binomial integerHost (by decide)
      integerHost_toUInt
      (IntDouble.int 5) (IntDouble.int 2)).2.2 rfl rfl (by decide) 2 rfl⟩

/-- C13. The built-in table. Its rows before the closing row carry the 24 names listed, in
strictly ascending byte order; each row is flagged pure and `find_builtin` returns it for
its own name, whatever follows the lexeme in the text; for every other lexeme (the first
`len` bytes of `name`, no NUL among them) `find_builtin` returns none. -/
theorem find_builtin_exact (b : Bool) :
    ((functions b).dropLast.map (fun r => r.name) =
      ["abs", "acos", "asin", "atan", "atan2", "ceil", "cos", "cosh", "e", "exp", "fac",
        "floor", "ln", "log", "log10", "ncr", "npr", "pi", "pow", "sin", "sinh", "sqrt",
        "tan", "tanh"].map String.toList) ∧
    List.Pairwise (fun r1 r2 : Variable => strncmp r1.name r2.name (r1.name.length + 1) < 0)
      (functions b).dropLast ∧
    (∀ row ∈ (functions b).dropLast, IS_PURE row.type = true ∧
      ∀ rest : List Char, find_builtin b (row.name ++ rest) row.name.length = some row) ∧
    (∀ (name : List Char) (len : Nat), len ≤ name.length → NUL ∉ name.take len →
      name.take len ∉
        ["abs", "acos", "asin", "atan", "atan2", "ceil", "cos", "cosh", "e", "exp", "fac",
          "floor", "ln", "log", "log10", "ncr", "npr", "pi", "pow", "sin", "sinh", "sqrt",
          "tan", "tanh"].map String.toList →
      find_builtin b name len = none) := by
  have hnames : (functions b).dropLast.map (fun r => r.name) =
      ["abs", "acos", "asin", "atan", "atan2", "ceil", "cos", "cosh", "e", "exp", "fac",
        "floor", "ln", "log", "log10", "ncr", "npr", "pi", "pow", "sin", "sinh", "sqrt",
        "tan", "tanh"].map String.toList := by cases b <;> rfl
  refine ⟨hnames, by cases b <;> decide, fun row hrow => ⟨?_, fun rest => ?_⟩,
    fun name len hlen hl hnot => ?_⟩
  · exact (functions_mask b row hrow).2
  · rw [← find_builtin_take, List.take_left]
    exact find_builtin_row b row hrow
  · cases h : find_builtin b name len with
    | none => rfl
    | some row =>
      obtain ⟨hmem, hname⟩ := find_builtin_some b name len hlen hl row h
      exfalso
      apply hnot
      rw [← hnames, ← hname]
      exact List.mem_map_of_mem _ hmem

/-- Witness for C13: in both builds `sin` followed by `(` finds the row of `sin`, the
prefix `co` of `cos` and the extension `sinx` of `sin` find nothing. -/
theorem find_builtin_exact_witness :
    find_builtin false "sin(0)".toList 3 = some (builtin "sin" Ptr.sin FUNCTION1) ∧
    find_builtin true "log".toList 3 = some (builtin "log" Ptr.log FUNCTION1) ∧
    find_builtin false "log".toList 3 = some (builtin "log" Ptr.log10 FUNCTION1) ∧
    find_builtin false "co".toList 2 = none ∧
    find_builtin true "sinx".toList 4 = none :=
  ⟨((find_builtin_exact false).2.2.1 (builtin "sin" Ptr.sin FUNCTION1)
      (by simp [functions, List.dropLast])).2
      "(0)".toList,
    rfl, rfl,
    (find_builtin_exact false).2.2.2 "co".toList 2 (by decide) (by decide) (by decide),
    (find_builtin_exact true).2.2.2 "sinx".toList 4 (by decide) (by decide) (by decide)⟩

/-- C14, the code at the failing input. In a tree of constants, variables and pure
functions `optimize` leaves no pure node whose children are all constants. Below an impure
node it folds nothing: on the example host, with `f` bound to an impure function of one
argument, `te_compile` of `f(1+2)` returns the call of `f` with the argument `add(1, 2)`
left as it is, a pure node whose two children are constants; with a pure `g` in the place
of `f` nothing foldable is left. -/
theorem optimize_skips_below_impure :
    (∀ (t : Expression D), t.allPure = true → ∀ w : W, (optimize H t w).1.foldable = false) ∧
    te_compile (exampleHost false) "f(1+2)".toList
        [⟨"f".toList, Ptr.host 0, FUNCTION1, Ptr.null⟩] (fun _ => none) =
      some ((some (Expression.node FUNCTION1 (Payload.ptr (Ptr.host 0))
        [binary Ptr.add (Expression.node TE_CONSTANT (Payload.value (some 1)) [] Ptr.null)
          (Expression.node TE_CONSTANT (Payload.value (some 2)) [] Ptr.null)] Ptr.null), 0),
        fun _ => none) ∧
    (Expression.node FUNCTION1 (Payload.ptr (Ptr.host 0))
        [binary Ptr.add (Expression.node TE_CONSTANT (Payload.value (some (1 : Int))) [] Ptr.null)
          (Expression.node TE_CONSTANT (Payload.value (some 2)) [] Ptr.null)]
        Ptr.null).foldable = true ∧
    (te_compile (exampleHost false) "g(1+2)".toList
        [⟨"g".toList, Ptr.host 0, FUNCTION1 + FLAG_PURE, Ptr.null⟩] (fun _ => none)).map
      (fun r => r.1.1.map Expression.foldable) = some (some false) :=
  ⟨fun t h w => optimize_not_foldable H t h w, rfl, rfl, rfl⟩

/-- C20, the code at the failing input, on the example host in the right-associative
build: `(-2)^2` evaluates to -4, as `-2^2` does, and with `a`, `b` bound to cells the texts
`(-a)^b` and `-a^b` compile to the same tree `neg(pow(a, b))`; the left-associative build
gives 4 for `(-2)^2`. -/
theorem parenthesised_negation_right_build :
    te_interp (exampleHost true) "(-2)^2".toList (fun _ => none) =
      some ((some (-4), 0), fun _ => none) ∧
    te_interp (exampleHost true) "-2^2".toList (fun _ => none) =
      some ((some (-4), 0), fun _ => none) ∧
    te_compile (exampleHost true) "(-a)^b".toList
        [⟨"a".toList, Ptr.host 0, VARIABLE, Ptr.null⟩, ⟨"b".toList, Ptr.host 1, VARIABLE, Ptr.null⟩]
        (fun _ => none) =
      some ((some (unary Ptr.negate
        (binary Ptr.pow (Expression.node VARIABLE (Payload.ptr (Ptr.host 0)) [] Ptr.null)
          (Expression.node VARIABLE (Payload.ptr (Ptr.host 1)) [] Ptr.null))), 0),
        fun _ => none) ∧
    te_compile (exampleHost true) "-a^b".toList
        [⟨"a".toList, Ptr.host 0, VARIABLE, Ptr.null⟩, ⟨"b".toList, Ptr.host 1, VARIABLE, Ptr.null⟩]
        (fun _ => none) =
      te_compile (exampleHost true) "(-a)^b".toList
        [⟨"a".toList, Ptr.host 0, VARIABLE, Ptr.null⟩, ⟨"b".toList, Ptr.host 1, VARIABLE, Ptr.null⟩]
        (fun _ => none) ∧
    te_interp (exampleHost false) "(-2)^2".toList (fun _ => none) =
      some ((some 4, 0), fun _ => none) :=
  ⟨rfl, rfl, rfl, rfl, rfl⟩

/-- C15. Function `optimize` returns a node whose type lacks the pure flag as it is, with
its type, function, arguments and context, whatever the arguments are, and leaves the
world as it is. And it calls no impure function: let `S` be a set of addresses such that
every node of the tree carrying one of them lacks the pure flag; then with any other
functions `c` behind the addresses in `S`, `optimize` returns the same tree and the same
world, and so does `te_compile` for a text whose parse tree is such a tree. -/
theorem optimize_never_folds_impure :
    (∀ (type : Nat) (payload : Payload D) (parameters : List (Expression D)) (context : Ptr)
      (w : W), IS_PURE type = false →
      optimize H (Expression.node type payload parameters context) w =
        (Expression.node type payload parameters context, w)) ∧
    (∀ (c : Ptr → Option Ptr → List D → W → D × W) (S : Ptr → Bool),
      (∀ f, S f = false → ∀ ctx args w, c f ctx args w = H.call f ctx args w) →
      ∀ (t : Expression D), t.impureOn S H.asPtr = true → ∀ w : W,
        optimize (H.withCall c) t w = optimize H t w) ∧
    (∀ (c : Ptr → Option Ptr → List D → W → D × W) (S : Ptr → Bool),
      (∀ f, S f = false → ∀ ctx args w, c f ctx args w = H.call f ctx args w) →
      ∀ (text : List Char) (vars : List Variable) (root : Expression D) (s : State D),
        list_returns H (next_token H (init_state text vars)) (root, s) →
        root.impureOn S H.asPtr = true → ∀ w : W,
        te_compile (H.withCall c) text vars w = te_compile H text vars w) := by
  refine ⟨fun type payload parameters context w hp => ?_,
    fun c S hc t ht w => optimize_withCall H c S hc t ht w,
    fun c S hc text vars root s hl hroot w => te_compile_withCall H c S hc hl hroot w⟩
  rw [optimize_node]
  by_cases c1 : type = TE_CONSTANT
  · rw [if_pos c1]
  rw [if_neg c1]
  by_cases c2 : type = VARIABLE
  · rw [if_pos c2]
  rw [if_neg c2, if_neg (by rw [hp]; decide)]

/-- Witness for C15 on the example host, with `f` bound to an impure function of one
argument at the address 0: `te_compile` of `f(2)+1` returns the tree `add(f(2), 1)`, the
call of `f` on a constant left as it is, and it returns the same, with the world unchanged,
when a function that returns 7 and overwrites every cell stands behind the address 0. -/
theorem optimize_never_folds_impure_witness :
    te_compile (exampleHost false) "f(2)+1".toList
        [⟨"f".toList, Ptr.host 0, FUNCTION1, Ptr.null⟩] (fun _ => none) =
      some ((some (binary Ptr.add
        (Expression.node FUNCTION1 (Payload.ptr (Ptr.host 0))
          [Expression.node TE_CONSTANT (Payload.value (some 2)) [] Ptr.null] Ptr.null)
        (Expression.node TE_CONSTANT (Payload.value (some 1)) [] Ptr.null)), 0),
        fun _ => none) ∧
    te_compile ((exampleHost false).withCall (fun f ctx args w =>
          if f = Ptr.host 0 then (some 7, fun _ => some 0)
          else (exampleHost false).call f ctx args w))
        "f(2)+1".toList [⟨"f".toList, Ptr.host 0, FUNCTION1, Ptr.null⟩] (fun _ => none) =
      te_compile (exampleHost false) "f(2)+1".toList
        [⟨"f".toList, Ptr.host 0, FUNCTION1, Ptr.null⟩] (fun _ => none) :=
  ⟨rfl, (optimize_never_folds_impure (exampleHost false)).2.2 _
      (fun p => decide (p = Ptr.host 0))
      (fun f hf ctx args w => by
        have hne : f ≠ Ptr.host 0 := by simpa using hf
        show (if f = Ptr.host 0 then _ else _) = _
        rw [if_neg hne])
      "f(2)+1".toList [⟨"f".toList, Ptr.host 0, FUNCTION1, Ptr.null⟩]
      (binary Ptr.add
        (Expression.node FUNCTION1 (Payload.ptr (Ptr.host 0))
          [Expression.node TE_CONSTANT (Payload.value (some 2)) [] Ptr.null] Ptr.null)
        (Expression.node TE_CONSTANT (Payload.value (some 1)) [] Ptr.null)) _
      ⟨40, rfl⟩ rfl (fun _ => none)⟩

/-- C19. Bound variables are read when the tree is evaluated. On every host, with `x` and
`y` bound to the cells `px` and `py`, `te_compile` of `x*(2+y)` returns the tree
`mul(x, add(2, y))` with nothing folded, and `te_eval` of that tree in a world `w` is
`x * (2 + y)` for the values the two cells have in `w`, so two evaluations in two worlds
observe the values of each. In general a tree with a bound-variable leaf still has one
after `optimize`, and is no constant. -/
theorem variables_read_at_evaluation (px py : Ptr) :
    (∀ w0 : W, te_compile H "x*(2+y)".toList
        [⟨"x".toList, px, VARIABLE, Ptr.null⟩, ⟨"y".toList, py, VARIABLE, Ptr.null⟩] w0 =
      some ((some (binary Ptr.mul (Expression.node VARIABLE (Payload.ptr px) [] Ptr.null)
        (binary Ptr.add
          (Expression.node TE_CONSTANT (Payload.value (H.strtod ['2'])) [] Ptr.null)
          (Expression.node VARIABLE (Payload.ptr py) [] Ptr.null))), 0), w0)) ∧
    (∀ w : W, te_eval H (binary Ptr.mul (Expression.node VARIABLE (Payload.ptr px) [] Ptr.null)
        (binary Ptr.add
          (Expression.node TE_CONSTANT (Payload.value (H.strtod ['2'])) [] Ptr.null)
          (Expression.node VARIABLE (Payload.ptr py) [] Ptr.null))) w =
      (H.fmul (H.load px w) (H.fadd (H.strtod ['2']) (H.load py w)), w)) ∧
    (∀ (t : Expression D), t.hasVariable = true → ∀ w : W,
      (optimize H t w).1.hasVariable = true ∧ (optimize H t w).1.type ≠ TE_CONSTANT) := by
  refine ⟨fun w0 => ?_, fun w => te_eval_x_times_2_plus_y H px py _ w,
    fun t ht w => ⟨optimize_keeps_variable H t ht w,
      hasVariable_not_constant (optimize_keeps_variable H t ht w)⟩⟩
  obtain ⟨s, hend, hl⟩ := list_returns_x_times_2_plus_y H px py
  rw [te_compile_succeeds H hl hend w0, optimize_x_times_2_plus_y]

/-- Witness for C19 on the example host, `x` and `y` bound to the cells 0 and 1: the tree
compiled from `x*(2+y)` evaluates to 18 when the cells hold 3 and 4, and to 30 after 5 is
written to the cell of `x`. -/
theorem variables_read_at_evaluation_witness :
    (te_eval (exampleHost false)
      (binary Ptr.mul (Expression.node VARIABLE (Payload.ptr (Ptr.host 0)) [] Ptr.null)
        (binary Ptr.add (Expression.node TE_CONSTANT (Payload.value (some 2)) [] Ptr.null)
          (Expression.node VARIABLE (Payload.ptr (Ptr.host 1)) [] Ptr.null)))
      (fun n => if n = 0 then some 3 else some 4)).1 = some 18 ∧
    (te_eval (exampleHost false)
      (binary Ptr.mul (Expression.node VARIABLE (Payload.ptr (Ptr.host 0)) [] Ptr.null)
        (binary Ptr.add (Expression.node TE_CONSTANT (Payload.value (some 2)) [] Ptr.null)
          (Expression.node VARIABLE (Payload.ptr (Ptr.host 1)) [] Ptr.null)))
      (fun n => if n = 0 then some 5 else some 4)).1 = some 30 ∧
    te_compile (exampleHost false) "x*(2+y)".toList
        [⟨"x".toList, Ptr.host 0, VARIABLE, Ptr.null⟩, ⟨"y".toList, Ptr.host 1, VARIABLE, Ptr.null⟩]
        (fun n => if n = 0 then some 3 else some 4) =
      some ((some (binary Ptr.mul
        (Expression.node VARIABLE (Payload.ptr (Ptr.host 0)) [] Ptr.null)
        (binary Ptr.add (Expression.node TE_CONSTANT (Payload.value (some 2)) [] Ptr.null)
          (Expression.node VARIABLE (Payload.ptr (Ptr.host 1)) [] Ptr.null))), 0),
        fun n => if n = 0 then some 3 else some 4) :=
  ⟨(congrArg Prod.fst ((variables_read_at_evaluation (exampleHost false) (Ptr.host 0)
      (Ptr.host 1)).2.1 (fun n => if n = 0 then some 3 else some 4))).trans rfl,
    (congrArg Prod.fst ((variables_read_at_evaluation (exampleHost false) (Ptr.host 0)
      (Ptr.host 1)).2.1 (fun n => if n = 0 then some 5 else some 4))).trans rfl,
    (variables_read_at_evaluation (exampleHost false) (Ptr.host 0) (Ptr.host 1)).1 _⟩

/-- C21. Whenever `te_compile` returns a tree `t` for a text, the parse tree `root` that
`list` returned and the tree `t` that `optimize` made of it are both well formed: every
function or closure node has exactly `ARITY type` children, none of them null and none the
NaN placeholder that `base` builds on an unexpected token, each of them well formed in
turn, and constant and bound variable nodes have no children. -/
theorem te_compile_well_formed (text : List Char) (vars : List Variable) (w w' : W)
    (t : Expression D) (error : Int)
    (h : te_compile H text vars w = some ((some t, error), w')) :
    ∃ root s, list_returns H (next_token H (init_state text vars)) (root, s) ∧
      s.type = TOK_END ∧ root.WellFormed H ∧ t = (optimize H root w).1 ∧
      t.WellFormed H := by
  obtain ⟨root, s, hq⟩ := list_total H text vars
  have hr : list_returns H (next_token H (init_state text vars)) (root, s) := ⟨_, hq⟩
  rw [te_compile_of_returns H hr w] at h
  unfold compile_result at h
  by_cases hend : s.type = TOK_END
  · rw [if_neg (by simpa using hend)] at h
    simp only [Option.some.injEq, Prod.mk.injEq] at h
    obtain ⟨⟨ht, _⟩, _⟩ := h
    have hroot : root.WellFormed H := list_returns_wellFormed H hr (by rw [hend]; decide)
    refine ⟨root, s, hr, hend, hroot, ht.symm, ?_⟩
    rw [← ht]
    exact optimize_wellFormed H root hroot w
  · rw [if_pos hend] at h
    simp at h

/-- Witness for C21 on the example host, with `x` bound to a variable: `te_compile` of
`pow(2,3)+x` returns the tree `add(8, x)`, the call folded to a constant without children;
that tree and the parse tree are well formed, and the NaN placeholder is not. -/
theorem te_compile_well_formed_witness :
    te_compile (exampleHost false) "pow(2,3)+x".toList
        [⟨"x".toList, Ptr.host 0, VARIABLE, Ptr.null⟩] (fun _ => none) =
      some ((some (binary Ptr.add
        (Expression.node TE_CONSTANT (Payload.value (some 8)) [] Ptr.null)
        (Expression.node VARIABLE (Payload.ptr (Ptr.host 0)) [] Ptr.null)), 0),
        fun _ => none) ∧
    (∃ root s, list_returns (exampleHost false)
        (next_token (exampleHost false) (init_state "pow(2,3)+x".toList
          [⟨"x".toList, Ptr.host 0, VARIABLE, Ptr.null⟩])) (root, s) ∧
      s.type = TOK_END ∧ root.WellFormed (exampleHost false) ∧
      binary Ptr.add (Expression.node TE_CONSTANT (Payload.value (some 8)) [] Ptr.null)
          (Expression.node VARIABLE (Payload.ptr (Ptr.host 0)) [] Ptr.null) =
        (optimize (exampleHost false) root (fun _ => none)).1 ∧
      (binary Ptr.add (Expression.node TE_CONSTANT (Payload.value (some 8)) [] Ptr.null)
        (Expression.node VARIABLE (Payload.ptr (Ptr.host 0)) [] Ptr.null)).WellFormed
          (exampleHost false)) ∧
    ¬ (nan_node (exampleHost false)).WellFormed (exampleHost false) :=
  ⟨rfl,
    te_compile_well_formed (exampleHost false) "pow(2,3)+x".toList
      [⟨"x".toList, Ptr.host 0, VARIABLE, Ptr.null⟩] (fun _ => none) (fun _ => none)
      (binary Ptr.add (Expression.node TE_CONSTANT (Payload.value (some 8)) [] Ptr.null)
        (Expression.node VARIABLE (Payload.ptr (Ptr.host 0)) [] Ptr.null)) 0 rfl,
    nan_node_not_wellFormed (exampleHost false)⟩

/-- C22. `te_compile` returns for every text and every binding list. The loop of
`next_token` ends with a token other than `TOK_NULL` and never moves the cursor back, and a
token that is `active` (an operator, a parenthesis, a comma, a name) has moved it forward
by at least one byte. The tokens after which a production reads on before it calls another
production or goes round a loop again (an operator, a comma, an opening parenthesis, the
name of a function or closure) are active, and reading the token after an active one lowers
`potential`, the bytes left plus one for an active token. So each of `base`, `power`,
`factor`, `term`, `expr` and `list` returns from every state `s` within the fuel
`7 * potential s + 7`, with `potential` no higher than before. On a lone point the number
rule reads nothing: the token is `TOK_NUMBER`, the cursor stays, and `te_compile` returns
no tree and the offset 1. And started on `TOK_ERROR` or `TOK_END`, `list` returns the NaN
node with the cursor where it was, and every loop stops at once. -/
theorem te_compile_terminates :
    (∀ (text : List Char) (vars : List Variable) (w : W),
      ∃ r, te_compile H text vars w = some r) ∧
    (∀ s : State D, (next_token H s).type ≠ TOK_NULL ∧
      (next_token H s).next.length + active (next_token H s).type ≤ s.next.length) ∧
    (∀ t : Nat, t = TOK_INFIX ∨ t = TOK_SEP ∨ t = TOK_OPEN ∨
      (FUNCTION0 ≤ TYPE_MASK t ∧ TYPE_MASK t ≤ CLOSURE7) → active t = 1) ∧
    (∀ s : State D, active s.type = 1 → potential (next_token H s) + 1 ≤ potential s) ∧
    (∀ s : State D,
      (∃ t s', base H (7 * potential s + 7) s = some (t, s') ∧ potential s' ≤ potential s) ∧
      (∃ t s', power H (7 * potential s + 7) s = some (t, s') ∧ potential s' ≤ potential s) ∧
      (∃ t s', factor H (7 * potential s + 7) s = some (t, s') ∧ potential s' ≤ potential s) ∧
      (∃ t s', term H (7 * potential s + 7) s = some (t, s') ∧ potential s' ≤ potential s) ∧
      (∃ t s', expr H (7 * potential s + 7) s = some (t, s') ∧ potential s' ≤ potential s) ∧
      (∃ t s', list H (7 * potential s + 7) s = some (t, s') ∧ potential s' ≤ potential s)) ∧
    (∀ (vars : List Variable) (w : W),
      (next_token H (init_state ['.'] vars) : State D).type = TOK_NUMBER ∧
      (next_token H (init_state ['.'] vars) : State D).next = ['.'] ∧
      next_token H (next_token H (init_state ['.'] vars) : State D) =
        next_token H (init_state ['.'] vars) ∧
      te_compile H ['.'] vars w = some ((none, 1), w)) ∧
    (∀ s : State D, s.type = TOK_ERROR ∨ s.type = TOK_END →
      list_returns H s (nan_node H, { s with type := TOK_ERROR }) ∧
      ∀ ret, list_loop_returns H ret s (ret, s) ∧ expr_loop_returns H ret s (ret, s) ∧
        term_loop_returns H ret s (ret, s) ∧ factor_loop_returns H ret s (ret, s) ∧
        factor_right_loop_returns H ret none s (ret, s)) := by
  refine ⟨?_, ?_, ?_, ?_, ?_, ?_, ?_⟩
  · intro text vars w
    obtain ⟨root, s, hq⟩ := list_total H text vars
    exact ⟨_, te_compile_of_returns H ⟨_, hq⟩ w⟩
  · intro s
    exact ⟨next_token_not_null H s, next_token_potential H s⟩
  · rintro t (rfl | rfl | rfl | h)
    · rfl
    · rfl
    · rfl
    · exact active_of_function h
  · intro s h
    exact potential_next_lt H s h
  · intro s
    obtain ⟨ib, _, ip, _, ifa, _, _, it, _, ie, _, il, _⟩ := total_step H (7 * potential s + 7)
    exact ⟨ib s (by omega), ip s (by omega), ifa s (by omega), it s (by omega),
      ie s (by omega), il s (by omega)⟩
  · intro vars w
    obtain ⟨e0, e1, hl⟩ := list_returns_point H vars
    refine ⟨by rw [e0], by rw [e0], by rw [e0, e1], ?_⟩
    rw [te_compile_of_returns H hl w, compile_result_fails H _ w (by
      show ¬ TOK_NUMBER = TOK_END
      decide)]
    show some ((none, if int_of_offset H 0 = 0 then 1 else int_of_offset H 0), w) = _
    rw [int_of_offset_zero, if_pos rfl]
  · intro s h
    have hni : ¬ s.type = TOK_INFIX := by
      rcases h with h | h <;> rw [h] <;> decide
    have hns : s.type ≠ TOK_SEP := by
      rcases h with h | h <;> rw [h] <;> decide
    exact ⟨list_returns_stopped H h, fun ret =>
      ⟨list_loop_returns_stop H hns, expr_loop_returns_stop H (fun c => hni c.1),
        term_loop_returns_stop H (fun c => hni c.1),
        factor_loop_returns_stop H (fun c => hni c.1),
        factor_right_loop_returns_stop H (fun c => hni c.1)⟩⟩

/-- Witness for C22 on the example host: the lone point fails with offset 1, as do two
points; `sin .` and `pow(.,.)` fail at offset 4 and `1+.` at offset 2, the cursor resting
on the point that the number rule does not read; and `1+.5` is read to the end. -/
theorem te_compile_terminates_witness :
    te_compile (exampleHost false) ['.'] [] (fun _ => none) =
      some ((none, 1), fun _ => none) ∧
    te_compile (exampleHost false) "..".toList [] (fun _ => none) =
      some ((none, 1), fun _ => none) ∧
    te_compile (exampleHost false) "sin .".toList [] (fun _ => none) =
      some ((none, 4), fun _ => none) ∧
    te_compile (exampleHost false) "pow(.,.)".toList [] (fun _ => none) =
      some ((none, 4), fun _ => none) ∧
    te_compile (exampleHost false) "1+.".toList [] (fun _ => none) =
      some ((none, 2), fun _ => none) ∧
    (∃ t, te_compile (exampleHost false) "1+.5".toList [] (fun _ => none) =
      some ((some t, 0), fun _ => none)) :=
  ⟨((te_compile_terminates (exampleHost false)).2.2.2.2.2.1 [] (fun _ => none)).2.2.2,
    rfl, rfl, rfl, rfl, ⟨_, rfl⟩⟩

/-- Counterexample for C2: on the example host, whose `int` has 32 bits, the text of
2147483647 blanks and a closing parenthesis is refused with the cursor at the offset
2147483648, and the error offset is -2147483648: not at least 1, and not the cursor
offset. -/
theorem te_compile_offset_above_int_max :
    te_compile (exampleHost false) (List.replicate 2147483647 ' ' ++ [')']) []
      (fun _ => none) = some ((none, -2147483648), fun _ => none) :=
  (te_compile_spaces_close (exampleHost false) 2147483647 [] (fun _ => none)).trans (by
    show some ((none, if int_of_offset (exampleHost false) 2147483648 = 0 then 1
      else int_of_offset (exampleHost false) 2147483648), _) = _
    have e : int_of_offset (exampleHost false) 2147483648 = -2147483648 := by decide
    rw [e]
    rfl)

/-- Counterexample for C3: on the example host, whose `int` has 32 bits, the literal `a` of
2147483646 digits 1 is followed by `+*2`; the operator `*` stands at the 1-based offset
2147483648, and the error offset is -2147483648. -/
theorem te_compile_operator_pair_above_int_max :
    NumericLiteral (List.replicate 2147483646 '1') ∧
    te_compile (exampleHost false) (List.replicate 2147483646 '1' ++ '+' :: '*' :: ['2']) []
      (fun _ => none) = some ((none, -2147483648), fun _ => none) :=
  ⟨numericLiteral_ones 2147483645,
    (te_compile_operator_pair_offset (exampleHost false) [] (fun _ => none)
      (List.replicate 2147483646 '1') ['2'] '+' '*' (numericLiteral_ones 2147483645)
      (by simp) (by simp)).trans (by
        have hl : (List.replicate 2147483646 '1').length + 2 = 2147483648 := by
          rw [List.length_replicate]
        rw [hl]
        have e : int_of_offset (exampleHost false) 2147483648 = -2147483648 := by decide
        rw [e]
        rfl)⟩

/-- C18. Function `npr` is the product `ncr(n,r) * fac(r)` of two doubles. On a platform
as for `fac` and `ncr`, when no guard of `ncr` fires, `un >= ur` are the arguments
converted to `unsigned int`, no product of the iteration of `ncr` exceeds `ULONG_MAX` and
`ur!` fits, the two factors are `C(un, ur)` and `ur!` converted to double, `npr(n,r)` is
their double product, and where that product is exact it is the number of
`ur`-permutations of `un`, `un! / (un - ur)!`. With the rounding of IEEE-754 binary64 it is
exact, and `npr(n,r)` is `n! / (n - r)!`, for all integers `0 <= r <= n` within these
bounds for which `n! / (n - r)!` is below `2 ^ 53`. -/
theorem npr_permutations (h3 : 3 ≤ H.ULONG_MAX) (hU : H.UINT_MAX ≤ H.ULONG_MAX)
    (hc : ∀ a, H.toUInt a ≤ H.UINT_MAX) (n r : D) :
    npr H n r = H.fmul (ncr H n r) (fac H r) ∧
    ((H.lt n (H.ofNat 0) || H.lt r (H.ofNat 0) || H.lt n r) = false →
      (H.lt (H.ofNat H.UINT_MAX) n || H.lt (H.ofNat H.UINT_MAX) r) = false →
      H.toUInt r ≤ H.toUInt n →
      (∀ k, k = (if H.toUInt r > H.toUInt n / 2 then H.toUInt n - H.toUInt r
          else H.toUInt r) →
        ∀ j, 1 ≤ j → j ≤ k →
          Nat.choose (H.toUInt n - k + j - 1) (j - 1) * (H.toUInt n - k + j) ≤ H.ULONG_MAX) →
      Nat.factorial (H.toUInt r) ≤ H.ULONG_MAX →
      npr H n r = H.fmul (H.ofNat (Nat.choose (H.toUInt n) (H.toUInt r)))
        (H.ofNat (Nat.factorial (H.toUInt r))) ∧
      Nat.choose (H.toUInt n) (H.toUInt r) * Nat.factorial (H.toUInt r) =
        Nat.factorial (H.toUInt n) / Nat.factorial (H.toUInt n - H.toUInt r) ∧
      (H.fmul (H.ofNat (Nat.choose (H.toUInt n) (H.toUInt r)))
          (H.ofNat (Nat.factorial (H.toUInt r))) =
        H.ofNat (Nat.choose (H.toUInt n) (H.toUInt r) * Nat.factorial (H.toUInt r)) →
        npr H n r =
          H.ofNat (Nat.factorial (H.toUInt n) / Nat.factorial (H.toUInt n - H.toUInt r)))) ∧
    (∀ a b : Nat, b ≤ a → a ≤ 4294967295 →
      (∀ k, k = (if b > a / 2 then a - b else b) →
        ∀ j, 1 ≤ j → j ≤ k →
          Nat.choose (a - k + j - 1) (j - 1) * (a - k + j) ≤ 18446744073709551615) →
      Nat.factorial b ≤ 18446744073709551615 →
      Nat.factorial a / Nat.factorial (a - b) < 2 ^ 53 →
      npr binary64Host (IntDouble.int (Int.ofNat a)) (IntDouble.int (Int.ofNat b)) =
        IntDouble.int (Int.ofNat (Nat.factorial a / Nat.factorial (a - b)))) := by
  refine ⟨rfl, fun h1 h2 hle hno hfit => ?_, fun a b hba ha hno hfit hsmall => ?_⟩
  · obtain ⟨hnpr, hperm⟩ := npr_product H h3 hU hc n r h1 h2 hle hno hfit
    exact ⟨hnpr, hperm, fun hmul => by rw [hnpr, hmul, hperm]⟩
  · have hb : b ≤ 4294967295 := le_trans hba ha
    have ea := binary64Host_toUInt_int ha
    have eb := binary64Host_toUInt_int hb
    have z0 : binary64Host.ofNat 0 = IntDouble.int 0 := rfl
    have zU : binary64Host.ofNat binary64Host.UINT_MAX = IntDouble.int 4294967295 := by
      decide
    have g1 : (binary64Host.lt (IntDouble.int (Int.ofNat a)) (binary64Host.ofNat 0) ||
        binary64Host.lt (IntDouble.int (Int.ofNat b)) (binary64Host.ofNat 0) ||
        binary64Host.lt (IntDouble.int (Int.ofNat a)) (IntDouble.int (Int.ofNat b))) =
        false := by
      rw [z0, binary64Host_lt_int, binary64Host_lt_int, binary64Host_lt_int]
      have q1 : ¬ (Int.ofNat a < 0) := by simp
      have q2 : ¬ (Int.ofNat b < 0) := by simp
      have q3 : ¬ (Int.ofNat a < Int.ofNat b) := by
        simp only [Int.ofNat_eq_coe, Int.ofNat_lt, not_lt]; exact hba
      simp only [q1, q2, q3, decide_False, Bool.or_self]
    have g2 : (binary64Host.lt (binary64Host.ofNat binary64Host.UINT_MAX)
          (IntDouble.int (Int.ofNat a)) ||
        binary64Host.lt (binary64Host.ofNat binary64Host.UINT_MAX)
          (IntDouble.int (Int.ofNat b))) = false := by
      rw [zU, binary64Host_lt_int, binary64Host_lt_int]
      have q1 : ¬ ((4294967295 : Int) < Int.ofNat a) := by
        simp only [Int.ofNat_eq_coe, not_lt]; exact_mod_cast ha
      have q2 : ¬ ((4294967295 : Int) < Int.ofNat b) := by
        simp only [Int.ofNat_eq_coe, not_lt]; exact_mod_cast hb
      simp only [q1, q2, decide_False, Bool.or_self]
    obtain ⟨hnpr, hperm⟩ := npr_product binary64Host (by decide) (by decide)
      binary64Host_toUInt (IntDouble.int (Int.ofNat a)) (IntDouble.int (Int.ofNat b)) g1 g2
      (by rw [ea, eb]; exact hba) (by rw [ea, eb]; exact hno) (by rw [eb]; exact hfit)
    rw [ea, eb] at hnpr hperm
    have hc1 : 1 ≤ Nat.choose a b := Nat.choose_pos hba
    have hf1 : 1 ≤ Nat.factorial b := Nat.factorial_pos b
    rw [hnpr, binary64Host_fmul_exact hc1 hf1 (by rw [hperm]; exact hsmall), hperm]
    exact binary64Host_ofNat hsmall

/-- Witness for C18 on the host with IEEE-754 rounding: `npr(5,2) = 20`, which is `5!/3!`,
and `npr(18,18) = 18!`, the largest factorial below `2 ^ 53`. -/
theorem npr_permutations_witness :
    npr binary64Host (IntDouble.int 5) (IntDouble.int 2) = IntDouble.int 20 ∧
    Nat.factorial 5 / Nat.factorial 3 = 20 ∧
    npr binary64Host (IntDouble.int 18) (IntDouble.int 18) =
      IntDouble.int 6402373705728000 :=
  ⟨((npr_permutations binary64Host (by decide) (by decide) binary64Host_toUInt
      (IntDouble.int 5) (IntDouble.int 2)).2.2 5 2 (by decide) (by decide)
      (fun k hk j h1 h2 => by
        have e : k = 2 := hk
        subst e
        have hj : j = 1 ∨ j = 2 := by omega
        rcases hj with rfl | rfl <;> decide)
      (by decide) (by decide)).trans (by decide),
    by decide, rfl⟩

set_option maxRecDepth 100000 in
/-- Counterexample for C18, with the rounding of IEEE-754 binary64: for `n = 63`, `r = 20`
neither `ncr` nor `fac` overflows (`C(63,20)` and `20!` are below `2 ^ 64`), yet
`npr(63,20)` is not `63!/43!`, and not the double nearest to it either: `ncr` returns
`C(63,20) = 13488561475572645` rounded to a double, and the product with `20!` is rounded
again. -/
theorem npr_63_20_is_rounded :
    Nat.choose 63 20 = 13488561475572645 ∧
    Nat.factorial 20 = 2432902008176640000 ∧
    ncr binary64Host (IntDouble.int 63) (IntDouble.int 20) =
      IntDouble.int 13488561475572644 ∧
    fac binary64Host (IntDouble.int 20) = IntDouble.int 2432902008176640000 ∧
    Nat.factorial 63 / Nat.factorial 43 = 32816348301334750469416312012800000 ∧
    binary64Host.ofNat (Nat.factorial 63 / Nat.factorial 43) =
      IntDouble.int 32816348301334750869479937387003904 ∧
    npr binary64Host (IntDouble.int 63) (IntDouble.int 20) =
      IntDouble.int 32816348301334746257793918959616000 := by
  refine ⟨by decide, by decide, by decide, by decide, by decide, by decide, by decide⟩

end Claims

end TinyExpr
